import Mathlib

/-!
# BigSort: external merge sort of a file of signed 64-bit integers

A shallow embedding of `src/main.cpp` and the properties proved about it.

Conventions of the embedding.

* A record is the value of one `int64_t`; records are only copied and compared, so they are
  modelled as `Int`.
* The shared `vector<int64_t> buf` is a `List Record` passed through every operation; iterators
  into it are indices.  An access outside the vector (undefined behaviour in C++) is the fault
  `Fault.outOfRange`.
* Temp files only ever receive whole records, so their streams are modelled at record
  granularity: every offset and count of the source that is in bytes is divided by
  `sizeof(int64_t) = 8` here.  A byte offset kept in a `size_t` is a multiple of 8 taken modulo
  `2 ^ 64`, so the record offset is taken modulo `2 ^ 61`; a byte offset of `2 ^ 63` or more is
  not a valid `off_t`, so a seek to a record offset of `2 ^ 60` or more fails.
* The source file is a sequence of complete records followed by `size mod 8` trailing bytes.
* Loops take a fuel argument; running out of it is the fault `Fault.outOfFuel`.
* `size_t` has 64 bits.  The read offset of a `Chunk` and the value returned by `mergeChunks`
  are products of arguments and are reduced modulo `2 ^ 64` as in the source.  The other `size_t`
  quantities are natural numbers: a count or an index is bounded by the size of a file or of the
  vector, and the loop index of `mergeChunks` by its argument `chunkCount` plus one.
* No file has `2 ^ 63` bytes or more (`off_t` is a signed 64-bit integer): `FileSystem.files`
  shows the directory entries below that size, and the statements about a stream over a temp
  file assume that its file is below that size.
-/

namespace BigSort

/-- The value of one `int64_t`. -/
abbrev Record := Int

/-- Abnormal ends of a computation. -/
inductive Fault where
  /-- An access outside the shared vector. -/
  | outOfRange
  /-- The loop budget of the model is used up. -/
  | outOfFuel
  /-- A thrown `std::runtime_error` with its message. -/
  | runtimeError (msg : String)
  /-- A thrown `filesystem_error` (`file_size` or `rename` of a missing path). -/
  | filesystemError
  /-- An integer division by zero. -/
  | divideByZero
  deriving DecidableEq, Repr

/-! ## The shared buffer -/

/-- The vector with `vals` stored from index `i` on. -/
def put (buf : List Record) (i : Nat) (vals : List Record) : List Record :=
  buf.take i ++ vals ++ buf.drop (i + vals.length)

/-- The records at indices `[a, b)` of the vector. -/
def window (buf : List Record) (a b : Nat) : List Record := (buf.drop a).take (b - a)

/-- Store `vals` into the vector starting at index `i`. -/
def storeAt (buf : List Record) (i : Nat) (vals : List Record) : Except Fault (List Record) :=
  if i + vals.length ≤ buf.length then .ok (put buf i vals) else .error .outOfRange

/-- Copy the records held at indices `[a, b)` out of the vector. -/
def slice (buf : List Record) (a b : Nat) : Except Fault (List Record) :=
  if a ≤ b ∧ b ≤ buf.length then .ok (window buf a b) else .error .outOfRange

/-- Read the record at index `i` of the vector. -/
def loadAt (buf : List Record) (i : Nat) : Except Fault Record :=
  match buf[i]? with
  | some v => .ok v
  | none => .error .outOfRange

/-- The call `std::sort(begin(buf), begin(buf) + n)`: the first `n` records are put in ascending
order.  For integers the result of `std::sort` is the unique ascending arrangement. -/
def stdSort (buf : List Record) (n : Nat) : Except Fault (List Record) :=
  if n ≤ buf.length then
    .ok ((buf.take n).insertionSort (· ≤ ·) ++ buf.drop n)
  else
    .error .outOfRange

/-! ## `std::fstream` over a temp file -/

/-- State of a `std::fstream`: the file contents, the single position of the file buffer (shared
by get and put), and the state bits. -/
structure FStream where
  data : List Record
  pos : Nat
  eofbit : Bool
  failbit : Bool
  deriving DecidableEq, Repr

namespace FStream

/-- A stream just opened with `ios::trunc`. -/
def opened : FStream := { data := [], pos := 0, eofbit := false, failbit := false }

def good (f : FStream) : Bool := !f.eofbit && !f.failbit

def fail (f : FStream) : Bool := f.failbit

def eof (f : FStream) : Bool := f.eofbit

def clear (f : FStream) : FStream := { f with eofbit := false, failbit := false }

/-- The call `seekg(8 * off)`: clears `eofbit`, then moves the position unless the stream has
failed.  Seeking past the end of a regular file succeeds; a byte offset of `2 ^ 63` or more is
negative as a stream offset, the seek fails and sets `failbit`. -/
def seekg (f : FStream) (off : Nat) : FStream :=
  if f.failbit then { f with eofbit := false }
  else if 2 ^ 60 ≤ off then { f with eofbit := false, failbit := true }
  else { f with eofbit := false, pos := off }

/-- The call `seekp(off)`: moves the position of a good stream. -/
def seekp (f : FStream) (off : Nat) : FStream :=
  if f.good then { f with pos := off } else { f with failbit := true }

/-- The call `read(p, n * 8)`: extracts up to `n` records at the position; a short read sets
`eofbit` and `failbit`.  Returns the stream and the records extracted (their number is
`gcount() / 8`). -/
def read (f : FStream) (n : Nat) : FStream × List Record :=
  if f.good then
    let got := (f.data.drop f.pos).take n
    if got.length < n then
      ({ f with pos := f.pos + got.length, eofbit := true, failbit := true }, got)
    else
      ({ f with pos := f.pos + got.length }, got)
  else
    ({ f with failbit := true }, [])

/-- The call `write(p, vals.length * 8)`: overwrites and extends the file at the position. -/
def write (f : FStream) (vals : List Record) : FStream :=
  if f.good then
    { f with
      data := f.data.take f.pos ++ List.replicate (f.pos - f.data.length) 0 ++ vals
        ++ f.data.drop (f.pos + vals.length)
      pos := f.pos + vals.length }
  else
    { f with failbit := true }

/-- The call `flush()`: the contents of the file as seen through the stream do not change. -/
def flush (f : FStream) : FStream := f

end FStream

/-! ## `class Chunk` -/

/-- The fields of `Chunk`; the reference `_f` is the stream passed to each operation.  The field
`readOffset` is `_readOffsetInBytes / 8`: the source keeps a multiple of 8 in a `size_t`, that
is modulo `2 ^ 64`, so the record offset is kept modulo `2 ^ 61`. -/
structure Chunk where
  readOffset : Nat
  begin : Nat
  maxElements : Nat
  nextInBuf : Nat
  realEnd : Nat
  numbersToRead : Nat
  deriving DecidableEq, Repr

namespace Chunk

/-- The constructor `Chunk(f, begin, maxElements, numbersInChunk, chunkIndex)`: the offset
`numbersInChunk * chunkIndex * sizeof(int64_t)` is computed in `size_t`. -/
def new (begin maxElements numbersInChunk chunkIndex : Nat) : Chunk :=
  { readOffset := (numbersInChunk * chunkIndex) % 2 ^ 61
    begin := begin
    maxElements := maxElements
    nextInBuf := begin
    realEnd := begin
    numbersToRead := numbersInChunk }

def fillBuf (c : Chunk) (f : FStream) (buf : List Record) :
    Except Fault (Chunk × FStream × List Record) :=
  if c.numbersToRead = 0 then
    .ok (c, f, buf)
  else
    let numToRead := min c.maxElements c.numbersToRead
    let f1 := f.seekg c.readOffset
    if f1.fail then
      .ok ({ c with numbersToRead := 0 }, f1, buf)
    else
      let r := f1.read numToRead
      let numbersRead := r.2.length
      match storeAt buf c.begin r.2 with
      | .error e => .error e
      | .ok buf1 =>
        let c1 : Chunk :=
          { c with
            numbersToRead := c.numbersToRead - numbersRead
            realEnd := c.begin + numbersRead
            readOffset := (c.readOffset + numbersRead) % 2 ^ 61 }
        if r.1.eof then
          .ok ({ c1 with numbersToRead := 0, nextInBuf := c1.begin }, r.1.clear, buf1)
        else
          .ok ({ c1 with nextInBuf := c1.begin }, r.1, buf1)

def isProcessed (c : Chunk) : Bool := c.numbersToRead == 0 && c.nextInBuf == c.realEnd

/-- The call `getNext(val)`: `some v` stands for the result `true` with `val = v`, `none` for the
result `false` (where `val` is left as it was). -/
def getNext (c : Chunk) (f : FStream) (buf : List Record) :
    Except Fault (Option Record × Chunk × FStream × List Record) :=
  match (if c.nextInBuf = c.realEnd then c.fillBuf f buf else .ok (c, f, buf)) with
  | .error e => .error e
  | .ok (c1, f1, buf1) =>
    if c1.isProcessed then
      .ok (none, c1, f1, buf1)
    else
      match loadAt buf1 c1.nextInBuf with
      | .error e => .error e
      | .ok v => .ok (some v, { c1 with nextInBuf := c1.nextInBuf + 1 }, f1, buf1)

end Chunk

/-! ## `class ChunkWriter` -/

/-- The fields of `ChunkWriter`; the reference `_dst` is the stream passed to each operation. -/
structure ChunkWriter where
  begin : Nat
  endIt : Nat
  it : Nat
  deriving DecidableEq, Repr

namespace ChunkWriter

def flush (w : ChunkWriter) (dst : FStream) (buf : List Record) : Except Fault FStream :=
  match slice buf w.begin w.it with
  | .error e => .error e
  | .ok vals => .ok (dst.write vals)

/-- The constructor `ChunkWriter(dst, begin, end)`. -/
def new (dst : FStream) (begin endIt : Nat) : ChunkWriter × FStream :=
  ({ begin := begin, endIt := endIt, it := begin }, dst.seekp 0)

/-- The destructor. -/
def destroy (w : ChunkWriter) (dst : FStream) (buf : List Record) : Except Fault FStream :=
  w.flush dst buf

def append (w : ChunkWriter) (dst : FStream) (buf : List Record) (val : Record) :
    Except Fault (ChunkWriter × FStream × List Record) :=
  match storeAt buf w.it [val] with
  | .error e => .error e
  | .ok buf1 =>
    let w1 : ChunkWriter := { w with it := w.it + 1 }
    if w1.it = w1.endIt then
      match w1.flush dst buf1 with
      | .error e => .error e
      | .ok dst1 => .ok ({ w1 with it := w1.begin }, dst1, buf1)
    else
      .ok (w1, dst, buf1)

end ChunkWriter

/-! ## `mergeSiblingChunks` and `mergeChunks` -/

/-- Everything a merge pass touches: the two readers, the writer, the two streams they refer to
and the shared vector. -/
structure MergeState where
  ch1 : Chunk
  ch2 : Chunk
  cw : ChunkWriter
  src : FStream
  dst : FStream
  buf : List Record
  deriving DecidableEq, Repr

namespace MergeState

def getNext1 (s : MergeState) : Except Fault (Option Record × MergeState) :=
  match s.ch1.getNext s.src s.buf with
  | .error e => .error e
  | .ok (v, c, f, b) => .ok (v, { s with ch1 := c, src := f, buf := b })

def getNext2 (s : MergeState) : Except Fault (Option Record × MergeState) :=
  match s.ch2.getNext s.src s.buf with
  | .error e => .error e
  | .ok (v, c, f, b) => .ok (v, { s with ch2 := c, src := f, buf := b })

def append (s : MergeState) (val : Record) : Except Fault MergeState :=
  match s.cw.append s.dst s.buf val with
  | .error e => .error e
  | .ok (w, d, b) => .ok { s with cw := w, dst := d, buf := b }

end MergeState

/-- The loop `while(true)` of `mergeSiblingChunks`, entered with both lookahead values. -/
def mergeLoop : Nat → Record → Record → MergeState → Except Fault MergeState
  | 0, _, _, _ => .error .outOfFuel
  | fuel + 1, v1, v2, s =>
    if v1 < v2 then
      match s.append v1 with
      | .error e => .error e
      | .ok s1 =>
        match s1.getNext1 with
        | .error e => .error e
        | .ok (none, s2) => s2.append v2
        | .ok (some v1', s2) => mergeLoop fuel v1' v2 s2
    else
      match s.append v2 with
      | .error e => .error e
      | .ok s1 =>
        match s1.getNext2 with
        | .error e => .error e
        | .ok (none, s2) => s2.append v1
        | .ok (some v2', s2) => mergeLoop fuel v1 v2' s2

/-- The loop `while(ch1.getNext(v1)) cw.append(v1);`. -/
def drain1 : Nat → MergeState → Except Fault MergeState
  | 0, _ => .error .outOfFuel
  | fuel + 1, s =>
    match s.getNext1 with
    | .error e => .error e
    | .ok (none, s1) => .ok s1
    | .ok (some v, s1) =>
      match s1.append v with
      | .error e => .error e
      | .ok s2 => drain1 fuel s2

/-- The loop `while(ch2.getNext(v2)) cw.append(v2);`. -/
def drain2 : Nat → MergeState → Except Fault MergeState
  | 0, _ => .error .outOfFuel
  | fuel + 1, s =>
    match s.getNext2 with
    | .error e => .error e
    | .ok (none, s1) => .ok s1
    | .ok (some v, s1) =>
      match s1.append v with
      | .error e => .error e
      | .ok s2 => drain2 fuel s2

/-- The part of `mergeSiblingChunks` before the two final loops. -/
def mergeHead (fuel : Nat) (s : MergeState) : Except Fault MergeState :=
  match s.getNext1 with
  | .error e => .error e
  | .ok (none, s1) => .ok s1
  | .ok (some v1, s1) =>
    match s1.getNext2 with
    | .error e => .error e
    | .ok (none, s2) => s2.append v1
    | .ok (some v2, s2) => mergeLoop fuel v1 v2 s2

def mergeSiblingChunks (fuel : Nat) (s : MergeState) : Except Fault MergeState :=
  match mergeHead fuel s with
  | .error e => .error e
  | .ok s1 =>
    match drain1 fuel s1 with
    | .error e => .error e
    | .ok s2 => drain2 fuel s2

/-- State of the `for` loop of `mergeChunks`: the writer, the two streams and the vector. -/
structure PassState where
  cw : ChunkWriter
  src : FStream
  dst : FStream
  buf : List Record
  deriving DecidableEq, Repr

/-- The loop `for(chunkIndex = ...; chunkIndex < chunkCount; chunkIndex += 2)`. -/
def mergeChunksLoop (numbersInChunk chunkCount l : Nat) :
    Nat → Nat → PassState → Except Fault PassState
  | 0, _, _ => .error .outOfFuel
  | fuel + 1, chunkIndex, p =>
    if chunkIndex < chunkCount then
      let ch1 := Chunk.new l l numbersInChunk chunkIndex
      let ch2 := Chunk.new (2 * l) l (if chunkIndex + 1 < chunkCount then numbersInChunk else 0)
        (chunkIndex + 1)
      match mergeSiblingChunks fuel
          { ch1 := ch1, ch2 := ch2, cw := p.cw, src := p.src, dst := p.dst, buf := p.buf } with
      | .error e => .error e
      | .ok s =>
        mergeChunksLoop numbersInChunk chunkCount l fuel (chunkIndex + 2)
          { cw := s.cw, src := s.src, dst := s.dst, buf := s.buf }
    else
      .ok p

/-- The result of `mergeChunks`: the returned value (a `size_t`) and the objects passed by
reference. -/
structure PassResult where
  ret : Nat
  src : FStream
  dst : FStream
  buf : List Record
  deriving DecidableEq, Repr

def mergeChunks (fuel : Nat) (src dst : FStream) (buf : List Record)
    (numbersInChunk chunkCount : Nat) : Except Fault PassResult :=
  let l := buf.length / 3
  let cw := ChunkWriter.new dst 0 l
  match mergeChunksLoop numbersInChunk chunkCount l fuel 0
      { cw := cw.1, src := src, dst := cw.2, buf := buf } with
  | .error e => .error e
  | .ok p =>
    match p.cw.destroy p.dst p.buf with
    | .error e => .error e
    | .ok dst1 =>
      .ok { ret := (numbersInChunk * 2) % 2 ^ 64, src := p.src, dst := dst1, buf := p.buf }

/-! ## The source file and `presort` -/

/-- A file on disk: its complete 8-byte records and the `size mod 8` bytes that follow them.
Every file is represented once this way, with fewer than eight bytes in `tail`. -/
structure File where
  recs : List Record
  tail : List Nat
  deriving DecidableEq, Repr

namespace File

/-- The size in bytes, as `filesystem::file_size` reports it. -/
def size (f : File) : Nat := 8 * f.recs.length + f.tail.length

/-- A file of whole records. -/
def ofRecords (recs : List Record) : File := { recs := recs, tail := [] }

end File

/-- The value of a vector element after its first `bytes.length` bytes in memory were
overwritten (little-endian two's complement). -/
def patchLow (old : Record) (bytes : List Nat) : Record :=
  let u : Nat := (old % 2 ^ 64).toNat
  let m : Nat := 256 ^ bytes.length
  let low : Nat := bytes.foldr (fun b acc => b % 256 + 256 * acc) 0
  let u1 : Nat := u / m * m + low % m
  if u1 < 2 ^ 63 then (u1 : Int) else (u1 : Int) - 2 ^ 64

/-- State of the `std::ifstream src` of `presort`, which is only read sequentially: the part of
the file not yet extracted (complete records, then the trailing bytes) and the state bits. -/
structure IStream where
  rest : List Record
  tail : List Nat
  eofbit : Bool
  failbit : Bool
  deriving DecidableEq, Repr

namespace IStream

def ofFile (f : File) : IStream :=
  { rest := f.recs, tail := f.tail, eofbit := false, failbit := false }

def eof (s : IStream) : Bool := s.eofbit

/-- The call `src.read(buf.data(), n * 8)`.  Returns the stream, the vector and `gcount()` in
bytes.  A read that asks for more than is left extracts the remaining records and the trailing
bytes (which land in the first bytes of the next element) and sets `eofbit` and `failbit`. -/
def read (s : IStream) (buf : List Record) (n : Nat) :
    Except Fault (IStream × List Record × Nat) :=
  if s.eofbit || s.failbit then
    .ok ({ s with failbit := true }, buf, 0)
  else if n ≤ s.rest.length then
    match storeAt buf 0 (s.rest.take n) with
    | .error e => .error e
    | .ok buf1 => .ok ({ s with rest := s.rest.drop n }, buf1, 8 * n)
  else
    match storeAt buf 0 s.rest with
    | .error e => .error e
    | .ok buf1 =>
      let s1 : IStream := { rest := [], tail := [], eofbit := true, failbit := true }
      let gcount := 8 * s.rest.length + s.tail.length
      if s.tail.isEmpty then
        .ok (s1, buf1, gcount)
      else
        match loadAt buf1 s.rest.length with
        | .error e => .error e
        | .ok old =>
          match storeAt buf1 s.rest.length [patchLow old s.tail] with
          | .error e => .error e
          | .ok buf2 => .ok (s1, buf2, gcount)

end IStream

/-- The directory entries by path, and the paths on which opening a stream fails. -/
structure FileSystem where
  entries : String → Option File
  denied : String → Bool

namespace FileSystem

/-- The file at the path `p`.  The size of a file is an `off_t`, so it is below `2 ^ 63` bytes:
an entry of `2 ^ 63` bytes or more is not a file. -/
def files (fs : FileSystem) (p : String) : Option File :=
  (fs.entries p).filter (fun f => decide (f.size < 2 ^ 63))

def exists_ (fs : FileSystem) (p : String) : Bool := (fs.files p).isSome

def store (fs : FileSystem) (p : String) (f : File) : FileSystem :=
  { fs with entries := fun q => if q = p then some f else fs.entries q }

def remove (fs : FileSystem) (p : String) : FileSystem :=
  { fs with entries := fun q => if q = p then none else fs.entries q }

/-- The call `filesystem::rename(old, new)`. -/
def rename (fs : FileSystem) (old new : String) : Except Fault FileSystem :=
  match fs.files old with
  | none => .error .filesystemError
  | some f =>
    .ok { fs with
          entries := fun q => if q = new then some f else if q = old then none else fs.entries q }

/-- The call `filesystem::file_size(p)`. -/
def fileSize (fs : FileSystem) (p : String) : Except Fault Nat :=
  match fs.files p with
  | none => .error .filesystemError
  | some f => .ok f.size

/-- Opening `ifstream src(p, ios::binary)`: `none` when `is_open()` is false. -/
def openRead (fs : FileSystem) (p : String) : Option IStream :=
  if fs.denied p then none else (fs.files p).map IStream.ofFile

end FileSystem

/-- The loop `while(!src.eof())` of `presort`. -/
def presortLoop : Nat → IStream → FStream → List Record →
    Except Fault (IStream × FStream × List Record)
  | 0, _, _, _ => .error .outOfFuel
  | fuel + 1, src, dst, buf =>
    if src.eof then
      .ok (src, dst, buf)
    else
      match src.read buf buf.length with
      | .error e => .error e
      | .ok (src1, buf1, gcount) =>
        let elCount := gcount / 8
        match stdSort buf1 elCount with
        | .error e => .error e
        | .ok buf2 =>
          match slice buf2 0 elCount with
          | .error e => .error e
          | .ok out => presortLoop fuel src1 (dst.write out) buf2

def presort (fuel : Nat) (fs : FileSystem) (srcPath : String) (dst : FStream)
    (buf : List Record) : Except Fault (FStream × List Record) :=
  match fs.openRead srcPath with
  | none => .error (.runtimeError ("Can't open file " ++ srcPath))
  | some src =>
    match presortLoop fuel src dst buf with
    | .error e => .error e
    | .ok (_, dst1, buf1) => .ok (dst1.flush, buf1)

/-! ## `struct FileWrapper` -/

structure FileWrapper where
  path : String
  stream : FStream
  isOpen : Bool

namespace FileWrapper

/-- The constructor `FileWrapper(basePath, suffix)`: the file is created or truncated. -/
def new (fs : FileSystem) (basePath suffix : String) : Except Fault (FileWrapper × FileSystem) :=
  let path := basePath ++ suffix
  if fs.denied path then
    .error (.runtimeError ("Can't open file " ++ path))
  else
    .ok ({ path := path, stream := FStream.opened, isOpen := true },
      fs.store path (File.ofRecords []))

/-- The data written through the stream reaches the file on disk. -/
def sync (w : FileWrapper) (fs : FileSystem) : FileSystem :=
  fs.store w.path (File.ofRecords w.stream.data)

/-- The statement `if(stream.is_open()) stream.close();`. -/
def close (w : FileWrapper) (fs : FileSystem) : FileWrapper × FileSystem :=
  if w.isOpen then ({ w with isOpen := false }, w.sync fs) else (w, fs)

/-- The destructor. -/
def destroy (w : FileWrapper) (fs : FileSystem) : FileSystem :=
  let c := w.close fs
  if c.1.path = "" then c.2 else c.2.remove c.1.path

def rename (w : FileWrapper) (fs : FileSystem) (newPath : String) :
    Except Fault (FileWrapper × FileSystem) :=
  let c := w.close fs
  let fs1 := if c.2.exists_ newPath then c.2.remove newPath else c.2
  match fs1.rename c.1.path newPath with
  | .error e => .error e
  | .ok fs2 => .ok ({ c.1 with path := "" }, fs2)

end FileWrapper

/-! ## `sortFile` -/

/-- The locals of `sortFile` that its loop works on: the array `w`, the array `pw` (as indices
into `w`), the vector and `numbersInChunk`. -/
structure SortState where
  w0 : FileWrapper
  w1 : FileWrapper
  pw0 : Nat
  pw1 : Nat
  buf : List Record
  numbersInChunk : Nat

namespace SortState

/-- The element `w[i]` (the array has the two elements `w[0]` and `w[1]`). -/
def wrapper (s : SortState) (i : Nat) : FileWrapper := if i = 0 then s.w0 else s.w1

def setWrapper (s : SortState) (i : Nat) (w : FileWrapper) : SortState :=
  if i = 0 then { s with w0 := w } else { s with w1 := w }

def setStream (s : SortState) (i : Nat) (f : FStream) : SortState :=
  s.setWrapper i { s.wrapper i with stream := f }

/-- The end of an iteration of the loop of `sortFile`: the streams are as `mergeChunks` left
them, `numbersInChunk` is the value it returned, and `pw[0]` and `pw[1]` are swapped. -/
def afterPass (s : SortState) (r : PassResult) : SortState :=
  { (s.setStream s.pw0 r.src).setStream s.pw1 r.dst with
    buf := r.buf
    numbersInChunk := r.ret
    pw0 := s.pw1
    pw1 := s.pw0 }

end SortState

/-- The loop `while(numbersInChunk < numbersInFile)` of `sortFile`. -/
def sortLoop (numbersInFile : Nat) : Nat → SortState → Except Fault SortState
  | 0, _ => .error .outOfFuel
  | fuel + 1, s =>
    if s.numbersInChunk < numbersInFile then
      if s.numbersInChunk = 0 then
        .error .divideByZero
      else
        let chunkCount := numbersInFile / s.numbersInChunk
        let chunkCount := if numbersInFile % s.numbersInChunk ≠ 0 then chunkCount + 1 else chunkCount
        match mergeChunks fuel (s.wrapper s.pw0).stream (s.wrapper s.pw1).stream s.buf
            s.numbersInChunk chunkCount with
        | .error e => .error e
        | .ok r => sortLoop numbersInFile fuel (s.afterPass r)
    else
      .ok s

/-- The statements of `sortFile` after the construction of `w`, up to and including the rename.
Returns the file system and the two wrappers as they are when the scope is left. -/
def sortBody (fuel : Nat) (fs : FileSystem) (srcPath dstPath : String) (ramSizeInBytes : Nat)
    (w0 w1 : FileWrapper) : Except Fault (FileSystem × FileWrapper × FileWrapper) :=
  let numbersInChunk := ramSizeInBytes / 8
  let buf : List Record := List.replicate numbersInChunk 0
  match presort fuel fs srcPath w0.stream buf with
  | .error e => .error e
  | .ok (dst, buf1) =>
    let w0 : FileWrapper := { w0 with stream := dst }
    let fs1 := w0.sync fs
    match fs1.fileSize srcPath with
    | .error e => .error e
    | .ok fileSize =>
      let numbersInFile := fileSize / 8
      match sortLoop numbersInFile fuel
          { w0 := w0, w1 := w1, pw0 := 0, pw1 := 1, buf := buf1, numbersInChunk := numbersInChunk } with
      | .error e => .error e
      | .ok s =>
        match (s.wrapper s.pw0).rename fs1 dstPath with
        | .error e => .error e
        | .ok (w, fs2) =>
          let s1 := s.setWrapper s.pw0 w
          .ok (fs2, s1.w0, s1.w1)

/-- The function `sortFile`.  Returns the file system when the function is left, and how it was
left.  When the body throws, the wrappers are destroyed as they were constructed: their paths
have not changed. -/
def sortFile (fuel : Nat) (fs : FileSystem) (srcPath dstPath : String) (ramSizeInBytes : Nat) :
    FileSystem × Except Fault Unit :=
  match FileWrapper.new fs dstPath ".1" with
  | .error e => (fs, .error e)
  | .ok (w0, fs0) =>
    match FileWrapper.new fs0 dstPath ".2" with
    | .error e => (w0.destroy fs0, .error e)
    | .ok (w1, fs1) =>
      match sortBody fuel fs1 srcPath dstPath ramSizeInBytes w0 w1 with
      | .error e => (w0.destroy (w1.destroy fs1), .error e)
      | .ok (fs2, w0', w1') => (w0'.destroy (w1'.destroy fs2), .ok ())

/-! ## `main` -/

def minRamSize : Nat := 8 * 3 * 2

/-- What `main` leaves behind: the exit status, the lines printed and the file system. -/
structure MainResult where
  exitCode : Nat
  out : List String
  fs : FileSystem

/-- The function `main`, from the check of `argc` on; `ramSize` is the value of
`std::stoull(argv[3])`, `srcPath` and `dstPath` are `argv[1]` and `argv[2]`.  A caught
`runtime_error` prints its message; the text of a caught `filesystem_error` depends on the
library and is represented by a fixed line. -/
def main (fuel : Nat) (fs : FileSystem) (argc : Nat) (srcPath dstPath : String) (ramSize : Nat) :
    Except Fault MainResult :=
  if argc ≠ 4 then
    .ok { exitCode := 1
          out := ["Sorting of a file with signed 64-bit integers.",
            "Usage: BigSort <source file> <destination file> <buffer size in bytes>"]
          fs := fs }
  else if ramSize < minRamSize then
    .ok { exitCode := 1
          out := ["Buffer size can't be less than " ++ toString minRamSize ++ " bytes"]
          fs := fs }
  else
    match sortFile fuel fs srcPath dstPath ramSize with
    | (fs1, .ok ()) => .ok { exitCode := 0, out := [], fs := fs1 }
    | (fs1, .error (.runtimeError msg)) => .ok { exitCode := 0, out := [msg], fs := fs1 }
    | (fs1, .error .filesystemError) => .ok { exitCode := 0, out := ["filesystem error"], fs := fs1 }
    | (_, .error e) => .error e

/-! # Views, invariants and example inputs used in the statements and proofs -/

/-- The stream has no state bit set. -/
def FStream.Good (f : FStream) : Prop := f.eofbit = false ∧ f.failbit = false

/-- Two vectors of the same length that agree at every index outside `[a, b)`. -/
def SameOutside (buf1 buf : List Record) (a b : Nat) : Prop :=
  buf1.length = buf.length ∧ ∀ i, i < a ∨ b ≤ i → buf1[i]? = buf[i]?

/-- The cursors of a reader lie inside its region `[begin, begin + maxElements)` of the vector,
the region holds at least one record, and the read offset can be sought: it is below `2 ^ 63`
bytes. -/
structure Chunk.Valid (c : Chunk) (buf : List Record) : Prop where
  max_pos : 1 ≤ c.maxElements
  in_buf : c.begin + c.maxElements ≤ buf.length
  begin_le : c.begin ≤ c.nextInBuf
  next_le : c.nextInBuf ≤ c.realEnd
  end_le : c.realEnd ≤ c.begin + c.maxElements
  off_lt : c.readOffset < 2 ^ 60

/-- The records a reader has still to deliver: those waiting in its window, then those of the
file it has still to read. -/
def Chunk.pending (c : Chunk) (data buf : List Record) : List Record :=
  window buf c.nextInBuf c.realEnd ++ (data.drop c.readOffset).take c.numbersToRead

/-- A good stream whose position is inside the file or at its end. -/
def FStream.Writable (f : FStream) : Prop := f.Good ∧ f.pos ≤ f.data.length

/-- The stream `f1` is ahead of `f`, and beyond the position of `f1` the two files agree. -/
def FStream.Ahead (f1 f : FStream) : Prop :=
  f.pos ≤ f1.pos ∧ f1.data.drop f1.pos = f.data.drop f1.pos

/-- The cursor of a writer lies inside its region `[begin, endIt)`, strictly below the end. -/
structure ChunkWriter.Valid (w : ChunkWriter) (buf : List Record) : Prop where
  begin_le : w.begin ≤ w.it
  it_lt : w.it < w.endIt
  end_le : w.endIt ≤ buf.length

/-- The records handed to a writer so far: those already in the file (up to the position of the
stream), then those waiting in its window. -/
def ChunkWriter.written (w : ChunkWriter) (dst : FStream) (buf : List Record) : List Record :=
  dst.data.take dst.pos ++ window buf w.begin w.it

/-- The two-way merge of two runs as `mergeSiblingChunks` performs it: the head of the first run
goes first only when it is strictly smaller. -/
def mergeRuns : List Record → List Record → List Record
  | [], ys => ys
  | x :: xs, [] => x :: xs
  | x :: xs, y :: ys =>
    if x < y then x :: mergeRuns xs (y :: ys) else y :: mergeRuns (x :: xs) ys

namespace MergeState

/-- The records the first reader has still to deliver. -/
def pending1 (s : MergeState) : List Record := s.ch1.pending s.src.data s.buf

/-- The records the second reader has still to deliver. -/
def pending2 (s : MergeState) : List Record := s.ch2.pending s.src.data s.buf

/-- The records handed to the writer so far. -/
def written (s : MergeState) : List Record := s.cw.written s.dst s.buf

/-- The readers and the writer are valid, the streams are usable, the source file is shorter than
`2 ^ 63` bytes and the three regions of the vector are pairwise disjoint. -/
structure Valid (s : MergeState) : Prop where
  ch1 : s.ch1.Valid s.buf
  ch2 : s.ch2.Valid s.buf
  cw : s.cw.Valid s.buf
  src : s.src.Good
  small : s.src.data.length < 2 ^ 60
  dst : s.dst.Writable
  sep12 : s.ch1.begin + s.ch1.maxElements ≤ s.ch2.begin
    ∨ s.ch2.begin + s.ch2.maxElements ≤ s.ch1.begin
  sep1w : s.ch1.begin + s.ch1.maxElements ≤ s.cw.begin ∨ s.cw.endIt ≤ s.ch1.begin
  sep2w : s.ch2.begin + s.ch2.maxElements ≤ s.cw.begin ∨ s.cw.endIt ≤ s.ch2.begin

/-- What every operation of a merge leaves as it was: the contents of the source, the regions,
the length of the vector; the destination only moves ahead. -/
structure Step (s1 s : MergeState) : Prop where
  data : s1.src.data = s.src.data
  ahead : s1.dst.Ahead s.dst
  len : s1.buf.length = s.buf.length
  cw_begin : s1.cw.begin = s.cw.begin
  cw_end : s1.cw.endIt = s.cw.endIt
  ch1_begin : s1.ch1.begin = s.ch1.begin
  ch1_max : s1.ch1.maxElements = s.ch1.maxElements
  ch2_begin : s1.ch2.begin = s.ch2.begin
  ch2_max : s1.ch2.maxElements = s.ch2.maxElements

end MergeState

/-- Chunk `i` of a file laid out in chunks of nominal length `L`: the records at positions
`[L * i, L * i + L)` that exist. -/
def chunkOf (D : List Record) (L i : Nat) : List Record := (D.drop (L * i)).take L

/-- Apply `g` to each of the first `k` blocks of `B` records of `D` and concatenate. -/
def blockMap (g : List Record → List Record) (B : Nat) : Nat → List Record → List Record
  | 0, _ => []
  | k + 1, D => g (D.take B) ++ blockMap g B k (D.drop B)

/-- Merge the two halves of a block made of two chunks of nominal length `L`. -/
def mergeHalves (L : Nat) (X : List Record) : List Record := mergeRuns (X.take L) (X.drop L)

/-- The state of the loop of `mergeChunks` is usable with region length `l`: the vector holds
three regions of `l ≥ 1` records, the writer owns the first one, the streams are usable and the
source file is shorter than `2 ^ 63` bytes. -/
structure PassState.Valid (p : PassState) (l : Nat) : Prop where
  l_pos : 1 ≤ l
  fits : 3 * l ≤ p.buf.length
  cw : p.cw.Valid p.buf
  cw_begin : p.cw.begin = 0
  cw_end : p.cw.endIt = l
  src : p.src.Good
  small : p.src.data.length < 2 ^ 60
  dst : p.dst.Writable

/-- The ascending arrangement of a list of records. -/
def sortRun (X : List Record) : List Record := X.insertionSort (· ≤ ·)

/-- The source stream can be read: no state bit is set and fewer than eight bytes follow the
last complete record. -/
def IStream.Readable (s : IStream) : Prop :=
  s.eofbit = false ∧ s.failbit = false ∧ s.tail.length < 8

/-- Every chunk of nominal length `L` of the file is in ascending order. -/
def ChunkSorted (D : List Record) (L : Nat) : Prop := ∀ j, (chunkOf D L j).Sorted (· ≤ ·)

/-- The state of the loop of `sortFile` between two passes, for a source with records `R`:
`pw` is a permutation of the two wrappers, the vector holds at least three records unless no
pass is left to run, the active temp file holds the records of the source in sorted chunks of
the current nominal length, the standby temp file is not longer than the source, and the source
is shorter than `2 ^ 63` bytes. -/
structure SortState.Valid (s : SortState) (R : List Record) : Prop where
  pw : (s.pw0 = 0 ∧ s.pw1 = 1) ∨ (s.pw0 = 1 ∧ s.pw1 = 0)
  buf : 3 ≤ s.buf.length ∨ R.length ≤ s.numbersInChunk
  chunk_pos : 1 ≤ s.numbersInChunk
  active_good : (s.wrapper s.pw0).stream.Good
  active_perm : (s.wrapper s.pw0).stream.data.Perm R
  active_sorted : ChunkSorted (s.wrapper s.pw0).stream.data s.numbersInChunk
  standby_good : (s.wrapper s.pw1).stream.Good
  standby_len : (s.wrapper s.pw1).stream.data.length ≤ R.length
  small : R.length < 2 ^ 60

/-- Successive calls of `getNext` on a reader until it returns `false`: the values delivered,
in order, and the state the reader, the stream and the vector are left in. -/
def Chunk.deliver : Nat → Chunk → FStream → List Record →
    Except Fault (List Record × Chunk × FStream × List Record)
  | 0, _, _, _ => .error .outOfFuel
  | fuel + 1, c, f, buf =>
    match c.getNext f buf with
    | .error e => .error e
    | .ok (none, c1, f1, buf1) => .ok ([], c1, f1, buf1)
    | .ok (some v, c1, f1, buf1) =>
      match deliver fuel c1 f1 buf1 with
      | .error e => .error e
      | .ok (vs, c2, f2, buf2) => .ok (v :: vs, c2, f2, buf2)

/-- Successive calls of `append` on a writer, one for each record of `vals`. -/
def ChunkWriter.appendAll : ChunkWriter → FStream → List Record → List Record →
    Except Fault (ChunkWriter × FStream × List Record)
  | w, dst, buf, [] => .ok (w, dst, buf)
  | w, dst, buf, v :: vs =>
    match w.append dst buf v with
    | .error e => .error e
    | .ok (w1, dst1, buf1) => appendAll w1 dst1 buf1 vs

/-- The life of a writer: its construction, one `append` for each record of `vals`, and its
destruction. -/
def ChunkWriter.session (dst : FStream) (buf : List Record) (begin endIt : Nat)
    (vals : List Record) : Except Fault (FStream × List Record) :=
  let c := ChunkWriter.new dst begin endIt
  match c.1.appendAll c.2 buf vals with
  | .error e => .error e
  | .ok (w1, dst1, buf1) =>
    match w1.destroy dst1 buf1 with
    | .error e => .error e
    | .ok dst2 => .ok (dst2, buf1)

/-- A merge in which the first reader has a region of no elements and records still to read,
over a good source stream in which the offsets of both readers can be sought: the state of a
pass whose vector has fewer than three elements. -/
def MergeState.Starved (s : MergeState) : Prop :=
  s.ch1.maxElements = 0 ∧ s.ch1.numbersToRead ≠ 0 ∧ s.ch2.maxElements = 0 ∧ s.src.Good
    ∧ s.ch1.readOffset < 2 ^ 60 ∧ s.ch2.readOffset < 2 ^ 60

/-- How the body of `sortFile` can leave the two wrappers: one of them was renamed (its path is
cleared and its stream closed, and nothing is at its temp path any more), the other still owns
its temp path. -/
def OneRenamed (dstPath : String) (fs2 : FileSystem) (w0 w1 : FileWrapper) : Prop :=
  (w0.path = "" ∧ w0.isOpen = false ∧ w1.path = dstPath ++ ".2"
      ∧ fs2.files (dstPath ++ ".1") = none)
    ∨ (w1.path = "" ∧ w1.isOpen = false ∧ w0.path = dstPath ++ ".1"
      ∧ fs2.files (dstPath ++ ".2") = none)

/-- A file system whose only file, at the path `in`, holds the records `R`, and on which every
path can be opened. -/
def fsWith (R : List Record) : FileSystem :=
  { entries := fun p => if p = "in" then some (File.ofRecords R) else none
    denied := fun _ => false }

/-- The descending file 21, 20, ..., 1. -/
def descending21 : List Record :=
  [21, 20, 19, 18, 17, 16, 15, 14, 13, 12, 11, 10, 9, 8, 7, 6, 5, 4, 3, 2, 1]

/-- A good stream over a file holding `data`, positioned at its start. -/
def FStream.over (data : List Record) : FStream :=
  { data := data, pos := 0, eofbit := false, failbit := false }

/-- The number of chunks of nominal length `L` in a file of `T` records: `T / L` rounded up. -/
def ceilDiv (T L : Nat) : Nat := (T + L - 1) / L

/-- A merge state as `mergeChunks` sets it up: a vector of three regions of one record, the
source file 1,3 | 2,4 in two chunks of nominal length 2, fresh readers on the two chunks and a
fresh writer on an empty destination. -/
def demoMerge : MergeState :=
  { ch1 := Chunk.new 1 1 2 0
    ch2 := Chunk.new 2 1 2 1
    cw := { begin := 0, endIt := 1, it := 0 }
    src := FStream.over [1, 3, 2, 4]
    dst := FStream.over []
    buf := [0, 0, 0] }

/-- A file system with the records `R` at the path `in` and an older file at the path `out`,
on which every path can be opened. -/
def fsWithOld (R : List Record) : FileSystem :=
  { entries := fun p =>
      if p = "in" then some (File.ofRecords R)
      else if p = "out" then some (File.ofRecords [7, 7, 7]) else none
    denied := fun _ => false }

/-- A file system with the records `R` at the path `in`, on which the paths in `locked` cannot be
opened. -/
def fsLocked (R : List Record) (locked : List String) : FileSystem :=
  { entries := fun p => if p = "in" then some (File.ofRecords R) else none
    denied := fun p => locked.contains p }

/-- One call of `mergeChunks` made by the loop of `sortFile`: the arguments `numbersInChunk` and
`chunkCount`, the elements of `w` that `pw[0]` (the file read) and `pw[1]` (the file written)
designate during the call, and the contents of the file written when the call returns. -/
structure PassRecord where
  numbersInChunk : Nat
  chunkCount : Nat
  readIndex : Nat
  writeIndex : Nat
  out : List Record
  deriving DecidableEq, Repr

/-- The loop of `sortFile` (the function `sortLoop`), which also returns the list of the calls
of `mergeChunks` it made, in order. -/
def sortLoopLog (numbersInFile : Nat) :
    Nat → SortState → Except Fault (SortState × List PassRecord)
  | 0, _ => .error .outOfFuel
  | fuel + 1, s =>
    if s.numbersInChunk < numbersInFile then
      if s.numbersInChunk = 0 then
        .error .divideByZero
      else
        let chunkCount := numbersInFile / s.numbersInChunk
        let chunkCount := if numbersInFile % s.numbersInChunk ≠ 0 then chunkCount + 1 else chunkCount
        match mergeChunks fuel (s.wrapper s.pw0).stream (s.wrapper s.pw1).stream s.buf
            s.numbersInChunk chunkCount with
        | .error e => .error e
        | .ok r =>
          match sortLoopLog numbersInFile fuel (s.afterPass r) with
          | .error e => .error e
          | .ok (s1, log) =>
            .ok (s1, { numbersInChunk := s.numbersInChunk, chunkCount := chunkCount,
                       readIndex := s.pw0, writeIndex := s.pw1, out := r.dst.data } :: log)
    else
      .ok (s, [])

/-- The state in which `sortFile` enters its loop: `w[0]` holds what `presort` wrote, `w[1]` is
still empty, `pw` points to them in that order, and the nominal chunk length is the capacity of
the vector. -/
def sortStart (dstPath : String) (dst1 : FStream) (buf1 : List Record) (capacity : Nat) :
    SortState :=
  { w0 := { path := dstPath ++ ".1", stream := dst1, isOpen := true }
    w1 := { path := dstPath ++ ".2", stream := FStream.opened, isOpen := true }
    pw0 := 0
    pw1 := 1
    buf := buf1
    numbersInChunk := capacity }

/-- The descending file 20, 19, ..., 1. -/
def descending20 : List Record :=
  [20, 19, 18, 17, 16, 15, 14, 13, 12, 11, 10, 9, 8, 7, 6, 5, 4, 3, 2, 1]

/-- The branch `if(v1 < v2)` of the loop of `mergeSiblingChunks`: the value of the first reader
is appended and the first reader is asked for its next value; when it has none, the value of the
second reader is appended and the loop is left.  Returns the state and the lookahead values of
the next iteration, or `none` after `break`. -/
def MergeState.takeFirst (s : MergeState) (v1 v2 : Record) :
    Except Fault (MergeState × Option (Record × Record)) :=
  match s.append v1 with
  | .error e => .error e
  | .ok s1 =>
    match s1.getNext1 with
    | .error e => .error e
    | .ok (none, s2) =>
      match s2.append v2 with
      | .error e => .error e
      | .ok s3 => .ok (s3, none)
    | .ok (some v1', s2) => .ok (s2, some (v1', v2))

/-- The branch `else` of the loop of `mergeSiblingChunks`: the value of the second reader is
appended and the second reader is asked for its next value; when it has none, the value of the
first reader is appended and the loop is left. -/
def MergeState.takeSecond (s : MergeState) (v1 v2 : Record) :
    Except Fault (MergeState × Option (Record × Record)) :=
  match s.append v2 with
  | .error e => .error e
  | .ok s1 =>
    match s1.getNext2 with
    | .error e => .error e
    | .ok (none, s2) =>
      match s2.append v1 with
      | .error e => .error e
      | .ok s3 => .ok (s3, none)
    | .ok (some v2', s2) => .ok (s2, some (v1, v2'))

/-- One iteration of the loop `while(true)` of `mergeSiblingChunks`, entered with the lookahead
values `v1` and `v2`. -/
def mergeIter (v1 v2 : Record) (s : MergeState) :
    Except Fault (MergeState × Option (Record × Record)) :=
  if v1 < v2 then s.takeFirst v1 v2 else s.takeSecond v1 v2

/-- A merge state as `mergeChunks` sets it up over the source file 5,6 | 5,7 in two chunks of
nominal length 2, with regions of one record. -/
def tieStart : MergeState :=
  { ch1 := Chunk.new 1 1 2 0
    ch2 := Chunk.new 2 1 2 1
    cw := { begin := 0, endIt := 1, it := 0 }
    src := FStream.over [5, 6, 5, 7]
    dst := FStream.over []
    buf := [0, 0, 0] }

/-- The state `tieStart` after the first call of `getNext` on each reader: both lookahead values
are 5, the first reader has 6 left and the second has 7 left. -/
def tieMerge : MergeState :=
  { ch1 := { readOffset := 1, begin := 1, maxElements := 1, nextInBuf := 2, realEnd := 2,
             numbersToRead := 1 }
    ch2 := { readOffset := 3, begin := 2, maxElements := 1, nextInBuf := 3, realEnd := 3,
             numbersToRead := 1 }
    cw := { begin := 0, endIt := 1, it := 0 }
    src := { data := [5, 6, 5, 7], pos := 3, eofbit := false, failbit := false }
    dst := FStream.over []
    buf := [0, 5, 5] }

/-- What is recorded of one iteration of the loop of `mergeChunks`: the value of `chunkIndex`,
the state in which `mergeSiblingChunks` is called (the two readers as constructed, the writer,
the streams and the vector) and the state in which it returns. -/
structure PairRecord where
  chunkIndex : Nat
  start : MergeState
  stop : MergeState

/-- The `for` loop of `mergeChunks` (the function `mergeChunksLoop`), which also returns the
record of each of its iterations, that is, of the pairs of chunks it merged, in order. -/
def mergeChunksLoopLog (numbersInChunk chunkCount l : Nat) :
    Nat → Nat → PassState → Except Fault (PassState × List PairRecord)
  | 0, _, _ => .error .outOfFuel
  | fuel + 1, chunkIndex, p =>
    if chunkIndex < chunkCount then
      let ch1 := Chunk.new l l numbersInChunk chunkIndex
      let ch2 := Chunk.new (2 * l) l (if chunkIndex + 1 < chunkCount then numbersInChunk else 0)
        (chunkIndex + 1)
      match mergeSiblingChunks fuel
          { ch1 := ch1, ch2 := ch2, cw := p.cw, src := p.src, dst := p.dst, buf := p.buf } with
      | .error e => .error e
      | .ok s =>
        match mergeChunksLoopLog numbersInChunk chunkCount l fuel (chunkIndex + 2)
            { cw := s.cw, src := s.src, dst := s.dst, buf := s.buf } with
        | .error e => .error e
        | .ok (p1, log) =>
          .ok (p1,
            { chunkIndex := chunkIndex,
              start :=
                { ch1 := ch1, ch2 := ch2, cw := p.cw, src := p.src, dst := p.dst, buf := p.buf },
              stop := s } :: log)
    else
      .ok (p, [])

/-- The function `mergeChunks`, which also returns the record of each iteration of its loop. -/
def mergeChunksLog (fuel : Nat) (src dst : FStream) (buf : List Record)
    (numbersInChunk chunkCount : Nat) : Except Fault (PassResult × List PairRecord) :=
  let l := buf.length / 3
  let cw := ChunkWriter.new dst 0 l
  match mergeChunksLoopLog numbersInChunk chunkCount l fuel 0
      { cw := cw.1, src := src, dst := cw.2, buf := buf } with
  | .error e => .error e
  | .ok (p, log) =>
    match p.cw.destroy p.dst p.buf with
    | .error e => .error e
    | .ok dst1 =>
      .ok ({ ret := (numbersInChunk * 2) % 2 ^ 64, src := p.src, dst := dst1, buf := p.buf },
        log)

/-- The operations that `mergeSiblingChunks` performs on the state of a merge: a call of
`getNext` on the first reader, a call of `getNext` on the second reader, or a call of `append`
on the writer. -/
inductive MergeState.Op : MergeState → MergeState → Prop
  | next1 {s s1 : MergeState} {v : Option Record} : s.getNext1 = .ok (v, s1) → Op s s1
  | next2 {s s1 : MergeState} {v : Option Record} : s.getNext2 = .ok (v, s1) → Op s s1
  | append {s s1 : MergeState} {v : Record} : s.append v = .ok s1 → Op s s1

/-- The partition of the vector in a pass with regions of `l` records: the writer owns `[0, l)`
and its cursor is strictly below `l`; the first reader owns `[l, 2 * l)`, the second
`[2 * l, 3 * l)`, and the cursor and the filled end of each reader are inside its region. -/
structure MergeState.InRegions (s : MergeState) (l : Nat) : Prop where
  fits : 3 * l ≤ s.buf.length
  cw_begin : s.cw.begin = 0
  cw_end : s.cw.endIt = l
  cw_it : s.cw.it < l
  ch1_begin : s.ch1.begin = l
  ch1_max : s.ch1.maxElements = l
  ch1_next : l ≤ s.ch1.nextInBuf
  ch1_le : s.ch1.nextInBuf ≤ s.ch1.realEnd
  ch1_end : s.ch1.realEnd ≤ 2 * l
  ch2_begin : s.ch2.begin = 2 * l
  ch2_max : s.ch2.maxElements = l
  ch2_next : 2 * l ≤ s.ch2.nextInBuf
  ch2_le : s.ch2.nextInBuf ≤ s.ch2.realEnd
  ch2_end : s.ch2.realEnd ≤ 3 * l

/-- A file system whose only file, at the path `in`, holds the records `R` followed by the
trailing bytes `tail`, and on which every path can be opened. -/
def fsTail (R : List Record) (tail : List Nat) : FileSystem :=
  { entries := fun p => if p = "in" then some { recs := R, tail := tail } else none
    denied := fun _ => false }

/-- One iteration of the loop of `sortFile` over a file of `numbersInFile` records: in the state
`s` a pass is due, the call of `mergeChunks` that the loop makes returns, and `s1` is the state
after the swap of `pw[0]` and `pw[1]`. -/
def SortState.Pass (numbersInFile : Nat) (s s1 : SortState) : Prop :=
  s.numbersInChunk < numbersInFile ∧ s.numbersInChunk ≠ 0 ∧
    ∃ fuel r, mergeChunks fuel (s.wrapper s.pw0).stream (s.wrapper s.pw1).stream s.buf
        s.numbersInChunk
        (if numbersInFile % s.numbersInChunk ≠ 0 then numbersInFile / s.numbersInChunk + 1
          else numbersInFile / s.numbersInChunk) = .ok r ∧
      s1 = s.afterPass r

/-! # Proofs -/

/-! ## Facts about the shared buffer -/

theorem put_length {buf : List Record} {i : Nat} {vals : List Record}
    (h : i + vals.length ≤ buf.length) : (put buf i vals).length = buf.length := by
  simp only [put, List.length_append, List.length_take, List.length_drop]
  omega

theorem put_getElem?_outside {buf : List Record} {i : Nat} {vals : List Record}
    (h : i + vals.length ≤ buf.length) {j : Nat} (hj : j < i ∨ i + vals.length ≤ j) :
    (put buf i vals)[j]? = buf[j]? := by
  unfold put
  rcases hj with hj | hj
  · rw [List.append_assoc, List.getElem?_append_left (by simp; omega)]
    rw [List.getElem?_take_of_lt hj]
  · rw [List.getElem?_append_right (by simp; omega)]
    simp only [List.length_append, List.length_take, List.getElem?_drop]
    congr 1
    omega

theorem window_nil (buf : List Record) (a : Nat) : window buf a a = [] := by
  simp [window]

theorem window_length {buf : List Record} {a b : Nat} (hb : b ≤ buf.length) :
    (window buf a b).length = b - a := by
  simp only [window, List.length_take, List.length_drop]
  omega

theorem window_congr {buf buf1 : List Record} {a b : Nat}
    (h : ∀ i, a ≤ i → i < b → buf1[i]? = buf[i]?) : window buf1 a b = window buf a b := by
  unfold window
  apply List.ext_getElem?
  intro n
  simp only [List.getElem?_take, List.getElem?_drop]
  split
  · apply h <;> omega
  · rfl

theorem window_cons {buf : List Record} {a b : Nat} {v : Record} (hab : a < b)
    (hv : buf[a]? = some v) : window buf a b = v :: window buf (a + 1) b := by
  unfold window
  have ha : a < buf.length := by
    rcases Nat.lt_or_ge a buf.length with h | h
    · exact h
    · rw [List.getElem?_eq_none h] at hv; cases hv
  rw [List.drop_eq_getElem_cons ha]
  have : b - a = (b - (a + 1)) + 1 := by omega
  rw [this, List.take_succ_cons]
  rw [List.getElem?_eq_getElem ha] at hv
  cases hv
  rfl

theorem window_put_same {buf : List Record} {i : Nat} {vals : List Record}
    (h : i + vals.length ≤ buf.length) : window (put buf i vals) i (i + vals.length) = vals := by
  unfold window put
  rw [List.append_assoc, List.drop_append_of_le_length (by simp; omega)]
  have : List.drop i (List.take i buf) = [] := by
    apply List.drop_eq_nil_of_le; simp
  rw [this, List.nil_append]
  have : i + vals.length - i = vals.length := by omega
  rw [this, List.take_left']
  rfl

theorem window_append {buf : List Record} {a b c : Nat} (hab : a ≤ b) (hbc : b ≤ c) :
    window buf a c = window buf a b ++ window buf b c := by
  unfold window
  have h1 : c - a = (b - a) + (c - b) := by omega
  rw [h1, List.take_add, List.drop_drop]
  congr 3
  omega

theorem window_put_snoc {buf : List Record} {a i : Nat} {v : Record} (hai : a ≤ i)
    (h : i < buf.length) : window (put buf i [v]) a (i + 1) = window buf a i ++ [v] := by
  have hl : i + [v].length ≤ buf.length := by simpa using h
  rw [window_append hai (Nat.le_succ i)]
  congr 1
  · apply window_congr
    intro j _ hj
    exact put_getElem?_outside hl (Or.inl hj)
  · simpa using window_put_same hl

theorem storeAt_ok {buf : List Record} {i : Nat} {vals : List Record}
    (h : i + vals.length ≤ buf.length) : storeAt buf i vals = .ok (put buf i vals) := by
  simp [storeAt, h]

theorem slice_ok {buf : List Record} {a b : Nat} (hab : a ≤ b) (hb : b ≤ buf.length) :
    slice buf a b = .ok (window buf a b) := by
  simp [slice, hab, hb]

theorem window_zero_length (buf : List Record) : window buf 0 buf.length = buf := by
  simp [window]

theorem window_zero (buf : List Record) (n : Nat) : window buf 0 n = buf.take n := by
  simp [window]

/-! ## Vectors that agree outside a region -/

theorem SameOutside.refl_same (buf : List Record) (a b : Nat) : SameOutside buf buf a b :=
  ⟨rfl, fun _ _ => rfl⟩

theorem SameOutside.trans_same {b2 b1 b0 : List Record} {a b : Nat} (h21 : SameOutside b2 b1 a b)
    (h10 : SameOutside b1 b0 a b) : SameOutside b2 b0 a b :=
  ⟨h21.1.trans h10.1, fun i hi => (h21.2 i hi).trans (h10.2 i hi)⟩

theorem SameOutside.window {buf1 buf : List Record} {a b c d : Nat}
    (h : SameOutside buf1 buf a b) (hd : d ≤ a ∨ b ≤ c) : window buf1 c d = window buf c d := by
  apply window_congr
  intro i hci hid
  apply h.2
  omega

theorem sameOutside_put {buf : List Record} {i : Nat} {vals : List Record} {a b : Nat}
    (h : i + vals.length ≤ buf.length) (ha : a ≤ i) (hb : i + vals.length ≤ b) :
    SameOutside (put buf i vals) buf a b := by
  refine ⟨put_length h, fun j hj => put_getElem?_outside h ?_⟩
  omega

/-! ## The reader -/

theorem Chunk.fillBuf_eq (c : Chunk) (f : FStream) (buf : List Record) (hg : f.Good)
    (h0 : c.numbersToRead ≠ 0) (hoff : c.readOffset < 2 ^ 60) (hsm : f.data.length < 2 ^ 60)
    (hstore : c.begin
      + ((f.data.drop c.readOffset).take (min c.maxElements c.numbersToRead)).length
        ≤ buf.length) :
    c.fillBuf f buf =
      .ok ({ c with
              numbersToRead :=
                if ((f.data.drop c.readOffset).take (min c.maxElements c.numbersToRead)).length
                    < min c.maxElements c.numbersToRead then 0
                else c.numbersToRead
                  - ((f.data.drop c.readOffset).take (min c.maxElements c.numbersToRead)).length
              realEnd := c.begin
                + ((f.data.drop c.readOffset).take (min c.maxElements c.numbersToRead)).length
              readOffset := c.readOffset
                + ((f.data.drop c.readOffset).take (min c.maxElements c.numbersToRead)).length
              nextInBuf := c.begin },
           { f with pos := c.readOffset
                + ((f.data.drop c.readOffset).take (min c.maxElements c.numbersToRead)).length },
           put buf c.begin
             ((f.data.drop c.readOffset).take (min c.maxElements c.numbersToRead))) := by
  obtain ⟨data, pos, e, fl⟩ := f
  obtain ⟨h1, h2⟩ := hg
  simp only at h1 h2
  subst h1 h2
  simp only at hstore hsm
  have hst := storeAt_ok hstore
  have hmod : (c.readOffset
      + ((data.drop c.readOffset).take (min c.maxElements c.numbersToRead)).length) % 2 ^ 61
      = c.readOffset
        + ((data.drop c.readOffset).take (min c.maxElements c.numbersToRead)).length := by
    apply Nat.mod_eq_of_lt
    rw [List.length_take, List.length_drop]
    omega
  simp only [Chunk.fillBuf, h0, if_false, FStream.seekg, FStream.fail, FStream.read, FStream.good,
    Bool.not_false, Bool.and_self, if_true, Bool.false_eq_true, Nat.not_le.mpr hoff]
  generalize List.take (min c.maxElements c.numbersToRead) (List.drop c.readOffset data) = got
    at hst hmod ⊢
  by_cases hs : got.length < min c.maxElements c.numbersToRead
  · simp only [hs, if_true, hst, FStream.eof, FStream.clear, hmod]
  · simp only [hs, if_false, hst, FStream.eof, FStream.clear, Bool.false_eq_true, hmod]

theorem Chunk.fillBuf_spec (c : Chunk) (f : FStream) (buf : List Record) (hv : c.Valid buf)
    (hg : f.Good) (hsm : f.data.length < 2 ^ 60) (he : c.nextInBuf = c.realEnd) :
    ∃ c1 f1 buf1, c.fillBuf f buf = .ok (c1, f1, buf1) ∧ c1.Valid buf1 ∧ f1.Good ∧
      f1.data = f.data ∧ c1.begin = c.begin ∧ c1.maxElements = c.maxElements ∧
      c1.pending f.data buf1 = c.pending f.data buf ∧
      SameOutside buf1 buf c.begin (c.begin + c.maxElements) ∧
      (c1.nextInBuf = c1.realEnd → c1.numbersToRead = 0) := by
  obtain ⟨hm, hin, hbn, hne, hel, hoff⟩ := hv
  by_cases h0 : c.numbersToRead = 0
  · exact ⟨c, f, buf, by simp [Chunk.fillBuf, h0], ⟨hm, hin, hbn, hne, hel, hoff⟩, hg, rfl, rfl,
      rfl, rfl, SameOutside.refl_same _ _ _, fun _ => h0⟩
  · have hmin1 := Nat.min_le_left c.maxElements c.numbersToRead
    have hmin2 := Nat.min_le_right c.maxElements c.numbersToRead
    have hmin3 : 1 ≤ min c.maxElements c.numbersToRead := by
      apply Nat.le_min.mpr; constructor <;> omega
    have hlen : ((f.data.drop c.readOffset).take (min c.maxElements c.numbersToRead)).length
        ≤ min c.maxElements c.numbersToRead := by
      rw [List.length_take]; exact Nat.min_le_left _ _
    have hstore : c.begin
        + ((f.data.drop c.readOffset).take (min c.maxElements c.numbersToRead)).length
          ≤ buf.length := by omega
    have hwin : window buf c.nextInBuf c.realEnd = [] := by rw [he]; exact window_nil _ _
    have hpend : c.pending f.data buf = (f.data.drop c.readOffset).take c.numbersToRead := by
      simp [Chunk.pending, hwin]
    refine ⟨_, _, _, Chunk.fillBuf_eq c f buf hg h0 hoff hsm hstore, ?_, ?_, rfl, rfl, rfl, ?_,
      ?_, ?_⟩
    · refine ⟨hm, by rw [put_length hstore]; exact hin, Nat.le_refl _, Nat.le_add_right _ _, by
        simp only [Nat.add_le_add_iff_left]; omega, ?_⟩
      show c.readOffset
        + ((f.data.drop c.readOffset).take (min c.maxElements c.numbersToRead)).length < 2 ^ 60
      rw [List.length_take, List.length_drop]
      omega
    · exact ⟨hg.1, hg.2⟩
    · rw [hpend]
      simp only [Chunk.pending]
      rw [window_put_same hstore]
      split
      · rename_i hshort
        have hdl : (f.data.drop c.readOffset).length < min c.maxElements c.numbersToRead := by
          by_contra hcon
          rw [List.length_take] at hshort
          omega
        rw [List.take_zero, List.append_nil, List.take_of_length_le (by omega),
          List.take_of_length_le (by omega)]
      · rename_i hshort
        have hfull : ((f.data.drop c.readOffset).take
            (min c.maxElements c.numbersToRead)).length = min c.maxElements c.numbersToRead := by
          omega
        rw [hfull]
        have h3 : c.numbersToRead = min c.maxElements c.numbersToRead
            + (c.numbersToRead - min c.maxElements c.numbersToRead) := by omega
        conv_rhs => rw [h3, List.take_add]
        rw [List.drop_drop]
    · exact sameOutside_put hstore (Nat.le_refl _) (by omega)
    · intro hh
      simp only at hh
      split
      · rfl
      · omega

theorem Chunk.getNext_of_fill {c : Chunk} {f : FStream} {buf : List Record} {c1 : Chunk}
    {f1 : FStream} {buf1 : List Record}
    (h : (if c.nextInBuf = c.realEnd then c.fillBuf f buf else .ok (c, f, buf))
      = .ok (c1, f1, buf1)) :
    c.getNext f buf =
      if c1.isProcessed then .ok (none, c1, f1, buf1)
      else
        match loadAt buf1 c1.nextInBuf with
        | .error e => .error e
        | .ok v => .ok (some v, { c1 with nextInBuf := c1.nextInBuf + 1 }, f1, buf1) := by
  unfold Chunk.getNext
  rw [h]

theorem loadAt_ok {buf : List Record} {i : Nat} {v : Record} (h : buf[i]? = some v) :
    loadAt buf i = .ok v := by
  simp [loadAt, h]

/-- One call of `getNext` on a valid reader over a good stream: it delivers the first pending
record (or reports the end when none is pending), keeps the reader valid and the stream good,
and changes the vector only inside the reader's region. -/
theorem Chunk.getNext_spec (c : Chunk) (f : FStream) (buf : List Record) (hv : c.Valid buf)
    (hg : f.Good) (hsm : f.data.length < 2 ^ 60) :
    ∃ c1 f1 buf1, c.getNext f buf = .ok ((c.pending f.data buf).head?, c1, f1, buf1) ∧
      c1.Valid buf1 ∧ f1.Good ∧ f1.data = f.data ∧ c1.begin = c.begin ∧
      c1.maxElements = c.maxElements ∧
      c1.pending f.data buf1 = (c.pending f.data buf).tail ∧
      SameOutside buf1 buf c.begin (c.begin + c.maxElements) := by
  -- the state after the conditional refill
  have hfill : ∃ c1 f1 buf1,
      (if c.nextInBuf = c.realEnd then c.fillBuf f buf else .ok (c, f, buf))
        = .ok (c1, f1, buf1) ∧ c1.Valid buf1 ∧ f1.Good ∧
      f1.data = f.data ∧ c1.begin = c.begin ∧ c1.maxElements = c.maxElements ∧
      c1.pending f.data buf1 = c.pending f.data buf ∧
      SameOutside buf1 buf c.begin (c.begin + c.maxElements) ∧
      (c1.nextInBuf = c1.realEnd → c1.numbersToRead = 0) := by
    by_cases he : c.nextInBuf = c.realEnd
    · rw [if_pos he]
      exact Chunk.fillBuf_spec c f buf hv hg hsm he
    · rw [if_neg he]
      exact ⟨c, f, buf, rfl, hv, hg, rfl, rfl, rfl, rfl, SameOutside.refl_same _ _ _,
        fun h => absurd h he⟩
  obtain ⟨c1, f1, buf1, heq, hv1, hg1, hd1, hb1, hm1, hp1, hs1, hz1⟩ := hfill
  rw [Chunk.getNext_of_fill heq, ← hp1]
  by_cases hproc : c1.isProcessed = true
  · rw [if_pos hproc]
    simp only [Chunk.isProcessed, Bool.and_eq_true, beq_iff_eq] at hproc
    have hnil : c1.pending f.data buf1 = [] := by
      simp [Chunk.pending, hproc.1, hproc.2, window_nil]
    rw [hnil]
    exact ⟨c1, f1, buf1, rfl, hv1, hg1, hd1, hb1, hm1, hnil, hs1⟩
  · rw [if_neg hproc]
    simp only [Chunk.isProcessed, Bool.and_eq_true, beq_iff_eq, not_and] at hproc
    have hlt : c1.nextInBuf < c1.realEnd := by
      rcases Nat.lt_or_ge c1.nextInBuf c1.realEnd with h | h
      · exact h
      · have he : c1.nextInBuf = c1.realEnd := Nat.le_antisymm hv1.next_le h
        exact absurd he (hproc (hz1 he))
    have hin : c1.nextInBuf < buf1.length := by
      have := hv1.end_le; have := hv1.in_buf; omega
    have hget : buf1[c1.nextInBuf]? = some buf1[c1.nextInBuf] := List.getElem?_eq_getElem hin
    have hw := window_cons hlt hget
    have hpend : c1.pending f.data buf1
        = buf1[c1.nextInBuf] :: (window buf1 (c1.nextInBuf + 1) c1.realEnd
            ++ (f.data.drop c1.readOffset).take c1.numbersToRead) := by
      simp [Chunk.pending, hw]
    rw [loadAt_ok hget, hpend]
    refine ⟨_, f1, buf1, rfl, ?_, hg1, hd1, hb1, hm1, rfl, hs1⟩
    exact ⟨hv1.max_pos, hv1.in_buf, Nat.le_succ_of_le hv1.begin_le, hlt, hv1.end_le,
      hv1.off_lt⟩

/-! ## The writer -/

theorem FStream.Ahead.refl_ahead (f : FStream) : f.Ahead f := ⟨Nat.le_refl _, rfl⟩

theorem FStream.Ahead.trans_ahead {f2 f1 f0 : FStream} (h21 : f2.Ahead f1) (h10 : f1.Ahead f0) :
    f2.Ahead f0 := by
  refine ⟨Nat.le_trans h10.1 h21.1, ?_⟩
  rw [h21.2]
  have h : f2.pos = f1.pos + (f2.pos - f1.pos) := by have := h21.1; omega
  rw [h, ← List.drop_drop, ← List.drop_drop, h10.2]

theorem FStream.write_writable (f : FStream) (vals : List Record) (h : f.Writable) :
    (f.write vals).Writable ∧ (f.write vals).pos = f.pos + vals.length ∧
      (f.write vals).data.take (f.write vals).pos = f.data.take f.pos ++ vals ∧
      (f.write vals).Ahead f := by
  obtain ⟨data, pos, e, fl⟩ := f
  obtain ⟨⟨h1, h2⟩, h3⟩ := h
  simp only at h1 h2 h3
  subst h1 h2
  have hz : pos - data.length = 0 := by omega
  have hdata : (FStream.write ⟨data, pos, false, false⟩ vals).data
      = data.take pos ++ vals ++ data.drop (pos + vals.length) := by
    simp [FStream.write, FStream.good, hz]
  have hpos : (FStream.write ⟨data, pos, false, false⟩ vals).pos = pos + vals.length := by
    simp [FStream.write, FStream.good]
  have hlen : (data.take pos ++ vals).length = pos + vals.length := by
    simp [List.length_take, Nat.min_eq_left h3]
  refine ⟨⟨⟨?_, ?_⟩, ?_⟩, hpos, ?_, ⟨?_, ?_⟩⟩
  · simp [FStream.write, FStream.good]
  · simp [FStream.write, FStream.good]
  · rw [hpos, hdata]
    simp only [List.length_append, List.length_take, List.length_drop]
    omega
  · rw [hpos, hdata, ← hlen, List.take_left']
    rfl
  · rw [hpos]; exact Nat.le_add_right _ _
  · rw [hpos, hdata, ← hlen, List.drop_left']
    rfl

/-- Flushing the window of a valid writer: the stream moves past the records of the window. -/
theorem ChunkWriter.flush_spec (w : ChunkWriter) (dst : FStream) (buf : List Record)
    (hb : w.begin ≤ w.it) (he : w.it ≤ buf.length) (hd : dst.Writable) :
    ∃ dst1, w.flush dst buf = .ok dst1 ∧ dst1.Writable ∧
      dst1.data.take dst1.pos = w.written dst buf ∧ dst1.Ahead dst ∧
      dst1.pos = dst.pos + (w.it - w.begin) := by
  obtain ⟨h1, h2, h3, h4⟩ := FStream.write_writable dst (window buf w.begin w.it) hd
  rw [window_length he] at h2
  exact ⟨_, by simp [ChunkWriter.flush, slice_ok hb he], h1, h3, h4, h2⟩

/-- One call of `append` on a valid writer: the record joins the records written, the writer
stays valid and the vector changes only inside the writer's region. -/
theorem ChunkWriter.append_spec (w : ChunkWriter) (dst : FStream) (buf : List Record)
    (v : Record) (hv : w.Valid buf) (hd : dst.Writable) :
    ∃ w1 dst1 buf1, w.append dst buf v = .ok (w1, dst1, buf1) ∧ w1.Valid buf1 ∧
      dst1.Writable ∧ w1.begin = w.begin ∧ w1.endIt = w.endIt ∧
      w1.written dst1 buf1 = w.written dst buf ++ [v] ∧
      SameOutside buf1 buf w.begin w.endIt ∧ dst1.Ahead dst ∧
      ((w.it + 1 < w.endIt ∧ w1.it = w.it + 1 ∧ dst1.pos = dst.pos)
        ∨ (w.it + 1 = w.endIt ∧ w1.it = w.begin
          ∧ dst1.pos = dst.pos + (w.endIt - w.begin))) := by
  obtain ⟨hb, hlt, hend⟩ := hv
  have hit : w.it < buf.length := by omega
  have hst : w.it + [v].length ≤ buf.length := by simpa using hit
  have hput := put_length hst
  have hsame : SameOutside (put buf w.it [v]) buf w.begin w.endIt :=
    sameOutside_put hst hb (by simpa using hlt)
  have hwin := @window_put_snoc buf w.begin w.it v hb hit
  by_cases hfull : w.it + 1 = w.endIt
  · obtain ⟨dst1, hfl, hw1, htk, hah, hpos⟩ :=
      ChunkWriter.flush_spec { w with it := w.it + 1 } dst (put buf w.it [v])
        (Nat.le_succ_of_le hb) (by rw [hput]; exact hit) hd
    refine ⟨{ w with it := w.begin }, dst1, put buf w.it [v], ?_, ?_, hw1, rfl, rfl, ?_, hsame,
      hah, Or.inr ⟨hfull, rfl, by rw [hpos, ← hfull]⟩⟩
    · rw [hfull] at hfl
      simp only [ChunkWriter.append, storeAt_ok hst, hfull, if_true, hfl]
    · exact ⟨Nat.le_refl _, by show w.begin < w.endIt; omega, by rw [hput]; exact hend⟩
    · simp only [ChunkWriter.written, window_nil, List.append_nil]
      rw [htk]
      simp only [ChunkWriter.written, hwin, List.append_assoc]
  · refine ⟨{ w with it := w.it + 1 }, dst, put buf w.it [v], ?_, ?_, hd, rfl, rfl, ?_, hsame,
      FStream.Ahead.refl_ahead _, Or.inl ⟨by omega, rfl, rfl⟩⟩
    · simp only [ChunkWriter.append, storeAt_ok hst, hfull, if_false]
    · exact ⟨Nat.le_succ_of_le hb, by show w.it + 1 < w.endIt; omega, by rw [hput]; exact hend⟩
    · simp only [ChunkWriter.written, hwin, List.append_assoc]

/-! ## The steps of a merge -/

namespace MergeState

theorem Step.refl_step (s : MergeState) : s.Step s :=
  ⟨rfl, FStream.Ahead.refl_ahead _, rfl, rfl, rfl, rfl, rfl, rfl, rfl⟩

theorem Step.trans_step {s2 s1 s0 : MergeState} (h21 : s2.Step s1) (h10 : s1.Step s0) : s2.Step s0 :=
  ⟨h21.data.trans h10.data, h21.ahead.trans_ahead h10.ahead, h21.len.trans h10.len,
    h21.cw_begin.trans h10.cw_begin, h21.cw_end.trans h10.cw_end,
    h21.ch1_begin.trans h10.ch1_begin, h21.ch1_max.trans h10.ch1_max,
    h21.ch2_begin.trans h10.ch2_begin, h21.ch2_max.trans h10.ch2_max⟩

theorem chunk_valid_of_length {c : Chunk} {buf buf1 : List Record} (h : c.Valid buf)
    (hl : buf1.length = buf.length) : c.Valid buf1 :=
  ⟨h.max_pos, by rw [hl]; exact h.in_buf, h.begin_le, h.next_le, h.end_le, h.off_lt⟩

theorem writer_valid_of_length {w : ChunkWriter} {buf buf1 : List Record} (h : w.Valid buf)
    (hl : buf1.length = buf.length) : w.Valid buf1 :=
  ⟨h.begin_le, h.it_lt, by rw [hl]; exact h.end_le⟩

theorem getNext1_spec (s : MergeState) (hv : s.Valid) :
    ∃ s1, s.getNext1 = .ok (s.pending1.head?, s1) ∧ s1.Valid ∧ s1.Step s ∧
      s1.pending1 = s.pending1.tail ∧ s1.pending2 = s.pending2 ∧ s1.written = s.written := by
  obtain ⟨c1, f1, buf1, heq, hv1, hg1, hd1, hb1, hm1, hp1, hs1⟩ :=
    Chunk.getNext_spec s.ch1 s.src s.buf hv.ch1 hv.src hv.small
  have h1 := hv.ch1
  have h2 := hv.ch2
  have hw := hv.cw
  refine ⟨{ s with ch1 := c1, src := f1, buf := buf1 }, ?_, ?_, ?_, ?_, ?_, ?_⟩
  · simp only [getNext1, heq]; rfl
  · refine ⟨hv1, chunk_valid_of_length hv.ch2 hs1.1, writer_valid_of_length hv.cw hs1.1, hg1,
      by show f1.data.length < 2 ^ 60; rw [hd1]; exact hv.small, hv.dst, ?_, ?_, hv.sep2w⟩
    · show c1.begin + c1.maxElements ≤ s.ch2.begin ∨ s.ch2.begin + s.ch2.maxElements ≤ c1.begin
      rw [hb1, hm1]; exact hv.sep12
    · show c1.begin + c1.maxElements ≤ s.cw.begin ∨ s.cw.endIt ≤ c1.begin
      rw [hb1, hm1]; exact hv.sep1w
  · exact ⟨hd1, FStream.Ahead.refl_ahead _, hs1.1, rfl, rfl, hb1, hm1, rfl, rfl⟩
  · show c1.pending f1.data buf1 = _
    rw [hd1, hp1]; rfl
  · show s.ch2.pending f1.data buf1 = s.ch2.pending s.src.data s.buf
    rw [hd1]
    unfold Chunk.pending
    rw [hs1.window]
    have := hv.sep12; have := h2.begin_le; have := h2.next_le; have := h2.end_le
    omega
  · show s.cw.written s.dst buf1 = s.cw.written s.dst s.buf
    unfold ChunkWriter.written
    rw [hs1.window]
    have := hv.sep1w; have := hw.begin_le; have := hw.it_lt
    omega

theorem getNext2_spec (s : MergeState) (hv : s.Valid) :
    ∃ s1, s.getNext2 = .ok (s.pending2.head?, s1) ∧ s1.Valid ∧ s1.Step s ∧
      s1.pending2 = s.pending2.tail ∧ s1.pending1 = s.pending1 ∧ s1.written = s.written := by
  obtain ⟨c1, f1, buf1, heq, hv1, hg1, hd1, hb1, hm1, hp1, hs1⟩ :=
    Chunk.getNext_spec s.ch2 s.src s.buf hv.ch2 hv.src hv.small
  have h1 := hv.ch1
  have h2 := hv.ch2
  have hw := hv.cw
  refine ⟨{ s with ch2 := c1, src := f1, buf := buf1 }, ?_, ?_, ?_, ?_, ?_, ?_⟩
  · simp only [getNext2, heq]; rfl
  · refine ⟨chunk_valid_of_length hv.ch1 hs1.1, hv1, writer_valid_of_length hv.cw hs1.1, hg1,
      by show f1.data.length < 2 ^ 60; rw [hd1]; exact hv.small, hv.dst, ?_, hv.sep1w, ?_⟩
    · show s.ch1.begin + s.ch1.maxElements ≤ c1.begin ∨ c1.begin + c1.maxElements ≤ s.ch1.begin
      rw [hb1, hm1]; exact hv.sep12
    · show c1.begin + c1.maxElements ≤ s.cw.begin ∨ s.cw.endIt ≤ c1.begin
      rw [hb1, hm1]; exact hv.sep2w
  · exact ⟨hd1, FStream.Ahead.refl_ahead _, hs1.1, rfl, rfl, rfl, rfl, hb1, hm1⟩
  · show c1.pending f1.data buf1 = _
    rw [hd1, hp1]; rfl
  · show s.ch1.pending f1.data buf1 = s.ch1.pending s.src.data s.buf
    rw [hd1]
    unfold Chunk.pending
    rw [hs1.window]
    have := hv.sep12; have := h1.begin_le; have := h1.next_le; have := h1.end_le
    omega
  · show s.cw.written s.dst buf1 = s.cw.written s.dst s.buf
    unfold ChunkWriter.written
    rw [hs1.window]
    have := hv.sep2w; have := hw.begin_le; have := hw.it_lt
    omega

theorem appendRecord_spec (s : MergeState) (v : Record) (hv : s.Valid) :
    ∃ s1, s.append v = .ok s1 ∧ s1.Valid ∧ s1.Step s ∧
      s1.pending1 = s.pending1 ∧ s1.pending2 = s.pending2 ∧ s1.written = s.written ++ [v] := by
  obtain ⟨w1, dst1, buf1, heq, hv1, hd1, hb1, he1, hw1, hs1, ha1, _⟩ :=
    ChunkWriter.append_spec s.cw s.dst s.buf v hv.cw hv.dst
  have h1 := hv.ch1
  have h2 := hv.ch2
  refine ⟨{ s with cw := w1, dst := dst1, buf := buf1 }, ?_, ?_, ?_, ?_, ?_, ?_⟩
  · simp only [append, heq]
  · refine ⟨chunk_valid_of_length hv.ch1 hs1.1, chunk_valid_of_length hv.ch2 hs1.1, hv1, hv.src,
      hv.small, hd1, hv.sep12, ?_, ?_⟩
    · show s.ch1.begin + s.ch1.maxElements ≤ w1.begin ∨ w1.endIt ≤ s.ch1.begin
      rw [hb1, he1]; exact hv.sep1w
    · show s.ch2.begin + s.ch2.maxElements ≤ w1.begin ∨ w1.endIt ≤ s.ch2.begin
      rw [hb1, he1]; exact hv.sep2w
  · exact ⟨rfl, ha1, hs1.1, hb1, he1, rfl, rfl, rfl, rfl⟩
  · show s.ch1.pending s.src.data buf1 = s.ch1.pending s.src.data s.buf
    unfold Chunk.pending
    rw [hs1.window]
    have := hv.sep1w; have := h1.begin_le; have := h1.next_le; have := h1.end_le
    omega
  · show s.ch2.pending s.src.data buf1 = s.ch2.pending s.src.data s.buf
    unfold Chunk.pending
    rw [hs1.window]
    have := hv.sep2w; have := h2.begin_le; have := h2.next_le; have := h2.end_le
    omega
  · exact hw1

end MergeState

open MergeState

/-! ## The function `mergeSiblingChunks` -/

theorem mergeRuns_nil_right (xs : List Record) : mergeRuns xs [] = xs := by
  cases xs <;> simp [mergeRuns]

theorem mergeRuns_cons_lt {x y : Record} (xs ys : List Record) (h : x < y) :
    mergeRuns (x :: xs) (y :: ys) = x :: mergeRuns xs (y :: ys) := by
  simp [mergeRuns, h]

theorem mergeRuns_cons_ge {x y : Record} (xs ys : List Record) (h : ¬ x < y) :
    mergeRuns (x :: xs) (y :: ys) = y :: mergeRuns (x :: xs) ys := by
  simp [mergeRuns, h]

/-- The loop of `mergeSiblingChunks`, entered with the lookahead values `v1` and `v2`: it stops
with one reader at its end, and what it has written followed by what is left pending is the
merge of the two runs. -/
theorem mergeLoop_spec : ∀ (fuel : Nat) (v1 v2 : Record) (s : MergeState), s.Valid →
    s.pending1.length + s.pending2.length + 1 ≤ fuel →
    ∃ s1, mergeLoop fuel v1 v2 s = .ok s1 ∧ s1.Valid ∧ s1.Step s ∧
      (s1.pending1 = [] ∨ s1.pending2 = []) ∧
      s1.written ++ (s1.pending1 ++ s1.pending2)
        = s.written ++ mergeRuns (v1 :: s.pending1) (v2 :: s.pending2) ∧
      s1.pending1.length + s1.pending2.length ≤ s.pending1.length + s.pending2.length := by
  intro fuel
  induction fuel with
  | zero => intro v1 v2 s _ h; omega
  | succ fuel ih =>
    intro v1 v2 s hv hfuel
    by_cases hlt : v1 < v2
    · obtain ⟨s1, ha, hv1, hst1, hp11, hp21, hw1⟩ := appendRecord_spec s v1 hv
      obtain ⟨s2, hg, hv2, hst2, hp12, hp22, hw2⟩ := getNext1_spec s1 hv1
      rw [hp11] at hg hp12
      rw [hp21] at hp22
      rw [hw1] at hw2
      cases hp : s.pending1 with
      | nil =>
        rw [hp] at hg hp12
        obtain ⟨s3, ha3, hv3, hst3, hp13, hp23, hw3⟩ := appendRecord_spec s2 v2 hv2
        refine ⟨s3, ?_, hv3, hst3.trans_step (hst2.trans_step hst1), Or.inl (by rw [hp13, hp12]; rfl), ?_,
          ?_⟩
        · simp only [mergeLoop, hlt, if_true, ha, hg, List.head?_nil, ha3]
        · rw [hw3, hw2, hp13, hp12, hp23, hp22, mergeRuns_cons_lt _ _ hlt]
          simp [mergeRuns]
        · rw [hp13, hp12, hp23, hp22]; simp
      | cons a rest =>
        rw [hp] at hg hp12
        have hf : s2.pending1.length + s2.pending2.length + 1 ≤ fuel := by
          rw [hp12, hp22]; rw [hp] at hfuel; simp at hfuel ⊢; omega
        obtain ⟨s3, hl, hv3, hst3, hor, hout, hle⟩ := ih a v2 s2 hv2 hf
        refine ⟨s3, ?_, hv3, hst3.trans_step (hst2.trans_step hst1), hor, ?_, ?_⟩
        · simp only [mergeLoop, hlt, if_true, ha, hg, List.head?_cons, hl]
        · rw [hout, hw2, hp12, hp22, mergeRuns_cons_lt _ _ hlt]
          simp
        · rw [hp12, hp22] at hle; simp at hle ⊢; omega
    · obtain ⟨s1, ha, hv1, hst1, hp11, hp21, hw1⟩ := appendRecord_spec s v2 hv
      obtain ⟨s2, hg, hv2, hst2, hp22, hp12, hw2⟩ := getNext2_spec s1 hv1
      rw [hp21] at hg hp22
      rw [hp11] at hp12
      rw [hw1] at hw2
      cases hp : s.pending2 with
      | nil =>
        rw [hp] at hg hp22
        obtain ⟨s3, ha3, hv3, hst3, hp13, hp23, hw3⟩ := appendRecord_spec s2 v1 hv2
        refine ⟨s3, ?_, hv3, hst3.trans_step (hst2.trans_step hst1), Or.inr (by rw [hp23, hp22]; rfl), ?_,
          ?_⟩
        · simp only [mergeLoop, hlt, if_false, ha, hg, List.head?_nil, ha3]
        · rw [hw3, hw2, hp13, hp12, hp23, hp22, mergeRuns_cons_ge _ _ hlt]
          simp [mergeRuns_nil_right]
        · rw [hp13, hp12, hp23, hp22]; simp
      | cons a rest =>
        rw [hp] at hg hp22
        have hf : s2.pending1.length + s2.pending2.length + 1 ≤ fuel := by
          rw [hp12, hp22]; rw [hp] at hfuel; simp at hfuel ⊢; omega
        obtain ⟨s3, hl, hv3, hst3, hor, hout, hle⟩ := ih v1 a s2 hv2 hf
        refine ⟨s3, ?_, hv3, hst3.trans_step (hst2.trans_step hst1), hor, ?_, ?_⟩
        · simp only [mergeLoop, hlt, if_false, ha, hg, List.head?_cons, hl]
        · rw [hout, hw2, hp12, hp22, mergeRuns_cons_ge _ _ hlt]
          simp
        · rw [hp12, hp22] at hle; simp at hle ⊢; omega

theorem drain1_spec : ∀ (fuel : Nat) (s : MergeState), s.Valid →
    s.pending1.length + 1 ≤ fuel →
    ∃ s1, drain1 fuel s = .ok s1 ∧ s1.Valid ∧ s1.Step s ∧ s1.pending1 = [] ∧
      s1.pending2 = s.pending2 ∧ s1.written = s.written ++ s.pending1 := by
  intro fuel
  induction fuel with
  | zero => intro s _ h; omega
  | succ fuel ih =>
    intro s hv hfuel
    obtain ⟨s1, hg, hv1, hst1, hp11, hp21, hw1⟩ := getNext1_spec s hv
    cases hp : s.pending1 with
    | nil =>
      rw [hp] at hg hp11
      refine ⟨s1, ?_, hv1, hst1, hp11, hp21, by rw [hw1]; simp⟩
      simp only [drain1, hg, List.head?_nil]
    | cons a rest =>
      rw [hp] at hg hp11
      obtain ⟨s2, ha, hv2, hst2, hp12, hp22, hw2⟩ := appendRecord_spec s1 a hv1
      have hf : s2.pending1.length + 1 ≤ fuel := by
        rw [hp12, hp11]; rw [hp] at hfuel; simp at hfuel ⊢; omega
      obtain ⟨s3, hd, hv3, hst3, hp13, hp23, hw3⟩ := ih s2 hv2 hf
      refine ⟨s3, ?_, hv3, hst3.trans_step (hst2.trans_step hst1), hp13, ?_, ?_⟩
      · simp only [drain1, hg, List.head?_cons, ha, hd]
      · rw [hp23, hp22, hp21]
      · rw [hw3, hw2, hw1, hp12, hp11]; simp

theorem drain2_spec : ∀ (fuel : Nat) (s : MergeState), s.Valid →
    s.pending2.length + 1 ≤ fuel →
    ∃ s1, drain2 fuel s = .ok s1 ∧ s1.Valid ∧ s1.Step s ∧ s1.pending2 = [] ∧
      s1.pending1 = s.pending1 ∧ s1.written = s.written ++ s.pending2 := by
  intro fuel
  induction fuel with
  | zero => intro s _ h; omega
  | succ fuel ih =>
    intro s hv hfuel
    obtain ⟨s1, hg, hv1, hst1, hp21, hp11, hw1⟩ := getNext2_spec s hv
    cases hp : s.pending2 with
    | nil =>
      rw [hp] at hg hp21
      refine ⟨s1, ?_, hv1, hst1, hp21, hp11, by rw [hw1]; simp⟩
      simp only [drain2, hg, List.head?_nil]
    | cons a rest =>
      rw [hp] at hg hp21
      obtain ⟨s2, ha, hv2, hst2, hp12, hp22, hw2⟩ := appendRecord_spec s1 a hv1
      have hf : s2.pending2.length + 1 ≤ fuel := by
        rw [hp22, hp21]; rw [hp] at hfuel; simp at hfuel ⊢; omega
      obtain ⟨s3, hd, hv3, hst3, hp23, hp13, hw3⟩ := ih s2 hv2 hf
      refine ⟨s3, ?_, hv3, hst3.trans_step (hst2.trans_step hst1), hp23, ?_, ?_⟩
      · simp only [drain2, hg, List.head?_cons, ha, hd]
      · rw [hp13, hp12, hp11]
      · rw [hw3, hw2, hw1, hp22, hp21]; simp

theorem mergeHead_spec (fuel : Nat) (s : MergeState) (hv : s.Valid)
    (hfuel : s.pending1.length + s.pending2.length + 1 ≤ fuel) :
    ∃ s1, mergeHead fuel s = .ok s1 ∧ s1.Valid ∧ s1.Step s ∧
      (s1.pending1 = [] ∨ s1.pending2 = []) ∧
      s1.written ++ (s1.pending1 ++ s1.pending2)
        = s.written ++ mergeRuns s.pending1 s.pending2 ∧
      s1.pending1.length + s1.pending2.length ≤ s.pending1.length + s.pending2.length := by
  obtain ⟨s1, hg, hv1, hst1, hp11, hp21, hw1⟩ := getNext1_spec s hv
  cases hp : s.pending1 with
  | nil =>
    rw [hp] at hg hp11
    refine ⟨s1, ?_, hv1, hst1, Or.inl hp11, ?_, ?_⟩
    · simp only [mergeHead, hg, List.head?_nil]
    · rw [hw1, hp11, hp21]; simp [mergeRuns]
    · rw [hp11, hp21]; simp
  | cons a rest =>
    rw [hp] at hg hp11
    obtain ⟨s2, hg2, hv2, hst2, hp22, hp12, hw2⟩ := getNext2_spec s1 hv1
    rw [hp21] at hg2 hp22
    cases hq : s.pending2 with
    | nil =>
      rw [hq] at hg2 hp22
      obtain ⟨s3, ha, hv3, hst3, hp13, hp23, hw3⟩ := appendRecord_spec s2 a hv2
      refine ⟨s3, ?_, hv3, hst3.trans_step (hst2.trans_step hst1), Or.inr (by rw [hp23, hp22]; rfl), ?_,
        ?_⟩
      · simp only [mergeHead, hg, List.head?_cons, hg2, List.head?_nil, ha]
      · rw [hw3, hw2, hw1, hp13, hp12, hp11, hp23, hp22]
        simp [mergeRuns]
      · rw [hp13, hp12, hp11, hp23, hp22]; simp
    | cons b rest2 =>
      rw [hq] at hg2 hp22
      have hf : s2.pending1.length + s2.pending2.length + 1 ≤ fuel := by
        rw [hp12, hp11, hp22]; rw [hp, hq] at hfuel; simp at hfuel ⊢; omega
      obtain ⟨s3, hl, hv3, hst3, hor, hout, hle⟩ := mergeLoop_spec fuel a b s2 hv2 hf
      refine ⟨s3, ?_, hv3, hst3.trans_step (hst2.trans_step hst1), hor, ?_, ?_⟩
      · simp only [mergeHead, hg, List.head?_cons, hg2, hl]
      · rw [hout, hw2, hw1, hp12, hp11, hp22]
        simp
      · rw [hp12, hp11, hp22] at hle; simp at hle ⊢; omega

/-- The function `mergeSiblingChunks` on a valid state, with fuel for one step per pending
record: both readers end empty, and the records written are extended by the merge of the two
runs. -/
theorem mergeSiblingChunks_spec (fuel : Nat) (s : MergeState) (hv : s.Valid)
    (hfuel : s.pending1.length + s.pending2.length + 1 ≤ fuel) :
    ∃ s1, mergeSiblingChunks fuel s = .ok s1 ∧ s1.Valid ∧ s1.Step s ∧
      s1.pending1 = [] ∧ s1.pending2 = [] ∧
      s1.written = s.written ++ mergeRuns s.pending1 s.pending2 := by
  obtain ⟨s1, hh, hv1, hst1, hor, hout, hlen⟩ := mergeHead_spec fuel s hv hfuel
  obtain ⟨s2, hd1, hv2, hst2, hp12, hp22, hw2⟩ := drain1_spec fuel s1 hv1 (by omega)
  obtain ⟨s3, hd2, hv3, hst3, hp23, hp13, hw3⟩ := drain2_spec fuel s2 hv2 (by rw [hp22]; omega)
  refine ⟨s3, ?_, hv3, hst3.trans_step (hst2.trans_step hst1), by rw [hp13, hp12], hp23, ?_⟩
  · simp only [mergeSiblingChunks, hh, hd1, hd2]
  · rw [hw3, hw2, hp22, List.append_assoc, hout]

/-! ## The function `mergeChunks` -/

theorem Chunk.new_valid {buf : List Record} {b l n i : Nat} (hl : 1 ≤ l)
    (hb : b + l ≤ buf.length) (hoff : n * i < 2 ^ 60) : (Chunk.new b l n i).Valid buf :=
  ⟨hl, hb, Nat.le_refl _, Nat.le_refl _, Nat.le_add_right _ _,
    Nat.lt_of_le_of_lt (Nat.mod_le _ _) hoff⟩

theorem Chunk.new_pending_mod (data buf : List Record) (b l n i : Nat) :
    (Chunk.new b l n i).pending data buf = (data.drop ((n * i) % 2 ^ 61)).take n := by
  simp only [Chunk.pending, Chunk.new, window_nil, List.nil_append]

theorem Chunk.new_pending (data buf : List Record) (b l n i : Nat) (hoff : n * i < 2 ^ 60) :
    (Chunk.new b l n i).pending data buf = (data.drop (n * i)).take n := by
  rw [Chunk.new_pending_mod, Nat.mod_eq_of_lt (Nat.lt_trans hoff (by decide))]

/-- The `for` loop of `mergeChunks` from chunk index `idx` on: every remaining pair of chunks is
merged and handed to the writer. -/
theorem mergeChunksLoop_spec (L cc l : Nat) (hoff : L * (cc - 1) < 2 ^ 60) :
    ∀ (fuel idx : Nat) (p : PassState), p.Valid l →
    p.src.data.length ≤ L * cc → (cc - idx) + p.src.data.length + 2 ≤ fuel →
    ∃ p1, mergeChunksLoop L cc l fuel idx p = .ok p1 ∧ p1.Valid l ∧
      p1.src.data = p.src.data ∧ p1.dst.Ahead p.dst ∧ p1.buf.length = p.buf.length ∧
      p1.cw.written p1.dst p1.buf = p.cw.written p.dst p.buf
        ++ blockMap (mergeHalves L) (2 * L) ((cc - idx + 1) / 2) (p.src.data.drop (L * idx)) := by
  intro fuel
  induction fuel with
  | zero => intro idx p _ _ h; omega
  | succ fuel ih =>
    intro idx p hv hcc hfuel
    by_cases hlt : idx < cc
    · -- the state handed to `mergeSiblingChunks`
      let s : MergeState :=
        { ch1 := Chunk.new l l L idx
          ch2 := Chunk.new (2 * l) l (if idx + 1 < cc then L else 0) (idx + 1)
          cw := p.cw, src := p.src, dst := p.dst, buf := p.buf }
      have hl := hv.l_pos
      have hfit := hv.fits
      have ho1 : L * idx < 2 ^ 60 :=
        Nat.lt_of_le_of_lt (Nat.mul_le_mul_left L (by omega)) hoff
      have ho2 : (if idx + 1 < cc then L else 0) * (idx + 1) < 2 ^ 60 := by
        by_cases h1 : idx + 1 < cc
        · rw [if_pos h1]
          exact Nat.lt_of_le_of_lt (Nat.mul_le_mul_left L (by omega)) hoff
        · rw [if_neg h1, Nat.zero_mul]
          decide
      have hsv : s.Valid :=
        ⟨Chunk.new_valid hl (by show l + l ≤ p.buf.length; omega) ho1,
          Chunk.new_valid hl (by show 2 * l + l ≤ p.buf.length; omega) ho2, hv.cw, hv.src,
          hv.small, hv.dst,
          Or.inl (by show l + l ≤ 2 * l; omega),
          Or.inr (by show p.cw.endIt ≤ l; rw [hv.cw_end]),
          Or.inr (by show p.cw.endIt ≤ 2 * l; rw [hv.cw_end]; omega)⟩
      have hp1 : s.pending1 = (p.src.data.drop (L * idx)).take L :=
        Chunk.new_pending _ _ _ _ _ _ ho1
      have hp2 : s.pending2 = ((p.src.data.drop (L * idx)).drop L).take L := by
        show (Chunk.new (2 * l) l (if idx + 1 < cc then L else 0) (idx + 1)).pending _ _ = _
        rw [Chunk.new_pending _ _ _ _ _ _ ho2, List.drop_drop]
        by_cases h1 : idx + 1 < cc
        · rw [if_pos h1]
          congr 2
        · rw [if_neg h1, List.take_zero]
          symm
          apply List.take_eq_nil_of_eq_nil
          apply List.drop_eq_nil_of_le
          have : L * cc ≤ L * (idx + 1) := Nat.mul_le_mul_left L (by omega)
          rw [Nat.mul_succ] at this
          omega
      have hmerge : mergeRuns s.pending1 s.pending2
          = mergeHalves L ((p.src.data.drop (L * idx)).take (2 * L)) := by
        rw [hp1, hp2, mergeHalves, List.take_take, List.drop_take]
        congr 2
        · omega
        · omega
      have hplen : s.pending1.length + s.pending2.length ≤ p.src.data.length := by
        rw [hp1, hp2]
        simp only [List.length_take, List.length_drop]
        omega
      obtain ⟨s1, hm, hv1, hst1, _, _, hw1⟩ := mergeSiblingChunks_spec fuel s hsv (by omega)
      have hpv : PassState.Valid
          { cw := s1.cw, src := s1.src, dst := s1.dst, buf := s1.buf } l :=
        ⟨hl, by show 3 * l ≤ s1.buf.length; rw [hst1.len]; exact hfit, hv1.cw,
          hst1.cw_begin.trans hv.cw_begin, hst1.cw_end.trans hv.cw_end, hv1.src, hv1.small,
          hv1.dst⟩
      have hd1 : s1.src.data = p.src.data := hst1.data
      obtain ⟨p2, hloop, hv2, hd2, ha2, hl2, hw2⟩ := ih (idx + 2)
        { cw := s1.cw, src := s1.src, dst := s1.dst, buf := s1.buf } hpv
        (by show s1.src.data.length ≤ L * cc; rw [hd1]; exact hcc)
        (by show cc - (idx + 2) + s1.src.data.length + 2 ≤ fuel; rw [hd1]; omega)
      refine ⟨p2, ?_, hv2, hd2.trans hd1, ha2.trans_ahead hst1.ahead, hl2.trans hst1.len, ?_⟩
      · simp only [mergeChunksLoop, hlt, if_true]
        show (match mergeSiblingChunks fuel s with
          | Except.error e => Except.error e
          | Except.ok s => mergeChunksLoop L cc l fuel (idx + 2)
              { cw := s.cw, src := s.src, dst := s.dst, buf := s.buf }) = _
        rw [hm]
        exact hloop
      · rw [hw2]
        show s1.written ++ _ = _
        rw [hw1, hmerge]
        show p.cw.written p.dst p.buf ++ _ ++ _ = _
        rw [List.append_assoc]
        congr 1
        have hk : (cc - idx + 1) / 2 = (cc - (idx + 2) + 1) / 2 + 1 := by omega
        rw [hk, blockMap]
        congr 1
        show blockMap _ _ _ (List.drop _ s1.src.data) = _
        rw [hd1, List.drop_drop]
        congr 2
        rw [Nat.mul_add]; omega
    · refine ⟨p, ?_, hv, rfl, FStream.Ahead.refl_ahead _, rfl, ?_⟩
      · simp only [mergeChunksLoop, hlt, if_false]
      · have hk : (cc - idx + 1) / 2 = 0 := by omega
        rw [hk, blockMap, List.append_nil]

theorem FStream.seekp_good (f : FStream) (off : Nat) (h : f.Good) :
    f.seekp off = { f with pos := off } := by
  obtain ⟨h1, h2⟩ := h
  simp [FStream.seekp, FStream.good, h1, h2]

/-- One merge pass on usable streams and a vector of at least three records, over a source
whose chunks all start below `2 ^ 63` bytes, with enough fuel: it returns `2 * L` modulo
`2 ^ 64`, leaves the source file and the length of the vector as they were, and overwrites the
start of the destination file with the merged pairs of chunks. -/
theorem mergeChunks_spec (fuel : Nat) (src dst : FStream) (buf : List Record) (L cc : Nat)
    (hsrc : src.Good) (hdst : dst.Good) (hbuf : 3 ≤ buf.length)
    (hsm : src.data.length < 2 ^ 60) (hoff : L * (cc - 1) < 2 ^ 60)
    (hcc : src.data.length ≤ L * cc) (hfuel : cc + src.data.length + 2 ≤ fuel) :
    ∃ r, mergeChunks fuel src dst buf L cc = .ok r ∧ r.ret = (L * 2) % 2 ^ 64 ∧ r.src.Good ∧
      r.src.data = src.data ∧ r.dst.Good ∧ r.buf.length = buf.length ∧
      r.dst.data = blockMap (mergeHalves L) (2 * L) ((cc + 1) / 2) src.data
        ++ dst.data.drop (blockMap (mergeHalves L) (2 * L) ((cc + 1) / 2) src.data).length := by
  have hl : 1 ≤ buf.length / 3 := by omega
  have hfit : 3 * (buf.length / 3) ≤ buf.length := Nat.mul_div_le _ _
  let p : PassState :=
    { cw := { begin := 0, endIt := buf.length / 3, it := 0 }
      src := src, dst := { dst with pos := 0 }, buf := buf }
  have hpv : p.Valid (buf.length / 3) :=
    ⟨hl, hfit, ⟨Nat.le_refl _, hl, by show buf.length / 3 ≤ buf.length; omega⟩, rfl, rfl, hsrc,
      hsm, ⟨⟨hdst.1, hdst.2⟩, Nat.zero_le _⟩⟩
  obtain ⟨p1, hloop, hv1, hd1, ha1, hl1, hw1⟩ :=
    mergeChunksLoop_spec L cc (buf.length / 3) hoff fuel 0 p hpv hcc
      (by show cc - 0 + src.data.length + 2 ≤ fuel; omega)
  have hw0 : p.cw.written p.dst p.buf = [] := by
    simp [ChunkWriter.written, p, window_nil]
  rw [hw0, List.nil_append, Nat.mul_zero, List.drop_zero, Nat.sub_zero] at hw1
  obtain ⟨dst1, hfl, hwr1, htk, hah, _⟩ := ChunkWriter.flush_spec p1.cw p1.dst p1.buf
    hv1.cw.begin_le (by have := hv1.cw.it_lt; have := hv1.cw.end_le; omega) hv1.dst
  rw [hw1] at htk
  refine ⟨{ ret := (L * 2) % 2 ^ 64, src := p1.src, dst := dst1, buf := p1.buf }, ?_, rfl,
    hv1.src, hd1, hwr1.1, hl1, ?_⟩
  · simp only [mergeChunks, ChunkWriter.new, FStream.seekp_good dst 0 hdst]
    show (match mergeChunksLoop L cc (buf.length / 3) fuel 0 p with
      | Except.error e => Except.error e
      | Except.ok p =>
        match p.cw.destroy p.dst p.buf with
        | Except.error e => Except.error e
        | Except.ok dst1 =>
          Except.ok
            ({ ret := (L * 2) % 2 ^ 64, src := p.src, dst := dst1, buf := p.buf } : PassResult))
        = _
    rw [hloop]
    simp only [ChunkWriter.destroy, hfl]
  · show dst1.data = _
    have hall := hah.trans_ahead ha1
    have hpos : dst1.pos
        = (blockMap (mergeHalves L) (2 * L) ((cc + 1) / 2) src.data).length := by
      have h := congrArg List.length htk
      rw [List.length_take, Nat.min_eq_left hwr1.2] at h
      exact h
    have h2 := hall.2
    rw [← List.take_append_drop dst1.pos dst1.data, htk, h2, hpos]

/-! ## The merge of two runs -/

theorem mergeRuns_perm : ∀ (xs ys : List Record), (mergeRuns xs ys).Perm (xs ++ ys)
  | [], ys => by simp [mergeRuns]
  | x :: xs, [] => by simp [mergeRuns]
  | x :: xs, y :: ys => by
    by_cases h : x < y
    · rw [mergeRuns_cons_lt _ _ h]
      exact (mergeRuns_perm xs (y :: ys)).cons x
    · rw [mergeRuns_cons_ge _ _ h]
      have h1 := (mergeRuns_perm (x :: xs) ys).cons y
      exact h1.trans (List.perm_middle.symm)

theorem mergeRuns_length (xs ys : List Record) :
    (mergeRuns xs ys).length = xs.length + ys.length := by
  rw [(mergeRuns_perm xs ys).length_eq, List.length_append]

theorem mergeRuns_sorted : ∀ (xs ys : List Record), xs.Sorted (· ≤ ·) → ys.Sorted (· ≤ ·) →
    (mergeRuns xs ys).Sorted (· ≤ ·)
  | [], ys, _, h => by simpa [mergeRuns] using h
  | x :: xs, [], h, _ => by simpa [mergeRuns] using h
  | x :: xs, y :: ys, hx, hy => by
    have hx1 := List.sorted_cons.mp hx
    have hy1 := List.sorted_cons.mp hy
    by_cases h : x < y
    · rw [mergeRuns_cons_lt _ _ h]
      refine List.sorted_cons.mpr ⟨fun b hb => ?_, mergeRuns_sorted xs (y :: ys) hx1.2 hy⟩
      rcases List.mem_append.mp ((mergeRuns_perm xs (y :: ys)).mem_iff.mp hb) with hb | hb
      · exact hx1.1 b hb
      · rcases List.mem_cons.mp hb with hb | hb
        · rw [hb]; exact Int.le_of_lt h
        · exact Int.le_trans (Int.le_of_lt h) (hy1.1 b hb)
    · rw [mergeRuns_cons_ge _ _ h]
      have hyx : y ≤ x := Int.not_lt.mp h
      refine List.sorted_cons.mpr ⟨fun b hb => ?_, mergeRuns_sorted (x :: xs) ys hx hy1.2⟩
      rcases List.mem_append.mp ((mergeRuns_perm (x :: xs) ys).mem_iff.mp hb) with hb | hb
      · rcases List.mem_cons.mp hb with hb | hb
        · rw [hb]; exact hyx
        · exact Int.le_trans hyx (hx1.1 b hb)
      · exact hy1.1 b hb

/-! ## Files laid out in blocks -/

theorem mergeHalves_perm (L : Nat) (X : List Record) : (mergeHalves L X).Perm X := by
  have h := mergeRuns_perm (X.take L) (X.drop L)
  rwa [List.take_append_drop] at h

theorem mergeHalves_length (L : Nat) (X : List Record) : (mergeHalves L X).length = X.length :=
  (mergeHalves_perm L X).length_eq

theorem mergeHalves_nil (L : Nat) : mergeHalves L [] = [] := by
  simp [mergeHalves, mergeRuns]

theorem mergeHalves_chunkOf (D : List Record) (L j : Nat) :
    mergeHalves L (chunkOf D (2 * L) j)
      = mergeRuns (chunkOf D L (2 * j)) (chunkOf D L (2 * j + 1)) := by
  unfold mergeHalves chunkOf
  rw [List.take_take, List.drop_take, List.drop_drop]
  congr 2
  · omega
  · congr 1
    rw [Nat.mul_assoc, Nat.mul_left_comm]
  · omega
  · congr 1
    rw [Nat.mul_succ, Nat.mul_assoc, Nat.mul_left_comm, Nat.add_comm]

theorem blockMap_nil (g : List Record → List Record) (B : Nat) (hg0 : g [] = []) :
    ∀ k, blockMap g B k [] = []
  | 0 => rfl
  | k + 1 => by simp [blockMap, hg0, blockMap_nil g B hg0 k]

theorem blockMap_perm (g : List Record → List Record) (B : Nat) (hg : ∀ X, (g X).Perm X) :
    ∀ (k : Nat) (D : List Record), D.length ≤ B * k → (blockMap g B k D).Perm D
  | 0, D, h => by
    have : D = [] := List.eq_nil_of_length_eq_zero (by omega)
    subst this; exact List.Perm.refl _
  | k + 1, D, h => by
    have hrest : (D.drop B).length ≤ B * k := by
      rw [List.length_drop, Nat.mul_succ] at *; omega
    have h1 := (hg (D.take B)).append (blockMap_perm g B hg k (D.drop B) hrest)
    rwa [List.take_append_drop] at h1

theorem blockMap_length (g : List Record → List Record) (B : Nat) (hg : ∀ X, (g X).Perm X)
    (k : Nat) (D : List Record) (h : D.length ≤ B * k) : (blockMap g B k D).length = D.length :=
  (blockMap_perm g B hg k D h).length_eq

/-- Beyond its first block, a file made by `blockMap` is the file made from the rest. -/
theorem blockMap_succ_split (g : List Record → List Record) (B : Nat)
    (hg : ∀ X, (g X).length = X.length) (hg0 : g [] = []) (k : Nat) (D : List Record) :
    (blockMap g B (k + 1) D).take B = g (D.take B) ∧
      (blockMap g B (k + 1) D).drop B = blockMap g B k (D.drop B) := by
  rw [blockMap]
  rcases Nat.lt_or_ge D.length B with hlt | hge
  · have hd : D.drop B = [] := List.drop_eq_nil_of_le (by omega)
    have hlen : (g (D.take B)).length ≤ B := by rw [hg, List.length_take]; omega
    rw [hd, blockMap_nil g B hg0, List.append_nil]
    exact ⟨List.take_of_length_le hlen, List.drop_eq_nil_of_le hlen⟩
  · have hlen : (g (D.take B)).length = B := by rw [hg, List.length_take]; omega
    constructor
    · rw [List.take_append_of_le_length (by omega), List.take_of_length_le (by omega)]
    · rw [List.drop_append_of_le_length (by omega), List.drop_eq_nil_of_le (by omega),
        List.nil_append]

theorem chunkOf_nil (B j : Nat) : chunkOf [] B j = [] := by
  simp [chunkOf]

theorem chunkOf_zero (D : List Record) (B : Nat) : chunkOf D B 0 = D.take B := by
  simp [chunkOf]

theorem chunkOf_succ (D : List Record) (B j : Nat) :
    chunkOf D B (j + 1) = chunkOf (D.drop B) B j := by
  unfold chunkOf
  rw [List.drop_drop]
  congr 2
  rw [Nat.mul_succ, Nat.add_comm]

/-- Block `j` of a file made by `blockMap` is `g` applied to block `j` of the original. -/
theorem chunkOf_blockMap (g : List Record → List Record) (B : Nat)
    (hg : ∀ X, (g X).length = X.length) (hg0 : g [] = []) :
    ∀ (k : Nat) (D : List Record) (j : Nat), D.length ≤ B * k →
      chunkOf (blockMap g B k D) B j = g (chunkOf D B j)
  | 0, D, j, h => by
    have : D = [] := List.eq_nil_of_length_eq_zero (by omega)
    subst this
    simp [blockMap, chunkOf_nil, hg0]
  | k + 1, D, 0, h => by
    rw [chunkOf_zero, chunkOf_zero, (blockMap_succ_split g B hg hg0 k D).1]
  | k + 1, D, j + 1, h => by
    have hrest : (D.drop B).length ≤ B * k := by
      rw [List.length_drop, Nat.mul_succ] at *; omega
    rw [chunkOf_succ, chunkOf_succ, (blockMap_succ_split g B hg hg0 k D).2]
    exact chunkOf_blockMap g B hg hg0 k (D.drop B) j hrest

/-! ## The function `presort` -/

theorem sortRun_perm (X : List Record) : (sortRun X).Perm X := List.perm_insertionSort _ X

theorem sortRun_length (X : List Record) : (sortRun X).length = X.length :=
  (sortRun_perm X).length_eq

theorem sortRun_nil : sortRun [] = [] := rfl

theorem sortRun_sorted (X : List Record) : (sortRun X).Sorted (· ≤ ·) :=
  List.sorted_insertionSort _ X

theorem sortRun_eq_of_sorted {X : List Record} (h : X.Sorted (· ≤ ·)) : sortRun X = X :=
  List.Sorted.insertionSort_eq h

/-- A sorted list with the same records as `X` is the ascending arrangement of `X`. -/
theorem eq_sortRun_of_perm_sorted {X Y : List Record} (hp : Y.Perm X)
    (hs : Y.Sorted (· ≤ ·)) : Y = sortRun X :=
  List.eq_of_perm_of_sorted (hp.trans (sortRun_perm X).symm) hs (sortRun_sorted X)

theorem take_put_zero (buf vals : List Record) :
    (put buf 0 vals).take vals.length = vals := by
  simp [put]

/-- One iteration of the loop of `presort` on a readable source: the records read are sorted
and written, and the vector keeps its length. -/
theorem presort_step (src : IStream) (buf : List Record) (hs : src.Readable) :
    ∃ src1 buf1 gcount, src.read buf buf.length = .ok (src1, buf1, gcount) ∧
      buf1.length = buf.length ∧
      ∃ buf2, stdSort buf1 (gcount / 8) = .ok buf2 ∧ buf2.length = buf.length ∧
        slice buf2 0 (gcount / 8) = .ok (sortRun (src.rest.take buf.length)) ∧
        src1.rest = src.rest.drop buf.length ∧
        (buf.length ≤ src.rest.length → src1.Readable) ∧
        (src.rest.length < buf.length → src1.eofbit = true) := by
  obtain ⟨h1, h2, h3⟩ := hs
  by_cases hfull : buf.length ≤ src.rest.length
  · have hst : 0 + (src.rest.take buf.length).length ≤ buf.length := by
      simp [List.length_take]
    have hlen : (src.rest.take buf.length).length = buf.length := by
      rw [List.length_take]; omega
    have hp := put_length hst
    refine ⟨{ src with rest := src.rest.drop buf.length }, put buf 0 (src.rest.take buf.length),
      8 * buf.length, ?_, hp, ?_⟩
    · simp [IStream.read, h1, h2, hfull, storeAt_ok hst]
    · have h8 : 8 * buf.length / 8 = buf.length := by omega
      have htk : (put buf 0 (src.rest.take buf.length)).take buf.length
          = src.rest.take buf.length := by
        have := take_put_zero buf (src.rest.take buf.length)
        rwa [hlen] at this
      refine ⟨sortRun (src.rest.take buf.length)
          ++ (put buf 0 (src.rest.take buf.length)).drop buf.length, ?_, ?_, ?_, rfl,
        fun _ => ⟨h1, h2, h3⟩, fun h => by omega⟩
      · rw [h8]
        simp only [stdSort, hp, Nat.le_refl, if_true, htk]
        rfl
      · simp only [List.length_append, sortRun_length, hlen, List.length_drop, hp]
        omega
      · rw [h8, slice_ok (Nat.zero_le _) (by
          simp only [List.length_append, sortRun_length, hlen, List.length_drop, hp]; omega)]
        rw [window_zero, List.take_left' (by rw [sortRun_length, hlen])]
  · have hlt : src.rest.length < buf.length := Nat.lt_of_not_ge hfull
    have hst : 0 + src.rest.length ≤ buf.length := by omega
    have hp := put_length hst
    have h8 : (8 * src.rest.length + src.tail.length) / 8 = src.rest.length := by omega
    have htake : src.rest.take buf.length = src.rest := List.take_of_length_le (by omega)
    -- the vector after the read, whatever the trailing bytes did to the next element
    have hread : ∃ buf1, src.read buf buf.length
        = .ok ({ rest := [], tail := [], eofbit := true, failbit := true }, buf1,
            8 * src.rest.length + src.tail.length) ∧ buf1.length = buf.length ∧
          buf1.take src.rest.length = src.rest := by
      by_cases ht : src.tail.isEmpty = true
      · refine ⟨put buf 0 src.rest, ?_, hp, take_put_zero _ _⟩
        simp [IStream.read, h1, h2, hfull, storeAt_ok hst, ht]
      · have hin : src.rest.length < (put buf 0 src.rest).length := by rw [hp]; exact hlt
        have hget := List.getElem?_eq_getElem hin
        have hst2 : src.rest.length + [patchLow (put buf 0 src.rest)[src.rest.length]
            src.tail].length ≤ (put buf 0 src.rest).length := by
          simpa using hin
        refine ⟨put (put buf 0 src.rest) src.rest.length
            [patchLow (put buf 0 src.rest)[src.rest.length] src.tail], ?_, ?_, ?_⟩
        · simp only [IStream.read, h1, h2, Bool.or_self, Bool.false_eq_true, if_false, hfull,
            storeAt_ok hst, ht, loadAt_ok hget, storeAt_ok hst2]
        · rw [put_length hst2, hp]
        · have h5 : (put (put buf 0 src.rest) src.rest.length
              [patchLow (put buf 0 src.rest)[src.rest.length] src.tail]).take src.rest.length
              = (put buf 0 src.rest).take src.rest.length := by
            rw [← window_zero, ← window_zero]
            exact window_congr fun i _ hi => put_getElem?_outside hst2 (Or.inl hi)
          rw [h5]
          exact take_put_zero _ _
    obtain ⟨buf1, hr, hl1, ht1⟩ := hread
    refine ⟨_, buf1, _, hr, hl1, sortRun src.rest ++ buf1.drop src.rest.length, ?_, ?_, ?_, ?_,
      fun h => by omega, fun _ => rfl⟩
    · rw [h8]
      simp only [stdSort, hl1, Nat.le_of_lt hlt, if_true, ht1]
      rfl
    · simp only [List.length_append, sortRun_length, List.length_drop, hl1]
      omega
    · rw [h8, htake, slice_ok (Nat.zero_le _) (by
        simp only [List.length_append, sortRun_length, List.length_drop, hl1]; omega)]
      rw [window_zero, List.take_left' (sortRun_length _)]
    · show [] = _
      rw [List.drop_eq_nil_of_le (by omega)]

/-- The loop of `presort` on a readable source and a vector of at least one record, with fuel
for every read: each slab of `buf.length` records is sorted and written in turn. -/
theorem presortLoop_spec : ∀ (fuel : Nat) (src : IStream) (dst : FStream) (buf : List Record),
    src.Readable → 1 ≤ buf.length → dst.Writable → src.rest.length / buf.length + 2 ≤ fuel →
    ∃ src1 dst1 buf1, presortLoop fuel src dst buf = .ok (src1, dst1, buf1) ∧
      buf1.length = buf.length ∧ dst1.Writable ∧ dst1.Ahead dst ∧
      dst1.data.take dst1.pos = dst.data.take dst.pos
        ++ blockMap sortRun buf.length (src.rest.length / buf.length + 1) src.rest := by
  intro fuel
  induction fuel with
  | zero => intro src dst buf _ _ _ h; exact absurd h (Nat.not_succ_le_zero _)
  | succ fuel ih =>
    intro src dst buf hs hC hd hfuel
    obtain ⟨src1, buf1, gcount, hr, hl1, buf2, hsort, hl2, hsl, hrest, hcont, hstop⟩ :=
      presort_step src buf hs
    obtain ⟨hw1, hpos1, htk1, hah1⟩ :=
      FStream.write_writable dst (sortRun (src.rest.take buf.length)) hd
    have heof : src.eof = false := hs.1
    have hunfold : presortLoop (fuel + 1) src dst buf
        = presortLoop fuel src1 (dst.write (sortRun (src.rest.take buf.length))) buf2 := by
      simp only [presortLoop, heof, Bool.false_eq_true, if_false, hr, hsort, hsl]
    rw [hunfold]
    by_cases hfull : buf.length ≤ src.rest.length
    · have hk : src.rest.length / buf.length
          = (src.rest.length - buf.length) / buf.length + 1 := Nat.div_eq_sub_div hC hfull
      have hlen1 : src1.rest.length = src.rest.length - buf.length := by
        rw [hrest, List.length_drop]
      obtain ⟨src2, dst2, buf3, hloop, hl3, hw2, hah2, htk2⟩ :=
        ih src1 (dst.write (sortRun (src.rest.take buf.length))) buf2 (hcont hfull)
          (by rw [hl2]; exact hC) hw1 (by rw [hl2, hlen1]; omega)
      refine ⟨src2, dst2, buf3, hloop, hl3.trans hl2, hw2, hah2.trans_ahead hah1, ?_⟩
      rw [htk2, htk1, hl2, hlen1, hk, List.append_assoc]
      congr 1
      conv_rhs => rw [blockMap]
      rw [hrest]
    · have hlt : src.rest.length < buf.length := Nat.lt_of_not_ge hfull
      have hk : src.rest.length / buf.length = 0 := Nat.div_eq_of_lt hlt
      have hf : fuel = (fuel - 1) + 1 := by rw [hk] at hfuel; omega
      have heof1 : src1.eof = true := hstop hlt
      refine ⟨src1, dst.write (sortRun (src.rest.take buf.length)), buf2, ?_, hl2, hw1, hah1, ?_⟩
      · rw [hf]
        simp only [presortLoop, heof1, if_true]
      · rw [htk1, hk]
        simp [blockMap]

theorem FileSystem.openRead_ok {fs : FileSystem} {p : String} {file : File}
    (hf : fs.files p = some file) (hd : fs.denied p = false) :
    fs.openRead p = some (IStream.ofFile file) := by
  simp [FileSystem.openRead, hf, hd]

/-- The function `presort` on a source that can be opened, a vector of at least one record and a
usable destination stream, with fuel for every read: the sorted slabs are written in turn. -/
theorem presort_spec (fuel : Nat) (fs : FileSystem) (srcPath : String) (file : File)
    (dst : FStream) (buf : List Record) (hf : fs.files srcPath = some file)
    (hden : fs.denied srcPath = false) (ht : file.tail.length < 8) (hC : 1 ≤ buf.length)
    (hd : dst.Writable) (hfuel : file.recs.length / buf.length + 2 ≤ fuel) :
    ∃ dst1 buf1, presort fuel fs srcPath dst buf = .ok (dst1, buf1) ∧
      buf1.length = buf.length ∧ dst1.Writable ∧ dst1.Ahead dst ∧
      dst1.data.take dst1.pos = dst.data.take dst.pos
        ++ blockMap sortRun buf.length (file.recs.length / buf.length + 1) file.recs := by
  obtain ⟨src1, dst1, buf1, hloop, hl, hw, hah, htk⟩ :=
    presortLoop_spec fuel (IStream.ofFile file) dst buf ⟨rfl, rfl, ht⟩ hC hd hfuel
  refine ⟨dst1, buf1, ?_, hl, hw, hah, htk⟩
  simp only [presort, FileSystem.openRead_ok hf hden]
  show (match presortLoop fuel (IStream.ofFile file) dst buf with
    | Except.error e => Except.error e
    | Except.ok (_, dst1, buf1) => Except.ok (dst1.flush, buf1)) = _
  rw [hloop]
  rfl

/-! ## The loop of `sortFile` -/

/-- The chunk count computed by `sortFile` covers the file. -/
theorem chunkCount_covers (N L : Nat) (hL : 1 ≤ L) :
    N ≤ L * (if N % L ≠ 0 then N / L + 1 else N / L) ∧
      (if N % L ≠ 0 then N / L + 1 else N / L) ≤ N + 1 := by
  have h1 := Nat.div_add_mod N L
  have h2 := Nat.mod_lt N hL
  have h3 : N / L ≤ N := Nat.div_le_self N L
  split
  · rw [Nat.mul_succ]; exact ⟨by omega, by omega⟩
  · exact ⟨by omega, by omega⟩

/-- The last chunk counted by `sortFile` starts inside the file. -/
theorem chunkCount_offset (N L : Nat) :
    L * ((if N % L ≠ 0 then N / L + 1 else N / L) - 1) ≤ N := by
  have h1 : L * (N / L) ≤ N := Nat.mul_div_le N L
  have h2 : L * (N / L - 1) ≤ L * (N / L) := Nat.mul_le_mul_left L (Nat.sub_le _ _)
  split
  · rw [Nat.add_sub_cancel]; exact h1
  · omega

/-- After a merge pass the destination holds the same records in sorted chunks of twice the
nominal length. -/
theorem pass_output (D : List Record) (L cc : Nat) (hcc : D.length ≤ L * cc)
    (hs : ChunkSorted D L) :
    (blockMap (mergeHalves L) (2 * L) ((cc + 1) / 2) D).Perm D ∧
      ChunkSorted (blockMap (mergeHalves L) (2 * L) ((cc + 1) / 2) D) (L * 2) ∧
      ∀ j, chunkOf (blockMap (mergeHalves L) (2 * L) ((cc + 1) / 2) D) (2 * L) j
        = mergeRuns (chunkOf D L (2 * j)) (chunkOf D L (2 * j + 1)) := by
  have hk : D.length ≤ 2 * L * ((cc + 1) / 2) := by
    have h1 : cc ≤ 2 * ((cc + 1) / 2) := by omega
    have h2 := Nat.mul_le_mul_left L h1
    rw [Nat.mul_assoc, Nat.mul_left_comm]
    omega
  have hch : ∀ j, chunkOf (blockMap (mergeHalves L) (2 * L) ((cc + 1) / 2) D) (2 * L) j
      = mergeRuns (chunkOf D L (2 * j)) (chunkOf D L (2 * j + 1)) := by
    intro j
    rw [chunkOf_blockMap _ _ (mergeHalves_length L) (mergeHalves_nil L) _ _ _ hk,
      mergeHalves_chunkOf]
  refine ⟨blockMap_perm _ _ (mergeHalves_perm L) _ _ hk, fun j => ?_, hch⟩
  rw [Nat.mul_comm L 2, hch]
  exact mergeRuns_sorted _ _ (hs _) (hs _)

theorem SortState.afterPass_facts (s : SortState) (r : PassResult)
    (hpw : (s.pw0 = 0 ∧ s.pw1 = 1) ∨ (s.pw0 = 1 ∧ s.pw1 = 0)) :
    ((s.afterPass r).wrapper (s.afterPass r).pw0).stream = r.dst ∧
      ((s.afterPass r).wrapper (s.afterPass r).pw1).stream = r.src ∧
      (s.afterPass r).w0.path = s.w0.path ∧ (s.afterPass r).w1.path = s.w1.path ∧
      (s.afterPass r).w0.isOpen = s.w0.isOpen ∧ (s.afterPass r).w1.isOpen = s.w1.isOpen ∧
      ((s.afterPass r).pw0 = 0 ∧ (s.afterPass r).pw1 = 1
        ∨ (s.afterPass r).pw0 = 1 ∧ (s.afterPass r).pw1 = 0) := by
  obtain ⟨w0, w1, pw0, pw1, buf, L⟩ := s
  rcases hpw with ⟨h0, h1⟩ | ⟨h0, h1⟩ <;> simp only at h0 h1 <;> subst h0 h1 <;>
    simp [SortState.afterPass, SortState.setStream, SortState.setWrapper, SortState.wrapper]

/-- The loop of `sortFile` from a valid state, with enough fuel: it ends in a valid state whose
nominal chunk length covers the file; the paths of the wrappers do not change. -/
theorem sortLoop_spec (R : List Record) : ∀ (fuel : Nat) (s : SortState), s.Valid R →
    (R.length - s.numbersInChunk) + 2 * R.length + 4 ≤ fuel →
    ∃ s1, sortLoop R.length fuel s = .ok s1 ∧ s1.Valid R ∧ R.length ≤ s1.numbersInChunk ∧
      s1.w0.path = s.w0.path ∧ s1.w1.path = s.w1.path ∧ s1.w0.isOpen = s.w0.isOpen ∧
      s1.w1.isOpen = s.w1.isOpen ∧ s1.buf.length = s.buf.length := by
  intro fuel
  induction fuel with
  | zero => intro s _ h; omega
  | succ fuel ih =>
    intro s hv hfuel
    by_cases hlt : s.numbersInChunk < R.length
    · have hL := hv.chunk_pos
      have hL0 : s.numbersInChunk ≠ 0 := by omega
      have hlen : (s.wrapper s.pw0).stream.data.length = R.length := hv.active_perm.length_eq
      obtain ⟨hcov, hccle⟩ := chunkCount_covers R.length s.numbersInChunk hL
      have hsmall := hv.small
      have hoff := chunkCount_offset R.length s.numbersInChunk
      obtain ⟨r, hm, hret, hsg, hsd, hdg, hbl, hdd⟩ := mergeChunks_spec fuel
        (s.wrapper s.pw0).stream (s.wrapper s.pw1).stream s.buf s.numbersInChunk
        (if R.length % s.numbersInChunk ≠ 0 then R.length / s.numbersInChunk + 1
          else R.length / s.numbersInChunk)
        hv.active_good hv.standby_good (hv.buf.resolve_right (by omega))
        (by rw [hlen]; exact hsmall) (Nat.lt_of_le_of_lt hoff hsmall)
        (by rw [hlen]; exact hcov) (by rw [hlen]; omega)
      rw [Nat.mod_eq_of_lt (by omega)] at hret
      obtain ⟨hperm, hsorted, _⟩ := pass_output (s.wrapper s.pw0).stream.data s.numbersInChunk
        (if R.length % s.numbersInChunk ≠ 0 then R.length / s.numbersInChunk + 1
          else R.length / s.numbersInChunk) (by rw [hlen]; exact hcov) hv.active_sorted
      have hdata : r.dst.data = blockMap (mergeHalves s.numbersInChunk) (2 * s.numbersInChunk)
          (((if R.length % s.numbersInChunk ≠ 0 then R.length / s.numbersInChunk + 1
            else R.length / s.numbersInChunk) + 1) / 2) (s.wrapper s.pw0).stream.data := by
        rw [hdd, List.drop_eq_nil_of_le, List.append_nil]
        rw [hperm.length_eq, hlen]
        exact hv.standby_len
      obtain ⟨f1, f2, f3, f4, f5, f6, f7⟩ := SortState.afterPass_facts s r hv.pw
      have hv2 : (s.afterPass r).Valid R := by
        refine ⟨f7, ?_, ?_, ?_, ?_, ?_, ?_, ?_, hsmall⟩
        · left
          show 3 ≤ r.buf.length
          rw [hbl]; exact hv.buf.resolve_right (by omega)
        · show 1 ≤ r.ret
          rw [hret]; omega
        · rw [f1]; exact hdg
        · rw [f1, hdata]; exact hperm.trans hv.active_perm
        · rw [f1, hdata]
          show ChunkSorted _ r.ret
          rw [hret]; exact hsorted
        · rw [f2]; exact hsg
        · rw [f2, hsd, hlen]
      obtain ⟨s1, hloop, hv1, hge, g1, g2, g3, g4, g5⟩ := ih (s.afterPass r) hv2 (by
        show R.length - r.ret + 2 * R.length + 4 ≤ fuel
        rw [hret]; omega)
      refine ⟨s1, ?_, hv1, hge, g1.trans f3, g2.trans f4, g3.trans f5, g4.trans f6, ?_⟩
      · simp only [sortLoop, hlt, if_true, hL0, if_false]
        show (match mergeChunks fuel (s.wrapper s.pw0).stream (s.wrapper s.pw1).stream s.buf
            s.numbersInChunk
            (if R.length % s.numbersInChunk ≠ 0 then R.length / s.numbersInChunk + 1
              else R.length / s.numbersInChunk) with
          | Except.error e => Except.error e
          | Except.ok r => sortLoop R.length fuel (s.afterPass r)) = _
        rw [hm]
        exact hloop
      · rw [g5]; exact hbl
    · refine ⟨s, ?_, hv, by omega, rfl, rfl, rfl, rfl, rfl⟩
      simp only [sortLoop, hlt, if_false]

/-! ## Paths of the temp files -/

theorem temp_paths_ne (d : String) : d ++ ".1" ≠ d ++ ".2" := by
  intro h
  have h1 := congrArg String.data h
  simp only [String.data_append, List.append_cancel_left_eq] at h1
  exact absurd h1 (by decide)

theorem append_ne_self (d s : String) (hs : s.length ≠ 0) : d ++ s ≠ d := by
  intro h
  have h1 := congrArg String.length h
  simp only [String.length_append] at h1
  omega

theorem append_ne_empty (d s : String) (hs : s.length ≠ 0) : d ++ s ≠ "" := by
  intro h
  have h1 := congrArg String.length h
  simp only [String.length_append] at h1
  have : "".length = 0 := rfl
  omega

/-! ## The file system -/

theorem FileSystem.files_small {fs : FileSystem} {p : String} {f : File}
    (h : fs.files p = some f) : f.size < 2 ^ 63 := by
  unfold FileSystem.files at h
  cases he : fs.entries p with
  | none => rw [he] at h; cases h
  | some g =>
    rw [he] at h
    have h2 : (if decide (g.size < 2 ^ 63) = true then some g else none) = some f := h
    by_cases hg : g.size < 2 ^ 63
    · rw [if_pos (decide_eq_true hg)] at h2
      cases h2
      exact hg
    · rw [if_neg (fun hd => hg (of_decide_eq_true hd))] at h2
      cases h2

theorem FileSystem.files_of_entry {fs : FileSystem} {p : String} {f : File}
    (h : fs.entries p = some f) (hs : f.size < 2 ^ 63) : fs.files p = some f := by
  unfold FileSystem.files
  rw [h]
  show (if decide (f.size < 2 ^ 63) = true then some f else none) = some f
  rw [if_pos (decide_eq_true hs)]

theorem FileSystem.files_of_no_entry {fs : FileSystem} {p : String}
    (h : fs.entries p = none) : fs.files p = none := by
  simp [FileSystem.files, h, Option.filter]

theorem FileSystem.files_congr {fs1 fs2 : FileSystem} {p q : String}
    (h : fs1.entries p = fs2.entries q) : fs1.files p = fs2.files q := by
  simp only [FileSystem.files, h]

theorem FileSystem.files_store_self (fs : FileSystem) (p : String) {f : File}
    (hs : f.size < 2 ^ 63) : (fs.store p f).files p = some f :=
  FileSystem.files_of_entry (by simp [FileSystem.store]) hs

theorem FileSystem.files_store_ne (fs : FileSystem) {p q : String} (f : File) (h : q ≠ p) :
    (fs.store p f).files q = fs.files q :=
  FileSystem.files_congr (by simp [FileSystem.store, h])

theorem FileSystem.files_remove_self (fs : FileSystem) (p : String) :
    (fs.remove p).files p = none :=
  FileSystem.files_of_no_entry (by simp [FileSystem.remove])

theorem FileSystem.files_remove_ne (fs : FileSystem) {p q : String} (h : q ≠ p) :
    (fs.remove p).files q = fs.files q :=
  FileSystem.files_congr (by simp [FileSystem.remove, h])

theorem File.ofRecords_size (recs : List Record) : (File.ofRecords recs).size = 8 * recs.length := by
  simp [File.size, File.ofRecords]

theorem File.recs_small {f : File} (h : f.size < 2 ^ 63) : f.recs.length < 2 ^ 60 := by
  unfold File.size at h
  omega

theorem FileSystem.fileSize_ok {fs : FileSystem} {p : String} {f : File}
    (h : fs.files p = some f) : fs.fileSize p = .ok f.size := by
  simp [FileSystem.fileSize, h]

theorem File.ofRecords_small {recs : List Record} (h : recs.length < 2 ^ 60) :
    (File.ofRecords recs).size < 2 ^ 63 := by
  rw [File.ofRecords_size]
  omega

/-! ## `FileWrapper` -/

theorem FileWrapper.new_ok (fs : FileSystem) (base suffix : String)
    (h : fs.denied (base ++ suffix) = false) :
    FileWrapper.new fs base suffix
      = .ok ({ path := base ++ suffix, stream := FStream.opened, isOpen := true },
          fs.store (base ++ suffix) (File.ofRecords [])) := by
  simp [FileWrapper.new, h]

theorem FileWrapper.new_denied (fs : FileSystem) (base suffix : String)
    (h : fs.denied (base ++ suffix) = true) :
    FileWrapper.new fs base suffix
      = .error (.runtimeError ("Can't open file " ++ (base ++ suffix))) := by
  simp [FileWrapper.new, h]

theorem FileSystem.rename_ok {fs : FileSystem} {old new : String} {f : File}
    (h : fs.files old = some f) :
    fs.rename old new = .ok { fs with
      entries := fun q => if q = new then some f else if q = old then none else fs.entries q } := by
  simp [FileSystem.rename, h]

/-- Renaming an open wrapper to another path: the data of its stream is then at the new path,
nothing is at the old path, and no other path changes. -/
theorem FileWrapper.rename_spec (w : FileWrapper) (fs : FileSystem) (newPath : String)
    (ho : w.isOpen = true) (hne : w.path ≠ newPath) (hsm : w.stream.data.length < 2 ^ 60) :
    ∃ fs2, w.rename fs newPath
        = .ok ({ path := "", stream := w.stream, isOpen := false }, fs2) ∧
      fs2.files newPath = some (File.ofRecords w.stream.data) ∧ fs2.files w.path = none ∧
      (∀ q, q ≠ newPath → q ≠ w.path → fs2.files q = fs.files q) ∧ fs2.denied = fs.denied := by
  obtain ⟨path, stream, isOpen⟩ := w
  simp only at ho hne hsm
  subst ho
  have hsz := File.ofRecords_small hsm
  -- the file system when `filesystem::rename` is called
  let fsC : FileSystem :=
    if (fs.store path (File.ofRecords stream.data)).exists_ newPath then
      (fs.store path (File.ofRecords stream.data)).remove newPath
    else fs.store path (File.ofRecords stream.data)
  have hC1 : fsC.files path = some (File.ofRecords stream.data) := by
    show (if _ then _ else _ : FileSystem).files path = _
    split
    · rw [FileSystem.files_remove_ne _ hne]
      exact FileSystem.files_store_self _ _ hsz
    · exact FileSystem.files_store_self _ _ hsz
  have hC2 : ∀ q, q ≠ path → q ≠ newPath → fsC.files q = fs.files q := by
    intro q h1 h2
    show (if _ then _ else _ : FileSystem).files q = _
    split
    · rw [FileSystem.files_remove_ne _ h2]
      exact FileSystem.files_store_ne _ _ h1
    · exact FileSystem.files_store_ne _ _ h1
  have hC3 : fsC.denied = fs.denied := by
    show (if _ then _ else _ : FileSystem).denied = _
    split <;> rfl
  refine ⟨{ fsC with entries := fun q =>
      if q = newPath then some (File.ofRecords stream.data)
      else if q = path then none else fsC.entries q }, ?_, ?_, ?_, ?_, ?_⟩
  · show (match fsC.rename path newPath with
      | Except.error e => Except.error e
      | Except.ok fs2 => Except.ok (({ path := "", stream := stream, isOpen := false }
          : FileWrapper), fs2)) = _
    rw [FileSystem.rename_ok hC1]
  · exact FileSystem.files_of_entry (by simp) hsz
  · exact FileSystem.files_of_no_entry (by simp [hne])
  · intro q h1 h2
    rw [← hC2 q h2 h1]
    exact FileSystem.files_congr (by simp [h1, h2])
  · exact hC3

/-- A rename of an open wrapper that returns has found the file of the wrapper at its path, so
that file is shorter than `2 ^ 63` bytes. -/
theorem FileWrapper.rename_small {w : FileWrapper} {fs : FileSystem} {newPath : String}
    {r : FileWrapper × FileSystem} (ho : w.isOpen = true) (hne : w.path ≠ newPath)
    (h : w.rename fs newPath = .ok r) : w.stream.data.length < 2 ^ 60 := by
  obtain ⟨path, stream, isOpen⟩ := w
  simp only at ho hne
  subst ho
  show stream.data.length < 2 ^ 60
  by_contra hbig
  have hsz : ¬ (File.ofRecords stream.data).size < 2 ^ 63 := by
    rw [File.ofRecords_size]; omega
  have hnone : ∀ fsC : FileSystem, fsC.entries path = some (File.ofRecords stream.data) →
      fsC.files path = none := by
    intro fsC he
    unfold FileSystem.files
    rw [he]
    show (if decide ((File.ofRecords stream.data).size < 2 ^ 63) = true then _ else none) = none
    rw [if_neg (fun hd => hsz (of_decide_eq_true hd))]
  let fsC : FileSystem :=
    if (fs.store path (File.ofRecords stream.data)).exists_ newPath then
      (fs.store path (File.ofRecords stream.data)).remove newPath
    else fs.store path (File.ofRecords stream.data)
  have hC : fsC.files path = none := by
    apply hnone
    show (if _ then _ else _ : FileSystem).entries path = _
    split <;> simp [FileSystem.remove, FileSystem.store, hne]
  have hr : FileWrapper.rename ⟨path, stream, true⟩ fs newPath
      = match fsC.rename path newPath with
        | Except.error e => Except.error e
        | Except.ok fs2 => Except.ok (({ path := "", stream := stream, isOpen := false }
            : FileWrapper), fs2) := rfl
  rw [hr, FileSystem.rename, hC] at h
  cases h

theorem FileWrapper.destroy_renamed (w : FileWrapper) (fs : FileSystem) (hp : w.path = "")
    (ho : w.isOpen = false) : w.destroy fs = fs := by
  simp [FileWrapper.destroy, FileWrapper.close, ho, hp]

theorem FileWrapper.destroy_files (w : FileWrapper) (fs : FileSystem) (hp : w.path ≠ "") :
    (w.destroy fs).files w.path = none ∧
      (∀ q, q ≠ w.path → (w.destroy fs).files q = fs.files q) ∧
      (w.destroy fs).denied = fs.denied := by
  obtain ⟨path, stream, isOpen⟩ := w
  simp only at hp
  cases isOpen
  · have hd : FileWrapper.destroy ⟨path, stream, false⟩ fs = fs.remove path := by
      simp [FileWrapper.destroy, FileWrapper.close, hp]
    rw [hd]
    exact ⟨FileSystem.files_remove_self _ _, fun q hq => FileSystem.files_remove_ne _ hq, rfl⟩
  · have hd : FileWrapper.destroy ⟨path, stream, true⟩ fs
        = (fs.store path (File.ofRecords stream.data)).remove path := by
      simp [FileWrapper.destroy, FileWrapper.close, FileWrapper.sync, hp]
    rw [hd]
    refine ⟨FileSystem.files_remove_self _ _, fun q hq => ?_, rfl⟩
    rw [FileSystem.files_remove_ne _ hq]
    exact FileSystem.files_store_ne _ _ hq

/-! ## The body of `sortFile` -/

theorem File.size_div (file : File) (ht : file.tail.length < 8) :
    file.size / 8 = file.recs.length := by
  unfold File.size; omega

/-- What `presort` leaves in a fresh temp file: the sorted slabs of the source, which hold the
records of the source in sorted chunks of the capacity of the vector. -/
theorem presort_output (R : List Record) (C : Nat) (hC : 1 ≤ C) :
    (blockMap sortRun C (R.length / C + 1) R).Perm R ∧
      ChunkSorted (blockMap sortRun C (R.length / C + 1) R) C ∧
      ∀ j, chunkOf (blockMap sortRun C (R.length / C + 1) R) C j = sortRun (chunkOf R C j) := by
  have hk : R.length ≤ C * (R.length / C + 1) := by
    have h1 := Nat.div_add_mod R.length C
    have h2 := Nat.mod_lt R.length hC
    rw [Nat.mul_succ]; omega
  have hch : ∀ j, chunkOf (blockMap sortRun C (R.length / C + 1) R) C j
      = sortRun (chunkOf R C j) :=
    fun j => chunkOf_blockMap _ _ sortRun_length sortRun_nil _ _ _ hk
  exact ⟨blockMap_perm _ _ sortRun_perm _ _ hk, fun j => by rw [hch]; exact sortRun_sorted _, hch⟩

theorem FStream.opened_writable : FStream.opened.Writable :=
  ⟨⟨rfl, rfl⟩, Nat.le_refl _⟩

/-- A stream that started on an empty file holds exactly what is before its position. -/
theorem FStream.data_of_ahead_opened {f : FStream} (h : f.Ahead FStream.opened) :
    f.data = f.data.take f.pos := by
  have h2 : f.data.drop f.pos = [] := by rw [h.2]; simp [FStream.opened]
  conv_lhs => rw [← List.take_append_drop f.pos f.data, h2, List.append_nil]

/-- A file in one sorted chunk that covers it is sorted. -/
theorem sorted_of_chunkSorted {D : List Record} {L : Nat} (h : ChunkSorted D L)
    (hL : D.length ≤ L) : D.Sorted (· ≤ ·) := by
  have h0 := h 0
  rwa [chunkOf_zero, List.take_of_length_le hL] at h0

/-- The body of `sortFile` once both temp files are open, on a source that is not the first temp
file (or is empty, as that file is when the body starts), with a vector of at least three
records (or one that holds the whole source): the sorted records of the source end up at the
destination path, through a rename of one of the two wrappers. -/
theorem sortBody_spec (fuel : Nat) (fs1 : FileSystem) (srcPath dstPath : String) (ram : Nat)
    (file : File) (hsrc : fs1.files srcPath = some file) (hden : fs1.denied srcPath = false)
    (ht : file.tail.length < 8)
    (hne1 : srcPath ≠ dstPath ++ ".1" ∨ file = File.ofRecords [])
    (hC : 3 ≤ ram / 8 ∨ (1 ≤ ram / 8 ∧ file.recs.length ≤ ram / 8))
    (hfuel : 3 * file.recs.length + 4 ≤ fuel) :
    ∃ fs2 w0 w1, sortBody fuel fs1 srcPath dstPath ram
        { path := dstPath ++ ".1", stream := FStream.opened, isOpen := true }
        { path := dstPath ++ ".2", stream := FStream.opened, isOpen := true }
        = .ok (fs2, w0, w1) ∧
      fs2.files dstPath = some (File.ofRecords (sortRun file.recs)) ∧
      ((w0.path = "" ∧ w0.isOpen = false ∧ w1.path = dstPath ++ ".2"
          ∧ fs2.files (dstPath ++ ".1") = none)
        ∨ (w1.path = "" ∧ w1.isOpen = false ∧ w0.path = dstPath ++ ".1"
          ∧ fs2.files (dstPath ++ ".2") = none)) ∧
      (∀ q, q ≠ dstPath → q ≠ dstPath ++ ".1" → q ≠ dstPath ++ ".2" →
        fs2.files q = fs1.files q) ∧
      fs2.denied = fs1.denied := by
  have hN : file.recs.length / (ram / 8) ≤ file.recs.length := Nat.div_le_self _ _
  have hC1 : 1 ≤ ram / 8 := by omega
  have hsmallN : file.recs.length < 2 ^ 60 := File.recs_small (FileSystem.files_small hsrc)
  -- presort
  obtain ⟨dst1, buf1, hpre, hbl, hw1, hah1, htk1⟩ := presort_spec fuel fs1 srcPath file
    FStream.opened (List.replicate (ram / 8) 0) hsrc hden ht
    (by rw [List.length_replicate]; omega) FStream.opened_writable
    (by rw [List.length_replicate]; omega)
  rw [List.length_replicate] at hbl htk1
  have hdata : dst1.data = blockMap sortRun (ram / 8) (file.recs.length / (ram / 8) + 1)
      file.recs := by
    rw [FStream.data_of_ahead_opened hah1, htk1]; simp [FStream.opened]
  obtain ⟨hperm, hsorted, _⟩ := presort_output file.recs (ram / 8) (by omega)
  -- the size of the source
  let w0 : FileWrapper := { path := dstPath ++ ".1", stream := dst1, isOpen := true }
  have hsize : ∃ sz, (w0.sync fs1).fileSize srcPath = .ok sz ∧ sz / 8 = file.recs.length := by
    by_cases hne : srcPath = dstPath ++ ".1"
    · have hemp : file = File.ofRecords [] := hne1.resolve_left (fun h => h hne)
      have hnil : dst1.data = [] := by
        rw [hdata, hemp]
        exact blockMap_nil _ _ sortRun_nil _
      refine ⟨(File.ofRecords []).size, ?_, by rw [hemp]; rfl⟩
      apply FileSystem.fileSize_ok
      show (fs1.store (dstPath ++ ".1") (File.ofRecords dst1.data)).files srcPath = _
      rw [hne, hnil]
      exact FileSystem.files_store_self _ _ (by decide)
    · refine ⟨file.size, ?_, File.size_div file ht⟩
      apply FileSystem.fileSize_ok
      show (fs1.store (dstPath ++ ".1") (File.ofRecords dst1.data)).files srcPath = _
      rw [FileSystem.files_store_ne _ _ hne]
      exact hsrc
  obtain ⟨sz, hsize, hsz⟩ := hsize
  -- the loop
  let s0 : SortState :=
    { w0 := w0, w1 := { path := dstPath ++ ".2", stream := FStream.opened, isOpen := true }
      pw0 := 0, pw1 := 1, buf := buf1, numbersInChunk := ram / 8 }
  have hv0 : s0.Valid file.recs :=
    ⟨Or.inl ⟨rfl, rfl⟩,
      by show 3 ≤ buf1.length ∨ file.recs.length ≤ ram / 8; omega, hC1, hw1.1,
      by show dst1.data.Perm _; rw [hdata]; exact hperm,
      by show ChunkSorted dst1.data (ram / 8); rw [hdata]; exact hsorted,
      ⟨rfl, rfl⟩, Nat.zero_le _, hsmallN⟩
  obtain ⟨s1, hloop, hv1, hge, hp0, hp1, ho0, ho1, _⟩ := sortLoop_spec file.recs fuel s0 hv0
    (by show file.recs.length - ram / 8 + 2 * file.recs.length + 4 ≤ fuel; omega)
  have hA : (s1.wrapper s1.pw0).stream.data = sortRun file.recs :=
    eq_sortRun_of_perm_sorted hv1.active_perm
      (sorted_of_chunkSorted hv1.active_sorted (by rw [hv1.active_perm.length_eq]; exact hge))
  have hbody : sortBody fuel fs1 srcPath dstPath ram
      { path := dstPath ++ ".1", stream := FStream.opened, isOpen := true }
      { path := dstPath ++ ".2", stream := FStream.opened, isOpen := true }
      = match (s1.wrapper s1.pw0).rename (w0.sync fs1) dstPath with
        | Except.error e => Except.error e
        | Except.ok (w, fs2) => Except.ok (fs2, (s1.setWrapper s1.pw0 w).w0,
            (s1.setWrapper s1.pw0 w).w1) := by
    simp only [sortBody, hpre]
    show (match (w0.sync fs1).fileSize srcPath with
      | Except.error e => Except.error e
      | Except.ok fileSize =>
        match sortLoop (fileSize / 8) fuel s0 with
        | Except.error e => Except.error e
        | Except.ok s =>
          match (s.wrapper s.pw0).rename (w0.sync fs1) dstPath with
          | Except.error e => Except.error e
          | Except.ok (w, fs2) => Except.ok (fs2, (s.setWrapper s.pw0 w).w0,
              (s.setWrapper s.pw0 w).w1)) = _
    rw [hsize]
    simp only [hsz, hloop]
  rw [hbody]
  have hsync : ∀ q, q ≠ dstPath ++ ".1" → (w0.sync fs1).files q = fs1.files q :=
    fun q hq => FileSystem.files_store_ne _ _ hq
  rcases hv1.pw with ⟨h0, h1⟩ | ⟨h0, h1⟩
  · -- the first temp file is renamed
    have hw : s1.wrapper s1.pw0 = s1.w0 := by rw [h0]; rfl
    have hpath : s1.w0.path = dstPath ++ ".1" := hp0
    have hopen : s1.w0.isOpen = true := ho0
    rw [hw] at hA ⊢
    obtain ⟨fs2, hren, hf1, hf2, hf3, hf4⟩ := FileWrapper.rename_spec s1.w0 (w0.sync fs1) dstPath
      hopen (by rw [hpath]; exact append_ne_self _ _ (by decide))
      (by rw [hA, sortRun_length]; exact hsmallN)
    rw [hren]
    refine ⟨fs2, _, _, rfl, by rw [hf1, hA], Or.inl ⟨?_, ?_, ?_, ?_⟩, ?_, hf4⟩
    · rw [h0]; rfl
    · rw [h0]; rfl
    · rw [h0]; exact hp1
    · rw [← hpath]; exact hf2
    · intro q hq hq1 hq2
      rw [hf3 q hq (by rw [hpath]; exact hq1), hsync q hq1]
  · -- the second temp file is renamed
    have hw : s1.wrapper s1.pw0 = s1.w1 := by rw [h0]; rfl
    have hpath : s1.w1.path = dstPath ++ ".2" := hp1
    have hopen : s1.w1.isOpen = true := ho1
    rw [hw] at hA ⊢
    obtain ⟨fs2, hren, hf1, hf2, hf3, hf4⟩ := FileWrapper.rename_spec s1.w1 (w0.sync fs1) dstPath
      hopen (by rw [hpath]; exact append_ne_self _ _ (by decide))
      (by rw [hA, sortRun_length]; exact hsmallN)
    rw [hren]
    refine ⟨fs2, _, _, rfl, by rw [hf1, hA], Or.inr ⟨?_, ?_, ?_, ?_⟩, ?_, hf4⟩
    · rw [h0]; rfl
    · rw [h0]; rfl
    · rw [h0]; exact hp0
    · rw [← hpath]; exact hf2
    · intro q hq hq1 hq2
      rw [hf3 q hq (by rw [hpath]; exact hq2), hsync q hq1]

/-! ## The length of the shared vector -/

theorem storeAt_length {buf : List Record} {i : Nat} {vals buf1 : List Record}
    (h : storeAt buf i vals = .ok buf1) : buf1.length = buf.length := by
  unfold storeAt at h
  split at h
  · cases h; exact put_length ‹_›
  · cases h

theorem Chunk.fillBuf_length {c : Chunk} {f : FStream} {buf : List Record} {c1 : Chunk}
    {f1 : FStream} {buf1 : List Record} (h : c.fillBuf f buf = .ok (c1, f1, buf1)) :
    buf1.length = buf.length := by
  unfold Chunk.fillBuf at h
  split at h
  · cases h; rfl
  · simp only at h
    split at h
    · cases h; rfl
    · split at h
      · cases h
      · rename_i hst
        have hl := storeAt_length hst
        split at h <;> cases h <;> exact hl

theorem Chunk.getNext_length {c : Chunk} {f : FStream} {buf : List Record} {v : Option Record}
    {c1 : Chunk} {f1 : FStream} {buf1 : List Record}
    (h : c.getNext f buf = .ok (v, c1, f1, buf1)) : buf1.length = buf.length := by
  unfold Chunk.getNext at h
  split at h
  · cases h
  · rename_i c2 f2 buf2 hfill
    have hl : buf2.length = buf.length := by
      split at hfill
      · exact Chunk.fillBuf_length hfill
      · cases hfill; rfl
    split at h
    · cases h; exact hl
    · split at h
      · cases h
      · cases h; exact hl

theorem ChunkWriter.append_length {w : ChunkWriter} {dst : FStream} {buf : List Record}
    {v : Record} {w1 : ChunkWriter} {dst1 : FStream} {buf1 : List Record}
    (h : w.append dst buf v = .ok (w1, dst1, buf1)) : buf1.length = buf.length := by
  unfold ChunkWriter.append at h
  split at h
  · cases h
  · rename_i hst
    have hl := storeAt_length hst
    simp only at h
    split at h
    · split at h
      · cases h
      · cases h; exact hl
    · cases h; exact hl

namespace MergeState

theorem getNext1_length {s : MergeState} {v : Option Record} {s1 : MergeState}
    (h : s.getNext1 = .ok (v, s1)) : s1.buf.length = s.buf.length := by
  unfold getNext1 at h
  split at h
  · cases h
  · rename_i hget
    cases h
    exact Chunk.getNext_length hget

theorem getNext2_length {s : MergeState} {v : Option Record} {s1 : MergeState}
    (h : s.getNext2 = .ok (v, s1)) : s1.buf.length = s.buf.length := by
  unfold getNext2 at h
  split at h
  · cases h
  · rename_i hget
    cases h
    exact Chunk.getNext_length hget

theorem appendRecord_length {s : MergeState} {v : Record} {s1 : MergeState}
    (h : s.append v = .ok s1) : s1.buf.length = s.buf.length := by
  unfold append at h
  split at h
  · cases h
  · rename_i happ
    cases h
    exact ChunkWriter.append_length happ

end MergeState

theorem mergeLoop_length : ∀ (fuel : Nat) (v1 v2 : Record) (s s1 : MergeState),
    mergeLoop fuel v1 v2 s = .ok s1 → s1.buf.length = s.buf.length := by
  intro fuel
  induction fuel with
  | zero => intro v1 v2 s s1 h; cases h
  | succ fuel ih =>
    intro v1 v2 s s1 h
    unfold mergeLoop at h
    split at h
    · split at h
      · cases h
      · rename_i ha
        have l1 := MergeState.appendRecord_length ha
        split at h
        · cases h
        · rename_i hg
          exact (MergeState.appendRecord_length h).trans ((MergeState.getNext1_length hg).trans l1)
        · rename_i hg
          exact (ih _ _ _ _ h).trans ((MergeState.getNext1_length hg).trans l1)
    · split at h
      · cases h
      · rename_i ha
        have l1 := MergeState.appendRecord_length ha
        split at h
        · cases h
        · rename_i hg
          exact (MergeState.appendRecord_length h).trans ((MergeState.getNext2_length hg).trans l1)
        · rename_i hg
          exact (ih _ _ _ _ h).trans ((MergeState.getNext2_length hg).trans l1)

theorem drain1_length : ∀ (fuel : Nat) (s s1 : MergeState),
    drain1 fuel s = .ok s1 → s1.buf.length = s.buf.length := by
  intro fuel
  induction fuel with
  | zero => intro s s1 h; cases h
  | succ fuel ih =>
    intro s s1 h
    unfold drain1 at h
    split at h
    · cases h
    · rename_i hg
      cases h
      exact MergeState.getNext1_length hg
    · rename_i hg
      split at h
      · cases h
      · rename_i ha
        exact (ih _ _ h).trans ((MergeState.appendRecord_length ha).trans (MergeState.getNext1_length hg))

theorem drain2_length : ∀ (fuel : Nat) (s s1 : MergeState),
    drain2 fuel s = .ok s1 → s1.buf.length = s.buf.length := by
  intro fuel
  induction fuel with
  | zero => intro s s1 h; cases h
  | succ fuel ih =>
    intro s s1 h
    unfold drain2 at h
    split at h
    · cases h
    · rename_i hg
      cases h
      exact MergeState.getNext2_length hg
    · rename_i hg
      split at h
      · cases h
      · rename_i ha
        exact (ih _ _ h).trans ((MergeState.appendRecord_length ha).trans (MergeState.getNext2_length hg))

theorem mergeHead_length {fuel : Nat} {s s1 : MergeState} (h : mergeHead fuel s = .ok s1) :
    s1.buf.length = s.buf.length := by
  unfold mergeHead at h
  split at h
  · cases h
  · rename_i hg
    cases h
    exact MergeState.getNext1_length hg
  · rename_i hg
    have l1 := MergeState.getNext1_length hg
    split at h
    · cases h
    · rename_i hg2
      exact (MergeState.appendRecord_length h).trans ((MergeState.getNext2_length hg2).trans l1)
    · rename_i hg2
      exact (mergeLoop_length _ _ _ _ _ h).trans ((MergeState.getNext2_length hg2).trans l1)

theorem mergeSiblingChunks_length {fuel : Nat} {s s1 : MergeState}
    (h : mergeSiblingChunks fuel s = .ok s1) : s1.buf.length = s.buf.length := by
  unfold mergeSiblingChunks at h
  split at h
  · cases h
  · rename_i hh
    split at h
    · cases h
    · rename_i hd
      exact (drain2_length _ _ _ h).trans ((drain1_length _ _ _ hd).trans (mergeHead_length hh))

theorem mergeChunksLoop_length (L cc l : Nat) : ∀ (fuel idx : Nat) (p p1 : PassState),
    mergeChunksLoop L cc l fuel idx p = .ok p1 → p1.buf.length = p.buf.length := by
  intro fuel
  induction fuel with
  | zero => intro idx p p1 h; cases h
  | succ fuel ih =>
    intro idx p p1 h
    unfold mergeChunksLoop at h
    split at h
    · simp only at h
      split at h
      · cases h
      · rename_i hm
        exact (ih _ _ _ h).trans (mergeSiblingChunks_length hm)
    · cases h; rfl

theorem mergeChunks_length {fuel : Nat} {src dst : FStream} {buf : List Record} {L cc : Nat}
    {r : PassResult} (h : mergeChunks fuel src dst buf L cc = .ok r) :
    r.buf.length = buf.length := by
  unfold mergeChunks at h
  simp only at h
  split at h
  · cases h
  · rename_i hloop
    split at h
    · cases h
    · cases h
      exact mergeChunksLoop_length _ _ _ _ _ _ _ hloop

/-- The loop of `sortFile`, whenever it ends: the vector keeps its length and the wrappers keep
their paths and stay open. -/
theorem sortLoop_frame (N : Nat) : ∀ (fuel : Nat) (s s1 : SortState),
    sortLoop N fuel s = .ok s1 → s1.buf.length = s.buf.length ∧ s1.w0.path = s.w0.path ∧
      s1.w1.path = s.w1.path ∧ s1.w0.isOpen = s.w0.isOpen ∧ s1.w1.isOpen = s.w1.isOpen := by
  intro fuel
  induction fuel with
  | zero => intro s s1 h; cases h
  | succ fuel ih =>
    intro s s1 h
    unfold sortLoop at h
    split at h
    · split at h
      · cases h
      · simp only at h
        split at h
        · cases h
        · rename_i r hm
          obtain ⟨a1, a2, a3, a4, a5⟩ := ih _ _ h
          have hb := mergeChunks_length hm
          have hf : (s.afterPass r).buf.length = s.buf.length ∧
              (s.afterPass r).w0.path = s.w0.path ∧ (s.afterPass r).w1.path = s.w1.path ∧
              (s.afterPass r).w0.isOpen = s.w0.isOpen ∧
              (s.afterPass r).w1.isOpen = s.w1.isOpen := by
            refine ⟨hb, ?_, ?_, ?_, ?_⟩ <;>
              simp only [SortState.afterPass, SortState.setStream, SortState.setWrapper,
                SortState.wrapper] <;> split <;> split <;> rfl
          exact ⟨a1.trans hf.1, a2.trans hf.2.1, a3.trans hf.2.2.1, a4.trans hf.2.2.2.1,
            a5.trans hf.2.2.2.2⟩
    · cases h
      exact ⟨rfl, rfl, rfl, rfl, rfl⟩

/-! ## The function `sortFile` -/

/-- The end of `sortFile` when both temp files could be opened and the body returned: the
destructors delete the temp file that was not renamed and leave every other path alone. -/
theorem sortFile_finish (fuel : Nat) (fs : FileSystem) (srcPath dstPath : String) (ram : Nat)
    (fs2 : FileSystem) (w0 w1 : FileWrapper)
    (hden1 : fs.denied (dstPath ++ ".1") = false) (hden2 : fs.denied (dstPath ++ ".2") = false)
    (hbody : sortBody fuel
        ((fs.store (dstPath ++ ".1") (File.ofRecords [])).store (dstPath ++ ".2")
          (File.ofRecords []))
        srcPath dstPath ram
        { path := dstPath ++ ".1", stream := FStream.opened, isOpen := true }
        { path := dstPath ++ ".2", stream := FStream.opened, isOpen := true }
      = .ok (fs2, w0, w1))
    (hor : OneRenamed dstPath fs2 w0 w1) :
    (sortFile fuel fs srcPath dstPath ram).2 = .ok () ∧
      (sortFile fuel fs srcPath dstPath ram).1.files (dstPath ++ ".1") = none ∧
      (sortFile fuel fs srcPath dstPath ram).1.files (dstPath ++ ".2") = none ∧
      (∀ q, q ≠ dstPath ++ ".1" → q ≠ dstPath ++ ".2" →
        (sortFile fuel fs srcPath dstPath ram).1.files q = fs2.files q) ∧
      (sortFile fuel fs srcPath dstPath ram).1.denied = fs2.denied := by
  have hnew1 := FileWrapper.new_ok fs dstPath ".1" hden1
  have hnew2 := FileWrapper.new_ok (fs.store (dstPath ++ ".1") (File.ofRecords [])) dstPath ".2"
    hden2
  have hsf : sortFile fuel fs srcPath dstPath ram = (w0.destroy (w1.destroy fs2), .ok ()) := by
    simp only [sortFile, hnew1, hnew2]
    rw [hbody]
  rw [hsf]
  have ht12 := temp_paths_ne dstPath
  rcases hor with ⟨hp0, ho0, hp1, hnone⟩ | ⟨hp1, ho1, hp0, hnone⟩
  · rw [FileWrapper.destroy_renamed w0 _ hp0 ho0]
    obtain ⟨d1, d2, d3⟩ := FileWrapper.destroy_files w1 fs2
      (by rw [hp1]; exact append_ne_empty _ _ (by decide))
    rw [hp1] at d1 d2
    refine ⟨rfl, ?_, d1, fun q _ h2 => d2 q h2, d3⟩
    show (w1.destroy fs2).files (dstPath ++ ".1") = _
    rw [d2 _ ht12, hnone]
  · rw [FileWrapper.destroy_renamed w1 _ hp1 ho1]
    obtain ⟨d1, d2, d3⟩ := FileWrapper.destroy_files w0 fs2
      (by rw [hp0]; exact append_ne_empty _ _ (by decide))
    rw [hp0] at d1 d2
    refine ⟨rfl, d1, ?_, fun q h1 _ => d2 q h1, d3⟩
    show (w0.destroy fs2).files (dstPath ++ ".2") = _
    rw [d2 _ ht12.symm, hnone]

/-- The function `sortFile` on a source that can be opened and is not one of the two temp
files, with temp files that can be opened, a vector of at least three records (or one that
holds the whole source) and enough fuel: it returns normally, the destination path holds the
sorted records of the source, neither temp path exists and no other path changes. -/
theorem sortFile_spec (fuel : Nat) (fs : FileSystem) (srcPath dstPath : String) (ram : Nat)
    (file : File) (hsrc : fs.files srcPath = some file) (hden : fs.denied srcPath = false)
    (hden1 : fs.denied (dstPath ++ ".1") = false) (hden2 : fs.denied (dstPath ++ ".2") = false)
    (ht : file.tail.length < 8) (hne1 : srcPath ≠ dstPath ++ ".1")
    (hne2 : srcPath ≠ dstPath ++ ".2")
    (hC : 3 ≤ ram / 8 ∨ (1 ≤ ram / 8 ∧ file.recs.length ≤ ram / 8))
    (hfuel : 3 * file.recs.length + 4 ≤ fuel) :
    (sortFile fuel fs srcPath dstPath ram).2 = .ok () ∧
      (sortFile fuel fs srcPath dstPath ram).1.files dstPath
        = some (File.ofRecords (sortRun file.recs)) ∧
      (sortFile fuel fs srcPath dstPath ram).1.files (dstPath ++ ".1") = none ∧
      (sortFile fuel fs srcPath dstPath ram).1.files (dstPath ++ ".2") = none ∧
      (∀ q, q ≠ dstPath → q ≠ dstPath ++ ".1" → q ≠ dstPath ++ ".2" →
        (sortFile fuel fs srcPath dstPath ram).1.files q = fs.files q) ∧
      (sortFile fuel fs srcPath dstPath ram).1.denied = fs.denied := by
  have hfs1 : ∀ q, q ≠ dstPath ++ ".1" → q ≠ dstPath ++ ".2" →
      ((fs.store (dstPath ++ ".1") (File.ofRecords [])).store (dstPath ++ ".2")
        (File.ofRecords [])).files q = fs.files q := by
    intro q h1 h2
    rw [FileSystem.files_store_ne _ _ h2, FileSystem.files_store_ne _ _ h1]
  obtain ⟨fs2, w0, w1, hbody, hdst, hor, hother, hdenied⟩ := sortBody_spec fuel
    ((fs.store (dstPath ++ ".1") (File.ofRecords [])).store (dstPath ++ ".2") (File.ofRecords []))
    srcPath dstPath ram file (by rw [hfs1 _ hne1 hne2]; exact hsrc) hden ht (Or.inl hne1) hC
    hfuel
  obtain ⟨f1, f2, f3, f4, f5⟩ := sortFile_finish fuel fs srcPath dstPath ram fs2 w0 w1 hden1
    hden2 hbody hor
  have ht1d : dstPath ≠ dstPath ++ ".1" := fun h => append_ne_self dstPath ".1" (by decide) h.symm
  have ht2d : dstPath ≠ dstPath ++ ".2" := fun h => append_ne_self dstPath ".2" (by decide) h.symm
  refine ⟨f1, by rw [f4 _ ht1d ht2d, hdst], f2, f3, fun q h h1 h2 => ?_, f5.trans hdenied⟩
  rw [f4 q h1 h2, hother q h h1 h2, hfs1 q h1 h2]

/-- Whenever the body of `sortFile` returns, it has renamed one of the two wrappers to the
destination path, which then holds the data of that wrapper's stream. -/
theorem sortBody_inv {fuel : Nat} {fs1 : FileSystem} {srcPath dstPath : String} {ram : Nat}
    {fs2 : FileSystem} {w0 w1 : FileWrapper}
    (h : sortBody fuel fs1 srcPath dstPath ram
        { path := dstPath ++ ".1", stream := FStream.opened, isOpen := true }
        { path := dstPath ++ ".2", stream := FStream.opened, isOpen := true }
      = .ok (fs2, w0, w1)) :
    OneRenamed dstPath fs2 w0 w1 ∧
      ∃ out, fs2.files dstPath = some (File.ofRecords out) := by
  unfold sortBody at h
  simp only at h
  split at h
  · cases h
  · split at h
    · cases h
    · split at h
      · cases h
      · rename_i s hloop
        obtain ⟨_, hp0, hp1, ho0, ho1⟩ := sortLoop_frame _ _ _ _ hloop
        simp only at hp0 hp1 ho0 ho1
        by_cases h0 : s.pw0 = 0
        · have hw : s.wrapper s.pw0 = s.w0 := by simp [SortState.wrapper, h0]
          rw [hw] at h
          have hsm : s.w0.stream.data.length < 2 ^ 60 := by
            have h2 := h
            split at h2
            · cases h2
            · rename_i hr
              exact FileWrapper.rename_small ho0
                (by rw [hp0]; exact append_ne_self _ _ (by decide)) hr
          obtain ⟨fsR, hren, hf1, hf2, _, _⟩ := FileWrapper.rename_spec s.w0 _ dstPath ho0
            (by rw [hp0]; exact append_ne_self _ _ (by decide)) hsm
          rw [hren] at h
          simp only [SortState.setWrapper, h0, if_true] at h
          cases h
          exact ⟨Or.inl ⟨rfl, rfl, hp1, by rw [← hp0]; exact hf2⟩, _, hf1⟩
        · have hw : s.wrapper s.pw0 = s.w1 := by simp [SortState.wrapper, h0]
          rw [hw] at h
          have hsm : s.w1.stream.data.length < 2 ^ 60 := by
            have h2 := h
            split at h2
            · cases h2
            · rename_i hr
              exact FileWrapper.rename_small ho1
                (by rw [hp1]; exact append_ne_self _ _ (by decide)) hr
          obtain ⟨fsR, hren, hf1, hf2, _, _⟩ := FileWrapper.rename_spec s.w1 _ dstPath ho1
            (by rw [hp1]; exact append_ne_self _ _ (by decide)) hsm
          rw [hren] at h
          simp only [SortState.setWrapper, h0, if_false] at h
          cases h
          exact ⟨Or.inr ⟨rfl, rfl, hp0, by rw [← hp1]; exact hf2⟩, _, hf1⟩

/-- Whenever `sortFile` returns normally, both temp files could be opened and its body
returned. -/
theorem sortFile_inv {fuel : Nat} {fs : FileSystem} {srcPath dstPath : String} {ram : Nat}
    (h : (sortFile fuel fs srcPath dstPath ram).2 = .ok ()) :
    fs.denied (dstPath ++ ".1") = false ∧ fs.denied (dstPath ++ ".2") = false ∧
      ∃ fs2 w0 w1, sortBody fuel
        ((fs.store (dstPath ++ ".1") (File.ofRecords [])).store (dstPath ++ ".2")
          (File.ofRecords []))
        srcPath dstPath ram
        { path := dstPath ++ ".1", stream := FStream.opened, isOpen := true }
        { path := dstPath ++ ".2", stream := FStream.opened, isOpen := true }
      = .ok (fs2, w0, w1) := by
  cases hd1 : fs.denied (dstPath ++ ".1") with
  | true =>
    rw [sortFile, FileWrapper.new_denied fs dstPath ".1" hd1] at h
    cases h
  | false =>
    have hnew1 := FileWrapper.new_ok fs dstPath ".1" hd1
    cases hd2 : fs.denied (dstPath ++ ".2") with
    | true =>
      have hnew2 := FileWrapper.new_denied (fs.store (dstPath ++ ".1") (File.ofRecords []))
        dstPath ".2" hd2
      simp only [sortFile, hnew1, hnew2] at h
      cases h
    | false =>
      have hnew2 := FileWrapper.new_ok (fs.store (dstPath ++ ".1") (File.ofRecords []))
        dstPath ".2" hd2
      simp only [sortFile, hnew1, hnew2] at h
      split at h
      · cases h
      · rename_i fs2 w0 w1 hbody
        exact ⟨rfl, rfl, fs2, w0, w1, hbody⟩

/-! ## More fuel changes nothing -/

theorem mergeLoop_mono : ∀ (fuel : Nat) (v1 v2 : Record) (s s1 : MergeState),
    mergeLoop fuel v1 v2 s = .ok s1 → ∀ fuel1, fuel ≤ fuel1 →
    mergeLoop fuel1 v1 v2 s = .ok s1 := by
  intro fuel
  induction fuel with
  | zero => intro v1 v2 s s1 h; cases h
  | succ fuel ih =>
    intro v1 v2 s s1 h fuel1 hle
    obtain ⟨k, rfl⟩ : ∃ k, fuel1 = k + 1 := ⟨fuel1 - 1, by omega⟩
    have hk : fuel ≤ k := by omega
    unfold mergeLoop at h ⊢
    by_cases hlt : v1 < v2
    · simp only [hlt, if_true] at h ⊢
      cases ha : s.append v1 with
      | error e => rw [ha] at h; cases h
      | ok sa =>
        rw [ha] at h
        simp only at h ⊢
        cases hg : sa.getNext1 with
        | error e => rw [hg] at h; cases h
        | ok r =>
          obtain ⟨v, sb⟩ := r
          rw [hg] at h
          cases v with
          | none => exact h
          | some a => exact ih _ _ _ _ h k hk
    · simp only [hlt, if_false] at h ⊢
      cases ha : s.append v2 with
      | error e => rw [ha] at h; cases h
      | ok sa =>
        rw [ha] at h
        simp only at h ⊢
        cases hg : sa.getNext2 with
        | error e => rw [hg] at h; cases h
        | ok r =>
          obtain ⟨v, sb⟩ := r
          rw [hg] at h
          cases v with
          | none => exact h
          | some a => exact ih _ _ _ _ h k hk

theorem drain1_mono : ∀ (fuel : Nat) (s s1 : MergeState),
    drain1 fuel s = .ok s1 → ∀ fuel1, fuel ≤ fuel1 → drain1 fuel1 s = .ok s1 := by
  intro fuel
  induction fuel with
  | zero => intro s s1 h; cases h
  | succ fuel ih =>
    intro s s1 h fuel1 hle
    obtain ⟨k, rfl⟩ : ∃ k, fuel1 = k + 1 := ⟨fuel1 - 1, by omega⟩
    have hk : fuel ≤ k := by omega
    unfold drain1 at h ⊢
    cases hg : s.getNext1 with
    | error e => rw [hg] at h; cases h
    | ok r =>
      obtain ⟨v, sb⟩ := r
      rw [hg] at h
      cases v with
      | none => exact h
      | some a =>
        simp only at h ⊢
        cases ha : sb.append a with
        | error e => rw [ha] at h; cases h
        | ok sa =>
          rw [ha] at h
          exact ih _ _ h k hk

theorem drain2_mono : ∀ (fuel : Nat) (s s1 : MergeState),
    drain2 fuel s = .ok s1 → ∀ fuel1, fuel ≤ fuel1 → drain2 fuel1 s = .ok s1 := by
  intro fuel
  induction fuel with
  | zero => intro s s1 h; cases h
  | succ fuel ih =>
    intro s s1 h fuel1 hle
    obtain ⟨k, rfl⟩ : ∃ k, fuel1 = k + 1 := ⟨fuel1 - 1, by omega⟩
    have hk : fuel ≤ k := by omega
    unfold drain2 at h ⊢
    cases hg : s.getNext2 with
    | error e => rw [hg] at h; cases h
    | ok r =>
      obtain ⟨v, sb⟩ := r
      rw [hg] at h
      cases v with
      | none => exact h
      | some a =>
        simp only at h ⊢
        cases ha : sb.append a with
        | error e => rw [ha] at h; cases h
        | ok sa =>
          rw [ha] at h
          exact ih _ _ h k hk

theorem mergeHead_mono (fuel fuel1 : Nat) (s s1 : MergeState)
    (h : mergeHead fuel s = .ok s1) (hle : fuel ≤ fuel1) : mergeHead fuel1 s = .ok s1 := by
  unfold mergeHead at h ⊢
  cases hg : s.getNext1 with
  | error e => rw [hg] at h; cases h
  | ok r =>
    obtain ⟨v, sb⟩ := r
    rw [hg] at h
    cases v with
    | none => exact h
    | some a =>
      simp only at h ⊢
      cases hg2 : sb.getNext2 with
      | error e => rw [hg2] at h; cases h
      | ok r2 =>
        obtain ⟨v2, sc⟩ := r2
        rw [hg2] at h
        cases v2 with
        | none => exact h
        | some b => exact mergeLoop_mono _ _ _ _ _ h _ hle

theorem mergeSiblingChunks_mono (fuel fuel1 : Nat) (s s1 : MergeState)
    (h : mergeSiblingChunks fuel s = .ok s1) (hle : fuel ≤ fuel1) :
    mergeSiblingChunks fuel1 s = .ok s1 := by
  unfold mergeSiblingChunks at h ⊢
  cases hh : mergeHead fuel s with
  | error e => rw [hh] at h; cases h
  | ok sa =>
    rw [hh] at h
    rw [mergeHead_mono _ _ _ _ hh hle]
    simp only at h ⊢
    cases hd : drain1 fuel sa with
    | error e => rw [hd] at h; cases h
    | ok sb =>
      rw [hd] at h
      rw [drain1_mono _ _ _ hd _ hle]
      exact drain2_mono _ _ _ h _ hle

theorem mergeChunksLoop_mono (L cc l : Nat) : ∀ (fuel idx : Nat) (p p1 : PassState),
    mergeChunksLoop L cc l fuel idx p = .ok p1 → ∀ fuel1, fuel ≤ fuel1 →
    mergeChunksLoop L cc l fuel1 idx p = .ok p1 := by
  intro fuel
  induction fuel with
  | zero => intro idx p p1 h; cases h
  | succ fuel ih =>
    intro idx p p1 h fuel1 hle
    obtain ⟨k, rfl⟩ : ∃ k, fuel1 = k + 1 := ⟨fuel1 - 1, by omega⟩
    have hk : fuel ≤ k := by omega
    unfold mergeChunksLoop at h ⊢
    by_cases hlt : idx < cc
    · simp only [hlt, if_true] at h ⊢
      cases hm : mergeSiblingChunks fuel
          { ch1 := Chunk.new l l L idx,
            ch2 := Chunk.new (2 * l) l (if idx + 1 < cc then L else 0) (idx + 1),
            cw := p.cw, src := p.src, dst := p.dst, buf := p.buf } with
      | error e => rw [hm] at h; cases h
      | ok sa =>
        rw [hm] at h
        rw [mergeSiblingChunks_mono _ _ _ _ hm hk]
        exact ih _ _ _ h k hk
    · simp only [hlt, if_false] at h ⊢
      exact h

theorem mergeChunks_mono (fuel fuel1 : Nat) (src dst : FStream) (buf : List Record)
    (L cc : Nat) (r : PassResult) (h : mergeChunks fuel src dst buf L cc = .ok r)
    (hle : fuel ≤ fuel1) : mergeChunks fuel1 src dst buf L cc = .ok r := by
  unfold mergeChunks at h ⊢
  simp only at h ⊢
  cases hm : mergeChunksLoop L cc (buf.length / 3) fuel 0
      { cw := (ChunkWriter.new dst 0 (buf.length / 3)).1, src := src,
        dst := (ChunkWriter.new dst 0 (buf.length / 3)).2, buf := buf } with
  | error e => rw [hm] at h; cases h
  | ok p =>
    rw [hm] at h
    rw [mergeChunksLoop_mono _ _ _ _ _ _ _ hm _ hle]
    exact h

theorem presortLoop_mono : ∀ (fuel : Nat) (src : IStream) (dst : FStream) (buf : List Record)
    (r : IStream × FStream × List Record),
    presortLoop fuel src dst buf = .ok r → ∀ fuel1, fuel ≤ fuel1 →
    presortLoop fuel1 src dst buf = .ok r := by
  intro fuel
  induction fuel with
  | zero => intro src dst buf r h; cases h
  | succ fuel ih =>
    intro src dst buf r h fuel1 hle
    obtain ⟨k, rfl⟩ : ∃ k, fuel1 = k + 1 := ⟨fuel1 - 1, by omega⟩
    have hk : fuel ≤ k := by omega
    unfold presortLoop at h ⊢
    by_cases he : src.eof = true
    · simp only [he, if_true] at h ⊢
      exact h
    · simp only [he] at h ⊢
      cases hr : src.read buf buf.length with
      | error e => rw [hr] at h; cases h
      | ok x =>
        obtain ⟨src1, buf1, g⟩ := x
        rw [hr] at h
        simp only at h ⊢
        cases hs : stdSort buf1 (g / 8) with
        | error e => rw [hs] at h; cases h
        | ok buf2 =>
          rw [hs] at h
          simp only at h ⊢
          cases hl : slice buf2 0 (g / 8) with
          | error e => rw [hl] at h; cases h
          | ok out =>
            rw [hl] at h
            exact ih _ _ _ _ h k hk

theorem presort_mono (fuel fuel1 : Nat) (fs : FileSystem) (srcPath : String) (dst : FStream)
    (buf : List Record) (r : FStream × List Record)
    (h : presort fuel fs srcPath dst buf = .ok r) (hle : fuel ≤ fuel1) :
    presort fuel1 fs srcPath dst buf = .ok r := by
  unfold presort at h ⊢
  cases ho : fs.openRead srcPath with
  | none => rw [ho] at h; cases h
  | some src =>
    rw [ho] at h
    simp only at h ⊢
    cases hp : presortLoop fuel src dst buf with
    | error e => rw [hp] at h; cases h
    | ok x =>
      rw [hp] at h
      rw [presortLoop_mono _ _ _ _ _ hp _ hle]
      exact h

theorem sortLoop_mono (N : Nat) : ∀ (fuel : Nat) (s s1 : SortState),
    sortLoop N fuel s = .ok s1 → ∀ fuel1, fuel ≤ fuel1 → sortLoop N fuel1 s = .ok s1 := by
  intro fuel
  induction fuel with
  | zero => intro s s1 h; cases h
  | succ fuel ih =>
    intro s s1 h fuel1 hle
    obtain ⟨k, rfl⟩ : ∃ k, fuel1 = k + 1 := ⟨fuel1 - 1, by omega⟩
    have hk : fuel ≤ k := by omega
    unfold sortLoop at h ⊢
    by_cases hlt : s.numbersInChunk < N
    · simp only [hlt, if_true] at h ⊢
      by_cases hz : s.numbersInChunk = 0
      · simp only [hz, if_true] at h
        cases h
      · simp only [hz, if_false] at h ⊢
        cases hm : mergeChunks fuel (s.wrapper s.pw0).stream (s.wrapper s.pw1).stream s.buf
            s.numbersInChunk
            (if N % s.numbersInChunk ≠ 0 then N / s.numbersInChunk + 1
              else N / s.numbersInChunk) with
        | error e => rw [hm] at h; cases h
        | ok r =>
          rw [hm] at h
          rw [mergeChunks_mono _ _ _ _ _ _ _ _ hm hk]
          exact ih _ _ h k hk
    · simp only [hlt, if_false] at h ⊢
      exact h

theorem sortBody_mono (fuel fuel1 : Nat) (fs : FileSystem) (srcPath dstPath : String)
    (ram : Nat) (w0 w1 : FileWrapper) (r : FileSystem × FileWrapper × FileWrapper)
    (h : sortBody fuel fs srcPath dstPath ram w0 w1 = .ok r) (hle : fuel ≤ fuel1) :
    sortBody fuel1 fs srcPath dstPath ram w0 w1 = .ok r := by
  unfold sortBody at h ⊢
  simp only at h ⊢
  cases hp : presort fuel fs srcPath w0.stream (List.replicate (ram / 8) 0) with
  | error e => rw [hp] at h; cases h
  | ok x =>
    obtain ⟨dst, buf1⟩ := x
    rw [hp] at h
    rw [presort_mono _ _ _ _ _ _ _ hp hle]
    simp only at h ⊢
    cases hz : FileSystem.fileSize
        (FileWrapper.sync { path := w0.path, stream := dst, isOpen := w0.isOpen } fs) srcPath with
    | error e => rw [hz] at h; cases h
    | ok sz =>
      rw [hz] at h
      simp only at h ⊢
      cases hl : sortLoop (sz / 8) fuel
          { w0 := { path := w0.path, stream := dst, isOpen := w0.isOpen }, w1 := w1,
            pw0 := 0, pw1 := 1, buf := buf1, numbersInChunk := ram / 8 } with
      | error e => rw [hl] at h; cases h
      | ok s =>
        rw [hl] at h
        rw [sortLoop_mono _ _ _ _ hl _ hle]
        exact h

theorem sortFile_mono (fuel fuel1 : Nat) (fs : FileSystem) (srcPath dstPath : String)
    (ram : Nat) (h : (sortFile fuel fs srcPath dstPath ram).2 = .ok ()) (hle : fuel ≤ fuel1) :
    sortFile fuel1 fs srcPath dstPath ram = sortFile fuel fs srcPath dstPath ram := by
  unfold sortFile at h ⊢
  cases h0 : FileWrapper.new fs dstPath ".1" with
  | error e => rfl
  | ok x =>
    obtain ⟨w0, fs0⟩ := x
    rw [h0] at h
    simp only at h ⊢
    cases h1 : FileWrapper.new fs0 dstPath ".2" with
    | error e => rfl
    | ok y =>
      obtain ⟨w1, fs1⟩ := y
      rw [h1] at h
      simp only at h ⊢
      cases hb : sortBody fuel fs1 srcPath dstPath ram w0 w1 with
      | error e => rw [hb] at h; cases h
      | ok r =>
        rw [sortBody_mono _ _ _ _ _ _ _ _ _ hb hle]

/-! ## Vectors of fewer than three elements -/

theorem Chunk.isProcessed_of_ne (c : Chunk) (h : c.numbersToRead ≠ 0) : c.isProcessed = false := by
  simp [Chunk.isProcessed, h]

/-- A reader with a region of no elements and records still to read never reports the end. -/
theorem Chunk.getNext_starved (c c1 : Chunk) (f f1 : FStream) (buf buf1 : List Record)
    (v : Option Record) (hm : c.maxElements = 0) (hn : c.numbersToRead ≠ 0) (hf : f.Good)
    (ho : c.readOffset < 2 ^ 60)
    (h : c.getNext f buf = .ok (v, c1, f1, buf1)) :
    v ≠ none ∧ c1.maxElements = 0 ∧ c1.numbersToRead ≠ 0 ∧ f1.Good ∧ c1.readOffset < 2 ^ 60 := by
  obtain ⟨he, hfl⟩ := hf
  unfold Chunk.getNext at h
  by_cases hne : c.nextInBuf = c.realEnd
  · simp only [hne, if_true] at h
    have hmod : c.readOffset % 2 ^ 61 = c.readOffset := Nat.mod_eq_of_lt (by omega)
    have hfill : c.fillBuf f buf = .ok
        ({ c with realEnd := c.begin, nextInBuf := c.begin }, { f with pos := c.readOffset },
          buf) ∨ ∃ e, c.fillBuf f buf = .error e := by
      unfold Chunk.fillBuf
      simp only [hn, if_false, hm, Nat.zero_min, FStream.seekg, hfl, FStream.fail,
        FStream.read, FStream.good, he, List.take_zero, List.length_nil, Nat.lt_irrefl,
        Bool.not_false, Bool.and_self, if_true, storeAt, Nat.add_zero, FStream.eof,
        Nat.sub_zero, Nat.not_le.mpr ho, hmod]
      by_cases hb : c.begin ≤ buf.length
      · left
        simp [hb, put]
        omega
      · right
        simp [hb]
    rcases hfill with hfill | ⟨e, hfill⟩
    · rw [hfill] at h
      have hp := Chunk.isProcessed_of_ne
        { c with realEnd := c.begin, nextInBuf := c.begin } hn
      simp only [hp, Bool.false_eq_true, if_false] at h
      cases hl : loadAt buf c.begin with
      | error e => rw [hl] at h; cases h
      | ok x =>
        rw [hl] at h
        simp only [Except.ok.injEq, Prod.mk.injEq] at h
        obtain ⟨rfl, rfl, rfl, rfl⟩ := h
        exact ⟨by simp, hm, hn, ⟨he, hfl⟩, ho⟩
    · rw [hfill] at h
      cases h
  · simp only [hne, if_false] at h
    simp only [Chunk.isProcessed_of_ne c hn, Bool.false_eq_true, if_false] at h
    cases hl : loadAt buf c.nextInBuf with
    | error e => rw [hl] at h; cases h
    | ok x =>
      rw [hl] at h
      simp only [Except.ok.injEq, Prod.mk.injEq] at h
      obtain ⟨rfl, rfl, rfl, rfl⟩ := h
      exact ⟨by simp, hm, hn, ⟨he, hfl⟩, ho⟩

/-- A reader with a region of no elements whose offset can be sought leaves a good stream
good. -/
theorem Chunk.getNext_empty_region (c c1 : Chunk) (f f1 : FStream) (buf buf1 : List Record)
    (v : Option Record) (hm : c.maxElements = 0) (hf : f.Good) (ho : c.readOffset < 2 ^ 60)
    (h : c.getNext f buf = .ok (v, c1, f1, buf1)) :
    c1.maxElements = 0 ∧ f1.Good ∧ c1.readOffset < 2 ^ 60 := by
  by_cases hn : c.numbersToRead = 0
  · have hfill : c.fillBuf f buf = .ok (c, f, buf) := by
      unfold Chunk.fillBuf
      simp [hn]
    unfold Chunk.getNext at h
    have h0 : (if c.nextInBuf = c.realEnd then c.fillBuf f buf else .ok (c, f, buf))
        = .ok (c, f, buf) := by
      by_cases hne : c.nextInBuf = c.realEnd
      · simp [hne, hfill]
      · simp [hne]
    rw [h0] at h
    simp only at h
    by_cases hp : c.isProcessed = true
    · simp only [hp, if_true, Except.ok.injEq, Prod.mk.injEq] at h
      obtain ⟨_, rfl, rfl, _⟩ := h
      exact ⟨hm, hf, ho⟩
    · simp only [hp, if_false] at h
      cases hl : loadAt buf c.nextInBuf with
      | error e => rw [hl] at h; cases h
      | ok x =>
        rw [hl] at h
        simp only [Except.ok.injEq, Prod.mk.injEq] at h
        obtain ⟨_, rfl, rfl, _⟩ := h
        exact ⟨hm, hf, ho⟩
  · have := Chunk.getNext_starved c c1 f f1 buf buf1 v hm hn hf ho h
    exact ⟨this.2.1, this.2.2.2⟩

theorem MergeState.getNext1_starved (s s1 : MergeState) (v : Option Record) (hs : s.Starved)
    (h : s.getNext1 = .ok (v, s1)) : v ≠ none ∧ s1.Starved := by
  obtain ⟨h1, h2, h3, h4, h5, h6⟩ := hs
  unfold MergeState.getNext1 at h
  cases hg : s.ch1.getNext s.src s.buf with
  | error e => rw [hg] at h; cases h
  | ok r =>
    obtain ⟨v0, c, f, b⟩ := r
    rw [hg] at h
    simp only [Except.ok.injEq, Prod.mk.injEq] at h
    obtain ⟨rfl, rfl⟩ := h
    have := Chunk.getNext_starved _ _ _ _ _ _ _ h1 h2 h4 h5 hg
    exact ⟨this.1, this.2.1, this.2.2.1, h3, this.2.2.2.1, this.2.2.2.2, h6⟩

theorem MergeState.getNext2_starved (s s1 : MergeState) (v : Option Record) (hs : s.Starved)
    (h : s.getNext2 = .ok (v, s1)) : s1.Starved := by
  obtain ⟨h1, h2, h3, h4, h5, h6⟩ := hs
  unfold MergeState.getNext2 at h
  cases hg : s.ch2.getNext s.src s.buf with
  | error e => rw [hg] at h; cases h
  | ok r =>
    obtain ⟨v0, c, f, b⟩ := r
    rw [hg] at h
    simp only [Except.ok.injEq, Prod.mk.injEq] at h
    obtain ⟨rfl, rfl⟩ := h
    have := Chunk.getNext_empty_region _ _ _ _ _ _ _ h3 h4 h6 hg
    exact ⟨h1, h2, this.1, this.2.1, h5, this.2.2⟩

theorem MergeState.append_starved (s s1 : MergeState) (x : Record) (hs : s.Starved)
    (h : s.append x = .ok s1) : s1.Starved := by
  unfold MergeState.append at h
  cases hg : s.cw.append s.dst s.buf x with
  | error e => rw [hg] at h; cases h
  | ok r =>
    obtain ⟨w, d, b⟩ := r
    rw [hg] at h
    simp only [Except.ok.injEq] at h
    subst h
    exact hs

theorem mergeLoop_starved : ∀ (fuel : Nat) (v1 v2 : Record) (s s1 : MergeState),
    s.Starved → mergeLoop fuel v1 v2 s = .ok s1 → s1.Starved := by
  intro fuel
  induction fuel with
  | zero => intro v1 v2 s s1 _ h; cases h
  | succ fuel ih =>
    intro v1 v2 s s1 hs h
    unfold mergeLoop at h
    by_cases hlt : v1 < v2
    · simp only [hlt, if_true] at h
      cases ha : s.append v1 with
      | error e => rw [ha] at h; cases h
      | ok sa =>
        rw [ha] at h
        simp only at h
        have hsa := MergeState.append_starved _ _ _ hs ha
        cases hg : sa.getNext1 with
        | error e => rw [hg] at h; cases h
        | ok r =>
          obtain ⟨v, sb⟩ := r
          rw [hg] at h
          have hsb := MergeState.getNext1_starved _ _ _ hsa hg
          cases v with
          | none => exact absurd rfl hsb.1
          | some a => exact ih _ _ _ _ hsb.2 h
    · simp only [hlt, if_false] at h
      cases ha : s.append v2 with
      | error e => rw [ha] at h; cases h
      | ok sa =>
        rw [ha] at h
        simp only at h
        have hsa := MergeState.append_starved _ _ _ hs ha
        cases hg : sa.getNext2 with
        | error e => rw [hg] at h; cases h
        | ok r =>
          obtain ⟨v, sb⟩ := r
          rw [hg] at h
          have hsb := MergeState.getNext2_starved _ _ _ hsa hg
          cases v with
          | none => exact MergeState.append_starved _ _ _ hsb h
          | some a => exact ih _ _ _ _ hsb h

/-- The loop that empties a starved first reader never ends normally. -/
theorem drain1_starved : ∀ (fuel : Nat) (s s1 : MergeState),
    s.Starved → drain1 fuel s ≠ .ok s1 := by
  intro fuel
  induction fuel with
  | zero => intro s s1 _ h; cases h
  | succ fuel ih =>
    intro s s1 hs h
    unfold drain1 at h
    cases hg : s.getNext1 with
    | error e => rw [hg] at h; cases h
    | ok r =>
      obtain ⟨v, sb⟩ := r
      rw [hg] at h
      have hsb := MergeState.getNext1_starved _ _ _ hs hg
      cases v with
      | none => exact absurd rfl hsb.1
      | some a =>
        simp only at h
        cases ha : sb.append a with
        | error e => rw [ha] at h; cases h
        | ok sa =>
          rw [ha] at h
          exact ih _ _ (MergeState.append_starved _ _ _ hsb.2 ha) h

theorem mergeHead_starved (fuel : Nat) (s s1 : MergeState) (hs : s.Starved)
    (h : mergeHead fuel s = .ok s1) : s1.Starved := by
  unfold mergeHead at h
  cases hg : s.getNext1 with
  | error e => rw [hg] at h; cases h
  | ok r =>
    obtain ⟨v, sb⟩ := r
    rw [hg] at h
    have hsb := MergeState.getNext1_starved _ _ _ hs hg
    cases v with
    | none => exact absurd rfl hsb.1
    | some a =>
      simp only at h
      cases hg2 : sb.getNext2 with
      | error e => rw [hg2] at h; cases h
      | ok r2 =>
        obtain ⟨v2, sc⟩ := r2
        rw [hg2] at h
        have hsc := MergeState.getNext2_starved _ _ _ hsb.2 hg2
        cases v2 with
        | none => exact MergeState.append_starved _ _ _ hsc h
        | some b => exact mergeLoop_starved _ _ _ _ _ hsc h

/-- With a starved first reader `mergeSiblingChunks` never returns. -/
theorem mergeSiblingChunks_starved (fuel : Nat) (s s1 : MergeState) (hs : s.Starved) :
    mergeSiblingChunks fuel s ≠ .ok s1 := by
  intro h
  unfold mergeSiblingChunks at h
  cases hh : mergeHead fuel s with
  | error e => rw [hh] at h; cases h
  | ok sa =>
    rw [hh] at h
    simp only at h
    cases hd : drain1 fuel sa with
    | error e => rw [hd] at h; cases h
    | ok sb => exact drain1_starved _ _ _ (mergeHead_starved _ _ _ hs hh) hd

theorem mergeChunksLoop_starved (L cc fuel idx : Nat) (p p1 : PassState) (hL : L ≠ 0)
    (hidx : idx < cc) (hg : p.src.Good) (hoff : L * (idx + 1) < 2 ^ 60) :
    mergeChunksLoop L cc 0 fuel idx p ≠ .ok p1 := by
  intro h
  have ho1 : (Chunk.new 0 0 L idx).readOffset < 2 ^ 60 :=
    Nat.lt_of_le_of_lt (Nat.mod_le _ _)
      (Nat.lt_of_le_of_lt (Nat.mul_le_mul_left L (Nat.le_succ idx)) hoff)
  have ho2 : (Chunk.new (2 * 0) 0 (if idx + 1 < cc then L else 0) (idx + 1)).readOffset
      < 2 ^ 60 := by
    refine Nat.lt_of_le_of_lt (Nat.mod_le _ _) ?_
    split
    · exact hoff
    · rw [Nat.zero_mul]; decide
  cases fuel with
  | zero => cases h
  | succ fuel =>
    unfold mergeChunksLoop at h
    simp only [hidx, if_true] at h
    cases hm : mergeSiblingChunks fuel
        { ch1 := Chunk.new 0 0 L idx,
          ch2 := Chunk.new (2 * 0) 0 (if idx + 1 < cc then L else 0) (idx + 1),
          cw := p.cw, src := p.src, dst := p.dst, buf := p.buf } with
    | error e => rw [hm] at h; cases h
    | ok sa => exact mergeSiblingChunks_starved _ _ _ ⟨rfl, hL, rfl, hg, ho1, ho2⟩ hm

/-- A pass over a vector of fewer than three elements never returns. -/
theorem mergeChunks_starved (fuel : Nat) (src dst : FStream) (buf : List Record) (L cc : Nat)
    (r : PassResult) (hbuf : buf.length < 3) (hL : L ≠ 0) (hcc : 0 < cc) (hg : src.Good)
    (hL60 : L < 2 ^ 60) : mergeChunks fuel src dst buf L cc ≠ .ok r := by
  intro h
  have hl : buf.length / 3 = 0 := Nat.div_eq_of_lt hbuf
  unfold mergeChunks at h
  simp only [hl] at h
  cases hm : mergeChunksLoop L cc 0 fuel 0
      { cw := (ChunkWriter.new dst 0 0).1, src := src, dst := (ChunkWriter.new dst 0 0).2,
        buf := buf } with
  | error e => rw [hm] at h; cases h
  | ok p => exact mergeChunksLoop_starved L cc fuel 0 _ _ hL hcc hg (by omega) hm

/-- When the loop of `sortFile` returns after at least one pass, the vector has three elements
or more. -/
theorem sortLoop_three (N fuel : Nat) (s s1 : SortState) (h : sortLoop N fuel s = .ok s1)
    (hlt : s.numbersInChunk < N) (hg : (s.wrapper s.pw0).stream.Good) (hN : N < 2 ^ 60) :
    3 ≤ s.buf.length := by
  by_contra hb
  cases fuel with
  | zero => cases h
  | succ fuel =>
    unfold sortLoop at h
    simp only [hlt, if_true] at h
    by_cases hz : s.numbersInChunk = 0
    · simp only [hz, if_true] at h
      cases h
    · simp only [hz, if_false] at h
      cases hm : mergeChunks fuel (s.wrapper s.pw0).stream (s.wrapper s.pw1).stream s.buf
          s.numbersInChunk
          (if N % s.numbersInChunk ≠ 0 then N / s.numbersInChunk + 1
            else N / s.numbersInChunk) with
      | error e => rw [hm] at h; cases h
      | ok r =>
        refine mergeChunks_starved _ _ _ _ _ _ r (by omega) hz ?_ hg (by omega) hm
        have : 0 < N / s.numbersInChunk := Nat.div_pos (by omega) (by omega)
        split <;> omega

/-- With a vector of no elements the loop of `presort` never ends. -/
theorem presortLoop_empty_vector : ∀ (fuel : Nat) (src : IStream) (dst : FStream)
    (r : IStream × FStream × List Record), src.eofbit = false → src.failbit = false →
    presortLoop fuel src dst [] ≠ .ok r := by
  intro fuel
  induction fuel with
  | zero => intro src dst r _ _ h; cases h
  | succ fuel ih =>
    intro src dst r he hf h
    obtain ⟨rest, tl, eb, fb⟩ := src
    simp only at he hf
    subst he hf
    unfold presortLoop at h
    have hr : IStream.read { rest := rest, tail := tl, eofbit := false, failbit := false } []
        ([] : List Record).length
        = .ok ({ rest := rest, tail := tl, eofbit := false, failbit := false }, [], 0) := by
      unfold IStream.read
      simp [storeAt, put]
    simp only [IStream.eof, Bool.false_eq_true, if_false, hr] at h
    have hs : stdSort [] (0 / 8) = .ok [] := by simp [stdSort]
    have hl : slice [] 0 (0 / 8) = .ok [] := by simp [slice, window]
    simp only [hs, hl] at h
    exact ih _ _ _ rfl rfl h

/-! ## Normal returns of `sortFile` -/

/-- When `presort` returns, the source could be opened. -/
theorem presort_opened {fuel : Nat} {fs : FileSystem} {srcPath : String} {dst : FStream}
    {buf : List Record} {r : FStream × List Record}
    (h : presort fuel fs srcPath dst buf = .ok r) :
    fs.denied srcPath = false ∧ ∃ file, fs.files srcPath = some file := by
  unfold presort at h
  cases hd : fs.denied srcPath with
  | true =>
    simp [FileSystem.openRead, hd] at h
  | false =>
    refine ⟨rfl, ?_⟩
    cases hf : fs.files srcPath with
    | none => simp [FileSystem.openRead, hd, hf] at h
    | some file => exact ⟨file, rfl⟩

/-- The three calls inside a body of `sortFile` that returned. -/
theorem sortBody_parts {fuel : Nat} {fs1 : FileSystem} {srcPath dstPath : String} {ram : Nat}
    {w0 w1 : FileWrapper} {r : FileSystem × FileWrapper × FileWrapper}
    (h : sortBody fuel fs1 srcPath dstPath ram w0 w1 = .ok r) :
    ∃ dst buf1 sz s,
      presort fuel fs1 srcPath w0.stream (List.replicate (ram / 8) 0) = .ok (dst, buf1) ∧
      FileSystem.fileSize
        (FileWrapper.sync { path := w0.path, stream := dst, isOpen := w0.isOpen } fs1) srcPath
        = .ok sz ∧
      sortLoop (sz / 8) fuel
        { w0 := { path := w0.path, stream := dst, isOpen := w0.isOpen }, w1 := w1,
          pw0 := 0, pw1 := 1, buf := buf1, numbersInChunk := ram / 8 } = .ok s := by
  unfold sortBody at h
  simp only at h
  cases hp : presort fuel fs1 srcPath w0.stream (List.replicate (ram / 8) 0) with
  | error e => rw [hp] at h; cases h
  | ok x =>
    obtain ⟨dst, buf1⟩ := x
    rw [hp] at h
    simp only at h
    cases hz : FileSystem.fileSize
        (FileWrapper.sync { path := w0.path, stream := dst, isOpen := w0.isOpen } fs1)
        srcPath with
    | error e => rw [hz] at h; cases h
    | ok sz =>
      rw [hz] at h
      simp only at h
      cases hl : sortLoop (sz / 8) fuel
          { w0 := { path := w0.path, stream := dst, isOpen := w0.isOpen }, w1 := w1,
            pw0 := 0, pw1 := 1, buf := buf1, numbersInChunk := ram / 8 } with
      | error e => rw [hl] at h; cases h
      | ok s => exact ⟨dst, buf1, sz, s, rfl, hz, hl⟩

/-- When the body of `sortFile` returns, the vector has at least one element, and at least three
unless it holds the whole source. -/
theorem sortBody_capacity {fuel : Nat} {fs1 : FileSystem} {srcPath dstPath : String} {ram : Nat}
    {r : FileSystem × FileWrapper × FileWrapper} (file : File)
    (hsrc : fs1.files srcPath = some file) (ht : file.tail.length < 8)
    (hne1 : srcPath ≠ dstPath ++ ".1" ∨ file = File.ofRecords [])
    (h : sortBody fuel fs1 srcPath dstPath ram
        { path := dstPath ++ ".1", stream := FStream.opened, isOpen := true }
        { path := dstPath ++ ".2", stream := FStream.opened, isOpen := true } = .ok r) :
    3 ≤ ram / 8 ∨ (1 ≤ ram / 8 ∧ file.recs.length ≤ ram / 8) := by
  obtain ⟨dst, buf1, sz, s, hp, hz, hl⟩ := sortBody_parts h
  simp only at hp hz hl
  obtain ⟨hden, _⟩ := presort_opened hp
  -- the vector is not empty
  have hC1 : 1 ≤ ram / 8 := by
    by_contra hc
    have h0 : ram / 8 = 0 := by omega
    rw [h0] at hp
    simp only [presort, FileSystem.openRead_ok hsrc hden, List.replicate_zero] at hp
    cases hq : presortLoop fuel (IStream.ofFile file) FStream.opened [] with
    | error e => rw [hq] at hp; cases hp
    | ok x => exact presortLoop_empty_vector _ _ _ _ rfl rfl hq
  -- what presort returned
  obtain ⟨dst1, buf2, hpre, hbl, hw1, hah1, htk1⟩ := presort_spec
    (max fuel (file.recs.length / (ram / 8) + 2)) fs1 srcPath file
    FStream.opened (List.replicate (ram / 8) 0) hsrc hden ht
    (by rw [List.length_replicate]; omega) FStream.opened_writable
    (by rw [List.length_replicate]; exact Nat.le_max_right _ _)
  rw [presort_mono _ _ _ _ _ _ _ hp (Nat.le_max_left _ _)] at hpre
  simp only [Except.ok.injEq, Prod.mk.injEq] at hpre
  obtain ⟨rfl, rfl⟩ := hpre
  rw [List.length_replicate] at hbl htk1
  have hdata : dst.data = blockMap sortRun (ram / 8) (file.recs.length / (ram / 8) + 1)
      file.recs := by
    rw [FStream.data_of_ahead_opened hah1, htk1]; simp [FStream.opened]
  -- the size of the source
  have hsz : sz / 8 = file.recs.length := by
    rcases hne1 with hne | hemp
    · have : FileSystem.fileSize
          (FileWrapper.sync { path := dstPath ++ ".1", stream := dst, isOpen := true } fs1)
          srcPath = .ok file.size := by
        apply FileSystem.fileSize_ok
        show (fs1.store (dstPath ++ ".1") (File.ofRecords dst.data)).files srcPath = _
        rw [FileSystem.files_store_ne _ _ hne]
        exact hsrc
      rw [this] at hz
      cases hz
      exact File.size_div file ht
    · subst hemp
      have hnil : dst.data = [] := by
        rw [hdata]
        exact blockMap_nil _ _ sortRun_nil _
      by_cases hne : srcPath = dstPath ++ ".1"
      · have : FileSystem.fileSize
            (FileWrapper.sync { path := dstPath ++ ".1", stream := dst, isOpen := true } fs1)
            srcPath = .ok 0 := by
          have h0 : (fs1.store (dstPath ++ ".1") (File.ofRecords dst.data)).files srcPath
              = some (File.ofRecords []) := by
            rw [hne, hnil]
            exact FileSystem.files_store_self _ _ (by decide)
          exact FileSystem.fileSize_ok h0
        rw [this] at hz
        cases hz
        rfl
      · have : FileSystem.fileSize
            (FileWrapper.sync { path := dstPath ++ ".1", stream := dst, isOpen := true } fs1)
            srcPath = .ok (File.ofRecords []).size := by
          apply FileSystem.fileSize_ok
          show (fs1.store (dstPath ++ ".1") (File.ofRecords dst.data)).files srcPath = _
          rw [FileSystem.files_store_ne _ _ hne]
          exact hsrc
        rw [this] at hz
        cases hz
        rfl
  rw [hsz] at hl
  by_cases hlt : ram / 8 < file.recs.length
  · have := sortLoop_three _ _ _ _ hl hlt hw1.1
      (File.recs_small (FileSystem.files_small hsrc))
    simp only at this
    left
    omega
  · right
    omega

/-- Whenever `sortFile` returns normally, with whatever fuel and size of vector: the source could
be opened once the temp files were created, the vector has at least three elements unless it
holds the whole source, and the destination path holds the sorted records of the source as it
was opened. -/
theorem sortFile_returns (fuel : Nat) (fs : FileSystem) (srcPath dstPath : String) (ram : Nat)
    (hret : (sortFile fuel fs srcPath dstPath ram).2 = .ok ())
    (hwf : ∀ file, fs.files srcPath = some file → file.tail.length < 8) :
    fs.denied srcPath = false ∧
      ∃ file, ((srcPath ≠ dstPath ++ ".1" ∧ srcPath ≠ dstPath ++ ".2"
            ∧ fs.files srcPath = some file)
          ∨ ((srcPath = dstPath ++ ".1" ∨ srcPath = dstPath ++ ".2")
            ∧ file = File.ofRecords [])) ∧
        (3 ≤ ram / 8 ∨ (1 ≤ ram / 8 ∧ file.recs.length ≤ ram / 8)) ∧
        (sortFile fuel fs srcPath dstPath ram).1.files dstPath
          = some (File.ofRecords (sortRun file.recs)) := by
  obtain ⟨hd1, hd2, fs2, w0, w1, hbody⟩ := sortFile_inv hret
  obtain ⟨dst1, buf1, sz, s, hp, _, _⟩ := sortBody_parts hbody
  obtain ⟨hden, file, hsrc⟩ := presort_opened hp
  have ht12 := temp_paths_ne dstPath
  have hfile : (srcPath ≠ dstPath ++ ".1" ∧ srcPath ≠ dstPath ++ ".2"
        ∧ fs.files srcPath = some file)
      ∨ ((srcPath = dstPath ++ ".1" ∨ srcPath = dstPath ++ ".2")
        ∧ file = File.ofRecords []) := by
    by_cases h2 : srcPath = dstPath ++ ".2"
    · right
      refine ⟨Or.inr h2, ?_⟩
      rw [h2, FileSystem.files_store_self _ _ (by decide)] at hsrc
      exact (Option.some.inj hsrc).symm
    · by_cases h1 : srcPath = dstPath ++ ".1"
      · right
        refine ⟨Or.inl h1, ?_⟩
        rw [h1, FileSystem.files_store_ne _ _ ht12,
          FileSystem.files_store_self _ _ (by decide)] at hsrc
        exact (Option.some.inj hsrc).symm
      · left
        refine ⟨h1, h2, ?_⟩
        rw [FileSystem.files_store_ne _ _ h2, FileSystem.files_store_ne _ _ h1] at hsrc
        exact hsrc
  have ht : file.tail.length < 8 := by
    rcases hfile with ⟨_, _, hf⟩ | ⟨_, hf⟩
    · exact hwf file hf
    · rw [hf]
      exact Nat.succ_pos _
  have hne1 : srcPath ≠ dstPath ++ ".1" ∨ file = File.ofRecords [] := by
    rcases hfile with ⟨h1, _, _⟩ | ⟨_, hf⟩
    · exact Or.inl h1
    · exact Or.inr hf
  have hC := sortBody_capacity file hsrc ht hne1 hbody
  obtain ⟨fs3, w2, w3, hbody3, hdst, hor, _, _⟩ := sortBody_spec
    (max fuel (3 * file.recs.length + 4)) _ srcPath dstPath ram file hsrc hden ht hne1 hC
    (Nat.le_max_right _ _)
  rw [sortBody_mono _ _ _ _ _ _ _ _ _ hbody (Nat.le_max_left _ _)] at hbody3
  simp only [Except.ok.injEq, Prod.mk.injEq] at hbody3
  obtain ⟨rfl, rfl, rfl⟩ := hbody3
  obtain ⟨_, _, _, f4, _⟩ := sortFile_finish fuel fs srcPath dstPath ram fs2 w0 w1 hd1 hd2
    hbody hor
  have ht1d : dstPath ≠ dstPath ++ ".1" := fun h => append_ne_self dstPath ".1" (by decide) h.symm
  have ht2d : dstPath ≠ dstPath ++ ".2" := fun h => append_ne_self dstPath ".2" (by decide) h.symm
  exact ⟨hden, file, hfile, hC, by rw [f4 _ ht1d ht2d, hdst]⟩

/-! ## Sequences of calls -/

/-- Calling `getNext` until it reports the end, on a valid reader over a good stream and with
fuel for one call per pending record and one more: exactly the pending records are delivered,
in order, and nothing is left pending. -/
theorem Chunk.deliver_spec : ∀ (fuel : Nat) (c : Chunk) (f : FStream) (buf : List Record),
    c.Valid buf → f.Good → f.data.length < 2 ^ 60 → (c.pending f.data buf).length + 1 ≤ fuel →
    ∃ c1 f1 buf1, c.deliver fuel f buf = .ok (c.pending f.data buf, c1, f1, buf1) ∧
      c1.Valid buf1 ∧ f1.Good ∧ f1.data = f.data ∧ c1.pending f1.data buf1 = [] ∧
      buf1.length = buf.length := by
  intro fuel
  induction fuel with
  | zero => intro c f buf _ _ _ h; omega
  | succ fuel ih =>
    intro c f buf hv hg hsm hfuel
    obtain ⟨c1, f1, buf1, hget, hv1, hg1, hd1, _, _, hp1, hs1⟩ :=
      Chunk.getNext_spec c f buf hv hg hsm
    cases hp : c.pending f.data buf with
    | nil =>
      rw [hp] at hget hp1
      refine ⟨c1, f1, buf1, ?_, hv1, hg1, hd1, by rw [hd1]; exact hp1, hs1.1⟩
      simp only [Chunk.deliver, hget, List.head?_nil]
    | cons a rest =>
      rw [hp] at hget hp1 hfuel
      simp only [List.tail_cons] at hp1
      obtain ⟨c2, f2, buf2, hdel, hv2, hg2, hd2, hp2, hl2⟩ := ih c1 f1 buf1 hv1 hg1
        (by rw [hd1]; exact hsm) (by rw [hd1, hp1]; simp at hfuel ⊢; omega)
      rw [hd1, hp1] at hdel
      refine ⟨c2, f2, buf2, ?_, hv2, hg2, hd2.trans hd1, hp2, hl2.trans hs1.1⟩
      simp only [Chunk.deliver, hget, List.head?_cons, hdel]

/-- Successive calls of `append` on a valid writer with a window of `W` records: the records join
the records written in order, the cursor ends `(i + k) mod W` records into the window and the
stream has moved by the `(i + k) / W` full windows flushed, where `i` records were waiting in
the window and `k` were appended. -/
theorem ChunkWriter.appendAll_spec (W : Nat) : ∀ (vals : List Record) (w : ChunkWriter)
    (dst : FStream) (buf : List Record), w.Valid buf → dst.Writable → w.endIt = w.begin + W →
    ∃ w1 dst1 buf1, w.appendAll dst buf vals = .ok (w1, dst1, buf1) ∧ w1.Valid buf1 ∧
      dst1.Writable ∧ w1.begin = w.begin ∧ w1.endIt = w.endIt ∧
      w1.written dst1 buf1 = w.written dst buf ++ vals ∧ dst1.Ahead dst ∧
      buf1.length = buf.length ∧
      w1.it = w.begin + (w.it - w.begin + vals.length) % W ∧
      dst1.pos = dst.pos + W * ((w.it - w.begin + vals.length) / W) := by
  intro vals
  induction vals with
  | nil =>
    intro w dst buf hv hd hW
    have h1 := hv.begin_le
    have h2 := hv.it_lt
    have hlt : w.it - w.begin < W := by omega
    refine ⟨w, dst, buf, rfl, hv, hd, rfl, rfl, by simp, FStream.Ahead.refl_ahead _, rfl, ?_, ?_⟩
    · rw [List.length_nil, Nat.add_zero, Nat.mod_eq_of_lt hlt]; omega
    · rw [List.length_nil, Nat.add_zero, Nat.div_eq_of_lt hlt]; omega
  | cons v vs ih =>
    intro w dst buf hv hd hW
    have h1 := hv.begin_le
    have h2 := hv.it_lt
    obtain ⟨w1, dst1, buf1, happ, hv1, hd1, hb1, he1, hw1, hs1, ha1, hcase⟩ :=
      ChunkWriter.append_spec w dst buf v hv hd
    obtain ⟨w2, dst2, buf2, hall, hv2, hd2, hb2, he2, hw2, ha2, hl2, hit2, hpos2⟩ :=
      ih w1 dst1 buf1 hv1 hd1 (by rw [he1, hb1]; exact hW)
    refine ⟨w2, dst2, buf2, ?_, hv2, hd2, hb2.trans hb1, he2.trans he1, ?_, ha2.trans_ahead ha1,
      hl2.trans hs1.1, ?_, ?_⟩
    · simp only [ChunkWriter.appendAll, happ, hall]
    · rw [hw2, hw1, List.append_assoc]; rfl
    · rw [hit2, hb1, List.length_cons]
      rcases hcase with ⟨_, hi, _⟩ | ⟨hf, hi, _⟩
      · rw [hi]; congr 2; omega
      · rw [hi, Nat.sub_self, Nat.zero_add]
        have : w.it - w.begin + (vs.length + 1) = W + vs.length := by omega
        rw [this, Nat.add_mod_left]
    · rw [hpos2, hb1, List.length_cons]
      rcases hcase with ⟨_, hi, hp⟩ | ⟨hf, hi, hp⟩
      · rw [hi, hp]; congr 3; omega
      · rw [hi, hp, Nat.sub_self, Nat.zero_add]
        have : w.it - w.begin + (vs.length + 1) = W + vs.length := by omega
        have hWpos : 0 < W := by omega
        rw [this, Nat.add_div_left _ hWpos, Nat.mul_succ]
        omega

/-! ## Chunk counts -/

theorem lt_ceilDiv_iff (T L i : Nat) (hL : 1 ≤ L) : i < ceilDiv T L ↔ L * i < T := by
  unfold ceilDiv
  rw [Nat.lt_iff_add_one_le, Nat.le_div_iff_mul_le (by omega), Nat.add_mul, Nat.one_mul,
    Nat.mul_comm i L]
  omega

theorem le_mul_ceilDiv (T L : Nat) (hL : 1 ≤ L) : T ≤ L * ceilDiv T L := by
  by_contra h
  have h1 : L * ceilDiv T L < T := by omega
  exact absurd ((lt_ceilDiv_iff T L _ hL).mpr h1) (Nat.lt_irrefl _)

theorem chunkOf_ne_nil_iff (D : List Record) (L j : Nat) (hL : 1 ≤ L) :
    chunkOf D L j ≠ [] ↔ L * j < D.length := by
  unfold chunkOf
  rw [Ne, List.take_eq_nil_iff, List.drop_eq_nil_iff]
  omega

theorem chunkOf_length (D : List Record) (L j : Nat) :
    (chunkOf D L j).length = min L (D.length - L * j) := by
  simp [chunkOf]

theorem chunkOf_eq_nil {D : List Record} {L i : Nat} (h : D.length ≤ L * i) :
    chunkOf D L i = [] := by
  unfold chunkOf
  rw [List.drop_eq_nil_of_le h, List.take_nil]

/-- A reader that has delivered everything answers `false` and changes nothing. -/
theorem Chunk.getNext_of_processed (c : Chunk) (f : FStream) (buf : List Record)
    (h : c.isProcessed = true) : c.getNext f buf = .ok (none, c, f, buf) := by
  have h1 := h
  simp only [Chunk.isProcessed, Bool.and_eq_true, beq_iff_eq] at h1
  have hfill : (if c.nextInBuf = c.realEnd then c.fillBuf f buf else .ok (c, f, buf))
      = .ok (c, f, buf) := by
    rw [if_pos h1.2]
    simp [Chunk.fillBuf, h1.1]
  rw [Chunk.getNext_of_fill hfill, if_pos h]

/-- A reader that has answered `false` has delivered everything. -/
theorem Chunk.processed_of_getNext_none {c : Chunk} {f : FStream} {buf : List Record}
    {c1 : Chunk} {f1 : FStream} {buf1 : List Record}
    (h : c.getNext f buf = .ok (none, c1, f1, buf1)) : c1.isProcessed = true := by
  unfold Chunk.getNext at h
  split at h
  · cases h
  · split at h
    · rename_i hp
      cases h
      exact hp
    · split at h <;> cases h

/-! ## The calls made by the loop of `sortFile` -/

/-- The loop with its record of calls is the loop of `sortFile`: dropping the record gives
`sortLoop`. -/
theorem sortLoopLog_erase (N : Nat) : ∀ (fuel : Nat) (s : SortState),
    (sortLoopLog N fuel s).map Prod.fst = sortLoop N fuel s := by
  intro fuel
  induction fuel with
  | zero => intro s; rfl
  | succ fuel ih =>
    intro s
    unfold sortLoopLog sortLoop
    by_cases hlt : s.numbersInChunk < N
    · simp only [hlt, if_true]
      by_cases hz : s.numbersInChunk = 0
      · simp only [hz, if_true]
        rfl
      · simp only [hz, if_false]
        cases hm : mergeChunks fuel (s.wrapper s.pw0).stream (s.wrapper s.pw1).stream s.buf
            s.numbersInChunk
            (if N % s.numbersInChunk ≠ 0 then N / s.numbersInChunk + 1
              else N / s.numbersInChunk) with
        | error e => rfl
        | ok r =>
          simp only
          rw [← ih (s.afterPass r)]
          cases sortLoopLog N fuel (s.afterPass r) with
          | error e => rfl
          | ok x => rfl
    · simp only [hlt, if_false]
      rfl

theorem sortLoopLog_ok {N fuel : Nat} {s s1 : SortState} {log : List PassRecord}
    (h : sortLoopLog N fuel s = .ok (s1, log)) : sortLoop N fuel s = .ok s1 := by
  rw [← sortLoopLog_erase, h]
  rfl

theorem chunkCount_eq_ceilDiv (N L : Nat) (hL : 1 ≤ L) :
    (if N % L ≠ 0 then N / L + 1 else N / L) = ceilDiv N L := by
  have h1 := Nat.div_add_mod N L
  have h2 := Nat.mod_lt N hL
  unfold ceilDiv
  symm
  split
  · apply Nat.div_eq_of_lt_le
    · rw [Nat.add_mul, Nat.mul_comm]; omega
    · rw [Nat.succ_mul, Nat.add_mul, Nat.mul_comm]; omega
  · apply Nat.div_eq_of_lt_le
    · rw [Nat.mul_comm]; omega
    · rw [Nat.succ_mul, Nat.mul_comm]; omega

/-- One iteration of the loop of `sortFile` from a valid state that has a pass left to run: the
call of `mergeChunks` returns, doubles the nominal length and leaves the records of the source
in sorted chunks of that length in the file written; the state after the swap is valid. -/
theorem sortLoop_pass (R : List Record) (fuel : Nat) (s : SortState) (hv : s.Valid R)
    (hlt : s.numbersInChunk < R.length) (hfuel : 2 * R.length + 3 ≤ fuel) :
    ∃ r, mergeChunks fuel (s.wrapper s.pw0).stream (s.wrapper s.pw1).stream s.buf
        s.numbersInChunk
        (if R.length % s.numbersInChunk ≠ 0 then R.length / s.numbersInChunk + 1
          else R.length / s.numbersInChunk) = .ok r ∧
      r.ret = s.numbersInChunk * 2 ∧ r.dst.data.Perm R ∧
      ChunkSorted r.dst.data (s.numbersInChunk * 2) ∧ (s.afterPass r).Valid R ∧
      (s.afterPass r).numbersInChunk = s.numbersInChunk * 2 ∧
      (s.afterPass r).pw0 = s.pw1 ∧ (s.afterPass r).pw1 = s.pw0 := by
  have hL := hv.chunk_pos
  have hlen : (s.wrapper s.pw0).stream.data.length = R.length := hv.active_perm.length_eq
  obtain ⟨hcov, hccle⟩ := chunkCount_covers R.length s.numbersInChunk hL
  have hsmall := hv.small
  have hoff := chunkCount_offset R.length s.numbersInChunk
  obtain ⟨r, hm, hret, hsg, hsd, hdg, hbl, hdd⟩ := mergeChunks_spec fuel
    (s.wrapper s.pw0).stream (s.wrapper s.pw1).stream s.buf s.numbersInChunk
    (if R.length % s.numbersInChunk ≠ 0 then R.length / s.numbersInChunk + 1
      else R.length / s.numbersInChunk)
    hv.active_good hv.standby_good (hv.buf.resolve_right (by omega))
    (by rw [hlen]; exact hsmall) (Nat.lt_of_le_of_lt hoff hsmall)
    (by rw [hlen]; exact hcov) (by rw [hlen]; omega)
  rw [Nat.mod_eq_of_lt (by omega)] at hret
  obtain ⟨hperm, hsorted, _⟩ := pass_output (s.wrapper s.pw0).stream.data s.numbersInChunk
    (if R.length % s.numbersInChunk ≠ 0 then R.length / s.numbersInChunk + 1
      else R.length / s.numbersInChunk) (by rw [hlen]; exact hcov) hv.active_sorted
  have hdata : r.dst.data = blockMap (mergeHalves s.numbersInChunk) (2 * s.numbersInChunk)
      (((if R.length % s.numbersInChunk ≠ 0 then R.length / s.numbersInChunk + 1
        else R.length / s.numbersInChunk) + 1) / 2) (s.wrapper s.pw0).stream.data := by
    rw [hdd, List.drop_eq_nil_of_le, List.append_nil]
    rw [hperm.length_eq, hlen]
    exact hv.standby_len
  obtain ⟨f1, f2, f3, f4, f5, f6, f7⟩ := SortState.afterPass_facts s r hv.pw
  have hv2 : (s.afterPass r).Valid R := by
    refine ⟨f7, ?_, ?_, ?_, ?_, ?_, ?_, ?_, hsmall⟩
    · left
      show 3 ≤ r.buf.length
      rw [hbl]; exact hv.buf.resolve_right (by omega)
    · show 1 ≤ r.ret
      rw [hret]; omega
    · rw [f1]; exact hdg
    · rw [f1, hdata]; exact hperm.trans hv.active_perm
    · rw [f1, hdata]
      show ChunkSorted _ r.ret
      rw [hret]; exact hsorted
    · rw [f2]; exact hsg
    · rw [f2, hsd, hlen]
  refine ⟨r, hm, hret, ?_, ?_, hv2, hret, rfl, rfl⟩
  · rw [hdata]; exact hperm.trans hv.active_perm
  · rw [hdata]; exact hsorted

/-- The loop of `sortFile` from a valid state, with enough fuel: it makes exactly `k` calls of
`mergeChunks`, where `k` is the least number with `N ≤ L * 2 ^ k` for the nominal length `L` at
the start; call `j` has nominal length `L * 2 ^ j` and chunk count `ceil(N / (L * 2 ^ j))`, the
two files change roles at every call, and each call leaves the records of the source in sorted
chunks of twice its nominal length. -/
theorem sortLoopLog_spec (R : List Record) : ∀ (fuel : Nat) (s : SortState), s.Valid R →
    (R.length - s.numbersInChunk) + 2 * R.length + 4 ≤ fuel →
    ∃ s1 log k, sortLoopLog R.length fuel s = .ok (s1, log) ∧ s1.Valid R ∧
      R.length ≤ s.numbersInChunk * 2 ^ k ∧
      (∀ j, j < k → s.numbersInChunk * 2 ^ j < R.length) ∧
      s1.numbersInChunk = s.numbersInChunk * 2 ^ k ∧
      s1.pw0 = (s.pw0 + k) % 2 ∧ s1.pw1 = (s.pw1 + k) % 2 ∧
      log.length = k ∧
      ∀ j, j < k → ∃ e, log[j]? = some e ∧
        e.numbersInChunk = s.numbersInChunk * 2 ^ j ∧
        e.chunkCount = ceilDiv R.length (s.numbersInChunk * 2 ^ j) ∧
        e.readIndex = (s.pw0 + j) % 2 ∧ e.writeIndex = (s.pw1 + j) % 2 ∧
        e.out.Perm R ∧ ChunkSorted e.out (s.numbersInChunk * 2 ^ (j + 1)) := by
  intro fuel
  induction fuel with
  | zero => intro s _ h; omega
  | succ fuel ih =>
    intro s hv hfuel
    have hpw := hv.pw
    by_cases hlt : s.numbersInChunk < R.length
    · have hL := hv.chunk_pos
      have hL0 : s.numbersInChunk ≠ 0 := by omega
      obtain ⟨r, hm, hret, hperm, hsorted, hv2, hn2, hp0, hp1⟩ :=
        sortLoop_pass R fuel s hv hlt (by omega)
      obtain ⟨s1, log, k, hloop, hv1, hge, hleast, hn1, hq0, hq1, hlen, hlog⟩ :=
        ih (s.afterPass r) hv2 (by rw [hn2]; omega)
      rw [hn2] at hge hleast hn1 hlog
      simp only [hp0, hp1] at hq0 hq1 hlog
      have hpow : ∀ j, s.numbersInChunk * 2 * 2 ^ j = s.numbersInChunk * 2 ^ (j + 1) := by
        intro j
        rw [Nat.pow_succ, Nat.mul_assoc, Nat.mul_comm 2 (2 ^ j)]
      have hswap0 : ∀ j, (s.pw1 + j) % 2 = (s.pw0 + (j + 1)) % 2 := by
        intro j
        rcases hpw with ⟨a, b⟩ | ⟨a, b⟩ <;> rw [a, b] <;> omega
      have hswap1 : ∀ j, (s.pw0 + j) % 2 = (s.pw1 + (j + 1)) % 2 := by
        intro j
        rcases hpw with ⟨a, b⟩ | ⟨a, b⟩ <;> rw [a, b] <;> omega
      refine ⟨s1, (⟨s.numbersInChunk,
        (if R.length % s.numbersInChunk ≠ 0 then R.length / s.numbersInChunk + 1
          else R.length / s.numbersInChunk), s.pw0, s.pw1, r.dst.data⟩ : PassRecord) :: log,
        k + 1, ?_, hv1, ?_, ?_, ?_, ?_, ?_, ?_, ?_⟩
      · simp only [sortLoopLog, hlt, if_true, hL0, if_false, hm, hloop]
      · rw [← hpow]; exact hge
      · intro j hj
        cases j with
        | zero => simpa using hlt
        | succ j => rw [← hpow]; exact hleast j (by omega)
      · rw [hn1, hpow]
      · rw [hq0, hswap0]
      · rw [hq1, hswap1]
      · simp [hlen]
      · intro j hj
        cases j with
        | zero =>
          refine ⟨(⟨s.numbersInChunk,
            (if R.length % s.numbersInChunk ≠ 0 then R.length / s.numbersInChunk + 1
              else R.length / s.numbersInChunk), s.pw0, s.pw1, r.dst.data⟩ : PassRecord),
            by simp, ?_, ?_, ?_, ?_, hperm, ?_⟩
          · simp
          · show _ = ceilDiv R.length (s.numbersInChunk * 2 ^ 0)
            rw [Nat.pow_zero, Nat.mul_one]
            exact chunkCount_eq_ceilDiv _ _ hL
          · simp [Nat.mod_eq_of_lt (show s.pw0 < 2 by rcases hpw with ⟨a, _⟩ | ⟨a, _⟩ <;> omega)]
          · simp [Nat.mod_eq_of_lt (show s.pw1 < 2 by rcases hpw with ⟨_, a⟩ | ⟨_, a⟩ <;> omega)]
          · simpa using hsorted
        | succ j =>
          obtain ⟨e, he, e1, e2, e3, e4, e5, e6⟩ := hlog j (by omega)
          refine ⟨e, by simpa using he, ?_, ?_, ?_, ?_, e5, ?_⟩
          · rw [e1, hpow]
          · rw [e2, hpow]
          · rw [e3, hswap0]
          · rw [e4, hswap1]
          · rw [← hpow (j + 1)]; exact e6
    · refine ⟨s, [], 0, ?_, hv, by simpa using Nat.le_of_not_lt hlt, ?_, by simp, ?_, ?_, rfl, ?_⟩
      · simp only [sortLoopLog, hlt, if_false]
      · intro j hj; omega
      · have : s.pw0 < 2 := by rcases hpw with ⟨a, _⟩ | ⟨a, _⟩ <;> omega
        simp [Nat.mod_eq_of_lt this]
      · have : s.pw1 < 2 := by rcases hpw with ⟨_, a⟩ | ⟨_, a⟩ <;> omega
        simp [Nat.mod_eq_of_lt this]
      · intro j hj; omega

theorem sortLoopLog_done (N fuel : Nat) (s : SortState) (h : N ≤ s.numbersInChunk) :
    sortLoopLog N (fuel + 1) s = .ok (s, []) := by
  have hlt : ¬ s.numbersInChunk < N := by omega
  simp only [sortLoopLog, hlt, if_false]

/-- The body of `sortFile` with the calls it makes: `presort` fills the first temp file with
the records of the source in sorted chunks of the capacity `C` of the vector, the loop makes
`k` calls of `mergeChunks` for the least `k` with `N ≤ C * 2 ^ k`, and the wrapper that `pw[0]`
designates at the end, which is `w[k mod 2]` and holds the sorted records, is renamed to the
destination path. -/
theorem sortBody_trace (fuel : Nat) (fs1 : FileSystem) (srcPath dstPath : String) (ram : Nat)
    (file : File) (hsrc : fs1.files srcPath = some file) (hden : fs1.denied srcPath = false)
    (ht : file.tail.length < 8)
    (hne1 : srcPath ≠ dstPath ++ ".1" ∨ file = File.ofRecords [])
    (hC : 3 ≤ ram / 8 ∨ (1 ≤ ram / 8 ∧ file.recs.length ≤ ram / 8))
    (hfuel : 3 * file.recs.length + 4 ≤ fuel) :
    ∃ dst1 buf1 s1 log k fs2 w0 w1,
      presort fuel fs1 srcPath FStream.opened (List.replicate (ram / 8) 0)
        = .ok (dst1, buf1) ∧
      dst1.data.Perm file.recs ∧ ChunkSorted dst1.data (ram / 8) ∧
      sortLoopLog file.recs.length fuel (sortStart dstPath dst1 buf1 (ram / 8))
        = .ok (s1, log) ∧
      file.recs.length ≤ ram / 8 * 2 ^ k ∧
      (∀ j, j < k → ram / 8 * 2 ^ j < file.recs.length) ∧
      s1.numbersInChunk = ram / 8 * 2 ^ k ∧ s1.pw0 = k % 2 ∧ log.length = k ∧
      (∀ j, j < k → ∃ e, log[j]? = some e ∧
        e.numbersInChunk = ram / 8 * 2 ^ j ∧
        e.chunkCount = ceilDiv file.recs.length (ram / 8 * 2 ^ j) ∧
        e.readIndex = j % 2 ∧ e.writeIndex = (j + 1) % 2 ∧
        e.out.Perm file.recs ∧ ChunkSorted e.out (ram / 8 * 2 ^ (j + 1))) ∧
      sortBody fuel fs1 srcPath dstPath ram
        { path := dstPath ++ ".1", stream := FStream.opened, isOpen := true }
        { path := dstPath ++ ".2", stream := FStream.opened, isOpen := true }
        = .ok (fs2, w0, w1) ∧
      fs2.files dstPath = some (File.ofRecords (s1.wrapper s1.pw0).stream.data) ∧
      (s1.wrapper s1.pw0).stream.data = sortRun file.recs ∧
      (k % 2 = 0 → w0.path = "" ∧ w1.path = dstPath ++ ".2") ∧
      (k % 2 = 1 → w1.path = "" ∧ w0.path = dstPath ++ ".1") := by
  have hN : file.recs.length / (ram / 8) ≤ file.recs.length := Nat.div_le_self _ _
  have hC1 : 1 ≤ ram / 8 := by omega
  have hsmallN : file.recs.length < 2 ^ 60 := File.recs_small (FileSystem.files_small hsrc)
  -- presort
  obtain ⟨dst1, buf1, hpre, hbl, hw1, hah1, htk1⟩ := presort_spec fuel fs1 srcPath file
    FStream.opened (List.replicate (ram / 8) 0) hsrc hden ht
    (by rw [List.length_replicate]; omega) FStream.opened_writable
    (by rw [List.length_replicate]; omega)
  rw [List.length_replicate] at hbl htk1
  have hdata : dst1.data = blockMap sortRun (ram / 8) (file.recs.length / (ram / 8) + 1)
      file.recs := by
    rw [FStream.data_of_ahead_opened hah1, htk1]; simp [FStream.opened]
  obtain ⟨hperm, hsorted, _⟩ := presort_output file.recs (ram / 8) (by omega)
  -- the size of the source
  let w0 : FileWrapper := { path := dstPath ++ ".1", stream := dst1, isOpen := true }
  have hsize : ∃ sz, (w0.sync fs1).fileSize srcPath = .ok sz ∧ sz / 8 = file.recs.length := by
    by_cases hne : srcPath = dstPath ++ ".1"
    · have hemp : file = File.ofRecords [] := hne1.resolve_left (fun h => h hne)
      have hnil : dst1.data = [] := by
        rw [hdata, hemp]
        exact blockMap_nil _ _ sortRun_nil _
      refine ⟨(File.ofRecords []).size, ?_, by rw [hemp]; rfl⟩
      apply FileSystem.fileSize_ok
      show (fs1.store (dstPath ++ ".1") (File.ofRecords dst1.data)).files srcPath = _
      rw [hne, hnil]
      exact FileSystem.files_store_self _ _ (by decide)
    · refine ⟨file.size, ?_, File.size_div file ht⟩
      apply FileSystem.fileSize_ok
      show (fs1.store (dstPath ++ ".1") (File.ofRecords dst1.data)).files srcPath = _
      rw [FileSystem.files_store_ne _ _ hne]
      exact hsrc
  obtain ⟨sz, hsize, hsz⟩ := hsize
  -- the loop
  have hv0 : (sortStart dstPath dst1 buf1 (ram / 8)).Valid file.recs :=
    ⟨Or.inl ⟨rfl, rfl⟩,
      by show 3 ≤ buf1.length ∨ file.recs.length ≤ ram / 8; omega, hC1, hw1.1,
      by show dst1.data.Perm _; rw [hdata]; exact hperm,
      by show ChunkSorted dst1.data (ram / 8); rw [hdata]; exact hsorted,
      ⟨rfl, rfl⟩, Nat.zero_le _, hsmallN⟩
  obtain ⟨s1, log, k, hlog, hv1, hge, hleast, hn1, hq0, hq1, hlen, hent⟩ :=
    sortLoopLog_spec file.recs fuel (sortStart dstPath dst1 buf1 (ram / 8)) hv0
      (by show file.recs.length - ram / 8 + 2 * file.recs.length + 4 ≤ fuel; omega)
  have hloop := sortLoopLog_ok hlog
  obtain ⟨_, hp0, hp1, ho0, ho1⟩ := sortLoop_frame _ _ _ _ hloop
  have hq0a : s1.pw0 = k % 2 := by rw [hq0]; show (0 + k) % 2 = _; rw [Nat.zero_add]
  have hq1a : s1.pw1 = (1 + k) % 2 := hq1
  have hA : (s1.wrapper s1.pw0).stream.data = sortRun file.recs :=
    eq_sortRun_of_perm_sorted hv1.active_perm
      (sorted_of_chunkSorted hv1.active_sorted (by
        rw [hv1.active_perm.length_eq, hn1]; exact hge))
  have hbody : sortBody fuel fs1 srcPath dstPath ram
      { path := dstPath ++ ".1", stream := FStream.opened, isOpen := true }
      { path := dstPath ++ ".2", stream := FStream.opened, isOpen := true }
      = match (s1.wrapper s1.pw0).rename (w0.sync fs1) dstPath with
        | Except.error e => Except.error e
        | Except.ok (w, fs2) => Except.ok (fs2, (s1.setWrapper s1.pw0 w).w0,
            (s1.setWrapper s1.pw0 w).w1) := by
    simp only [sortBody, hpre]
    show (match (w0.sync fs1).fileSize srcPath with
      | Except.error e => Except.error e
      | Except.ok fileSize =>
        match sortLoop (fileSize / 8) fuel (sortStart dstPath dst1 buf1 (ram / 8)) with
        | Except.error e => Except.error e
        | Except.ok s =>
          match (s.wrapper s.pw0).rename (w0.sync fs1) dstPath with
          | Except.error e => Except.error e
          | Except.ok (w, fs2) => Except.ok (fs2, (s.setWrapper s.pw0 w).w0,
              (s.setWrapper s.pw0 w).w1)) = _
    rw [hsize]
    simp only [hsz, hloop]
  rw [hbody]
  refine ⟨dst1, buf1, s1, log, k, ?_⟩
  have hent2 : ∀ j, j < k → ∃ e, log[j]? = some e ∧
      e.numbersInChunk = ram / 8 * 2 ^ j ∧
      e.chunkCount = ceilDiv file.recs.length (ram / 8 * 2 ^ j) ∧
      e.readIndex = j % 2 ∧ e.writeIndex = (j + 1) % 2 ∧
      e.out.Perm file.recs ∧ ChunkSorted e.out (ram / 8 * 2 ^ (j + 1)) := by
    intro j hj
    obtain ⟨e, he, e1, e2, e3, e4, e5, e6⟩ := hent j hj
    refine ⟨e, he, e1, e2, ?_, ?_, e5, e6⟩
    · rw [e3]; show (0 + j) % 2 = _; rw [Nat.zero_add]
    · rw [e4]; show (1 + j) % 2 = _; rw [Nat.add_comm]
  rcases hv1.pw with ⟨h0, h1⟩ | ⟨h0, h1⟩
  · -- the first temp file is renamed
    have hw : s1.wrapper s1.pw0 = s1.w0 := by rw [h0]; rfl
    have hpath : s1.w0.path = dstPath ++ ".1" := hp0
    have hopen : s1.w0.isOpen = true := ho0
    rw [hw] at hA ⊢
    obtain ⟨fs2, hren, hf1, hf2, hf3, hf4⟩ := FileWrapper.rename_spec s1.w0 (w0.sync fs1) dstPath
      hopen (by rw [hpath]; exact append_ne_self _ _ (by decide))
      (by rw [hA, sortRun_length]; exact hsmallN)
    rw [hren]
    refine ⟨fs2, _, _, hpre, by rw [hdata]; exact hperm, by rw [hdata]; exact hsorted, hlog,
      hge, hleast, hn1, hq0a, hlen, hent2, rfl, hf1, hA, ?_, ?_⟩
    · intro _
      refine ⟨?_, ?_⟩
      · rw [h0]; rfl
      · rw [h0]; exact hp1
    · intro hk
      rw [← hq0a, h0] at hk
      cases hk
  · -- the second temp file is renamed
    have hw : s1.wrapper s1.pw0 = s1.w1 := by rw [h0]; rfl
    have hpath : s1.w1.path = dstPath ++ ".2" := hp1
    have hopen : s1.w1.isOpen = true := ho1
    rw [hw] at hA ⊢
    obtain ⟨fs2, hren, hf1, hf2, hf3, hf4⟩ := FileWrapper.rename_spec s1.w1 (w0.sync fs1) dstPath
      hopen (by rw [hpath]; exact append_ne_self _ _ (by decide))
      (by rw [hA, sortRun_length]; exact hsmallN)
    rw [hren]
    refine ⟨fs2, _, _, hpre, by rw [hdata]; exact hperm, by rw [hdata]; exact hsorted, hlog,
      hge, hleast, hn1, hq0a, hlen, hent2, rfl, hf1, hA, ?_, ?_⟩
    · intro hk
      rw [← hq0a, h0] at hk
      cases hk
    · intro _
      refine ⟨?_, ?_⟩
      · rw [h0]; rfl
      · rw [h0]; exact hp0

/-! ## One iteration of the merge loop -/

/-- The loop of `mergeSiblingChunks` is the repetition of `mergeIter`. -/
theorem mergeLoop_iter (fuel : Nat) (v1 v2 : Record) (s : MergeState) :
    mergeLoop (fuel + 1) v1 v2 s =
      match mergeIter v1 v2 s with
      | .error e => .error e
      | .ok (s1, none) => .ok s1
      | .ok (s1, some (a, b)) => mergeLoop fuel a b s1 := by
  unfold mergeIter
  rw [mergeLoop]
  by_cases hlt : v1 < v2
  · simp only [hlt, if_true, MergeState.takeFirst]
    cases s.append v1 with
    | error e => rfl
    | ok s1 =>
      simp only
      cases s1.getNext1 with
      | error e => rfl
      | ok r =>
        obtain ⟨v, s2⟩ := r
        cases v with
        | none =>
          simp only
          cases s2.append v2 with
          | error e => rfl
          | ok s3 => rfl
        | some a => rfl
  · simp only [hlt, if_false, MergeState.takeSecond]
    cases s.append v2 with
    | error e => rfl
    | ok s1 =>
      simp only
      cases s1.getNext2 with
      | error e => rfl
      | ok r =>
        obtain ⟨v, s2⟩ := r
        cases v with
        | none =>
          simp only
          cases s2.append v1 with
          | error e => rfl
          | ok s3 => rfl
        | some a => rfl

theorem MergeState.append_readers {s s1 : MergeState} {v : Record} (h : s.append v = .ok s1) :
    s1.ch1 = s.ch1 ∧ s1.ch2 = s.ch2 ∧ s1.src = s.src := by
  unfold MergeState.append at h
  cases hg : s.cw.append s.dst s.buf v with
  | error e => rw [hg] at h; cases h
  | ok r =>
    obtain ⟨w, d, b⟩ := r
    rw [hg] at h
    simp only [Except.ok.injEq] at h
    subst h
    exact ⟨rfl, rfl, rfl⟩

theorem MergeState.getNext2_first {s s1 : MergeState} {v : Option Record}
    (h : s.getNext2 = .ok (v, s1)) : s1.ch1 = s.ch1 ∧ s1.cw = s.cw ∧ s1.dst = s.dst := by
  unfold MergeState.getNext2 at h
  cases hg : s.ch2.getNext s.src s.buf with
  | error e => rw [hg] at h; cases h
  | ok r =>
    obtain ⟨v0, c, f, b⟩ := r
    rw [hg] at h
    simp only [Except.ok.injEq, Prod.mk.injEq] at h
    obtain ⟨_, rfl⟩ := h
    exact ⟨rfl, rfl, rfl⟩

theorem MergeState.getNext1_second {s s1 : MergeState} {v : Option Record}
    (h : s.getNext1 = .ok (v, s1)) : s1.ch2 = s.ch2 ∧ s1.cw = s.cw ∧ s1.dst = s.dst := by
  unfold MergeState.getNext1 at h
  cases hg : s.ch1.getNext s.src s.buf with
  | error e => rw [hg] at h; cases h
  | ok r =>
    obtain ⟨v0, c, f, b⟩ := r
    rw [hg] at h
    simp only [Except.ok.injEq, Prod.mk.injEq] at h
    obtain ⟨_, rfl⟩ := h
    exact ⟨rfl, rfl, rfl⟩

/-- The branch that takes from the second reader, on a valid state: the second value is
appended, the first reader is not touched, and the next lookahead pair keeps the first value. -/
theorem MergeState.takeSecond_spec (s : MergeState) (v1 v2 : Record) (hv : s.Valid) :
    ∃ s1 next, s.takeSecond v1 v2 = .ok (s1, next) ∧ s1.Valid ∧ s1.ch1 = s.ch1 ∧
      s1.pending1 = s.pending1 ∧
      (∀ w rest, s.pending2 = w :: rest →
        next = some (v1, w) ∧ s1.pending2 = rest ∧ s1.written = s.written ++ [v2]) ∧
      (s.pending2 = [] →
        next = none ∧ s1.pending2 = [] ∧ s1.written = s.written ++ [v2, v1]) := by
  obtain ⟨sa, ha, hva, _, ha1, ha2, haw⟩ := MergeState.appendRecord_spec s v2 hv
  obtain ⟨sb, hb, hvb, _, hb2, hb1, hbw⟩ := MergeState.getNext2_spec sa hva
  have hc1 : sb.ch1 = s.ch1 := (MergeState.getNext2_first hb).1.trans
    (MergeState.append_readers ha).1
  unfold MergeState.takeSecond
  rw [ha]
  simp only
  rw [hb]
  cases hp : s.pending2 with
  | nil =>
    rw [ha2, hp] at hb2 ⊢
    obtain ⟨sc, hc, hvc, _, hcp1, hcp2, hcw⟩ := MergeState.appendRecord_spec sb v1 hvb
    simp only [List.head?_nil]
    rw [hc]
    refine ⟨sc, none, rfl, hvc, (MergeState.append_readers hc).1.trans hc1,
      by rw [hcp1, hb1, ha1], ?_, ?_⟩
    · intro w rest h; cases h
    · intro _
      refine ⟨rfl, by rw [hcp2, hb2]; rfl, ?_⟩
      rw [hcw, hbw, haw, List.append_assoc]
      rfl
  | cons w rest =>
    rw [ha2, hp] at hb2 ⊢
    simp only [List.head?_cons]
    refine ⟨sb, some (v1, w), rfl, hvb, hc1, by rw [hb1, ha1], ?_, ?_⟩
    · intro w2 rest2 h
      cases h
      exact ⟨rfl, by rw [hb2]; rfl, by rw [hbw, haw]⟩
    · intro h; cases h

/-! ## The pairs merged by a pass -/

/-- The loop with its record of iterations is the loop of `mergeChunks`: dropping the record
gives `mergeChunksLoop`. -/
theorem mergeChunksLoopLog_erase (L cc l : Nat) : ∀ (fuel idx : Nat) (p : PassState),
    (mergeChunksLoopLog L cc l fuel idx p).map Prod.fst = mergeChunksLoop L cc l fuel idx p := by
  intro fuel
  induction fuel with
  | zero => intro idx p; rfl
  | succ fuel ih =>
    intro idx p
    unfold mergeChunksLoopLog mergeChunksLoop
    by_cases hlt : idx < cc
    · simp only [hlt, if_true]
      cases hm : mergeSiblingChunks fuel
          { ch1 := Chunk.new l l L idx,
            ch2 := Chunk.new (2 * l) l (if idx + 1 < cc then L else 0) (idx + 1),
            cw := p.cw, src := p.src, dst := p.dst, buf := p.buf } with
      | error e => rfl
      | ok s =>
        simp only
        rw [← ih (idx + 2)]
        cases mergeChunksLoopLog L cc l fuel (idx + 2)
            { cw := s.cw, src := s.src, dst := s.dst, buf := s.buf } with
        | error e => rfl
        | ok x => rfl
    · simp only [hlt, if_false]
      rfl

/-- Whenever the loop of `mergeChunks` returns, its iterations were those with the chunk
indices `idx`, `idx + 2`, ... below the chunk count: `ceil((chunkCount - idx) / 2)` of them. -/
theorem mergeChunksLoopLog_indices (L cc l : Nat) : ∀ (fuel idx : Nat) (p p1 : PassState)
    (log : List PairRecord), mergeChunksLoopLog L cc l fuel idx p = .ok (p1, log) →
    log.map (fun e => e.chunkIndex)
      = (List.range ((cc - idx + 1) / 2)).map (fun i => idx + 2 * i) := by
  intro fuel
  induction fuel with
  | zero => intro idx p p1 log h; cases h
  | succ fuel ih =>
    intro idx p p1 log h
    unfold mergeChunksLoopLog at h
    by_cases hlt : idx < cc
    · simp only [hlt, if_true] at h
      cases hm : mergeSiblingChunks fuel
          { ch1 := Chunk.new l l L idx,
            ch2 := Chunk.new (2 * l) l (if idx + 1 < cc then L else 0) (idx + 1),
            cw := p.cw, src := p.src, dst := p.dst, buf := p.buf } with
      | error e => rw [hm] at h; cases h
      | ok s =>
        rw [hm] at h
        simp only at h
        cases hr : mergeChunksLoopLog L cc l fuel (idx + 2)
            { cw := s.cw, src := s.src, dst := s.dst, buf := s.buf } with
        | error e => rw [hr] at h; cases h
        | ok x =>
          obtain ⟨p2, log2⟩ := x
          rw [hr] at h
          simp only [Except.ok.injEq, Prod.mk.injEq] at h
          obtain ⟨_, rfl⟩ := h
          have h2 := ih (idx + 2) _ _ _ hr
          have hn : (cc - idx + 1) / 2 = (cc - (idx + 2) + 1) / 2 + 1 := by omega
          rw [hn, List.range_succ_eq_map, List.map_cons, List.map_cons, List.map_map, h2]
          congr 1
          apply List.map_congr_left
          intro i _
          show idx + 2 + 2 * i = idx + 2 * (i + 1)
          omega
    · simp only [hlt, if_false, Except.ok.injEq, Prod.mk.injEq] at h
      obtain ⟨_, rfl⟩ := h
      have hn : (cc - idx + 1) / 2 = 0 := by omega
      rw [hn]
      rfl

theorem ceilDiv_two (c : Nat) : ceilDiv c 2 = (c + 1) / 2 := rfl

/-- Halving the chunk count of a layout gives the chunk count of the layout of twice the
nominal length. -/
theorem ceilDiv_double (N L : Nat) (hL : 1 ≤ L) :
    ceilDiv N (2 * L) = ceilDiv (ceilDiv N L) 2 := by
  have hiff : ∀ i, i < ceilDiv N (2 * L) ↔ i < ceilDiv (ceilDiv N L) 2 := by
    intro i
    rw [lt_ceilDiv_iff N (2 * L) i (by omega), lt_ceilDiv_iff _ 2 i (by omega),
      lt_ceilDiv_iff N L (2 * i) hL, Nat.mul_assoc, Nat.mul_left_comm]
  apply Nat.le_antisymm
  · by_contra h
    have h1 : ceilDiv (ceilDiv N L) 2 < ceilDiv N (2 * L) := by omega
    exact absurd ((hiff _).mp h1) (Nat.lt_irrefl _)
  · by_contra h
    have h1 : ceilDiv N (2 * L) < ceilDiv (ceilDiv N L) 2 := by omega
    exact absurd ((hiff _).mpr h1) (Nat.lt_irrefl _)

/-! ## The regions of the vector during a merge -/

theorem put_getElem?_self (buf : List Record) (i : Nat) (v : Record) (h : i + 1 ≤ buf.length) :
    (put buf i [v])[i]? = some v := by
  unfold put
  rw [List.append_assoc, List.getElem?_append_right (by simp)]
  simp [List.length_take, Nat.min_eq_left (show i ≤ buf.length by omega)]

/-- The record that `append` is given is stored at the cursor of the writer. -/
theorem ChunkWriter.append_stored {w : ChunkWriter} {dst : FStream} {buf : List Record}
    {v : Record} {w1 : ChunkWriter} {dst1 : FStream} {buf1 : List Record}
    (h : w.append dst buf v = .ok (w1, dst1, buf1)) : buf1[w.it]? = some v := by
  unfold ChunkWriter.append at h
  split at h
  · cases h
  · rename_i buf2 hst
    have hb : buf2[w.it]? = some v := by
      unfold storeAt at hst
      split at hst
      · rename_i hle
        cases hst
        exact put_getElem?_self buf w.it v hle
      · cases hst
    simp only at h
    split at h
    · split at h
      · cases h
      · cases h; exact hb
    · cases h; exact hb

/-- A state partitioned into regions of at least one record, over usable streams, a source file
shorter than `2 ^ 63` bytes and read offsets that can be sought, is valid. -/
theorem MergeState.InRegions.valid {s : MergeState} {l : Nat} (h : s.InRegions l) (hl : 1 ≤ l)
    (hsrc : s.src.Good) (hdst : s.dst.Writable) (hsm : s.src.data.length < 2 ^ 60)
    (ho1 : s.ch1.readOffset < 2 ^ 60) (ho2 : s.ch2.readOffset < 2 ^ 60) : s.Valid := by
  obtain ⟨a0, a1, a2, a3, b1, b2, b3, b4, b5, c1, c2, c3, c4, c5⟩ := h
  refine ⟨⟨?_, ?_, ?_, b4, ?_, ho1⟩, ⟨?_, ?_, ?_, c4, ?_, ho2⟩, ⟨?_, ?_, ?_⟩, hsrc, hsm, hdst,
    ?_, ?_, ?_⟩ <;> omega

theorem FStream.read_length_le (f : FStream) (n : Nat) : (f.read n).2.length ≤ n := by
  unfold FStream.read
  split
  · simp only
    split
    · exact Nat.le_trans (Nat.le_of_eq (List.length_take _ _)) (Nat.min_le_left _ _)
    · exact Nat.le_trans (Nat.le_of_eq (List.length_take _ _)) (Nat.min_le_left _ _)
  · exact Nat.zero_le _

/-- A read on a good stream that does not set `eofbit` was not short. -/
theorem FStream.read_full {f : FStream} {n : Nat} (hg : f.good = true)
    (he : (f.read n).1.eof = false) : (f.read n).2.length = n := by
  have hle := FStream.read_length_le f n
  unfold FStream.read at he hle ⊢
  rw [if_pos hg] at he hle ⊢
  simp only at he hle ⊢
  split at he
  · simp [FStream.eof] at he
  · rename_i hn
    rw [if_neg hn] at hle ⊢
    simp only at hle ⊢
    omega

/-- After a seek that did not fail the stream is good. -/
theorem FStream.seekg_good {f : FStream} {off : Nat} (h : (f.seekg off).fail = false) :
    (f.seekg off).good = true := by
  unfold FStream.seekg at h ⊢
  by_cases hf : f.failbit = true
  · rw [if_pos hf] at h
    simp only [FStream.fail] at h
    rw [hf] at h
    cases h
  · rw [if_neg hf] at h ⊢
    by_cases ho : 2 ^ 60 ≤ off
    · rw [if_pos ho] at h
      simp [FStream.fail] at h
    · rw [if_neg ho]
      simp only [FStream.good, Bool.not_false, Bool.true_and]
      simpa using hf

theorem storeAt_inv {buf : List Record} {i : Nat} {vals buf1 : List Record}
    (h : storeAt buf i vals = .ok buf1) : i + vals.length ≤ buf.length ∧ buf1 = put buf i vals := by
  unfold storeAt at h
  split at h
  · rename_i hle
    cases h
    exact ⟨hle, rfl⟩
  · cases h

theorem SameOutside.widen {buf1 buf : List Record} {a b a2 b2 : Nat}
    (h : SameOutside buf1 buf a b) (ha : a2 ≤ a) (hb : b ≤ b2) : SameOutside buf1 buf a2 b2 :=
  ⟨h.1, fun i hi => h.2 i (by omega)⟩

/-- A refill, on whatever stream, keeps the cursors of a reader inside its region and changes
the vector only there; afterwards the reader has something in its window or nothing left to
read. -/
theorem Chunk.fillBuf_region {c c1 : Chunk} {f f1 : FStream} {buf buf1 : List Record}
    (h : c.fillBuf f buf = .ok (c1, f1, buf1)) (hm : 1 ≤ c.maxElements)
    (hne : c.nextInBuf = c.realEnd) (hbn : c.begin ≤ c.nextInBuf)
    (hel : c.realEnd ≤ c.begin + c.maxElements) :
    c1.begin = c.begin ∧ c1.maxElements = c.maxElements ∧ c.begin ≤ c1.nextInBuf ∧
      c1.nextInBuf ≤ c1.realEnd ∧ c1.realEnd ≤ c.begin + c.maxElements ∧
      (c1.nextInBuf = c1.realEnd → c1.numbersToRead = 0) ∧
      SameOutside buf1 buf c.begin (c.begin + c.maxElements) := by
  unfold Chunk.fillBuf at h
  split at h
  · rename_i h0
    cases h
    exact ⟨rfl, rfl, hbn, Nat.le_of_eq hne, hel, fun _ => h0, SameOutside.refl_same _ _ _⟩
  · rename_i h0
    simp only at h
    split at h
    · cases h
      exact ⟨rfl, rfl, hbn, Nat.le_of_eq hne, hel, fun _ => rfl, SameOutside.refl_same _ _ _⟩
    · rename_i hfail
      have hgood := @FStream.seekg_good f c.readOffset (by simpa using hfail)
      have hlen := FStream.read_length_le (f.seekg c.readOffset)
        (min c.maxElements c.numbersToRead)
      have hmin : min c.maxElements c.numbersToRead ≤ c.maxElements := Nat.min_le_left _ _
      have hmin1 : 1 ≤ min c.maxElements c.numbersToRead := by
        apply Nat.le_min.mpr
        constructor <;> omega
      split at h
      · cases h
      · rename_i buf2 hst
        obtain ⟨hstore, rfl⟩ := storeAt_inv hst
        split at h
        · cases h
          exact ⟨rfl, rfl, Nat.le_refl _, Nat.le_add_right _ _, by
            show c.begin + _ ≤ c.begin + c.maxElements
            omega, fun _ => rfl, sameOutside_put hstore (Nat.le_refl _) (by omega)⟩
        · rename_i heof
          have hfull := @FStream.read_full _ (min c.maxElements c.numbersToRead) hgood
            (by simpa using heof)
          cases h
          refine ⟨rfl, rfl, Nat.le_refl _, Nat.le_add_right _ _, by
            show c.begin + _ ≤ c.begin + c.maxElements
            omega, fun hh => ?_, sameOutside_put hstore (Nat.le_refl _) (by omega)⟩
          exfalso
          have hh2 : c.begin
              = c.begin + ((f.seekg c.readOffset).read
                (min c.maxElements c.numbersToRead)).2.length := hh
          omega

/-- A call of `getNext`, on whatever stream, keeps the cursors of a reader inside its region,
changes the vector only there, and delivers a value read from an index of the region. -/
theorem Chunk.getNext_region {c c1 : Chunk} {f f1 : FStream} {buf buf1 : List Record}
    {v : Option Record} (h : c.getNext f buf = .ok (v, c1, f1, buf1)) (hm : 1 ≤ c.maxElements)
    (hbn : c.begin ≤ c.nextInBuf) (hne : c.nextInBuf ≤ c.realEnd)
    (hel : c.realEnd ≤ c.begin + c.maxElements) :
    c1.begin = c.begin ∧ c1.maxElements = c.maxElements ∧ c.begin ≤ c1.nextInBuf ∧
      c1.nextInBuf ≤ c1.realEnd ∧ c1.realEnd ≤ c.begin + c.maxElements ∧
      SameOutside buf1 buf c.begin (c.begin + c.maxElements) ∧
      ∀ x, v = some x →
        ∃ i, c.begin ≤ i ∧ i < c.begin + c.maxElements ∧ buf1[i]? = some x := by
  unfold Chunk.getNext at h
  split at h
  · cases h
  · rename_i c2 f2 buf2 hfill
    have hc : c2.begin = c.begin ∧ c2.maxElements = c.maxElements ∧ c.begin ≤ c2.nextInBuf ∧
        c2.nextInBuf ≤ c2.realEnd ∧ c2.realEnd ≤ c.begin + c.maxElements ∧
        (c2.nextInBuf = c2.realEnd → c2.numbersToRead = 0) ∧
        SameOutside buf2 buf c.begin (c.begin + c.maxElements) := by
      split at hfill
      · rename_i heq
        exact Chunk.fillBuf_region hfill hm heq hbn hel
      · rename_i hneq
        cases hfill
        exact ⟨rfl, rfl, hbn, hne, hel, fun hh => absurd hh hneq, SameOutside.refl_same _ _ _⟩
    obtain ⟨q1, q2, q3, q4, q5, q6, q7⟩ := hc
    split at h
    · cases h
      exact ⟨q1, q2, q3, q4, q5, q7, fun x hx => by cases hx⟩
    · rename_i hproc
      split at h
      · cases h
      · rename_i x hload
        simp only [Except.ok.injEq, Prod.mk.injEq] at h
        obtain ⟨rfl, rfl, rfl, rfl⟩ := h
        have hlt : c2.nextInBuf < c2.realEnd := by
          rcases Nat.lt_or_ge c2.nextInBuf c2.realEnd with hh | hh
          · exact hh
          · exfalso
            have he : c2.nextInBuf = c2.realEnd := Nat.le_antisymm q4 hh
            apply hproc
            simp [Chunk.isProcessed, q6 he, he]
        have hval : buf2[c2.nextInBuf]? = some x := by
          unfold loadAt at hload
          split at hload
          · rename_i w hw
            cases hload
            exact hw
          · cases hload
        refine ⟨q1, q2, Nat.le_succ_of_le q3, hlt, q5, q7, fun y hy => ?_⟩
        cases hy
        exact ⟨c2.nextInBuf, q3, by omega, hval⟩

/-- A call of `append`, on whatever stream, keeps the cursor of a writer inside its region,
strictly below its end, and changes the vector only at the old cursor. -/
theorem ChunkWriter.append_region {w w1 : ChunkWriter} {dst dst1 : FStream}
    {buf buf1 : List Record} {v : Record} (h : w.append dst buf v = .ok (w1, dst1, buf1))
    (hb : w.begin ≤ w.it) (hlt : w.it < w.endIt) :
    w1.begin = w.begin ∧ w1.endIt = w.endIt ∧ w.begin ≤ w1.it ∧ w1.it < w.endIt ∧
      SameOutside buf1 buf w.it (w.it + 1) := by
  unfold ChunkWriter.append at h
  split at h
  · cases h
  · rename_i buf2 hst
    obtain ⟨hstore, rfl⟩ := storeAt_inv hst
    have hso : SameOutside (put buf w.it [v]) buf w.it (w.it + 1) :=
      sameOutside_put hstore (Nat.le_refl _) (Nat.le_refl _)
    simp only at h
    split at h
    · split at h
      · cases h
      · cases h
        exact ⟨rfl, rfl, Nat.le_refl _, by show w.begin < w.endIt; omega, hso⟩
    · rename_i hne
      cases h
      refine ⟨rfl, rfl, by show w.begin ≤ w.it + 1; omega, ?_, hso⟩
      show w.it + 1 < w.endIt
      have hne2 : w.it + 1 ≠ w.endIt := hne
      omega

/-- Every operation of a merge keeps the partition, whatever the state of the streams. -/
theorem MergeState.Op.keeps {s s1 : MergeState} {l : Nat} (hop : MergeState.Op s s1)
    (hl : 1 ≤ l) (h : s.InRegions l) : s1.InRegions l ∧ s1.buf.length = s.buf.length := by
  obtain ⟨a0, a1, a2, a3, b1, b2, b3, b4, b5, c1, c2, c3, c4, c5⟩ := h
  cases hop with
  | next1 hg =>
    unfold MergeState.getNext1 at hg
    split at hg
    · cases hg
    · rename_i v c f b hget
      cases hg
      obtain ⟨r1, r2, r3, r4, r5, r6, _⟩ := Chunk.getNext_region hget (by omega) (by omega) b4
        (by omega)
      have hlen : b.length = s.buf.length := r6.1
      refine ⟨⟨?_, a1, a2, a3, ?_, ?_, ?_, r4, ?_, c1, c2, c3, c4, c5⟩, hlen⟩
      · show 3 * l ≤ b.length
        omega
      · show c.begin = l
        omega
      · show c.maxElements = l
        omega
      · show l ≤ c.nextInBuf
        omega
      · show c.realEnd ≤ 2 * l
        omega
  | next2 hg =>
    unfold MergeState.getNext2 at hg
    split at hg
    · cases hg
    · rename_i v c f b hget
      cases hg
      obtain ⟨r1, r2, r3, r4, r5, r6, _⟩ := Chunk.getNext_region hget (by omega) (by omega) c4
        (by omega)
      have hlen : b.length = s.buf.length := r6.1
      refine ⟨⟨?_, a1, a2, a3, b1, b2, b3, b4, b5, ?_, ?_, ?_, r4, ?_⟩, hlen⟩
      · show 3 * l ≤ b.length
        omega
      · show c.begin = 2 * l
        omega
      · show c.maxElements = l
        omega
      · show 2 * l ≤ c.nextInBuf
        omega
      · show c.realEnd ≤ 3 * l
        omega
  | append hg =>
    unfold MergeState.append at hg
    split at hg
    · cases hg
    · rename_i w d b happ
      cases hg
      obtain ⟨r1, r2, r3, r4, r5⟩ := ChunkWriter.append_region happ (by omega) (by omega)
      have hlen : b.length = s.buf.length := r5.1
      refine ⟨⟨?_, ?_, ?_, ?_, b1, b2, b3, b4, b5, c1, c2, c3, c4, c5⟩, hlen⟩
      · show 3 * l ≤ b.length
        omega
      · show w.begin = 0
        omega
      · show w.endIt = l
        omega
      · show w.it < l
        omega

/-- Every state that a merge can reach keeps the partition. -/
theorem MergeState.reach_keeps {s0 s : MergeState} {l : Nat}
    (hr : Relation.ReflTransGen MergeState.Op s0 s) (hl : 1 ≤ l) (h : s0.InRegions l) :
    s.InRegions l ∧ s.buf.length = s0.buf.length := by
  induction hr with
  | refl => exact ⟨h, rfl⟩
  | tail _ hop ih =>
    obtain ⟨i1, i2⟩ := ih
    obtain ⟨j1, j2⟩ := hop.keeps hl i1
    exact ⟨j1, j2.trans i2⟩

/-- A call of `getNext` on the first reader changes the vector only inside `[l, 2 * l)`, and
the value it delivers is read from an index in that region. -/
theorem MergeState.getNext1_frame {s s1 : MergeState} {l : Nat} {v : Option Record}
    (h : s.InRegions l) (hl : 1 ≤ l) (hg : s.getNext1 = .ok (v, s1)) :
    SameOutside s1.buf s.buf l (2 * l) ∧
      ∀ x, v = some x → ∃ i, l ≤ i ∧ i < 2 * l ∧ s1.buf[i]? = some x := by
  obtain ⟨a0, a1, a2, a3, b1, b2, b3, b4, b5, c1, c2, c3, c4, c5⟩ := h
  unfold MergeState.getNext1 at hg
  split at hg
  · cases hg
  · rename_i v0 c f b hget
    cases hg
    obtain ⟨_, _, _, _, _, r6, r7⟩ := Chunk.getNext_region hget (by omega) (by omega) b4
      (by omega)
    rw [b1, b2] at r6 r7
    refine ⟨by rw [Nat.two_mul]; exact r6, fun x hx => ?_⟩
    obtain ⟨i, i1, i2, i3⟩ := r7 x hx
    exact ⟨i, i1, by omega, i3⟩

/-- A call of `getNext` on the second reader changes the vector only inside `[2 * l, 3 * l)`,
and the value it delivers is read from an index in that region. -/
theorem MergeState.getNext2_frame {s s1 : MergeState} {l : Nat} {v : Option Record}
    (h : s.InRegions l) (hl : 1 ≤ l) (hg : s.getNext2 = .ok (v, s1)) :
    SameOutside s1.buf s.buf (2 * l) (3 * l) ∧
      ∀ x, v = some x → ∃ i, 2 * l ≤ i ∧ i < 3 * l ∧ s1.buf[i]? = some x := by
  obtain ⟨a0, a1, a2, a3, b1, b2, b3, b4, b5, c1, c2, c3, c4, c5⟩ := h
  unfold MergeState.getNext2 at hg
  split at hg
  · cases hg
  · rename_i v0 c f b hget
    cases hg
    obtain ⟨_, _, _, _, _, r6, r7⟩ := Chunk.getNext_region hget (by omega) (by omega) c4
      (by omega)
    rw [c1, c2] at r6 r7
    refine ⟨by rw [show 3 * l = 2 * l + l by omega]; exact r6, fun x hx => ?_⟩
    obtain ⟨i, i1, i2, i3⟩ := r7 x hx
    exact ⟨i, i1, by omega, i3⟩

/-- A call of `append` changes the vector only inside `[0, l)`: the record is stored at the
cursor of the writer, which is below `l`. -/
theorem MergeState.append_frame {s s1 : MergeState} {l : Nat} {v : Record}
    (h : s.InRegions l) (hg : s.append v = .ok s1) :
    SameOutside s1.buf s.buf 0 l ∧ s.cw.it < l ∧ s1.buf[s.cw.it]? = some v := by
  obtain ⟨a0, a1, a2, a3, b1, b2, b3, b4, b5, c1, c2, c3, c4, c5⟩ := h
  unfold MergeState.append at hg
  split at hg
  · cases hg
  · rename_i w d b happ
    cases hg
    obtain ⟨_, _, _, _, r5⟩ := ChunkWriter.append_region happ (by omega) (by omega)
    exact ⟨r5.widen (Nat.zero_le _) (by omega), a3, ChunkWriter.append_stored happ⟩

/-! ## A merge is a sequence of reader and writer operations -/

theorem mergeLoop_ops : ∀ (fuel : Nat) (v1 v2 : Record) (s s1 : MergeState),
    mergeLoop fuel v1 v2 s = .ok s1 → Relation.ReflTransGen MergeState.Op s s1 := by
  intro fuel
  induction fuel with
  | zero => intro v1 v2 s s1 h; cases h
  | succ fuel ih =>
    intro v1 v2 s s1 h
    unfold mergeLoop at h
    by_cases hlt : v1 < v2
    · simp only [hlt, if_true] at h
      cases ha : s.append v1 with
      | error e => rw [ha] at h; cases h
      | ok sa =>
        rw [ha] at h
        simp only at h
        cases hg : sa.getNext1 with
        | error e => rw [hg] at h; cases h
        | ok r =>
          obtain ⟨v, sb⟩ := r
          rw [hg] at h
          refine Relation.ReflTransGen.head (MergeState.Op.append ha)
            (Relation.ReflTransGen.head (MergeState.Op.next1 hg) ?_)
          cases v with
          | none => exact Relation.ReflTransGen.single (MergeState.Op.append h)
          | some a => exact ih _ _ _ _ h
    · simp only [hlt, if_false] at h
      cases ha : s.append v2 with
      | error e => rw [ha] at h; cases h
      | ok sa =>
        rw [ha] at h
        simp only at h
        cases hg : sa.getNext2 with
        | error e => rw [hg] at h; cases h
        | ok r =>
          obtain ⟨v, sb⟩ := r
          rw [hg] at h
          refine Relation.ReflTransGen.head (MergeState.Op.append ha)
            (Relation.ReflTransGen.head (MergeState.Op.next2 hg) ?_)
          cases v with
          | none => exact Relation.ReflTransGen.single (MergeState.Op.append h)
          | some a => exact ih _ _ _ _ h

theorem drain1_ops : ∀ (fuel : Nat) (s s1 : MergeState),
    drain1 fuel s = .ok s1 → Relation.ReflTransGen MergeState.Op s s1 := by
  intro fuel
  induction fuel with
  | zero => intro s s1 h; cases h
  | succ fuel ih =>
    intro s s1 h
    unfold drain1 at h
    cases hg : s.getNext1 with
    | error e => rw [hg] at h; cases h
    | ok r =>
      obtain ⟨v, sb⟩ := r
      rw [hg] at h
      refine Relation.ReflTransGen.head (MergeState.Op.next1 hg) ?_
      cases v with
      | none =>
        simp only [Except.ok.injEq] at h
        subst h
        exact Relation.ReflTransGen.refl
      | some a =>
        simp only at h
        cases ha : sb.append a with
        | error e => rw [ha] at h; cases h
        | ok sa =>
          rw [ha] at h
          exact Relation.ReflTransGen.head (MergeState.Op.append ha) (ih _ _ h)

theorem drain2_ops : ∀ (fuel : Nat) (s s1 : MergeState),
    drain2 fuel s = .ok s1 → Relation.ReflTransGen MergeState.Op s s1 := by
  intro fuel
  induction fuel with
  | zero => intro s s1 h; cases h
  | succ fuel ih =>
    intro s s1 h
    unfold drain2 at h
    cases hg : s.getNext2 with
    | error e => rw [hg] at h; cases h
    | ok r =>
      obtain ⟨v, sb⟩ := r
      rw [hg] at h
      refine Relation.ReflTransGen.head (MergeState.Op.next2 hg) ?_
      cases v with
      | none =>
        simp only [Except.ok.injEq] at h
        subst h
        exact Relation.ReflTransGen.refl
      | some a =>
        simp only at h
        cases ha : sb.append a with
        | error e => rw [ha] at h; cases h
        | ok sa =>
          rw [ha] at h
          exact Relation.ReflTransGen.head (MergeState.Op.append ha) (ih _ _ h)

theorem mergeHead_ops (fuel : Nat) (s s1 : MergeState) (h : mergeHead fuel s = .ok s1) :
    Relation.ReflTransGen MergeState.Op s s1 := by
  unfold mergeHead at h
  cases hg : s.getNext1 with
  | error e => rw [hg] at h; cases h
  | ok r =>
    obtain ⟨v, sb⟩ := r
    rw [hg] at h
    refine Relation.ReflTransGen.head (MergeState.Op.next1 hg) ?_
    cases v with
    | none =>
      simp only [Except.ok.injEq] at h
      subst h
      exact Relation.ReflTransGen.refl
    | some a =>
      simp only at h
      cases hg2 : sb.getNext2 with
      | error e => rw [hg2] at h; cases h
      | ok r2 =>
        obtain ⟨v2, sc⟩ := r2
        rw [hg2] at h
        refine Relation.ReflTransGen.head (MergeState.Op.next2 hg2) ?_
        cases v2 with
        | none => exact Relation.ReflTransGen.single (MergeState.Op.append h)
        | some b => exact mergeLoop_ops _ _ _ _ _ h

/-- Whenever `mergeSiblingChunks` returns, the state it leaves was reached through calls of
`getNext` and `append` only. -/
theorem mergeSiblingChunks_ops (fuel : Nat) (s s1 : MergeState)
    (h : mergeSiblingChunks fuel s = .ok s1) : Relation.ReflTransGen MergeState.Op s s1 := by
  unfold mergeSiblingChunks at h
  cases hh : mergeHead fuel s with
  | error e => rw [hh] at h; cases h
  | ok sa =>
    rw [hh] at h
    simp only at h
    cases hd : drain1 fuel sa with
    | error e => rw [hd] at h; cases h
    | ok sb =>
      rw [hd] at h
      exact (mergeHead_ops _ _ _ hh).trans ((drain1_ops _ _ _ hd).trans (drain2_ops _ _ _ h))

/-! ## Readers that have reported the end -/

theorem MergeState.getNext1_of_processed (s : MergeState) (h : s.ch1.isProcessed = true) :
    s.getNext1 = .ok (none, s) := by
  unfold MergeState.getNext1
  rw [Chunk.getNext_of_processed _ _ _ h]

theorem MergeState.getNext2_of_processed (s : MergeState) (h : s.ch2.isProcessed = true) :
    s.getNext2 = .ok (none, s) := by
  unfold MergeState.getNext2
  rw [Chunk.getNext_of_processed _ _ _ h]

theorem MergeState.processed1_of_none {s s1 : MergeState} (h : s.getNext1 = .ok (none, s1)) :
    s1.ch1.isProcessed = true := by
  unfold MergeState.getNext1 at h
  cases hg : s.ch1.getNext s.src s.buf with
  | error e => rw [hg] at h; cases h
  | ok r =>
    obtain ⟨v0, c, f, b⟩ := r
    rw [hg] at h
    simp only [Except.ok.injEq, Prod.mk.injEq] at h
    obtain ⟨rfl, rfl⟩ := h
    exact Chunk.processed_of_getNext_none hg

theorem MergeState.processed2_of_none {s s1 : MergeState} (h : s.getNext2 = .ok (none, s1)) :
    s1.ch2.isProcessed = true := by
  unfold MergeState.getNext2 at h
  cases hg : s.ch2.getNext s.src s.buf with
  | error e => rw [hg] at h; cases h
  | ok r =>
    obtain ⟨v0, c, f, b⟩ := r
    rw [hg] at h
    simp only [Except.ok.injEq, Prod.mk.injEq] at h
    obtain ⟨rfl, rfl⟩ := h
    exact Chunk.processed_of_getNext_none hg

/-- The loop `while(ch1.getNext(v1))` on a first reader that has reported the end: one call of
`getNext`, which answers `false`, and the state is as it was. -/
theorem drain1_of_processed (fuel : Nat) (s : MergeState) (h : s.ch1.isProcessed = true) :
    drain1 (fuel + 1) s = .ok s := by
  rw [drain1, MergeState.getNext1_of_processed s h]

theorem drain2_of_processed (fuel : Nat) (s : MergeState) (h : s.ch2.isProcessed = true) :
    drain2 (fuel + 1) s = .ok s := by
  rw [drain2, MergeState.getNext2_of_processed s h]

/-- Whenever the loop `while(true)` of `mergeSiblingChunks` is left, one of the two readers has
answered `false` in it and nothing was asked of either reader since. -/
theorem mergeLoop_exit : ∀ (fuel : Nat) (v1 v2 : Record) (s s1 : MergeState),
    mergeLoop fuel v1 v2 s = .ok s1 → s1.ch1.isProcessed = true ∨ s1.ch2.isProcessed = true := by
  intro fuel
  induction fuel with
  | zero => intro v1 v2 s s1 h; cases h
  | succ fuel ih =>
    intro v1 v2 s s1 h
    unfold mergeLoop at h
    by_cases hlt : v1 < v2
    · simp only [hlt, if_true] at h
      cases ha : s.append v1 with
      | error e => rw [ha] at h; cases h
      | ok sa =>
        rw [ha] at h
        simp only at h
        cases hg : sa.getNext1 with
        | error e => rw [hg] at h; cases h
        | ok r =>
          obtain ⟨v, sb⟩ := r
          rw [hg] at h
          cases v with
          | none =>
            left
            rw [(MergeState.append_readers h).1]
            exact MergeState.processed1_of_none hg
          | some a => exact ih _ _ _ _ h
    · simp only [hlt, if_false] at h
      cases ha : s.append v2 with
      | error e => rw [ha] at h; cases h
      | ok sa =>
        rw [ha] at h
        simp only at h
        cases hg : sa.getNext2 with
        | error e => rw [hg] at h; cases h
        | ok r =>
          obtain ⟨v, sb⟩ := r
          rw [hg] at h
          cases v with
          | none =>
            right
            rw [(MergeState.append_readers h).2.1]
            exact MergeState.processed2_of_none hg
          | some a => exact ih _ _ _ _ h

/-! ## Trailing bytes -/

/-- A read that asks for more records than the source has left extracts the rest of the file:
`gcount()` is the number of bytes left, trailing bytes included, and `eofbit` is set. -/
theorem IStream.read_short {s s1 : IStream} {buf buf1 : List Record} {n g : Nat}
    (he : s.eofbit = false) (hf : s.failbit = false) (hn : s.rest.length < n)
    (h : s.read buf n = .ok (s1, buf1, g)) :
    g = 8 * s.rest.length + s.tail.length ∧ s1.eofbit = true ∧ s1.rest = [] := by
  unfold IStream.read at h
  simp only [he, hf, Bool.or_self, Bool.false_eq_true, if_false,
    show ¬ n ≤ s.rest.length by omega] at h
  split at h
  · cases h
  · split at h
    · cases h; exact ⟨rfl, rfl, rfl⟩
    · split at h
      · cases h
      · split at h
        · cases h
        · cases h; exact ⟨rfl, rfl, rfl⟩

/-! ## The record of a pass -/

/-- The pass with its record of iterations is `mergeChunks`: dropping the record gives
`mergeChunks`. -/
theorem mergeChunksLog_erase (fuel : Nat) (src dst : FStream) (buf : List Record) (L cc : Nat) :
    (mergeChunksLog fuel src dst buf L cc).map Prod.fst = mergeChunks fuel src dst buf L cc := by
  unfold mergeChunksLog mergeChunks
  simp only
  rw [← mergeChunksLoopLog_erase]
  cases mergeChunksLoopLog L cc (buf.length / 3) fuel 0
      { cw := (ChunkWriter.new dst 0 (buf.length / 3)).1, src := src,
        dst := (ChunkWriter.new dst 0 (buf.length / 3)).2, buf := buf } with
  | error e => rfl
  | ok x =>
    obtain ⟨p, log⟩ := x
    simp only [Except.map]
    cases p.cw.destroy p.dst p.buf with
    | error e => rfl
    | ok d => rfl

theorem mergeChunksLog_ok {fuel : Nat} {src dst : FStream} {buf : List Record} {L cc : Nat}
    {r : PassResult} {log : List PairRecord}
    (h : mergeChunksLog fuel src dst buf L cc = .ok (r, log)) :
    mergeChunks fuel src dst buf L cc = .ok r := by
  rw [← mergeChunksLog_erase, h]
  rfl

theorem mergeChunksLog_of_ok {fuel : Nat} {src dst : FStream} {buf : List Record} {L cc : Nat}
    {r : PassResult} (h : mergeChunks fuel src dst buf L cc = .ok r) :
    ∃ log, mergeChunksLog fuel src dst buf L cc = .ok (r, log) := by
  have e := mergeChunksLog_erase fuel src dst buf L cc
  rw [h] at e
  cases hx : mergeChunksLog fuel src dst buf L cc with
  | error er => rw [hx] at e; cases e
  | ok x =>
    obtain ⟨r2, log⟩ := x
    rw [hx] at e
    have e2 : r2 = r := Except.ok.inj e
    subst e2
    exact ⟨log, rfl⟩

/-- Whenever a pass returns, the iterations of its loop were those with the chunk indices
`0, 2, 4, ...` below the chunk count: `ceil(chunkCount / 2)` of them. -/
theorem mergeChunksLog_indices {fuel : Nat} {src dst : FStream} {buf : List Record} {L cc : Nat}
    {r : PassResult} {log : List PairRecord}
    (h : mergeChunksLog fuel src dst buf L cc = .ok (r, log)) :
    log.map (fun e => e.chunkIndex) = (List.range ((cc + 1) / 2)).map (fun i => 2 * i) ∧
      log.length = (cc + 1) / 2 := by
  unfold mergeChunksLog at h
  simp only at h
  split at h
  · cases h
  · rename_i p log2 hloop
    split at h
    · cases h
    · simp only [Except.ok.injEq, Prod.mk.injEq] at h
      obtain ⟨_, rfl⟩ := h
      have hi := mergeChunksLoopLog_indices L cc (buf.length / 3) fuel 0 _ _ _ hloop
      rw [Nat.sub_zero] at hi
      have hmap : log2.map (fun e => e.chunkIndex)
          = (List.range ((cc + 1) / 2)).map (fun i => 2 * i) := by
        rw [hi]
        apply List.map_congr_left
        intro i _
        exact Nat.zero_add _
      refine ⟨hmap, ?_⟩
      have hlen := congrArg List.length hmap
      rw [List.length_map, List.length_map, List.length_range] at hlen
      exact hlen

/-- Whenever the loop of `mergeChunks` returns from a state in which the writer owns `[0, l)`:
every iteration started with the vector partitioned into the three regions, and its merge was a
sequence of reader and writer operations. -/
theorem mergeChunksLoopLog_regions (L cc l : Nat) (hl : 1 ≤ l) :
    ∀ (fuel idx : Nat) (p p1 : PassState) (log : List PairRecord),
    mergeChunksLoopLog L cc l fuel idx p = .ok (p1, log) →
    3 * l ≤ p.buf.length → p.cw.begin = 0 → p.cw.endIt = l → p.cw.it < l →
    ∀ e ∈ log, e.start.InRegions l ∧ e.start.buf.length = p.buf.length ∧
      Relation.ReflTransGen MergeState.Op e.start e.stop := by
  intro fuel
  induction fuel with
  | zero => intro idx p p1 log h; cases h
  | succ fuel ih =>
    intro idx p p1 log h hfit hcb hce hit
    unfold mergeChunksLoopLog at h
    by_cases hlt : idx < cc
    · simp only [hlt, if_true] at h
      cases hm : mergeSiblingChunks fuel
          { ch1 := Chunk.new l l L idx,
            ch2 := Chunk.new (2 * l) l (if idx + 1 < cc then L else 0) (idx + 1),
            cw := p.cw, src := p.src, dst := p.dst, buf := p.buf } with
      | error e => rw [hm] at h; cases h
      | ok s =>
        rw [hm] at h
        simp only at h
        cases hr : mergeChunksLoopLog L cc l fuel (idx + 2)
            { cw := s.cw, src := s.src, dst := s.dst, buf := s.buf } with
        | error e => rw [hr] at h; cases h
        | ok x =>
          obtain ⟨p2, log2⟩ := x
          rw [hr] at h
          simp only [Except.ok.injEq, Prod.mk.injEq] at h
          obtain ⟨_, rfl⟩ := h
          have h0 : MergeState.InRegions
              { ch1 := Chunk.new l l L idx,
                ch2 := Chunk.new (2 * l) l (if idx + 1 < cc then L else 0) (idx + 1),
                cw := p.cw, src := p.src, dst := p.dst, buf := p.buf } l :=
            ⟨hfit, hcb, hce, hit, rfl, rfl, Nat.le_refl _, Nat.le_refl _,
              by show l ≤ 2 * l; omega, rfl, rfl, Nat.le_refl _, Nat.le_refl _,
              by show 2 * l ≤ 3 * l; omega⟩
          have hops := mergeSiblingChunks_ops fuel _ s hm
          obtain ⟨k1, k2⟩ := MergeState.reach_keeps hops hl h0
          have hrest := ih (idx + 2) _ _ _ hr (by show 3 * l ≤ s.buf.length; exact k1.fits)
            k1.cw_begin k1.cw_end k1.cw_it
          intro e he
          rcases List.mem_cons.mp he with rfl | he2
          · exact ⟨h0, rfl, hops⟩
          · obtain ⟨r1, r2, r3⟩ := hrest e he2
            exact ⟨r1, r2.trans k2, r3⟩
    · simp only [hlt, if_false, Except.ok.injEq, Prod.mk.injEq] at h
      obtain ⟨_, rfl⟩ := h
      intro e he
      cases he

/-- Whenever a pass over a vector with regions of at least one record returns: every iteration
of its loop started with the vector partitioned into the three regions, and its merge was a
sequence of reader and writer operations. -/
theorem mergeChunksLog_regions {fuel : Nat} {src dst : FStream} {buf : List Record} {L cc : Nat}
    {r : PassResult} {log : List PairRecord} (hl : 1 ≤ buf.length / 3)
    (h : mergeChunksLog fuel src dst buf L cc = .ok (r, log)) :
    ∀ e ∈ log, e.start.InRegions (buf.length / 3) ∧ e.start.buf.length = buf.length ∧
      Relation.ReflTransGen MergeState.Op e.start e.stop := by
  unfold mergeChunksLog at h
  simp only at h
  split at h
  · cases h
  · rename_i p log2 hloop
    split at h
    · cases h
    · simp only [Except.ok.injEq, Prod.mk.injEq] at h
      obtain ⟨_, rfl⟩ := h
      exact mergeChunksLoopLog_regions L cc (buf.length / 3) hl fuel 0 _ _ _ hloop
        (Nat.mul_div_le _ _) rfl rfl hl

/-! ## The passes of the loop of `sortFile` -/

/-- A pass leaves the vector with the length it had. -/
theorem SortState.Pass.length_eq {N : Nat} {s s1 : SortState} (h : SortState.Pass N s s1) :
    s1.buf.length = s.buf.length := by
  obtain ⟨_, _, fuel, r, hm, rfl⟩ := h
  exact mergeChunks_length hm

/-- C1. The function `sortFile` end to end: for every source file of whole records `R` and every
budget whose capacity `ramSizeInBytes / 8` is at least three records, the run returns normally
and the file at the destination path holds exactly `R.length` records, in non-decreasing order,
that are a permutation of `R`: the ascending arrangement of `R`.  The run is one in which the
source and the two temp files can be opened and the source is not itself one of the two temp
files; the fuel covers every loop. -/
theorem sortFile_sorts (fuel : Nat) (fs : FileSystem) (srcPath dstPath : String)
    (ramSizeInBytes : Nat) (R : List Record)
    (hsrc : fs.files srcPath = some (File.ofRecords R)) (hopen : fs.denied srcPath = false)
    (hopen1 : fs.denied (dstPath ++ ".1") = false) (hopen2 : fs.denied (dstPath ++ ".2") = false)
    (hne1 : srcPath ≠ dstPath ++ ".1") (hne2 : srcPath ≠ dstPath ++ ".2")
    (hC : 3 ≤ ramSizeInBytes / 8) (hfuel : 3 * R.length + 4 ≤ fuel) :
    ∃ out, (sortFile fuel fs srcPath dstPath ramSizeInBytes).2 = .ok () ∧
      (sortFile fuel fs srcPath dstPath ramSizeInBytes).1.files dstPath
        = some (File.ofRecords out) ∧
      out.length = R.length ∧ out.Sorted (· ≤ ·) ∧ out.Perm R ∧
      out = R.insertionSort (· ≤ ·) := by
  obtain ⟨h1, h2, _⟩ := sortFile_spec fuel fs srcPath dstPath ramSizeInBytes (File.ofRecords R)
    hsrc hopen hopen1 hopen2 (by simp [File.ofRecords]) hne1 hne2 (Or.inl hC) hfuel
  exact ⟨sortRun R, h1, h2, sortRun_length R, sortRun_sorted R, sortRun_perm R, rfl⟩

/-- Witness for C1: the source 6,5,4,3,2,1 sorted with a budget of 48 bytes gives
1,2,3,4,5,6, and the descending source 21,...,1 sorted with a capacity of 4 records gives
1,...,21. -/
theorem sortFile_sorts_witness :
    (sortFile 22 (fsWith [6, 5, 4, 3, 2, 1]) "in" "out" 48).2 = .ok () ∧
      (sortFile 22 (fsWith [6, 5, 4, 3, 2, 1]) "in" "out" 48).1.files "out"
        = some (File.ofRecords [1, 2, 3, 4, 5, 6]) ∧
      (sortFile 67 (fsWith descending21) "in" "out" 32).1.files "out"
        = some (File.ofRecords
            [1, 2, 3, 4, 5, 6, 7, 8, 9, 10, 11, 12, 13, 14, 15, 16, 17, 18, 19, 20, 21]) := by
  obtain ⟨out, h1, h2, _, _, _, h6⟩ := sortFile_sorts 22 (fsWith [6, 5, 4, 3, 2, 1]) "in" "out"
    48 [6, 5, 4, 3, 2, 1] (by decide) (by decide) (by decide) (by decide) (by decide)
    (by decide) (by decide) (by decide)
  obtain ⟨out2, _, k2, _, _, _, k6⟩ := sortFile_sorts 67 (fsWith descending21) "in" "out"
    32 descending21 (by decide) (by decide) (by decide) (by decide) (by decide)
    (by decide) (by decide) (by decide)
  refine ⟨h1, ?_, ?_⟩
  · rw [h2, h6]
    decide
  · rw [k2, k6]
    decide

/-- C2 (as amended). One merge pass: for every source file of `T` records (a file is shorter than
`2 ^ 63` bytes, so `T < 2 ^ 60`) laid out in `ceil(T / L)` sorted chunks of nominal length
`L ≥ 1` with `2 * L < 2 ^ 64`, every vector with region length `buf.length / 3 ≥ 1` and every
usable destination stream, `mergeChunks` returns `2 * L`, and the first `T` records of the
destination are laid out in `ceil(chunkCount / 2)` sorted chunks of nominal length `2 * L`, where
output chunk `j` is the sorted merge of source chunks `2 * j` and `2 * j + 1` (chunk `2 * j`
alone when chunk `2 * j + 1` does not exist).  The destination is written from its start and not
truncated: what it held beyond the first `T` records is still there, and it holds exactly `T`
records whenever it held at most `T` before, as the temp files of `sortFile` do. -/
theorem mergeChunks_pass (fuel : Nat) (src dst : FStream) (buf : List Record) (L : Nat)
    (hsrc : src.Good) (hdst : dst.Good) (hL : 1 ≤ L) (hl : 1 ≤ buf.length / 3)
    (hsm : src.data.length < 2 ^ 60) (hret64 : 2 * L < 2 ^ 64)
    (hsorted : ∀ i, (chunkOf src.data L i).Sorted (· ≤ ·))
    (hfuel : ceilDiv src.data.length L + src.data.length + 2 ≤ fuel) :
    ∃ r, mergeChunks fuel src dst buf L (ceilDiv src.data.length L) = .ok r ∧
      r.ret = 2 * L ∧
      (r.dst.data.take src.data.length).length = src.data.length ∧
      r.dst.data.drop src.data.length = dst.data.drop src.data.length ∧
      (dst.data.length ≤ src.data.length →
        r.dst.data.length = src.data.length ∧ r.dst.data.take src.data.length = r.dst.data) ∧
      (∀ j, chunkOf (r.dst.data.take src.data.length) (2 * L) j
        = sortRun (chunkOf src.data L (2 * j) ++ chunkOf src.data L (2 * j + 1))) ∧
      (∀ j, (chunkOf (r.dst.data.take src.data.length) (2 * L) j).Sorted (· ≤ ·)) ∧
      (∀ j, chunkOf (r.dst.data.take src.data.length) (2 * L) j ≠ []
        ↔ j < (ceilDiv src.data.length L + 1) / 2) ∧
      (∀ j, ceilDiv src.data.length L ≤ 2 * j + 1 →
        chunkOf (r.dst.data.take src.data.length) (2 * L) j = chunkOf src.data L (2 * j)) ∧
      r.src.data = src.data ∧ r.buf.length = buf.length := by
  have hcov := le_mul_ceilDiv src.data.length L hL
  have hoff : L * (ceilDiv src.data.length L - 1) < 2 ^ 60 := by
    rcases Nat.eq_zero_or_pos (ceilDiv src.data.length L) with h0 | h0
    · rw [h0, Nat.zero_sub, Nat.mul_zero]
      decide
    · have := (lt_ceilDiv_iff src.data.length L (ceilDiv src.data.length L - 1) hL).mp
        (by omega)
      omega
  obtain ⟨r, hm, hret, _, hsd, _, hbl, hdd⟩ := mergeChunks_spec fuel src dst buf L
    (ceilDiv src.data.length L) hsrc hdst (by omega) hsm hoff hcov hfuel
  rw [Nat.mod_eq_of_lt (by omega)] at hret
  obtain ⟨hperm, hcs, hch⟩ := pass_output src.data L (ceilDiv src.data.length L) hcov hsorted
  generalize hO : blockMap (mergeHalves L) (2 * L) ((ceilDiv src.data.length L + 1) / 2) src.data
    = O at hdd hperm hcs hch
  have hlen : O.length = src.data.length := hperm.length_eq
  have htake : r.dst.data.take src.data.length = O := by
    rw [hdd, ← hlen, List.take_left']
    rfl
  have hchunk : ∀ j, chunkOf O (2 * L) j
      = sortRun (chunkOf src.data L (2 * j) ++ chunkOf src.data L (2 * j + 1)) := by
    intro j
    apply eq_sortRun_of_perm_sorted
    · rw [hch]; exact mergeRuns_perm _ _
    · have := hcs j
      rwa [Nat.mul_comm L 2] at this
  refine ⟨r, hm, by rw [hret, Nat.mul_comm], ?_, ?_, ?_, ?_, ?_, ?_, ?_, hsd, hbl⟩
  · rw [htake, hlen]
  · rw [hdd, ← hlen, List.drop_left']
    rfl
  · intro hle
    have hall : r.dst.data = O := by
      rw [hdd, List.drop_eq_nil_of_le (by omega), List.append_nil]
    exact ⟨by rw [hall, hlen], by rw [htake, hall]⟩
  · rw [htake]; exact hchunk
  · rw [htake]; intro j
    have := hcs j
    rwa [Nat.mul_comm L 2] at this
  · rw [htake]; intro j
    rw [chunkOf_ne_nil_iff O (2 * L) j (by omega), hlen]
    have h1 := lt_ceilDiv_iff src.data.length L (2 * j) hL
    rw [Nat.mul_assoc, Nat.mul_left_comm]
    rw [← h1]
    omega
  · rw [htake]; intro j hj
    have hnil : chunkOf src.data L (2 * j + 1) = [] := by
      by_contra hne
      have := (chunkOf_ne_nil_iff src.data L (2 * j + 1) hL).mp hne
      have := (lt_ceilDiv_iff src.data.length L (2 * j + 1) hL).mpr this
      omega
    rw [hch, hnil, mergeRuns_nil_right]

/-- Witness for C2: the source 1,4 | 2,3 | 0 in three chunks of nominal length 2 is merged into
1,2,3,4 | 0 in two chunks of nominal length 4. -/
theorem mergeChunks_pass_witness :
    ∃ r, mergeChunks 10 (FStream.over [1, 4, 2, 3, 0]) (FStream.over []) [0, 0, 0] 2
        (ceilDiv 5 2) = .ok r ∧
      r.ret = 4 ∧ r.dst.data = [1, 2, 3, 4, 0] ∧
      chunkOf r.dst.data 4 0 = sortRun ([1, 4] ++ [2, 3]) ∧ chunkOf r.dst.data 4 1 = [0] := by
  have hs : ∀ i, (chunkOf (FStream.over [1, 4, 2, 3, 0]).data 2 i).Sorted (· ≤ ·) := by
    intro i
    rcases Nat.lt_or_ge i 3 with h | h
    · interval_cases i <;> decide
    · rw [chunkOf_eq_nil (by show 5 ≤ 2 * i; omega)]
      exact List.sorted_nil
  obtain ⟨r, h1, h2, _, _, _, h6, _⟩ := mergeChunks_pass 10 (FStream.over [1, 4, 2, 3, 0])
    (FStream.over []) [0, 0, 0] 2 ⟨rfl, rfl⟩ ⟨rfl, rfl⟩ (by decide) (by decide) (by decide)
    (by decide) hs (by decide)
  have hr : (mergeChunks 10 (FStream.over [1, 4, 2, 3, 0]) (FStream.over []) [0, 0, 0] 2
      (ceilDiv 5 2)).map (fun r => r.dst.data) = .ok [1, 2, 3, 4, 0] := by
    rfl
  have hd : r.dst.data = [1, 2, 3, 4, 0] := by
    have h1a : mergeChunks 10 (FStream.over [1, 4, 2, 3, 0]) (FStream.over []) [0, 0, 0] 2
        (ceilDiv 5 2) = .ok r := h1
    rw [h1a] at hr
    exact Except.ok.inj hr
  refine ⟨r, h1, h2, hd, ?_, ?_⟩
  · rw [hd]; decide
  · rw [hd]; decide

/-- Counterexample for C2 as stated (every nominal length, every destination).  With the
nominal length `2 ^ 63` a source of one record is one sorted chunk, and `mergeChunks` returns
0, not `2 * 2 ^ 63`: the value is a `size_t`.  And a destination that held three records holds
three records after a pass over a source of two: it is not truncated. -/
theorem merge_pass_counterexample :
    (ceilDiv 1 (2 ^ 63) = 1 ∧
      mergeChunks 4 (FStream.over [1]) (FStream.over []) [0, 0, 0] (2 ^ 63)
          (ceilDiv 1 (2 ^ 63))
        = .ok { ret := 0
                src := { data := [1], pos := 1, eofbit := false, failbit := false }
                dst := { data := [1], pos := 1, eofbit := false, failbit := false }
                buf := [1, 1, 0] } ∧
      (0 : Nat) ≠ 2 * 2 ^ 63) ∧
    (ceilDiv 2 2 = 1 ∧
      mergeChunks 4 (FStream.over [1, 2]) (FStream.over [9, 9, 9]) [0, 0, 0] 2 (ceilDiv 2 2)
        = .ok { ret := 4
                src := { data := [1, 2], pos := 2, eofbit := false, failbit := false }
                dst := { data := [1, 2, 9], pos := 2, eofbit := false, failbit := false }
                buf := [2, 2, 0] } ∧
      ([1, 2, 9] : List Record).length ≠ ([1, 2] : List Record).length) :=
  ⟨⟨by decide, rfl, by decide⟩, ⟨by decide, rfl, by decide⟩⟩

/-- C3. The function `mergeSiblingChunks`: for every valid merge state whose two readers have
sorted runs pending (either may be empty), the records appended to the writer are in ascending
order, are as many as the two runs hold and are a permutation of the two runs together (so each
lookahead value is appended exactly once); on return no record is pending in either reader and
`getNext` returns `false` on both. -/
theorem mergeSiblingChunks_merges (fuel : Nat) (s : MergeState) (hv : s.Valid)
    (h1 : s.pending1.Sorted (· ≤ ·)) (h2 : s.pending2.Sorted (· ≤ ·))
    (hfuel : s.pending1.length + s.pending2.length + 1 ≤ fuel) :
    ∃ s1 out, mergeSiblingChunks fuel s = .ok s1 ∧ s1.written = s.written ++ out ∧
      out.Sorted (· ≤ ·) ∧ out.length = s.pending1.length + s.pending2.length ∧
      out.Perm (s.pending1 ++ s.pending2) ∧ out = sortRun (s.pending1 ++ s.pending2) ∧
      s1.pending1 = [] ∧ s1.pending2 = [] ∧
      (∃ s2, s1.getNext1 = .ok (none, s2)) ∧ (∃ s2, s1.getNext2 = .ok (none, s2)) := by
  obtain ⟨s1, hm, hv1, _, hp1, hp2, hw⟩ := mergeSiblingChunks_spec fuel s hv hfuel
  obtain ⟨s2, hg1, _⟩ := MergeState.getNext1_spec s1 hv1
  obtain ⟨s3, hg2, _⟩ := MergeState.getNext2_spec s1 hv1
  rw [hp1] at hg1
  rw [hp2] at hg2
  have hperm := mergeRuns_perm s.pending1 s.pending2
  have hsorted := mergeRuns_sorted _ _ h1 h2
  exact ⟨s1, mergeRuns s.pending1 s.pending2, hm, hw, hsorted,
    mergeRuns_length _ _, hperm, eq_sortRun_of_perm_sorted hperm hsorted, hp1, hp2,
    ⟨s2, hg1⟩, ⟨s3, hg2⟩⟩

theorem demoMerge_valid : demoMerge.Valid :=
  ⟨⟨by decide, by decide, by decide, by decide, by decide, by decide⟩,
    ⟨by decide, by decide, by decide, by decide, by decide, by decide⟩,
    ⟨by decide, by decide, by decide⟩, ⟨rfl, rfl⟩, by decide, ⟨⟨rfl, rfl⟩, by decide⟩,
    by decide, by decide, by decide⟩

/-- Witness for C3: merging the runs 1,3 and 2,4 appends 1,2,3,4. -/
theorem mergeSiblingChunks_merges_witness :
    demoMerge.pending1 = [1, 3] ∧ demoMerge.pending2 = [2, 4] ∧
      ∃ s1, mergeSiblingChunks 5 demoMerge = .ok s1 ∧ s1.written = [1, 2, 3, 4] ∧
        s1.pending1 = [] ∧ s1.pending2 = [] := by
  obtain ⟨s1, out, hm, hw, _, _, _, ho, hp1, hp2, _⟩ :=
    mergeSiblingChunks_merges 5 demoMerge demoMerge_valid (by decide) (by decide) (by decide)
  refine ⟨by decide, by decide, s1, hm, ?_, hp1, hp2⟩
  rw [hw, ho]
  decide

/-- C4. The function `presort`: for every source of whole records `R` that can be opened, every
vector of capacity `C = buf.length ≥ 1` and every usable destination stream, `presort` returns
having written exactly `R.length` records `O` at the position of the destination, such that for
every `k` the slab `[k * C, min ((k + 1) * C, N))` of `O` is the ascending sort of the same slab
of the source; so `O` consists of `ceil(N / C)` sorted chunks of exactly `C` records except for
a shorter last one, and the final read of zero records writes nothing.  On a destination that was
empty, as the fresh temp file of `sortFile` is, `O` is the whole file. -/
theorem presort_slabs (fuel : Nat) (fs : FileSystem) (srcPath : String) (R : List Record)
    (dst : FStream) (buf : List Record) (hsrc : fs.files srcPath = some (File.ofRecords R))
    (hopen : fs.denied srcPath = false) (hC : 1 ≤ buf.length) (hdst : dst.Good)
    (hpos : dst.pos ≤ dst.data.length) (hfuel : R.length / buf.length + 2 ≤ fuel) :
    ∃ dst1 buf1 O, presort fuel fs srcPath dst buf = .ok (dst1, buf1) ∧
      dst1.data = dst.data.take dst.pos ++ O ++ dst.data.drop (dst.pos + R.length) ∧
      dst1.pos = dst.pos + R.length ∧ (dst.data = [] → dst1.data = O) ∧
      O.length = R.length ∧
      (∀ k, chunkOf O buf.length k = sortRun (chunkOf R buf.length k)) ∧
      (∀ k, (chunkOf O buf.length k).Sorted (· ≤ ·)) ∧
      (∀ k, (chunkOf O buf.length k).length = min buf.length (R.length - buf.length * k)) ∧
      (∀ k, chunkOf O buf.length k ≠ [] ↔ k < ceilDiv R.length buf.length) ∧
      buf1.length = buf.length := by
  obtain ⟨dst1, buf1, hpre, hbl, hw1, hah1, htk1⟩ := presort_spec fuel fs srcPath
    (File.ofRecords R) dst buf hsrc hopen (by simp [File.ofRecords]) hC ⟨hdst, hpos⟩ hfuel
  obtain ⟨hperm, hsorted, hch⟩ := presort_output R buf.length hC
  simp only [File.ofRecords] at htk1
  generalize blockMap sortRun buf.length (R.length / buf.length + 1) R = O
    at htk1 hperm hsorted hch
  have hlen : O.length = R.length := hperm.length_eq
  have hp : dst1.pos = dst.pos + R.length := by
    have h := congrArg List.length htk1
    rw [List.length_take, Nat.min_eq_left hw1.2, List.length_append, List.length_take,
      Nat.min_eq_left hpos, hlen] at h
    exact h
  have hdata : dst1.data = dst.data.take dst.pos ++ O ++ dst.data.drop (dst.pos + R.length) := by
    conv_lhs => rw [← List.take_append_drop dst1.pos dst1.data, htk1, hah1.2, hp]
  refine ⟨dst1, buf1, O, hpre, hdata, hp, ?_, hlen, hch, hsorted, ?_, ?_, hbl⟩
  · intro he
    rw [hdata, he]
    simp
  · intro k
    rw [chunkOf_length, hlen]
  · intro k
    rw [chunkOf_ne_nil_iff O buf.length k hC, hlen, lt_ceilDiv_iff R.length buf.length k hC]

/-- Witness for C4: the source 5,4,3,2,1 presorted with a vector of two records gives the
chunks 4,5 | 2,3 | 1. -/
theorem presort_slabs_witness :
    ∃ dst1 buf1, presort 4 (fsWith [5, 4, 3, 2, 1]) "in" FStream.opened [0, 0]
        = .ok (dst1, buf1) ∧ dst1.data = [4, 5, 2, 3, 1] := by
  obtain ⟨dst1, buf1, O, hpre, _, _, hO, _, _⟩ := presort_slabs 4 (fsWith [5, 4, 3, 2, 1]) "in"
    [5, 4, 3, 2, 1] FStream.opened [0, 0] (by decide) (by decide) (by decide) ⟨rfl, rfl⟩
    (by decide) (by decide)
  have hr : (presort 4 (fsWith [5, 4, 3, 2, 1]) "in" FStream.opened [0, 0]).map
      (fun r => r.1.data) = .ok [4, 5, 2, 3, 1] := by
    rfl
  rw [hpre] at hr
  exact ⟨dst1, buf1, hpre, Except.ok.inj hr⟩

/-- C5 (as amended). The reader: for every good stream over a file of `F` records (a file is shorter
than `2 ^ 63` bytes, so `F < 2 ^ 60`), every chunk index `i` and nominal length `L` such that the
chunk starts below `2 ^ 63` bytes (`L * i < 2 ^ 60` records), and every window of
`maxElements ≥ 1` records inside the vector, successive calls of `getNext` on
`Chunk(f, begin, maxElements, L, i)` deliver exactly the records of the file at positions
`i * L, ..., min (i * L + L, F) - 1`, in that order, and then `getNext` returns `false` (again on
every further call).  The sequence does not depend on `maxElements`, has at most `L` records,
and an end of file met while records are owed ends it without an error: the stream is good
afterwards. -/
theorem chunk_delivers (fuel : Nat) (f : FStream) (buf : List Record)
    (begin maxElements L i : Nat) (hf : f.Good) (hm : 1 ≤ maxElements)
    (hb : begin + maxElements ≤ buf.length) (hsm : f.data.length < 2 ^ 60)
    (hoff : L * i < 2 ^ 60) (hfuel : L + 1 ≤ fuel) :
    ∃ c1 f1 buf1, (Chunk.new begin maxElements L i).deliver fuel f buf
        = .ok ((f.data.drop (L * i)).take L, c1, f1, buf1) ∧
      ((f.data.drop (L * i)).take L).length = min (L * i + L) f.data.length - L * i ∧
      (∀ k, k < ((f.data.drop (L * i)).take L).length →
        ((f.data.drop (L * i)).take L)[k]? = f.data[L * i + k]?) ∧
      ((f.data.drop (L * i)).take L).length ≤ L ∧
      (∃ c2 f2 buf2, c1.getNext f1 buf1 = .ok (none, c2, f2, buf2) ∧
        c2.getNext f2 buf2 = .ok (none, c2, f2, buf2)) ∧
      f1.Good ∧ f1.data = f.data ∧ buf1.length = buf.length := by
  have hv : (Chunk.new begin maxElements L i).Valid buf := Chunk.new_valid hm hb hoff
  have hp := Chunk.new_pending f.data buf begin maxElements L i hoff
  obtain ⟨c1, f1, buf1, hdel, hv1, hg1, hd1, hp1, hl1⟩ :=
    Chunk.deliver_spec fuel (Chunk.new begin maxElements L i) f buf hv hf hsm (by
      rw [hp, List.length_take]; omega)
  rw [hp] at hdel
  obtain ⟨c2, f2, buf2, hget, hv2, hg2, hd2, _, _, hp2, _⟩ :=
    Chunk.getNext_spec c1 f1 buf1 hv1 hg1 (by rw [hd1]; exact hsm)
  rw [hp1] at hget hp2
  refine ⟨c1, f1, buf1, hdel, ?_, ?_, ?_, ⟨c2, f2, buf2, hget, ?_⟩, hg1, hd1, hl1⟩
  · rw [List.length_take, List.length_drop]; omega
  · intro k hk
    rw [List.length_take] at hk
    rw [List.getElem?_take_of_lt (by omega), List.getElem?_drop]
  · rw [List.length_take]; omega
  · exact Chunk.getNext_of_processed c2 f2 buf2 (Chunk.processed_of_getNext_none hget)

/-- Witness for C5: chunk 1 of nominal length 3 of the file 10,11,12,13,14, read through a
window of two records, is 13,14: the end of the file ends it early. -/
theorem chunk_delivers_witness :
    ∃ c1 f1 buf1, (Chunk.new 0 2 3 1).deliver 4 (FStream.over [10, 11, 12, 13, 14]) [0, 0]
        = .ok ([13, 14], c1, f1, buf1) ∧ f1.Good := by
  obtain ⟨c1, f1, buf1, h, _, _, _, _, hg, _⟩ := chunk_delivers 4
    (FStream.over [10, 11, 12, 13, 14]) [0, 0] 0 2 3 1 ⟨rfl, rfl⟩ (by decide) (by decide)
    (by decide) (by decide) (by decide)
  exact ⟨c1, f1, buf1, h, hg⟩

/-- Counterexample for C5 as stated (every chunk index and nominal length).  With the nominal
length `2 ^ 61` the byte offset of chunk 1 is `2 ^ 64`, which is 0 in a `size_t`: over the file
7, 8 the reader of chunk 1 delivers 7, 8, although the file has no record at the positions
`2 ^ 61` and beyond.  With the nominal length `2 ^ 60` the byte offset of chunk 1 is `2 ^ 63`,
to which the stream cannot seek: the reader delivers nothing and leaves the stream failed. -/
theorem chunk_offset_counterexample :
    ((Chunk.new 0 1 (2 ^ 61) 1).deliver 4 (FStream.over [7, 8]) [0]
        = .ok ([7, 8],
            { readOffset := 2, begin := 0, maxElements := 1, nextInBuf := 0, realEnd := 0,
              numbersToRead := 0 },
            { data := [7, 8], pos := 2, eofbit := false, failbit := false }, [8]) ∧
      ((FStream.over [7, 8]).data.drop (2 ^ 61 * 1)).take (2 ^ 61) = [] ∧
      ([7, 8] : List Record) ≠ []) ∧
    (Chunk.new 0 1 (2 ^ 60) 1).deliver 4 (FStream.over [7, 8]) [0]
      = .ok ([],
          { readOffset := 2 ^ 60, begin := 0, maxElements := 1, nextInBuf := 0, realEnd := 0,
            numbersToRead := 0 },
          { data := [7, 8], pos := 0, eofbit := false, failbit := true }, [0]) :=
  ⟨⟨rfl, chunkOf_eq_nil (by decide), by decide⟩, rfl⟩

/-- C6. The writer: for every window of `W ≥ 1` records inside the vector, every good
destination stream and every sequence `vals` of `k` records, after the construction of the
writer, one `append` per record and the destruction, the first `k` records of the destination
file are `vals` in order, written from offset 0, and the records beyond are as before.  After
the appends the `W * (k / W)` records of the full windows are in the file and `k mod W` records
wait in the window; the destructor writes those, so the position ends at `k`: every record is
written exactly once. -/
theorem chunkWriter_session (dst : FStream) (buf : List Record) (begin W : Nat)
    (vals : List Record) (hdst : dst.Good) (hW : 1 ≤ W) (hb : begin + W ≤ buf.length) :
    ∃ w1 dstA bufA dstB,
      (ChunkWriter.new dst begin (begin + W)).1.appendAll
          (ChunkWriter.new dst begin (begin + W)).2 buf vals = .ok (w1, dstA, bufA) ∧
      w1.it = begin + vals.length % W ∧ dstA.pos = W * (vals.length / W) ∧
      dstA.data.take dstA.pos = vals.take (W * (vals.length / W)) ∧
      window bufA begin w1.it = vals.drop (W * (vals.length / W)) ∧
      ChunkWriter.session dst buf begin (begin + W) vals = .ok (dstB, bufA) ∧
      dstB.pos = vals.length ∧ dstB.data.take vals.length = vals ∧
      dstB.data.drop vals.length = dst.data.drop vals.length ∧ dstB.Good ∧
      bufA.length = buf.length := by
  have hnew : ChunkWriter.new dst begin (begin + W)
      = ({ begin := begin, endIt := begin + W, it := begin }, { dst with pos := 0 }) := by
    simp [ChunkWriter.new, FStream.seekp_good dst 0 hdst]
  have hv0 : ChunkWriter.Valid { begin := begin, endIt := begin + W, it := begin } buf :=
    ⟨Nat.le_refl _, by show begin < begin + W; omega, hb⟩
  have hd0 : FStream.Writable { dst with pos := 0 } := ⟨⟨hdst.1, hdst.2⟩, Nat.zero_le _⟩
  obtain ⟨w1, dstA, bufA, hall, hv1, hd1, hb1, he1, hw1, ha1, hl1, hit1, hpos1⟩ :=
    ChunkWriter.appendAll_spec W vals { begin := begin, endIt := begin + W, it := begin }
      { dst with pos := 0 } buf hv0 hd0 rfl
  simp only [Nat.sub_self, Nat.zero_add] at hit1 hpos1
  have hw0 : ChunkWriter.written { begin := begin, endIt := begin + W, it := begin }
      { dst with pos := 0 } buf = [] := by
    simp [ChunkWriter.written, window_nil]
  rw [hw0, List.nil_append] at hw1
  have hb1' : w1.begin = begin := hb1
  have hwlen : (window bufA w1.begin w1.it).length = vals.length % W := by
    rw [window_length (by have := hv1.it_lt; have := hv1.end_le; omega), hit1, hb1']
    omega
  have hAlen : (dstA.data.take dstA.pos).length = W * (vals.length / W) := by
    rw [List.length_take, Nat.min_eq_left hd1.2, hpos1]
  have hsplit : dstA.data.take dstA.pos = vals.take (W * (vals.length / W)) ∧
      window bufA w1.begin w1.it = vals.drop (W * (vals.length / W)) := by
    have h := hw1
    unfold ChunkWriter.written at h
    have h2 : vals = vals.take (W * (vals.length / W)) ++ vals.drop (W * (vals.length / W)) :=
      (List.take_append_drop _ _).symm
    rw [h2] at h
    exact List.append_inj h (by
      rw [hAlen, List.length_take, Nat.min_eq_left (Nat.mul_div_le _ _)])
  obtain ⟨dstB, hfl, hwB, htkB, hahB, hposB⟩ := ChunkWriter.flush_spec w1 dstA bufA
    hv1.begin_le (by have := hv1.it_lt; have := hv1.end_le; omega) hd1
  have hBpos : dstB.pos = vals.length := by
    rw [hposB, hpos1, hit1, hb1']
    have := Nat.div_add_mod vals.length W
    omega
  rw [hw1] at htkB
  rw [hBpos] at htkB
  have hahead := (hahB.trans_ahead ha1).2
  rw [hBpos] at hahead
  refine ⟨w1, dstA, bufA, dstB, ?_, hit1, hpos1, hsplit.1, ?_, ?_, hBpos, htkB, hahead, hwB.1,
    hl1⟩
  · rw [hnew]; exact hall
  · rw [← hb1']; exact hsplit.2
  · simp only [ChunkWriter.session, hnew, hall, ChunkWriter.destroy, hfl]

/-- Witness for C6: five records appended through a window of two records reach the file in
order, in front of what the file held beyond them. -/
theorem chunkWriter_session_witness :
    ∃ dstB bufA, ChunkWriter.session (FStream.over [9, 9, 9, 9, 9, 9, 9]) [0, 0, 0] 1 3
        [1, 2, 3, 4, 5] = .ok (dstB, bufA) ∧
      dstB.data.take 5 = [1, 2, 3, 4, 5] ∧ dstB.data.drop 5 = [9, 9] ∧ dstB.pos = 5 := by
  obtain ⟨_, _, bufA, dstB, _, _, _, _, _, hs, hp, ht, hd, _⟩ := chunkWriter_session
    (FStream.over [9, 9, 9, 9, 9, 9, 9]) [0, 0, 0] 1 2 [1, 2, 3, 4, 5] ⟨rfl, rfl⟩ (by decide)
    (by decide)
  exact ⟨dstB, bufA, hs, ht, hd, hp⟩

/-- C7. The temp files on success: whenever `sortFile` returns normally (with whatever fuel and
size of vector), its body has renamed exactly one of the two wrappers to the destination path
(the other one keeps its temp path, and nothing is left at the path of the renamed one), the
destination path exists afterwards and holds the data of the renamed temp file, whatever was at
that path before, and neither `dst + ".1"` nor `dst + ".2"` exists: the wrapper that was not
renamed deleted its file when it was destroyed.  The data at the destination path is sorted: it
is the sorted records of the source, and nothing when the source path is one of the two temp
paths, whose files are emptied before the source is read.  (The source file, when there is one,
is represented with fewer than eight trailing bytes.) -/
theorem sortFile_lifecycle (fuel : Nat) (fs : FileSystem) (srcPath dstPath : String)
    (ramSizeInBytes : Nat)
    (hret : (sortFile fuel fs srcPath dstPath ramSizeInBytes).2 = .ok ()) :
    ∃ fs2 w0 w1 out,
      sortBody fuel
          ((fs.store (dstPath ++ ".1") (File.ofRecords [])).store (dstPath ++ ".2")
            (File.ofRecords []))
          srcPath dstPath ramSizeInBytes
          { path := dstPath ++ ".1", stream := FStream.opened, isOpen := true }
          { path := dstPath ++ ".2", stream := FStream.opened, isOpen := true }
        = .ok (fs2, w0, w1) ∧
      OneRenamed dstPath fs2 w0 w1 ∧
      (sortFile fuel fs srcPath dstPath ramSizeInBytes).1.files dstPath
        = some (File.ofRecords out) ∧
      (sortFile fuel fs srcPath dstPath ramSizeInBytes).1.files (dstPath ++ ".1") = none ∧
      (sortFile fuel fs srcPath dstPath ramSizeInBytes).1.files (dstPath ++ ".2") = none ∧
      ((∀ file, fs.files srcPath = some file → file.tail.length < 8) →
        out.Sorted (· ≤ ·) ∧
        (srcPath = dstPath ++ ".1" ∨ srcPath = dstPath ++ ".2" → out = []) ∧
        ∀ file, fs.files srcPath = some file → srcPath ≠ dstPath ++ ".1" →
          srcPath ≠ dstPath ++ ".2" → out = file.recs.insertionSort (· ≤ ·)) := by
  obtain ⟨hd1, hd2, fs2, w0, w1, hbody⟩ := sortFile_inv hret
  obtain ⟨hor, out, hout⟩ := sortBody_inv hbody
  obtain ⟨_, f2, f3, f4, _⟩ := sortFile_finish fuel fs srcPath dstPath ramSizeInBytes fs2 w0 w1
    hd1 hd2 hbody hor
  have ht1d : dstPath ≠ dstPath ++ ".1" := fun h => append_ne_self dstPath ".1" (by decide) h.symm
  have ht2d : dstPath ≠ dstPath ++ ".2" := fun h => append_ne_self dstPath ".2" (by decide) h.symm
  have hdst : (sortFile fuel fs srcPath dstPath ramSizeInBytes).1.files dstPath
      = some (File.ofRecords out) := by rw [f4 _ ht1d ht2d, hout]
  refine ⟨fs2, w0, w1, out, hbody, hor, hdst, f2, f3, ?_⟩
  intro hwf
  obtain ⟨_, file, hfile, _, hs⟩ := sortFile_returns fuel fs srcPath dstPath ramSizeInBytes hret
    hwf
  rw [hdst] at hs
  have h := Option.some.inj hs
  simp only [File.ofRecords, File.mk.injEq, and_true] at h
  subst h
  refine ⟨sortRun_sorted _, ?_, ?_⟩
  · intro halias
    rcases hfile with ⟨h1, h2, _⟩ | ⟨_, hf⟩
    · exact absurd halias (fun h => h.elim h1 h2)
    · rw [hf]
      rfl
  · intro file2 hsrc h1 h2
    rcases hfile with ⟨_, _, hf⟩ | ⟨ha, _⟩
    · rw [hsrc] at hf
      cases hf
      rfl
    · exact absurd ha (fun h => h.elim h1 h2)

/-- Witness for C7: sorting 3,1,2 into a path that already holds a file replaces that file and
leaves no temp file. -/
theorem sortFile_lifecycle_witness :
    (sortFile 13 (fsWithOld [3, 1, 2]) "in" "out" 48).2 = .ok () ∧
      (fsWithOld [3, 1, 2]).files "out" = some (File.ofRecords [7, 7, 7]) ∧
      (sortFile 13 (fsWithOld [3, 1, 2]) "in" "out" 48).1.files "out"
        = some (File.ofRecords [1, 2, 3]) ∧
      (sortFile 13 (fsWithOld [3, 1, 2]) "in" "out" 48).1.files ("out" ++ ".1") = none ∧
      (sortFile 13 (fsWithOld [3, 1, 2]) "in" "out" 48).1.files ("out" ++ ".2") = none := by
  have hret : (sortFile 13 (fsWithOld [3, 1, 2]) "in" "out" 48).2 = .ok () := by rfl
  have hin : (fsWithOld [3, 1, 2]).files "in" = some (File.ofRecords [3, 1, 2]) := by decide
  obtain ⟨_, _, _, out, _, _, h3, h4, h5, h6⟩ :=
    sortFile_lifecycle 13 (fsWithOld [3, 1, 2]) "in" "out" 48 hret
  have ho := (h6 (fun file hf => by rw [hin] at hf; cases hf; decide)).2.2
    (File.ofRecords [3, 1, 2]) hin (by decide) (by decide)
  refine ⟨hret, by decide, ?_, h4, h5⟩
  rw [h3, ho]
  decide

/-- C8. Failure to open a file.  If the first temp file cannot be opened, `sortFile` fails with
the message "Can't open file " followed by that temp path and the file system is untouched.  If
the second cannot be opened, the message names the second temp path and the first temp file has
been deleted.  If both can be opened and the source cannot (opening is refused, or no file is at
the source path), the message names the source path, both temp paths are gone on exit and every
other path, the destination path among them, is as it was: nothing was renamed, and `presort`
has thrown before any merge pass. -/
theorem sortFile_open_failure (fuel : Nat) (fs : FileSystem) (srcPath dstPath : String)
    (ramSizeInBytes : Nat) :
    (fs.denied (dstPath ++ ".1") = true →
      sortFile fuel fs srcPath dstPath ramSizeInBytes
        = (fs, .error (.runtimeError ("Can't open file " ++ (dstPath ++ ".1"))))) ∧
    (fs.denied (dstPath ++ ".1") = false → fs.denied (dstPath ++ ".2") = true →
      (sortFile fuel fs srcPath dstPath ramSizeInBytes).2
          = .error (.runtimeError ("Can't open file " ++ (dstPath ++ ".2"))) ∧
        (sortFile fuel fs srcPath dstPath ramSizeInBytes).1.files (dstPath ++ ".1") = none ∧
        ∀ q, q ≠ dstPath ++ ".1" →
          (sortFile fuel fs srcPath dstPath ramSizeInBytes).1.files q = fs.files q) ∧
    (fs.denied (dstPath ++ ".1") = false → fs.denied (dstPath ++ ".2") = false →
      (fs.denied srcPath = true
        ∨ (fs.files srcPath = none ∧ srcPath ≠ dstPath ++ ".1" ∧ srcPath ≠ dstPath ++ ".2")) →
      (sortFile fuel fs srcPath dstPath ramSizeInBytes).2
          = .error (.runtimeError ("Can't open file " ++ srcPath)) ∧
        (∀ dst buf, presort fuel
            ((fs.store (dstPath ++ ".1") (File.ofRecords [])).store (dstPath ++ ".2")
              (File.ofRecords [])) srcPath dst buf
          = .error (.runtimeError ("Can't open file " ++ srcPath))) ∧
        (sortFile fuel fs srcPath dstPath ramSizeInBytes).1.files (dstPath ++ ".1") = none ∧
        (sortFile fuel fs srcPath dstPath ramSizeInBytes).1.files (dstPath ++ ".2") = none ∧
        ∀ q, q ≠ dstPath ++ ".1" → q ≠ dstPath ++ ".2" →
          (sortFile fuel fs srcPath dstPath ramSizeInBytes).1.files q = fs.files q) := by
  have hne1 : dstPath ++ ".1" ≠ "" := append_ne_empty _ _ (by decide)
  have hne2 : dstPath ++ ".2" ≠ "" := append_ne_empty _ _ (by decide)
  refine ⟨fun hd1 => ?_, fun hd1 hd2 => ?_, fun hd1 hd2 hsrc => ?_⟩
  · rw [sortFile, FileWrapper.new_denied fs dstPath ".1" hd1]
  · have hnew1 := FileWrapper.new_ok fs dstPath ".1" hd1
    have hnew2 := FileWrapper.new_denied (fs.store (dstPath ++ ".1") (File.ofRecords []))
      dstPath ".2" hd2
    obtain ⟨d1, d2, _⟩ := FileWrapper.destroy_files
      { path := dstPath ++ ".1", stream := FStream.opened, isOpen := true }
      (fs.store (dstPath ++ ".1") (File.ofRecords [])) hne1
    simp only [sortFile, hnew1, hnew2]
    refine ⟨trivial, d1, fun q hq => ?_⟩
    rw [d2 q hq]
    exact FileSystem.files_store_ne _ _ hq
  · have hnew1 := FileWrapper.new_ok fs dstPath ".1" hd1
    have hnew2 := FileWrapper.new_ok (fs.store (dstPath ++ ".1") (File.ofRecords []))
      dstPath ".2" hd2
    have hopen : ((fs.store (dstPath ++ ".1") (File.ofRecords [])).store (dstPath ++ ".2")
        (File.ofRecords [])).openRead srcPath = none := by
      rcases hsrc with h | ⟨h, h1, h2⟩
      · simp [FileSystem.openRead, FileSystem.store, h]
      · have hf : ((fs.store (dstPath ++ ".1") (File.ofRecords [])).store (dstPath ++ ".2")
            (File.ofRecords [])).files srcPath = none := by
          rw [FileSystem.files_store_ne _ _ h2, FileSystem.files_store_ne _ _ h1]
          exact h
        simp [FileSystem.openRead, hf]
    have hpre : ∀ dst buf, presort fuel
        ((fs.store (dstPath ++ ".1") (File.ofRecords [])).store (dstPath ++ ".2")
          (File.ofRecords [])) srcPath dst buf
        = .error (.runtimeError ("Can't open file " ++ srcPath)) := by
      intro dst buf
      simp only [presort, hopen]
    have hbody : sortBody fuel
        ((fs.store (dstPath ++ ".1") (File.ofRecords [])).store (dstPath ++ ".2")
          (File.ofRecords [])) srcPath dstPath ramSizeInBytes
        { path := dstPath ++ ".1", stream := FStream.opened, isOpen := true }
        { path := dstPath ++ ".2", stream := FStream.opened, isOpen := true }
        = .error (.runtimeError ("Can't open file " ++ srcPath)) := by
      simp only [sortBody, hpre]
    obtain ⟨a1, a2, _⟩ := FileWrapper.destroy_files
      { path := dstPath ++ ".2", stream := FStream.opened, isOpen := true }
      ((fs.store (dstPath ++ ".1") (File.ofRecords [])).store (dstPath ++ ".2")
        (File.ofRecords [])) hne2
    obtain ⟨b1, b2, _⟩ := FileWrapper.destroy_files
      { path := dstPath ++ ".1", stream := FStream.opened, isOpen := true }
      (FileWrapper.destroy { path := dstPath ++ ".2", stream := FStream.opened, isOpen := true }
        ((fs.store (dstPath ++ ".1") (File.ofRecords [])).store (dstPath ++ ".2")
          (File.ofRecords []))) hne1
    simp only [sortFile, hnew1, hnew2, hbody]
    refine ⟨trivial, hpre, b1, ?_, fun q h1 h2 => ?_⟩
    · rw [b2 _ (temp_paths_ne dstPath).symm]; exact a1
    · rw [b2 q h1, a2 q h2, FileSystem.files_store_ne _ _ h2, FileSystem.files_store_ne _ _ h1]

/-- Witness for C8: with no file at the source path the run fails naming that path, and both
temp files are gone. -/
theorem sortFile_open_failure_witness :
    (sortFile 5 (fsWith [2, 1]) "missing" "out" 48).2
        = .error (.runtimeError "Can't open file missing") ∧
      (sortFile 5 (fsWith [2, 1]) "missing" "out" 48).1.files "out.1" = none ∧
      (sortFile 5 (fsWith [2, 1]) "missing" "out" 48).1.files "out.2" = none ∧
      (sortFile 5 (fsWith [2, 1]) "missing" "out" 48).1.files "out" = none ∧
      (sortFile 5 (fsLocked [2, 1] ["out.2"]) "in" "out" 48).2
        = .error (.runtimeError "Can't open file out.2") := by
  obtain ⟨h1, _, h3, h4, h5⟩ :=
    (sortFile_open_failure 5 (fsWith [2, 1]) "missing" "out" 48).2.2 (by decide) (by decide)
      (Or.inr ⟨by decide, by decide, by decide⟩)
  have h6 := ((sortFile_open_failure 5 (fsLocked [2, 1] ["out.2"]) "in" "out" 48).2.1
    (by decide) (by decide)).1
  exact ⟨h1, h3, h4, h5 "out" (by decide) (by decide), h6⟩

/-- C10. The check of the budget in `main`, called with its three arguments: the run is rejected
(exit status 1, the message with the minimum of 48 bytes printed, `sortFile` not called and the
file system untouched) if and only if the budget is below 48 bytes; an accepted run calls
`sortFile`; and for every accepted budget the capacity `budget / 8` is at least 6 records and
each of the three regions of `(budget / 8) / 3` records holds at least 2. -/
theorem main_budget_check (fuel : Nat) (fs : FileSystem) (srcPath dstPath : String)
    (ramSize : Nat) :
    minRamSize = 48 ∧
    (ramSize < 48 →
      main fuel fs 4 srcPath dstPath ramSize
        = .ok { exitCode := 1, out := ["Buffer size can't be less than 48 bytes"], fs := fs }) ∧
    (48 ≤ ramSize → ∀ r, main fuel fs 4 srcPath dstPath ramSize = .ok r →
      r.exitCode = 0 ∧ r.fs = (sortFile fuel fs srcPath dstPath ramSize).1) ∧
    ((∃ r, main fuel fs 4 srcPath dstPath ramSize = .ok r ∧ r.exitCode = 1) ↔ ramSize < 48) ∧
    (48 ≤ ramSize → 6 ≤ ramSize / 8 ∧ 2 ≤ ramSize / 8 / 3) := by
  have hmin : minRamSize = 48 := rfl
  have hmsg : "Buffer size can't be less than " ++ toString minRamSize ++ " bytes"
      = "Buffer size can't be less than 48 bytes" := by decide
  have hrej : ramSize < 48 →
      main fuel fs 4 srcPath dstPath ramSize
        = .ok { exitCode := 1, out := ["Buffer size can't be less than 48 bytes"], fs := fs } := by
    intro h
    have h' : ramSize < minRamSize := by rw [hmin]; exact h
    simp only [main, ne_eq, not_true_eq_false, if_false, h', if_true, hmsg]
  have hacc : 48 ≤ ramSize → ∀ r, main fuel fs 4 srcPath dstPath ramSize = .ok r →
      r.exitCode = 0 ∧ r.fs = (sortFile fuel fs srcPath dstPath ramSize).1 := by
    intro h r hr
    have h' : ¬ ramSize < minRamSize := by rw [hmin]; omega
    simp only [main, ne_eq, not_true_eq_false, if_false, h'] at hr
    split at hr
    · rename_i heq
      cases hr
      exact ⟨rfl, by rw [heq]⟩
    · rename_i heq
      cases hr
      exact ⟨rfl, by rw [heq]⟩
    · rename_i heq
      cases hr
      exact ⟨rfl, by rw [heq]⟩
    · cases hr
  refine ⟨hmin, hrej, hacc, ⟨fun ⟨r, hr, he⟩ => ?_, fun h => ⟨_, hrej h, rfl⟩⟩, fun h => ?_⟩
  · by_contra hge
    have := (hacc (by omega) r hr).1
    omega
  · omega

/-- Witness for C10: a budget of 47 bytes is rejected without touching a file, and a budget of
48 bytes gives a vector of 6 records and regions of 2. -/
theorem main_budget_check_witness :
    main 22 (fsWith [2, 1]) 4 "in" "out" 47
        = .ok { exitCode := 1, out := ["Buffer size can't be less than 48 bytes"],
                fs := fsWith [2, 1] } ∧
      (6 ≤ 48 / 8 ∧ 2 ≤ 48 / 8 / 3) :=
  ⟨(main_budget_check 22 (fsWith [2, 1]) "in" "out" 47).2.1 (by decide),
    (main_budget_check 22 (fsWith [2, 1]) "in" "out" 48).2.2.2.2 (by decide)⟩

/-- C11. Idempotence: for every source file of whole records `R` that is already in ascending
order and every capacity of at least three records, `sortFile` returns normally and the
destination file equals the source record for record.  Consequently, for any source `R`,
sorting the output of a sort again (from the first destination path into any second one, with
any capacity of at least three records) returns normally and reproduces that output unchanged.
The runs are ones in which the files can be opened and the source is not one of the temp files;
the fuel covers every loop. -/
theorem sortFile_idempotent (fuel : Nat) (fs : FileSystem) (srcPath dstPath : String)
    (ramSizeInBytes : Nat) (R : List Record)
    (hsrc : fs.files srcPath = some (File.ofRecords R)) (hopen : fs.denied srcPath = false)
    (hopen1 : fs.denied (dstPath ++ ".1") = false) (hopen2 : fs.denied (dstPath ++ ".2") = false)
    (hne1 : srcPath ≠ dstPath ++ ".1") (hne2 : srcPath ≠ dstPath ++ ".2")
    (hC : 3 ≤ ramSizeInBytes / 8) (hfuel : 3 * R.length + 4 ≤ fuel) :
    (R.Sorted (· ≤ ·) →
      (sortFile fuel fs srcPath dstPath ramSizeInBytes).2 = .ok () ∧
      (sortFile fuel fs srcPath dstPath ramSizeInBytes).1.files dstPath
        = some (File.ofRecords R)) ∧
    ∀ (dstPath2 : String) (ram2 : Nat), fs.denied dstPath = false →
      fs.denied (dstPath2 ++ ".1") = false → fs.denied (dstPath2 ++ ".2") = false →
      dstPath ≠ dstPath2 ++ ".1" → dstPath ≠ dstPath2 ++ ".2" → 3 ≤ ram2 / 8 →
      (sortFile fuel (sortFile fuel fs srcPath dstPath ramSizeInBytes).1 dstPath dstPath2
          ram2).2 = .ok () ∧
      (sortFile fuel (sortFile fuel fs srcPath dstPath ramSizeInBytes).1 dstPath dstPath2
          ram2).1.files dstPath2
        = (sortFile fuel fs srcPath dstPath ramSizeInBytes).1.files dstPath := by
  obtain ⟨h1, h2, _, _, _, h6⟩ := sortFile_spec fuel fs srcPath dstPath ramSizeInBytes
    (File.ofRecords R) hsrc hopen hopen1 hopen2 (Nat.succ_pos _) hne1 hne2 (Or.inl hC) hfuel
  refine ⟨fun hs => ⟨h1, ?_⟩, ?_⟩
  · rw [h2]
    show some (File.ofRecords (sortRun R)) = _
    rw [sortRun_eq_of_sorted hs]
  · intro dstPath2 ram2 hd hd1 hd2 hn1 hn2 hC2
    obtain ⟨k1, k2, _⟩ := sortFile_spec fuel
      (sortFile fuel fs srcPath dstPath ramSizeInBytes).1 dstPath dstPath2 ram2
      (File.ofRecords (sortRun R)) h2 (by rw [h6]; exact hd) (by rw [h6]; exact hd1)
      (by rw [h6]; exact hd2) (Nat.succ_pos _) hn1 hn2 (Or.inl hC2)
      (by show 3 * (sortRun R).length + 4 ≤ fuel; rw [sortRun_length]; exact hfuel)
    refine ⟨k1, ?_⟩
    rw [k2, h2]
    show some (File.ofRecords (sortRun (sortRun R))) = _
    rw [sortRun_eq_of_sorted (sortRun_sorted R)]
    rfl

/-- Witness for C11: the sorted source 1,2,3,4,5 is reproduced, with a capacity of three
records, and sorting the result again into a second path reproduces it once more. -/
theorem sortFile_idempotent_witness :
    (sortFile 19 (fsWith [1, 2, 3, 4, 5]) "in" "out" 24).1.files "out"
        = some (File.ofRecords [1, 2, 3, 4, 5]) ∧
      (sortFile 19 (sortFile 19 (fsWith [1, 2, 3, 4, 5]) "in" "out" 24).1 "out" "out2"
          24).1.files "out2" = some (File.ofRecords [1, 2, 3, 4, 5]) := by
  obtain ⟨h1, h2⟩ := sortFile_idempotent 19 (fsWith [1, 2, 3, 4, 5]) "in" "out" 24
    [1, 2, 3, 4, 5] (by decide) (by decide) (by decide) (by decide) (by decide) (by decide)
    (by decide) (by decide)
  have h3 := (h1 (by decide)).2
  have h4 := (h2 "out2" 24 (by decide) (by decide) (by decide) (by decide) (by decide)
    (by decide)).2
  exact ⟨h3, h4.trans h3⟩

/-- C12. Boundary inputs: for a source of no record or of exactly one record and any capacity
of at least one record, `presort` writes the source to the first temp file, the loop of
`sortFile` returns at once with no call of `mergeChunks` and leaves its state as it was, the
wrapper renamed to the destination path is the first one (the second keeps its temp path), and
the destination equals the source.  The run is one in which the source and the two temp files
can be opened and the source is not itself one of the two temp files. -/
theorem sortFile_boundary (fuel : Nat) (fs : FileSystem) (srcPath dstPath : String)
    (ramSizeInBytes : Nat) (R : List Record)
    (hsrc : fs.files srcPath = some (File.ofRecords R)) (hopen : fs.denied srcPath = false)
    (hopen1 : fs.denied (dstPath ++ ".1") = false) (hopen2 : fs.denied (dstPath ++ ".2") = false)
    (hne1 : srcPath ≠ dstPath ++ ".1") (hne2 : srcPath ≠ dstPath ++ ".2")
    (hN : R.length ≤ 1) (hC : 1 ≤ ramSizeInBytes / 8) (hfuel : 7 ≤ fuel) :
    ∃ dst1 buf1 fs2 w0 w1,
      presort fuel
          ((fs.store (dstPath ++ ".1") (File.ofRecords [])).store (dstPath ++ ".2")
            (File.ofRecords []))
          srcPath FStream.opened (List.replicate (ramSizeInBytes / 8) 0) = .ok (dst1, buf1) ∧
      dst1.data = R ∧
      sortLoopLog R.length fuel (sortStart dstPath dst1 buf1 (ramSizeInBytes / 8))
        = .ok (sortStart dstPath dst1 buf1 (ramSizeInBytes / 8), []) ∧
      sortBody fuel
          ((fs.store (dstPath ++ ".1") (File.ofRecords [])).store (dstPath ++ ".2")
            (File.ofRecords []))
          srcPath dstPath ramSizeInBytes
          { path := dstPath ++ ".1", stream := FStream.opened, isOpen := true }
          { path := dstPath ++ ".2", stream := FStream.opened, isOpen := true }
        = .ok (fs2, w0, w1) ∧
      w0.path = "" ∧ w1.path = dstPath ++ ".2" ∧
      fs2.files dstPath = some (File.ofRecords dst1.data) ∧
      (sortFile fuel fs srcPath dstPath ramSizeInBytes).2 = .ok () ∧
      (sortFile fuel fs srcPath dstPath ramSizeInBytes).1.files dstPath
        = some (File.ofRecords R) := by
  have hfs1 : ((fs.store (dstPath ++ ".1") (File.ofRecords [])).store (dstPath ++ ".2")
      (File.ofRecords [])).files srcPath = some (File.ofRecords R) := by
    rw [FileSystem.files_store_ne _ _ hne2, FileSystem.files_store_ne _ _ hne1]
    exact hsrc
  have hcap : 3 ≤ ramSizeInBytes / 8
      ∨ (1 ≤ ramSizeInBytes / 8 ∧ (File.ofRecords R).recs.length ≤ ramSizeInBytes / 8) :=
    Or.inr ⟨hC, Nat.le_trans hN hC⟩
  have hf : 3 * (File.ofRecords R).recs.length + 4 ≤ fuel := by
    show 3 * R.length + 4 ≤ fuel
    omega
  have hsort : sortRun R = R := by
    apply sortRun_eq_of_sorted
    match R, hN with
    | [], _ => exact List.sorted_nil
    | [a], _ => exact List.sorted_singleton a
    | _ :: _ :: _, h => simp at h
  obtain ⟨dst1, buf1, s1, log, k, fs2, w0, w1, hpre, _, _, hlog, hge, hleast, _, hq0, hlen, _,
    hbody, hdst, hA, hk0, _⟩ := sortBody_trace fuel _ srcPath dstPath ramSizeInBytes
      (File.ofRecords R) hfs1 hopen (Nat.succ_pos _) (Or.inl hne1) hcap hf
  have hk : k = 0 := by
    by_contra hne
    have := hleast 0 (Nat.pos_of_ne_zero hne)
    rw [Nat.pow_zero, Nat.mul_one] at this
    have h2 : (File.ofRecords R).recs.length = R.length := rfl
    omega
  subst hk
  obtain ⟨fuel1, rfl⟩ : ∃ f, fuel = f + 1 := ⟨fuel - 1, by omega⟩
  have hdone := sortLoopLog_done R.length fuel1 (sortStart dstPath dst1 buf1 (ramSizeInBytes / 8))
    (Nat.le_trans hN hC)
  have hs1 : s1 = sortStart dstPath dst1 buf1 (ramSizeInBytes / 8) := by
    have h3 : sortLoopLog R.length (fuel1 + 1)
        (sortStart dstPath dst1 buf1 (ramSizeInBytes / 8)) = .ok (s1, log) := hlog
    rw [hdone] at h3
    simp only [Except.ok.injEq, Prod.mk.injEq] at h3
    exact h3.1.symm
  subst hs1
  have hdata : dst1.data = R := by
    have h4 : dst1.data = sortRun R := hA
    rw [h4, hsort]
  obtain ⟨hp0, hp1⟩ := hk0 rfl
  obtain ⟨g1, g2, _⟩ := sortFile_spec (fuel1 + 1) fs srcPath dstPath ramSizeInBytes
    (File.ofRecords R) hsrc hopen hopen1 hopen2 (Nat.succ_pos _) hne1 hne2 hcap hf
  refine ⟨dst1, buf1, fs2, w0, w1, hpre, hdata, hdone, hbody, hp0, hp1, hdst, g1, ?_⟩
  rw [g2]
  show some (File.ofRecords (sortRun R)) = _
  rw [hsort]

/-- Witness for C12: the empty source and the source of the single record 7, each sorted with
a capacity of one record, are reproduced at the destination path. -/
theorem sortFile_boundary_witness :
    (sortFile 7 (fsWith []) "in" "out" 8).1.files "out" = some (File.ofRecords []) ∧
      (sortFile 7 (fsWith [7]) "in" "out" 8).1.files "out" = some (File.ofRecords [7]) := by
  obtain ⟨_, _, _, _, _, _, _, _, _, _, _, _, _, h0⟩ := sortFile_boundary 7 (fsWith []) "in"
    "out" 8 [] (by decide) (by decide) (by decide) (by decide) (by decide) (by decide)
    (by decide) (by decide) (by decide)
  obtain ⟨_, _, _, _, _, _, _, _, _, _, _, _, _, h1⟩ := sortFile_boundary 7 (fsWith [7]) "in"
    "out" 8 [7] (by decide) (by decide) (by decide) (by decide) (by decide) (by decide)
    (by decide) (by decide) (by decide)
  exact ⟨h0, h1⟩

/-- C13. The pass trace for 20 records and a capacity of 4 records: whatever the 20 records
are, `presort` leaves them in the first temp file in 5 sorted chunks of 4; the loop of
`sortFile` then makes exactly three calls of `mergeChunks`, with (chunk length, chunk count)
equal to (4,5), (8,3) and (16,2); the file written by the first call is in sorted chunks of
lengths 8, 8, 4, the one written by the second in sorted chunks of lengths 16, 4, and the one
written by the third is one sorted chunk of 20; the loop stops with the nominal length 32, and
the destination holds the records in ascending order.  The run is one in which the source and
the two temp files can be opened and the source is not itself one of the two temp files. -/
theorem sortFile_trace20 (fuel : Nat) (fs : FileSystem) (srcPath dstPath : String)
    (ramSizeInBytes : Nat) (R : List Record)
    (hsrc : fs.files srcPath = some (File.ofRecords R)) (hopen : fs.denied srcPath = false)
    (hopen1 : fs.denied (dstPath ++ ".1") = false) (hopen2 : fs.denied (dstPath ++ ".2") = false)
    (hne1 : srcPath ≠ dstPath ++ ".1") (hne2 : srcPath ≠ dstPath ++ ".2")
    (hN : R.length = 20) (hC : ramSizeInBytes / 8 = 4) (hfuel : 64 ≤ fuel) :
    ∃ dst1 buf1 s1 e0 e1 e2,
      presort fuel
          ((fs.store (dstPath ++ ".1") (File.ofRecords [])).store (dstPath ++ ".2")
            (File.ofRecords []))
          srcPath FStream.opened (List.replicate 4 0) = .ok (dst1, buf1) ∧
      dst1.data.Perm R ∧ (∀ j, (chunkOf dst1.data 4 j).Sorted (· ≤ ·)) ∧
      (List.range 6).map (fun j => (chunkOf dst1.data 4 j).length) = [4, 4, 4, 4, 4, 0] ∧
      sortLoopLog 20 fuel (sortStart dstPath dst1 buf1 4) = .ok (s1, [e0, e1, e2]) ∧
      (e0.numbersInChunk = 4 ∧ e0.chunkCount = 5) ∧
      (e1.numbersInChunk = 8 ∧ e1.chunkCount = 3) ∧
      (e2.numbersInChunk = 16 ∧ e2.chunkCount = 2) ∧
      (∀ j, (chunkOf e0.out 8 j).Sorted (· ≤ ·)) ∧
      (List.range 4).map (fun j => (chunkOf e0.out 8 j).length) = [8, 8, 4, 0] ∧
      (∀ j, (chunkOf e1.out 16 j).Sorted (· ≤ ·)) ∧
      (List.range 3).map (fun j => (chunkOf e1.out 16 j).length) = [16, 4, 0] ∧
      e2.out.Sorted (· ≤ ·) ∧ e2.out.length = 20 ∧
      s1.numbersInChunk = 32 ∧
      (sortFile fuel fs srcPath dstPath ramSizeInBytes).2 = .ok () ∧
      (sortFile fuel fs srcPath dstPath ramSizeInBytes).1.files dstPath
        = some (File.ofRecords (R.insertionSort (· ≤ ·))) := by
  have hfs1 : ((fs.store (dstPath ++ ".1") (File.ofRecords [])).store (dstPath ++ ".2")
      (File.ofRecords [])).files srcPath = some (File.ofRecords R) := by
    rw [FileSystem.files_store_ne _ _ hne2, FileSystem.files_store_ne _ _ hne1]
    exact hsrc
  have hlenR : (File.ofRecords R).recs.length = 20 := hN
  have hcap : 3 ≤ ramSizeInBytes / 8
      ∨ (1 ≤ ramSizeInBytes / 8 ∧ (File.ofRecords R).recs.length ≤ ramSizeInBytes / 8) :=
    Or.inl (by omega)
  have hf : 3 * (File.ofRecords R).recs.length + 4 ≤ fuel := by
    rw [hlenR]; exact hfuel
  obtain ⟨dst1, buf1, s1, log, k, fs2, w0, w1, hpre, hperm, hsorted, hlog, hge, hleast, hn1,
    _, hlen, hent, _⟩ := sortBody_trace fuel _ srcPath dstPath ramSizeInBytes
      (File.ofRecords R) hfs1 hopen (Nat.succ_pos _) (Or.inl hne1) hcap hf
  rw [hC] at hpre hsorted hlog hge hleast hn1 hent
  rw [hlenR] at hlog hge hleast hent
  have hpermR : dst1.data.Perm R := hperm
  -- the number of passes
  have hk : k = 3 := by
    have h3 : ¬ 3 < k := fun h => by
      have := hleast 3 h
      norm_num at this
    have h2 : ¬ k < 3 := fun h => by
      interval_cases k <;> norm_num at hge
    omega
  subst hk
  obtain ⟨e0, he0, a1, a2, _, _, a5, a6⟩ := hent 0 (by omega)
  obtain ⟨e1, he1, b1, b2, _, _, b5, b6⟩ := hent 1 (by omega)
  obtain ⟨e2, he2, c1, c2, _, _, c5, c6⟩ := hent 2 (by omega)
  have hlist : log = [e0, e1, e2] := by
    match log, hlen, he0, he1, he2 with
    | [x, y, z], _, h0, h1, h2 =>
      simp only [List.getElem?_cons_zero, List.getElem?_cons_succ, Option.some.injEq] at h0 h1 h2
      rw [h0, h1, h2]
  subst hlist
  norm_num at a1 a6 b1 b6 c1 c6 hn1
  have ha2 : e0.chunkCount = 5 := by rw [a2]; rfl
  have hb2 : e1.chunkCount = 3 := by rw [b2]; rfl
  have hc2 : e2.chunkCount = 2 := by rw [c2]; rfl
  have hl1 : dst1.data.length = 20 := by rw [hpermR.length_eq, hN]
  have hl0 : e0.out.length = 20 := by rw [a5.length_eq]; exact hN
  have hl1b : e1.out.length = 20 := by rw [b5.length_eq]; exact hN
  have hl2 : e2.out.length = 20 := by rw [c5.length_eq]; exact hN
  obtain ⟨g1, g2, _⟩ := sortFile_spec fuel fs srcPath dstPath ramSizeInBytes
    (File.ofRecords R) hsrc hopen hopen1 hopen2 (Nat.succ_pos _) hne1 hne2 hcap hf
  refine ⟨dst1, buf1, s1, e0, e1, e2, hpre, hpermR, hsorted, ?_, hlog, ⟨a1, ha2⟩, ⟨b1, hb2⟩,
    ⟨c1, hc2⟩, a6, ?_, b6, ?_, ?_, hl2, hn1, g1, g2⟩
  · simp [List.range_succ, chunkOf_length, hl1]
  · simp [List.range_succ, chunkOf_length, hl0]
  · simp [List.range_succ, chunkOf_length, hl1b]
  · exact sorted_of_chunkSorted c6 (by omega)

/-- Witness for C13: the descending source 20, 19, ..., 1 sorted with a budget of 32 bytes, a
capacity of 4 records. -/
theorem sortFile_trace20_witness :
    (sortFile 64 (fsWith descending20) "in" "out" 32).2 = .ok () ∧
      (sortFile 64 (fsWith descending20) "in" "out" 32).1.files "out"
        = some (File.ofRecords
            [1, 2, 3, 4, 5, 6, 7, 8, 9, 10, 11, 12, 13, 14, 15, 16, 17, 18, 19, 20]) := by
  obtain ⟨_, _, _, _, _, _, _, _, _, _, _, _, _, _, _, _, _, _, _, _, _, h1, h2⟩ :=
    sortFile_trace20 64 (fsWith descending20) "in" "out" 32 descending20 (by decide)
      (by decide) (by decide) (by decide) (by decide) (by decide) (by decide) (by decide)
      (by decide)
  refine ⟨h1, ?_⟩
  rw [h2]
  decide

/-- C14 (as amended). The tie-break of `mergeSiblingChunks`: the value of the first reader is
appended only when it is strictly smaller.  Whenever both readers have a lookahead value and
the two values are equal, the iteration of the loop takes the branch of the second reader: it
appends the value taken from `ch2` and asks `ch2` for its next value, keeping the lookahead of
`ch1` for the next comparison and leaving `ch1` untouched; when `ch2` has no further value it
appends the value of `ch1` as well and leaves the loop.  So the records of `ch2` precede the
equal records of `ch1` in the output. -/
theorem mergeIter_tie (v : Record) (s : MergeState) (hv : s.Valid) :
    mergeIter v v s = s.takeSecond v v ∧
      (∀ fuel, mergeLoop (fuel + 1) v v s =
        match s.takeSecond v v with
        | .error e => .error e
        | .ok (s1, none) => .ok s1
        | .ok (s1, some (a, b)) => mergeLoop fuel a b s1) ∧
      ∃ s1 next, mergeIter v v s = .ok (s1, next) ∧ s1.ch1 = s.ch1 ∧
        s1.pending1 = s.pending1 ∧
        (∀ w rest, s.pending2 = w :: rest →
          next = some (v, w) ∧ s1.pending2 = rest ∧ s1.written = s.written ++ [v]) ∧
        (s.pending2 = [] →
          next = none ∧ s1.pending2 = [] ∧ s1.written = s.written ++ [v, v]) := by
  have hiter : mergeIter v v s = s.takeSecond v v := by
    simp only [mergeIter, lt_irrefl, if_false]
  refine ⟨hiter, ?_, ?_⟩
  · intro fuel
    rw [mergeLoop_iter, hiter]
  · obtain ⟨s1, next, h1, _, h3, h4, h5, h6⟩ := MergeState.takeSecond_spec s v v hv
    exact ⟨s1, next, by rw [hiter, h1], h3, h4, h5, h6⟩

theorem tieMerge_valid : tieMerge.Valid :=
  ⟨⟨by decide, by decide, by decide, by decide, by decide, by decide⟩,
    ⟨by decide, by decide, by decide, by decide, by decide, by decide⟩,
    ⟨by decide, by decide, by decide⟩, ⟨rfl, rfl⟩, by decide, ⟨⟨rfl, rfl⟩, by decide⟩,
    by decide, by decide, by decide⟩

/-- Witness for C14: with both lookahead values 5, the first reader holding 6 and the second
holding 7, one iteration appends a 5, leaves the first reader as it was and goes on with the
lookahead values 5 and 7. -/
theorem mergeIter_tie_witness :
    tieMerge.pending1 = [6] ∧ tieMerge.pending2 = [7] ∧
      ∃ s1, mergeIter 5 5 tieMerge = .ok (s1, some (5, 7)) ∧ s1.ch1 = tieMerge.ch1 ∧
        s1.pending1 = [6] ∧ s1.pending2 = [] ∧ s1.written = [5] := by
  obtain ⟨_, _, s1, next, h1, h2, h3, h4, _⟩ := mergeIter_tie 5 tieMerge tieMerge_valid
  obtain ⟨k1, k2, k3⟩ := h4 7 [] (by decide)
  subst k1
  refine ⟨by decide, by decide, s1, h1, h2, ?_, k2, ?_⟩
  · rw [h3]; decide
  · rw [k3]; decide

/-- Counterexample for C14 as stated: in the state reached from `tieStart` by the first call of
`getNext` on each reader, both lookahead values are 5.  The iteration of the loop does not do
what the branch of the first reader does: it goes on with the lookahead values 5 and 7 (the
second reader was asked, the first still holds 6), where taking from `ch1` first would go on
with 6 and 5 (the first reader asked, the second still holding 7). -/
theorem tie_break_counterexample :
    (tieStart.getNext1.bind fun r => r.2.getNext2) = .ok (some 5, tieMerge) ∧
      tieStart.getNext1.map Prod.fst = .ok (some 5) ∧
      mergeIter 5 5 tieMerge ≠ tieMerge.takeFirst 5 5 ∧
      (mergeIter 5 5 tieMerge).map (fun r => (r.2, r.1.pending1, r.1.pending2, r.1.written))
        = .ok (some (5, 7), [6], [], [5]) ∧
      (tieMerge.takeFirst 5 5).map (fun r => (r.2, r.1.pending1, r.1.pending2, r.1.written))
        = .ok (some (6, 5), [], [7], [5]) := by
  refine ⟨rfl, rfl, ?_, rfl, rfl⟩
  intro h
  have h2 : (mergeIter 5 5 tieMerge).map (fun r => r.2)
      = (tieMerge.takeFirst 5 5).map (fun r => r.2) := by rw [h]
  have h3 : (Except.ok (some ((5 : Record), (7 : Record))) : Except Fault _)
      = Except.ok (some ((6 : Record), (5 : Record))) := h2
  simp at h3

/-- C15 (as amended). Termination and pass count of the loop of `sortFile`: for every source of
`N` records and every capacity `C` of at least three records (or at least one record when the
source fits into the vector, `N ≤ C`), the loop ends after exactly `k` calls of `mergeChunks`,
where `k` is the least number with `N ≤ C * 2 ^ k`; call `j` (from 0) has the nominal length
`C * 2 ^ j` and the chunk count `ceil(N / (C * 2 ^ j))`, reads the temp file `j mod 2` and
writes the other one; the loop ends with the nominal length `C * 2 ^ k`, and the wrapper
renamed to the destination path is `w[k mod 2]`, the one written last, which holds the sorted
records.  The run is one in which the source and the two temp files can be opened and the
source is not itself one of the two temp files. -/
theorem sortFile_pass_count (fuel : Nat) (fs : FileSystem) (srcPath dstPath : String)
    (ramSizeInBytes : Nat) (R : List Record)
    (hsrc : fs.files srcPath = some (File.ofRecords R)) (hopen : fs.denied srcPath = false)
    (hopen1 : fs.denied (dstPath ++ ".1") = false) (hopen2 : fs.denied (dstPath ++ ".2") = false)
    (hne1 : srcPath ≠ dstPath ++ ".1") (hne2 : srcPath ≠ dstPath ++ ".2")
    (hC : 3 ≤ ramSizeInBytes / 8 ∨ (1 ≤ ramSizeInBytes / 8 ∧ R.length ≤ ramSizeInBytes / 8))
    (hfuel : 3 * R.length + 4 ≤ fuel) :
    ∃ dst1 buf1 s1 log k fs2 w0 w1,
      presort fuel
          ((fs.store (dstPath ++ ".1") (File.ofRecords [])).store (dstPath ++ ".2")
            (File.ofRecords []))
          srcPath FStream.opened (List.replicate (ramSizeInBytes / 8) 0) = .ok (dst1, buf1) ∧
      sortLoopLog R.length fuel (sortStart dstPath dst1 buf1 (ramSizeInBytes / 8))
        = .ok (s1, log) ∧
      R.length ≤ ramSizeInBytes / 8 * 2 ^ k ∧
      (∀ j, j < k → ramSizeInBytes / 8 * 2 ^ j < R.length) ∧
      log.length = k ∧
      log.map (fun e => (e.numbersInChunk, e.chunkCount, e.readIndex, e.writeIndex))
        = (List.range k).map (fun j => (ramSizeInBytes / 8 * 2 ^ j,
            ceilDiv R.length (ramSizeInBytes / 8 * 2 ^ j), j % 2, (j + 1) % 2)) ∧
      s1.numbersInChunk = ramSizeInBytes / 8 * 2 ^ k ∧ s1.pw0 = k % 2 ∧
      sortBody fuel
          ((fs.store (dstPath ++ ".1") (File.ofRecords [])).store (dstPath ++ ".2")
            (File.ofRecords []))
          srcPath dstPath ramSizeInBytes
          { path := dstPath ++ ".1", stream := FStream.opened, isOpen := true }
          { path := dstPath ++ ".2", stream := FStream.opened, isOpen := true }
        = .ok (fs2, w0, w1) ∧
      (k % 2 = 0 → w0.path = "" ∧ w1.path = dstPath ++ ".2") ∧
      (k % 2 = 1 → w1.path = "" ∧ w0.path = dstPath ++ ".1") ∧
      fs2.files dstPath = some (File.ofRecords (s1.wrapper (k % 2)).stream.data) ∧
      (s1.wrapper (k % 2)).stream.data = R.insertionSort (· ≤ ·) ∧
      (sortFile fuel fs srcPath dstPath ramSizeInBytes).2 = .ok () := by
  have hfs1 : ((fs.store (dstPath ++ ".1") (File.ofRecords [])).store (dstPath ++ ".2")
      (File.ofRecords [])).files srcPath = some (File.ofRecords R) := by
    rw [FileSystem.files_store_ne _ _ hne2, FileSystem.files_store_ne _ _ hne1]
    exact hsrc
  obtain ⟨dst1, buf1, s1, log, k, fs2, w0, w1, hpre, _, _, hlog, hge, hleast, hn1, hq0, hlen,
    hent, hbody, hdst, hA, hk0, hk1⟩ := sortBody_trace fuel _ srcPath dstPath ramSizeInBytes
      (File.ofRecords R) hfs1 hopen (Nat.succ_pos _) (Or.inl hne1) hC hfuel
  obtain ⟨g1, _⟩ := sortFile_spec fuel fs srcPath dstPath ramSizeInBytes
    (File.ofRecords R) hsrc hopen hopen1 hopen2 (Nat.succ_pos _) hne1 hne2 hC hfuel
  rw [hq0] at hdst hA
  refine ⟨dst1, buf1, s1, log, k, fs2, w0, w1, hpre, hlog, hge, hleast, hlen, ?_, hn1, hq0,
    hbody, hk0, hk1, hdst, hA, g1⟩
  apply List.ext_getElem?
  intro j
  by_cases hj : j < k
  · obtain ⟨e, he, e1, e2, e3, e4, _⟩ := hent j hj
    rw [List.getElem?_map, he, List.getElem?_map, List.getElem?_range hj]
    simp only [Option.map_some']
    rw [e1, e2, e3, e4]
    rfl
  · rw [List.getElem?_eq_none (by simp; omega), List.getElem?_eq_none (by simp; omega)]

/-- Witness for C15: 21 records and a capacity of 4 records take three passes, with the nominal
lengths 4, 8, 16 and the chunk counts 6, 3, 2, reading the temp files 0, 1, 0 in turn; the
second temp file is the one renamed. -/
theorem sortFile_pass_count_witness :
    ∃ dst1 buf1 s1 log, sortLoopLog 21 67 (sortStart "out" dst1 buf1 4) = .ok (s1, log) ∧
      log.map (fun e => (e.numbersInChunk, e.chunkCount, e.readIndex, e.writeIndex))
        = [(4, 6, 0, 1), (8, 3, 1, 0), (16, 2, 0, 1)] ∧
      s1.numbersInChunk = 32 ∧ s1.pw0 = 1 ∧
      (s1.wrapper 1).stream.data
        = [1, 2, 3, 4, 5, 6, 7, 8, 9, 10, 11, 12, 13, 14, 15, 16, 17, 18, 19, 20, 21] := by
  obtain ⟨dst1, buf1, s1, log, k, _, _, _, _, hlog, hge, hleast, _, hmap, hn, hp, _, _, _, _,
    hA, _⟩ := sortFile_pass_count 67 (fsWith descending21) "in" "out" 32 descending21
      (by decide) (by decide) (by decide) (by decide) (by decide) (by decide)
      (Or.inl (by decide)) (by decide)
  have hk : k = 3 := by
    have h3 : ¬ 3 < k := fun h => by
      have := hleast 3 h
      norm_num [descending21] at this
    have h2 : ¬ k < 3 := fun h => by
      interval_cases k <;> norm_num [descending21] at hge
    omega
  subst hk
  refine ⟨dst1, buf1, s1, log, hlog, ?_, hn, hp, ?_⟩
  · rw [hmap]
    decide
  · rw [hA]
    decide

/-- Counterexample for C15 as stated (every capacity of at least one record): with the two
records 2, 1 and a capacity of one record, where one pass would be due, `sortFile` returns
normally for no amount of fuel: `presort` leaves 2, 1 in the first temp file, and the loop
entered in that state does not return.  The regions of the vector have length zero, and the run ends in an access outside the vector. -/
theorem pass_count_counterexample :
    (¬ ∃ fuel, (sortFile fuel (fsWith [2, 1]) "in" "out" 8).2 = .ok ()) ∧
      presort 100
          (((fsWith [2, 1]).store ("out" ++ ".1") (File.ofRecords [])).store ("out" ++ ".2")
            (File.ofRecords []))
          "in" FStream.opened (List.replicate (8 / 8) 0)
        = .ok ({ data := [2, 1], pos := 2, eofbit := false, failbit := false }, [1]) ∧
      (¬ ∃ fuel r, sortLoopLog 2 fuel
          (sortStart "out" { data := [2, 1], pos := 2, eofbit := false, failbit := false }
            [1] 1) = .ok r) ∧
      (sortFile 100 (fsWith [2, 1]) "in" "out" 8).2 = .error .outOfRange := by
  refine ⟨?_, rfl, ?_, rfl⟩
  · rintro ⟨fuel, h⟩
    obtain ⟨_, file, hfile, hcap, _⟩ := sortFile_returns fuel (fsWith [2, 1]) "in" "out" 8 h
      (fun file hf => by
        have h0 : (fsWith [2, 1]).files "in" = some (File.ofRecords [2, 1]) := by decide
        rw [h0] at hf
        cases hf
        decide)
    rcases hfile with ⟨_, _, hf⟩ | ⟨ha, _⟩
    · have h0 : (fsWith [2, 1]).files "in" = some (File.ofRecords [2, 1]) := by decide
      rw [h0] at hf
      cases hf
      revert hcap
      decide
    · revert ha
      decide
  · rintro ⟨fuel, ⟨s1, log⟩, h⟩
    have h3 := sortLoop_three 2 fuel _ s1 (sortLoopLog_ok h) (by decide) ⟨rfl, rfl⟩
      (by decide)
    revert h3
    decide

/-- C16. Chunk counts agree from pass to pass: in every state of the loop of `sortFile` that is
valid for a source of `N` records and has a pass left to run, with any nominal length `L ≥ 1`,
the loop calls `mergeChunks` with the nominal length `L` and the chunk count it computes,
`ceil(N / L)`.  The loop of that call makes `ceil(ceil(N / L) / 2)` iterations, those of the
chunk indices 0, 2, 4, ..., one per pair of chunks written; that number is
`ceil(N / (2 * L))`, the value of `N / (2 * L)` plus one when `N % (2 * L)` is not zero.  The
file the pass leaves has `N` records in sorted chunks of nominal length `2 * L`, of which those
that hold a record are exactly the chunks below that number; and when another pass is due,
the loop of `sortFile` calls it with the nominal length `2 * L` and exactly that chunk count:
the layout a pass assumes is the layout the previous pass produced.  And for every `N` and every
`L ≥ 1`, also when no pass is due, the two ways of counting agree, and every call of
`mergeChunks` with the nominal length `L` and the chunk count `ceil(N / L)` that returns has made
that number of iterations. -/
theorem chunk_count_consistent (R : List Record) (fuel : Nat) (s : SortState) (hv : s.Valid R)
    (hlt : s.numbersInChunk < R.length)
    (hfuel : (R.length - s.numbersInChunk) + 2 * R.length + 4 ≤ fuel) :
    (∃ r pairs s1 e rest,
      sortLoopLog R.length (fuel + 1) s = .ok (s1, e :: rest) ∧
      e.numbersInChunk = s.numbersInChunk ∧
      e.chunkCount = ceilDiv R.length s.numbersInChunk ∧
      mergeChunksLog fuel (s.wrapper s.pw0).stream (s.wrapper s.pw1).stream s.buf
        e.numbersInChunk e.chunkCount = .ok (r, pairs) ∧
      e.out = r.dst.data ∧
      pairs.map (fun p => p.chunkIndex)
        = (List.range (ceilDiv e.chunkCount 2)).map (fun i => 2 * i) ∧
      pairs.length = ceilDiv e.chunkCount 2 ∧
      pairs.length = ceilDiv R.length (2 * s.numbersInChunk) ∧
      pairs.length = (if R.length % (2 * s.numbersInChunk) ≠ 0
        then R.length / (2 * s.numbersInChunk) + 1 else R.length / (2 * s.numbersInChunk)) ∧
      e.out.length = R.length ∧ ChunkSorted e.out (2 * s.numbersInChunk) ∧
      (∀ j, chunkOf e.out (2 * s.numbersInChunk) j ≠ [] ↔ j < pairs.length) ∧
      (2 * s.numbersInChunk < R.length →
        ∃ e2 rest2, rest = e2 :: rest2 ∧ e2.numbersInChunk = 2 * s.numbersInChunk ∧
          e2.chunkCount = pairs.length) ∧
      (R.length ≤ 2 * s.numbersInChunk → rest = [] ∧ pairs.length = 1)) ∧
    ∀ N L, 1 ≤ L →
      (if N % (2 * L) ≠ 0 then N / (2 * L) + 1 else N / (2 * L)) = ceilDiv (ceilDiv N L) 2 ∧
      ∀ (fuel : Nat) (src dst : FStream) (buf : List Record) (r : PassResult)
        (pairs : List PairRecord),
        mergeChunksLog fuel src dst buf L (ceilDiv N L) = .ok (r, pairs) →
        pairs.length = (if N % (2 * L) ≠ 0 then N / (2 * L) + 1 else N / (2 * L)) := by
  have hid : ∀ N L, 1 ≤ L →
      (if N % (2 * L) ≠ 0 then N / (2 * L) + 1 else N / (2 * L))
        = ceilDiv (ceilDiv N L) 2 := by
    intro N L hL
    rw [chunkCount_eq_ceilDiv N (2 * L) (by omega), ceilDiv_double N L hL]
  refine ⟨?_, fun N L hL => ⟨hid N L hL, fun fuel src dst buf r pairs h => by
    rw [hid N L hL, (mergeChunksLog_indices h).2, ceilDiv_two]⟩⟩
  have hL := hv.chunk_pos
  have hL0 : s.numbersInChunk ≠ 0 := by omega
  obtain ⟨r, hm, hret, hperm, hsorted, hv2, hn2, hp0, hp1⟩ :=
    sortLoop_pass R fuel s hv hlt (by omega)
  obtain ⟨s1, log, k, hloop, hv1, hge, hleast, hn1, _, _, hlen, hlog⟩ :=
    sortLoopLog_spec R fuel (s.afterPass r) hv2 (by rw [hn2]; omega)
  rw [hn2] at hge hleast hlog
  have hcc := chunkCount_eq_ceilDiv R.length s.numbersInChunk hL
  have hcc2 := chunkCount_eq_ceilDiv R.length (2 * s.numbersInChunk) (by omega)
  have hdb := ceilDiv_double R.length s.numbersInChunk hL
  obtain ⟨pairs, hpairs⟩ := mergeChunksLog_of_ok hm
  obtain ⟨hidx, hplen⟩ := mergeChunksLog_indices hpairs
  rw [hcc] at hidx hplen
  rw [← ceilDiv_two] at hidx hplen
  have hplen2 : pairs.length = ceilDiv R.length (2 * s.numbersInChunk) := by rw [hplen, hdb]
  have hcomm : s.numbersInChunk * 2 = 2 * s.numbersInChunk := Nat.mul_comm _ _
  refine ⟨r, pairs, s1, (⟨s.numbersInChunk,
    (if R.length % s.numbersInChunk ≠ 0 then R.length / s.numbersInChunk + 1
      else R.length / s.numbersInChunk), s.pw0, s.pw1, r.dst.data⟩ : PassRecord), log,
    ?_, rfl, hcc, hpairs, rfl, ?_, ?_, hplen2, ?_, hperm.length_eq, ?_, ?_, ?_, ?_⟩
  · simp only [sortLoopLog, hlt, if_true, hL0, if_false, hm, hloop]
  · show pairs.map (fun p => p.chunkIndex) = (List.range (ceilDiv
      (if R.length % s.numbersInChunk ≠ 0 then R.length / s.numbersInChunk + 1
        else R.length / s.numbersInChunk) 2)).map (fun i => 2 * i)
    rw [hcc]; exact hidx
  · show pairs.length = ceilDiv
      (if R.length % s.numbersInChunk ≠ 0 then R.length / s.numbersInChunk + 1
        else R.length / s.numbersInChunk) 2
    rw [hcc]; exact hplen
  · rw [hplen2, hcc2]
  · show ChunkSorted r.dst.data (2 * s.numbersInChunk)
    rw [← hcomm]; exact hsorted
  · intro j
    show chunkOf r.dst.data (2 * s.numbersInChunk) j ≠ [] ↔ _
    rw [chunkOf_ne_nil_iff _ (2 * s.numbersInChunk) j (by omega), hperm.length_eq, hplen2,
      lt_ceilDiv_iff _ (2 * s.numbersInChunk) j (by omega)]
  · intro h2
    have hk : 1 ≤ k := by
      rcases Nat.eq_zero_or_pos k with h0 | h0
      · rw [h0, Nat.pow_zero, Nat.mul_one] at hge
        omega
      · exact h0
    obtain ⟨e2, he2, e21, e22, _⟩ := hlog 0 (by omega)
    rw [Nat.pow_zero, Nat.mul_one] at e21 e22
    cases log with
    | nil => simp at he2
    | cons x rest2 =>
      simp only [List.getElem?_cons_zero, Option.some.injEq] at he2
      subst he2
      exact ⟨x, rest2, rfl, by rw [e21, hcomm], by rw [e22, hcomm, hplen2]⟩
  · intro h2
    have hk : k = 0 := by
      by_contra hne
      have := hleast 0 (by omega)
      rw [Nat.pow_zero, Nat.mul_one] at this
      omega
    rw [hk] at hlen
    refine ⟨List.eq_nil_of_length_eq_zero hlen, ?_⟩
    rw [hplen2]
    apply Nat.le_antisymm
    · by_contra hc
      have h1 : 1 < ceilDiv R.length (2 * s.numbersInChunk) := by omega
      have := (lt_ceilDiv_iff R.length (2 * s.numbersInChunk) 1 (by omega)).mp h1
      omega
    · exact (lt_ceilDiv_iff R.length (2 * s.numbersInChunk) 0 (by omega)).mpr (by omega)

/-- Witness for C16: 5 records in chunks of nominal length 2 make 3 chunks; the pass has two
iterations, and the next pass, on chunks of nominal length 4, is called with 2 chunks. -/
theorem chunk_count_consistent_witness :
    ∃ s1 e e2 rest, sortLoopLog 5 18
        (sortStart "out" (FStream.over [1, 4, 2, 3, 0]) [0, 0, 0] 2) = .ok (s1, e :: e2 :: rest) ∧
      e.numbersInChunk = 2 ∧ e.chunkCount = 3 ∧ e2.numbersInChunk = 4 ∧ e2.chunkCount = 2 := by
  have hs : ChunkSorted (FStream.over [1, 4, 2, 3, 0]).data 2 := by
    intro i
    rcases Nat.lt_or_ge i 3 with h | h
    · interval_cases i <;> decide
    · rw [chunkOf_eq_nil (by show 5 ≤ 2 * i; omega)]
      exact List.sorted_nil
  obtain ⟨⟨r, pairs, s1, e, rest, h1, h2, h3, _, _, _, _, h8, _, _, _, _, h13, _⟩, _⟩ :=
    chunk_count_consistent [1, 4, 2, 3, 0] 17
      (sortStart "out" (FStream.over [1, 4, 2, 3, 0]) [0, 0, 0] 2)
      ⟨Or.inl ⟨rfl, rfl⟩, Or.inl (by decide), by decide, ⟨rfl, rfl⟩, List.Perm.refl _, hs,
        ⟨rfl, rfl⟩, by decide, by decide⟩ (by decide) (by decide)
  obtain ⟨e2, rest2, hr, h14, h15⟩ := h13 (by decide)
  subst hr
  exact ⟨s1, e, e2, rest2, h1, h2, h3, h14, by rw [h15, h8]; decide⟩

/-- C17. The partition of the vector and its bounds: whenever `mergeChunks` returns on a vector
with region length `l = buf.length / 3 ≥ 1`, whatever the streams hold and whatever state they
are in, `3 * l ≤ buf.length` with at most two elements unused, and in every iteration of its
loop the writer is given `[0, l)`, the first reader `[l, 2 * l)` and the second reader
`[2 * l, 3 * l)`: three regions of equal length, pairwise disjoint, inside the vector.
Throughout the pass, that is, in every state that the operations of a merge (a `getNext` of
either reader, an `append` of the writer) can reach from the start of an iteration, the end of
the iteration included, the cursor of the writer is strictly below `l`, the cursor and the
filled end of each reader are inside its region, and every operation writes and reads the
vector only inside the region of its reader or writer. -/
theorem buffer_partition (fuel : Nat) (src dst : FStream) (buf : List Record) (L cc : Nat)
    (r : PassResult) (log : List PairRecord) (hl : 1 ≤ buf.length / 3)
    (h : mergeChunksLog fuel src dst buf L cc = .ok (r, log)) :
    mergeChunks fuel src dst buf L cc = .ok r ∧
    (3 * (buf.length / 3) ≤ buf.length ∧ buf.length - 3 * (buf.length / 3) ≤ 2) ∧
    r.buf.length = buf.length ∧ log.length = (cc + 1) / 2 ∧
    ∀ e ∈ log,
      (e.start.buf.length = buf.length ∧
        e.start.cw.begin = 0 ∧ e.start.cw.endIt = buf.length / 3 ∧
        e.start.ch1.begin = buf.length / 3 ∧ e.start.ch1.maxElements = buf.length / 3 ∧
        e.start.ch2.begin = 2 * (buf.length / 3) ∧
        e.start.ch2.maxElements = buf.length / 3) ∧
      (e.start.cw.endIt ≤ e.start.ch1.begin ∧
        e.start.ch1.begin + e.start.ch1.maxElements ≤ e.start.ch2.begin ∧
        e.start.ch2.begin + e.start.ch2.maxElements ≤ e.start.buf.length ∧
        e.start.cw.endIt - e.start.cw.begin = e.start.ch1.maxElements ∧
        e.start.ch1.maxElements = e.start.ch2.maxElements) ∧
      Relation.ReflTransGen MergeState.Op e.start e.stop ∧
      ∀ s, Relation.ReflTransGen MergeState.Op e.start s →
        s.InRegions (buf.length / 3) ∧ s.buf.length = buf.length ∧
        (∀ v s1, s.getNext1 = .ok (v, s1) →
          SameOutside s1.buf s.buf (buf.length / 3) (2 * (buf.length / 3)) ∧
          ∀ x, v = some x → ∃ i, buf.length / 3 ≤ i ∧ i < 2 * (buf.length / 3)
            ∧ s1.buf[i]? = some x) ∧
        (∀ v s1, s.getNext2 = .ok (v, s1) →
          SameOutside s1.buf s.buf (2 * (buf.length / 3)) (3 * (buf.length / 3)) ∧
          ∀ x, v = some x → ∃ i, 2 * (buf.length / 3) ≤ i ∧ i < 3 * (buf.length / 3)
            ∧ s1.buf[i]? = some x) ∧
        (∀ v s1, s.append v = .ok s1 →
          SameOutside s1.buf s.buf 0 (buf.length / 3) ∧ s.cw.it < buf.length / 3 ∧
          s1.buf[s.cw.it]? = some v) := by
  have hfit : 3 * (buf.length / 3) ≤ buf.length := Nat.mul_div_le _ _
  have hwaste : buf.length - 3 * (buf.length / 3) ≤ 2 := by
    have := Nat.div_add_mod buf.length 3
    have := Nat.mod_lt buf.length (show 0 < 3 by decide)
    omega
  have hm := mergeChunksLog_ok h
  refine ⟨hm, ⟨hfit, hwaste⟩, mergeChunks_length hm, (mergeChunksLog_indices h).2, ?_⟩
  intro e he
  obtain ⟨h0, hlen, hops⟩ := mergeChunksLog_regions hl h e he
  have a1 := h0.cw_begin
  have a2 := h0.cw_end
  have a3 := h0.ch1_begin
  have a4 := h0.ch1_max
  have a5 := h0.ch2_begin
  have a6 := h0.ch2_max
  refine ⟨⟨hlen, a1, a2, a3, a4, a5, a6⟩, ⟨by omega, by omega, by omega, by omega, by omega⟩,
    hops, ?_⟩
  intro s hr
  obtain ⟨i1, i2⟩ := MergeState.reach_keeps hr hl h0
  exact ⟨i1, i2.trans hlen,
    fun v s1 hg => MergeState.getNext1_frame i1 hl hg,
    fun v s1 hg => MergeState.getNext2_frame i1 hl hg,
    fun v s1 hg => MergeState.append_frame i1 hg⟩

/-- Witness for C17: the pass over the chunks 1,4 | 2,3 | 0 with a vector of four records
(regions of one record, one record unused) has two iterations, and each ends with every cursor
inside its region. -/
theorem buffer_partition_witness :
    ∃ r log, mergeChunksLog 10 (FStream.over [1, 4, 2, 3, 0]) (FStream.over []) [0, 0, 0, 0] 2 3
        = .ok (r, log) ∧
      log.length = 2 ∧ r.dst.data = [1, 2, 3, 4, 0] ∧
      ∀ e ∈ log, e.start.InRegions 1 ∧ e.stop.InRegions 1 ∧ e.stop.buf.length = 4 := by
  have hx : ∃ x, mergeChunksLog 10 (FStream.over [1, 4, 2, 3, 0]) (FStream.over [])
      [0, 0, 0, 0] 2 3 = .ok x ∧ x.1.dst.data = [1, 2, 3, 4, 0] := ⟨_, rfl, rfl⟩
  obtain ⟨⟨r, log⟩, hx, hd⟩ := hx
  obtain ⟨_, _, _, h4, h5⟩ := buffer_partition 10 (FStream.over [1, 4, 2, 3, 0])
    (FStream.over []) [0, 0, 0, 0] 2 3 r log (by decide) hx
  refine ⟨r, log, hx, h4, hd, fun e he => ?_⟩
  obtain ⟨_, _, hops, hinv⟩ := h5 e he
  exact ⟨(hinv e.start Relation.ReflTransGen.refl).1, (hinv e.stop hops).1, (hinv e.stop hops).2.1⟩

/-- C18. The zero-length chunk: for every stream, vector, region and chunk index, a reader
constructed with `numbersInChunk = 0` answers `false` to its first `getNext` and leaves the
stream (no seek, no read), the vector and itself as they were.  Hence, in the loop of
`mergeChunks` with an odd chunk count, the last pair (chunk index `chunkCount - 1`) has a second
reader constructed with `numbersInChunk = 0`, which delivers nothing; the merge of that pair
hands to the writer exactly the records of the first reader's chunk, whatever the file holds
after it, and the loop ends.  The chunk of the first reader is the up to `L` records at its read
offset, which is `L * (chunkCount - 1)` records as long as that is below `2 ^ 61` (the byte
offset is a `size_t`). -/
theorem zero_length_chunk :
    (∀ (b m i : Nat) (f : FStream) (buf : List Record),
      (Chunk.new b m 0 i).getNext f buf = .ok (none, Chunk.new b m 0 i, f, buf)) ∧
    ∀ (L cc l fuel : Nat) (p : PassState), p.Valid l → cc % 2 = 1 → L + 2 ≤ fuel →
      (if cc - 1 + 1 < cc then L else 0) = 0 ∧
      ∃ s1, mergeSiblingChunks fuel
          { ch1 := Chunk.new l l L (cc - 1), ch2 := Chunk.new (2 * l) l 0 (cc - 1 + 1),
            cw := p.cw, src := p.src, dst := p.dst, buf := p.buf } = .ok s1 ∧
        s1.written = p.cw.written p.dst p.buf
          ++ (p.src.data.drop ((L * (cc - 1)) % 2 ^ 61)).take L ∧
        (L * (cc - 1) < 2 ^ 61 →
          s1.written = p.cw.written p.dst p.buf ++ (p.src.data.drop (L * (cc - 1))).take L) ∧
        mergeChunksLoop L cc l (fuel + 1) (cc - 1) p
          = .ok { cw := s1.cw, src := s1.src, dst := s1.dst, buf := s1.buf } := by
  refine ⟨fun b m i f buf => Chunk.getNext_of_processed _ f buf
    (by simp [Chunk.isProcessed, Chunk.new]), ?_⟩
  intro L cc l fuel p hv hodd hfuel
  have hcc : 1 ≤ cc := by omega
  have hif : (if cc - 1 + 1 < cc then L else 0) = 0 := by
    rw [if_neg (by omega)]
  refine ⟨hif, ?_⟩
  have hit := hv.cw.it_lt
  have hce := hv.cw_end
  have hfit := hv.fits
  have hsm := hv.small
  have hloop : ∀ s1 : MergeState, mergeSiblingChunks fuel
      { ch1 := Chunk.new l l L (cc - 1), ch2 := Chunk.new (2 * l) l 0 (cc - 1 + 1),
        cw := p.cw, src := p.src, dst := p.dst, buf := p.buf } = .ok s1 →
      mergeChunksLoop L cc l (fuel + 1) (cc - 1) p
        = .ok { cw := s1.cw, src := s1.src, dst := s1.dst, buf := s1.buf } := by
    intro s1 hm
    obtain ⟨fuel1, rfl⟩ : ∃ f, fuel = f + 1 := ⟨fuel - 1, by omega⟩
    rw [mergeChunksLoop]
    simp only [show cc - 1 < cc by omega, if_true, hif, hm]
    rw [mergeChunksLoop]
    simp only [show ¬ cc - 1 + 2 < cc by omega, if_false]
  have hmain : ∃ s1, mergeSiblingChunks fuel
      { ch1 := Chunk.new l l L (cc - 1), ch2 := Chunk.new (2 * l) l 0 (cc - 1 + 1),
        cw := p.cw, src := p.src, dst := p.dst, buf := p.buf } = .ok s1 ∧
      s1.written = p.cw.written p.dst p.buf
        ++ (p.src.data.drop ((L * (cc - 1)) % 2 ^ 61)).take L := by
    by_cases ho : (L * (cc - 1)) % 2 ^ 61 < 2 ^ 60
    · -- the offset of the first reader can be sought
      have h0 : MergeState.InRegions
          { ch1 := Chunk.new l l L (cc - 1), ch2 := Chunk.new (2 * l) l 0 (cc - 1 + 1),
            cw := p.cw, src := p.src, dst := p.dst, buf := p.buf } l :=
        ⟨hfit, hv.cw_begin, hce, by rw [← hce]; exact hit, rfl, rfl, Nat.le_refl _,
          Nat.le_refl _, by show l ≤ 2 * l; omega, rfl, rfl, Nat.le_refl _, Nat.le_refl _,
          by show 2 * l ≤ 3 * l; omega⟩
      obtain ⟨s1, hm, _, _, _, _, hw⟩ := mergeSiblingChunks_spec fuel _
        (h0.valid hv.l_pos hv.src hv.dst hsm ho (by
          show (0 * (cc - 1 + 1)) % 2 ^ 61 < 2 ^ 60
          rw [Nat.zero_mul]; decide)) (by
          show (Chunk.pending _ _ _).length + (Chunk.pending _ _ _).length + 1 ≤ fuel
          rw [Chunk.new_pending_mod, Chunk.new_pending_mod]
          show ((p.src.data.drop ((L * (cc - 1)) % 2 ^ 61)).take L).length
            + ((p.src.data.drop ((0 * (cc - 1 + 1)) % 2 ^ 61)).take 0).length + 1 ≤ fuel
          have a := List.length_take_le L (p.src.data.drop ((L * (cc - 1)) % 2 ^ 61))
          rw [List.take_zero, List.length_nil]
          omega)
      refine ⟨s1, hm, ?_⟩
      rw [hw]
      show p.cw.written p.dst p.buf ++ mergeRuns (Chunk.pending _ _ _) (Chunk.pending _ _ _) = _
      rw [Chunk.new_pending_mod, Chunk.new_pending_mod, List.take_zero, mergeRuns_nil_right]
    · -- the seek fails: the first reader delivers nothing, and its chunk is beyond the file
      have hL0 : L ≠ 0 := by
        intro h
        rw [h, Nat.zero_mul] at ho
        exact ho (by decide)
      have hnil : (p.src.data.drop ((L * (cc - 1)) % 2 ^ 61)).take L = [] := by
        rw [List.drop_eq_nil_of_le (by omega), List.take_nil]
      have hp : ({ Chunk.new l l L (cc - 1) with numbersToRead := 0 } : Chunk).isProcessed
          = true := by
        simp [Chunk.isProcessed, Chunk.new]
      have hfill : (Chunk.new l l L (cc - 1)).fillBuf p.src p.buf
          = .ok ({ Chunk.new l l L (cc - 1) with numbersToRead := 0 },
              { p.src with eofbit := false, failbit := true }, p.buf) := by
        have hf := hv.src.2
        simp only [Chunk.fillBuf, Chunk.new, hL0, if_false, FStream.seekg, hf,
          Bool.false_eq_true, Nat.le_of_not_lt ho, if_true, FStream.fail]
      have hget : MergeState.getNext1
          { ch1 := Chunk.new l l L (cc - 1), ch2 := Chunk.new (2 * l) l 0 (cc - 1 + 1),
            cw := p.cw, src := p.src, dst := p.dst, buf := p.buf }
          = .ok (none,
              { ch1 := { Chunk.new l l L (cc - 1) with numbersToRead := 0 },
                ch2 := Chunk.new (2 * l) l 0 (cc - 1 + 1), cw := p.cw,
                src := { p.src with eofbit := false, failbit := true }, dst := p.dst,
                buf := p.buf }) := by
        have hg : (Chunk.new l l L (cc - 1)).getNext p.src p.buf
            = .ok (none, { Chunk.new l l L (cc - 1) with numbersToRead := 0 },
                { p.src with eofbit := false, failbit := true }, p.buf) := by
          unfold Chunk.getNext
          rw [if_pos (show (Chunk.new l l L (cc - 1)).nextInBuf
            = (Chunk.new l l L (cc - 1)).realEnd from rfl), hfill]
          simp only [hp, if_true]
        simp only [MergeState.getNext1, hg]
      obtain ⟨fuel1, rfl⟩ : ∃ f, fuel = f + 1 := ⟨fuel - 1, by omega⟩
      have hm : mergeSiblingChunks (fuel1 + 1)
          { ch1 := Chunk.new l l L (cc - 1), ch2 := Chunk.new (2 * l) l 0 (cc - 1 + 1),
            cw := p.cw, src := p.src, dst := p.dst, buf := p.buf }
          = .ok { ch1 := { Chunk.new l l L (cc - 1) with numbersToRead := 0 },
                  ch2 := Chunk.new (2 * l) l 0 (cc - 1 + 1), cw := p.cw,
                  src := { p.src with eofbit := false, failbit := true }, dst := p.dst,
                  buf := p.buf } := by
        simp only [mergeSiblingChunks, mergeHead, hget]
        rw [drain1_of_processed _ _ hp]
        simp only
        rw [drain2_of_processed _ _ (by simp [Chunk.isProcessed, Chunk.new])]
      refine ⟨_, hm, ?_⟩
      rw [hnil, List.append_nil]
      rfl
  obtain ⟨s1, hm, hw⟩ := hmain
  refine ⟨s1, hm, hw, fun hlt => ?_, hloop s1 hm⟩
  rw [hw, Nat.mod_eq_of_lt hlt]

/-- Witness for C18: with three chunks of nominal length 2 in the file 1,4 | 2,3 | 0,5 (the
last chunk followed by nothing else), the last pair hands over exactly the chunk 0,5. -/
theorem zero_length_chunk_witness :
    (Chunk.new 2 1 0 3).getNext (FStream.over [1, 4, 2, 3, 0, 5]) [0, 0, 0]
        = .ok (none, Chunk.new 2 1 0 3, FStream.over [1, 4, 2, 3, 0, 5], [0, 0, 0]) ∧
      ∃ s1, mergeSiblingChunks 4
          { ch1 := Chunk.new 1 1 2 (3 - 1), ch2 := Chunk.new (2 * 1) 1 0 (3 - 1 + 1),
            cw := { begin := 0, endIt := 1, it := 0 }, src := FStream.over [1, 4, 2, 3, 0, 5],
            dst := FStream.over [], buf := [0, 0, 0] } = .ok s1 ∧
        s1.written = [0, 5] := by
  obtain ⟨h1, h⟩ := zero_length_chunk
  obtain ⟨_, s1, h2, _, h3, _⟩ := h 2 3 1 4
    { cw := { begin := 0, endIt := 1, it := 0 }, src := FStream.over [1, 4, 2, 3, 0, 5],
      dst := FStream.over [], buf := [0, 0, 0] }
    ⟨by decide, by decide, ⟨by decide, by decide, by decide⟩, rfl, rfl, ⟨rfl, rfl⟩, by decide,
      ⟨⟨rfl, rfl⟩, by decide⟩⟩ (by decide) (by decide)
  refine ⟨h1 2 1 3 _ _, s1, h2, ?_⟩
  rw [h3 (by decide)]
  decide

/-- C19. Exhaustion is absorbing: once `getNext` has answered `false` on a reader, the reader
is in a state in which every call of `getNext`, on whatever the stream and the vector have
become, answers `false` again and leaves the reader, the stream (no seek, no read) and the
vector as they are, the output value untouched; as the reader is unchanged, this holds for every
later call.  The final loops of `mergeSiblingChunks` rely on it: on such a reader the loop
`while(getNext) append` makes its one call and ends with the state unchanged, and whenever the
main loop is left, one of the readers is in that state. -/
theorem exhaustion_absorbing (c : Chunk) (f : FStream) (buf : List Record) (c1 : Chunk)
    (f1 : FStream) (buf1 : List Record) (h : c.getNext f buf = .ok (none, c1, f1, buf1)) :
    (∀ f2 buf2, c1.getNext f2 buf2 = .ok (none, c1, f2, buf2)) ∧
    (∀ fuel f2 buf2, Chunk.deliver (fuel + 1) c1 f2 buf2 = .ok ([], c1, f2, buf2)) ∧
    (∀ fuel (s : MergeState), s.ch1 = c1 → drain1 (fuel + 1) s = .ok s) ∧
    (∀ fuel (s : MergeState), s.ch2 = c1 → drain2 (fuel + 1) s = .ok s) ∧
    (∀ fuel v1 v2 (s s1 : MergeState), mergeLoop fuel v1 v2 s = .ok s1 →
      (s1.ch1.isProcessed = true ∧ ∀ k, drain1 (k + 1) s1 = .ok s1)
        ∨ (s1.ch2.isProcessed = true ∧ ∀ k, drain2 (k + 1) s1 = .ok s1)) := by
  have hp := Chunk.processed_of_getNext_none h
  have hnext : ∀ f2 buf2, c1.getNext f2 buf2 = .ok (none, c1, f2, buf2) :=
    fun f2 buf2 => Chunk.getNext_of_processed c1 f2 buf2 hp
  refine ⟨hnext, ?_, ?_, ?_, ?_⟩
  · intro fuel f2 buf2
    rw [Chunk.deliver, hnext]
  · intro fuel s hs
    exact drain1_of_processed fuel s (by rw [hs]; exact hp)
  · intro fuel s hs
    exact drain2_of_processed fuel s (by rw [hs]; exact hp)
  · intro fuel v1 v2 s s1 hl
    rcases mergeLoop_exit fuel v1 v2 s s1 hl with h1 | h2
    · exact Or.inl ⟨h1, fun k => drain1_of_processed k s1 h1⟩
    · exact Or.inr ⟨h2, fun k => drain2_of_processed k s1 h2⟩

/-- Witness for C19: a reader over the one-record chunk 7 delivers 7, then answers `false`, and
answers `false` again on another stream and vector without touching them. -/
theorem exhaustion_absorbing_witness :
    (Chunk.new 0 1 1 0).getNext (FStream.over [7]) [0]
        = .ok (some 7, (⟨1, 0, 1, 1, 1, 0⟩ : Chunk), (⟨[7], 1, false, false⟩ : FStream), [7]) ∧
      ∃ c1 f1 buf1,
        Chunk.getNext (⟨1, 0, 1, 1, 1, 0⟩ : Chunk) (⟨[7], 1, false, false⟩ : FStream) [7]
          = .ok (none, c1, f1, buf1) ∧
        c1.getNext (FStream.over [8, 9]) [5] = .ok (none, c1, FStream.over [8, 9], [5]) := by
  have h : Chunk.getNext (⟨1, 0, 1, 1, 1, 0⟩ : Chunk) (⟨[7], 1, false, false⟩ : FStream) [7]
      = .ok (none, (⟨1, 0, 1, 1, 1, 0⟩ : Chunk), (⟨[7], 1, false, false⟩ : FStream), [7]) := rfl
  exact ⟨rfl, _, _, _, h, (exhaustion_absorbing _ _ _ _ _ _ h).1 (FStream.over [8, 9]) [5]⟩

/-- C20. A source whose size is not a multiple of 8: for every source of `N` complete records
followed by `r` trailing bytes, `0 < r < 8` (a file of `8 * N + r` bytes), and every capacity of
at least three records, `sortFile` returns normally.  The record count it takes is
`floor(size / 8) = N`; `presort` writes the `N` complete records and drops the trailing bytes:
they are extracted by the read that reaches the end of the file, whose `gcount()` divided by 8
is the number of complete records it got; and the destination holds exactly `8 * N` bytes, the
ascending arrangement of the `N` complete records, which does not depend on the trailing bytes.
The run is one in which the source and the two temp files can be opened and the source is not
itself one of the two temp files. -/
theorem sortFile_trailing_bytes (fuel : Nat) (fs : FileSystem) (srcPath dstPath : String)
    (ramSizeInBytes : Nat) (file : File)
    (hsrc : fs.files srcPath = some file) (hopen : fs.denied srcPath = false)
    (hopen1 : fs.denied (dstPath ++ ".1") = false) (hopen2 : fs.denied (dstPath ++ ".2") = false)
    (hne1 : srcPath ≠ dstPath ++ ".1") (hne2 : srcPath ≠ dstPath ++ ".2")
    (hr0 : 0 < file.tail.length) (hr8 : file.tail.length < 8)
    (hC : 3 ≤ ramSizeInBytes / 8) (hfuel : 3 * file.recs.length + 4 ≤ fuel) :
    file.size = 8 * file.recs.length + file.tail.length ∧
    file.size / 8 = file.recs.length ∧
    (∀ (s : IStream) (buf : List Record) (s1 : IStream) (buf1 : List Record) (g : Nat),
      s.eofbit = false → s.failbit = false → s.tail = file.tail → s.rest.length < buf.length →
      s.read buf buf.length = .ok (s1, buf1, g) →
      g = 8 * s.rest.length + file.tail.length ∧ g / 8 = s.rest.length ∧ s1.eof = true) ∧
    (∃ dst1 buf1, presort fuel
        ((fs.store (dstPath ++ ".1") (File.ofRecords [])).store (dstPath ++ ".2")
          (File.ofRecords []))
        srcPath FStream.opened (List.replicate (ramSizeInBytes / 8) 0) = .ok (dst1, buf1) ∧
      dst1.data.length = file.recs.length ∧ dst1.data.Perm file.recs) ∧
    (sortFile fuel fs srcPath dstPath ramSizeInBytes).2 = .ok () ∧
    (sortFile fuel fs srcPath dstPath ramSizeInBytes).1.files dstPath
      = some (File.ofRecords (file.recs.insertionSort (· ≤ ·))) ∧
    (File.ofRecords (file.recs.insertionSort (· ≤ ·))).size = 8 * file.recs.length := by
  have hfs1 : ((fs.store (dstPath ++ ".1") (File.ofRecords [])).store (dstPath ++ ".2")
      (File.ofRecords [])).files srcPath = some file := by
    rw [FileSystem.files_store_ne _ _ hne2, FileSystem.files_store_ne _ _ hne1]
    exact hsrc
  obtain ⟨g1, g2, _⟩ := sortFile_spec fuel fs srcPath dstPath ramSizeInBytes file hsrc hopen
    hopen1 hopen2 hr8 hne1 hne2 (Or.inl hC) hfuel
  obtain ⟨dst1, buf1, _, _, _, _, _, _, hpre, hperm, _⟩ := sortBody_trace fuel _ srcPath dstPath
    ramSizeInBytes file hfs1 hopen hr8 (Or.inl hne1) (Or.inl hC) hfuel
  refine ⟨rfl, File.size_div file hr8, ?_, ⟨dst1, buf1, hpre, hperm.length_eq, hperm⟩, g1, g2, ?_⟩
  · intro s buf s1 buf1 g he hf ht hn hread
    obtain ⟨r1, r2, _⟩ := IStream.read_short he hf hn hread
    rw [ht] at r1
    refine ⟨r1, ?_, r2⟩
    rw [r1]
    omega
  · show 8 * (sortRun file.recs).length + 0 = _
    rw [sortRun_length, Nat.add_zero]

/-- Witness for C20: the records 3, 1, 2 followed by the three bytes 1, 2, 3 (27 bytes) are
sorted into the 24 bytes of 1, 2, 3. -/
theorem sortFile_trailing_bytes_witness :
    (fsTail [3, 1, 2] [1, 2, 3]).fileSize "in" = .ok 27 ∧
      (sortFile 13 (fsTail [3, 1, 2] [1, 2, 3]) "in" "out" 24).2 = .ok () ∧
      (sortFile 13 (fsTail [3, 1, 2] [1, 2, 3]) "in" "out" 24).1.files "out"
        = some (File.ofRecords [1, 2, 3]) ∧
      (sortFile 13 (fsTail [3, 1, 2] [1, 2, 3]) "in" "out" 24).1.fileSize "out" = .ok 24 := by
  obtain ⟨_, _, _, _, h1, h2, _⟩ := sortFile_trailing_bytes 13 (fsTail [3, 1, 2] [1, 2, 3])
    "in" "out" 24 { recs := [3, 1, 2], tail := [1, 2, 3] } (by decide) (by decide) (by decide)
    (by decide) (by decide) (by decide) (by decide) (by decide) (by decide) (by decide)
  have h3 : (sortFile 13 (fsTail [3, 1, 2] [1, 2, 3]) "in" "out" 24).1.files "out"
      = some (File.ofRecords [1, 2, 3]) := by
    rw [h2]
    decide
  refine ⟨rfl, h1, h3, ?_⟩
  rw [FileSystem.fileSize, h3]
  rfl

end BigSort
